import Mathlib

/-!
# Hopscotch hash table and small-value-optimised integer of piranha

Shallow embedding of `src/hop_table.hpp` and `src/mp_integer.hpp`.

Conventions of the embedding.
* Unsigned machine words (`mf_uint`, `size_type`) are natural numbers.  No operation of the
  table can carry out of the word: bitsets only ever receive bits below `nbits`.
* An iterator `(table, idx)` is its index `idx`; `end()` is the number of buckets.
* The raw storage of a bucket is an `Option`: `none` while no key is constructed in it.
* A function that can throw returns `Except`; for the table the error value carries the table
  as the exception leaves it.
-/

namespace piranha

/-! ## Buckets -/

/-- Number of binary digits of `n`, by successive halving; `fuel` bounds the number of halvings
and any `fuel ≥ n` is enough. -/
def mf_int_traits.bit_length : Nat → Nat → Nat
  | 0, _ => 0
  | fuel + 1, n => if n = 0 then 0 else mf_int_traits.bit_length fuel (n / 2) + 1

/-- Modelled from the spec: `mf_int_traits::msb` (the header `mf_int.hpp` is not among the
sources): position of the most significant set bit of a word, counted from 0 at the least
significant bit, and `-1` for the zero word. -/
def mf_int_traits.msb (n : Nat) : Int :=
  (mf_int_traits.bit_length n n : Int) - 1

/-- Bucket of the table, `base_generic_hop_bucket`: the raw storage and the word `m_bitset`. -/
structure hop_bucket (T : Type) where
  m_storage : Option T
  m_bitset : Nat
deriving DecidableEq, Repr

/-- Number of hop bits, `n_eff_bits = nbits - 1`. -/
def hop_bucket.n_eff_bits (nbits : Nat) : Nat := nbits - 1

/-- Largest hop offset, `max_shift = n_eff_bits - 1`. -/
def hop_bucket.max_shift (nbits : Nat) : Nat := hop_bucket.n_eff_bits nbits - 1

/-- Mask of hop offset 0, `highest_bit = 1 << n_eff_bits`. -/
def hop_bucket.highest_bit (nbits : Nat) : Nat := 1 <<< hop_bucket.n_eff_bits nbits

/-- Default constructor `generic_hop_bucket()`: zero bitset, storage not constructed. -/
def hop_bucket.empty {T : Type} : hop_bucket T := ⟨Option.none, 0⟩

/-- Member `none()`: no hop bit is set (the lsb is shifted out). -/
def hop_bucket.none {T : Type} (b : hop_bucket T) : Bool :=
  (b.m_bitset >>> 1) == 0

/-- Member `test(idx)`. -/
def hop_bucket.test {T : Type} (nbits : Nat) (b : hop_bucket T) (idx : Nat) : Bool :=
  (b.m_bitset &&& (hop_bucket.highest_bit nbits >>> idx)) != 0

/-- Member `set(idx)`. -/
def hop_bucket.set {T : Type} (nbits : Nat) (b : hop_bucket T) (idx : Nat) : hop_bucket T :=
  { b with m_bitset := b.m_bitset ||| (hop_bucket.highest_bit nbits >>> idx) }

/-- Member `toggle(idx)`. -/
def hop_bucket.toggle {T : Type} (nbits : Nat) (b : hop_bucket T) (idx : Nat) : hop_bucket T :=
  { b with m_bitset := b.m_bitset ^^^ (hop_bucket.highest_bit nbits >>> idx) }

/-- Member `test_occupied()`. -/
def hop_bucket.test_occupied {T : Type} (b : hop_bucket T) : Bool :=
  (b.m_bitset &&& 1) != 0

/-- Member `set_occupied()`. -/
def hop_bucket.set_occupied {T : Type} (b : hop_bucket T) : hop_bucket T :=
  { b with m_bitset := b.m_bitset ||| 1 }

/-- Member `toggle_occupied()`. -/
def hop_bucket.toggle_occupied {T : Type} (b : hop_bucket T) : hop_bucket T :=
  { b with m_bitset := b.m_bitset ^^^ 1 }

/-- Placement construction of a key in the storage of a bucket. -/
def hop_bucket.construct {T : Type} (b : hop_bucket T) (k : T) : hop_bucket T :=
  { b with m_storage := some k }

/-- Move construction, in the storage of a bucket, of the key held by the bucket `src`. -/
def hop_bucket.move_construct {T : Type} (b src : hop_bucket T) : hop_bucket T :=
  { b with m_storage := src.m_storage }

/-- Destruction of the key held in the storage of a bucket. -/
def hop_bucket.destroy {T : Type} (b : hop_bucket T) : hop_bucket T :=
  { b with m_storage := Option.none }

/-! ## Table -/

/-- Parameters of an instantiation `hop_table<T,Hash,Pred>`: the width `mf_int_traits::nbits` of
`mf_uint`, whether `PIRANHA_64BIT_MODE` is defined, and the functors `m_hasher` and
`m_key_equal`, which insert, erase and growth never modify. -/
structure hop_env (T : Type) where
  nbits : Nat
  mode64 : Bool
  m_hasher : T → Nat
  m_key_equal : T → T → Bool

/-- Data members `m_container` and `m_n_elements` of `hop_table`. -/
structure hop_table (T : Type) where
  m_container : List (hop_bucket T)
  m_n_elements : Nat
deriving DecidableEq, Repr

/-- Read of `m_container[i]`. -/
def bucket_at {T : Type} (c : List (hop_bucket T)) (i : Nat) : hop_bucket T :=
  c.getD i hop_bucket.empty

/-- In-place update of `m_container[i]` by a bucket member function. -/
def update_at {T : Type} (c : List (hop_bucket T)) (i : Nat)
    (f : hop_bucket T → hop_bucket T) : List (hop_bucket T) :=
  c.set i (f (bucket_at c i))

/-- The array `table_sizes`; the last eight entries exist under `PIRANHA_64BIT_MODE`. -/
def table_sizes (mode64 : Bool) : List Nat :=
  [0, 1, 3, 5, 11, 23, 53, 97, 193, 389, 769, 1543, 3079, 6151, 12289, 24593, 49157, 98317,
   196613, 393241, 786433, 1572869, 3145739, 6291469, 12582917, 25165843, 50331653, 100663319,
   201326611, 402653189, 805306457, 1610612741, 3221225473] ++
  (if mode64 then
    [6442450939, 12884901893, 25769803799, 51539607551, 103079215111, 206158430209,
     412316860441, 824633720831]
   else [])

/-- Constant `n_available_sizes` (41 or 33). -/
def n_available_sizes (mode64 : Bool) : Nat := if mode64 then 41 else 33

/-- Default constructor of `hop_table`. -/
def hop_table.init {T : Type} : hop_table T := ⟨[], 0⟩

/-- Member `end()`, as a bucket index. -/
def hop_table.end {T : Type} (t : hop_table T) : Nat := t.m_container.length

/-- Member `size()`. -/
def hop_table.size {T : Type} (t : hop_table T) : Nat := t.m_n_elements

/-- Member `n_buckets()`. -/
def hop_table.n_buckets {T : Type} (t : hop_table T) : Nat := t.m_container.length

/-- Member `bucket_impl(k)`: `m_hasher(k) % m_container.size()`. -/
def hop_table.bucket_impl {T : Type} (e : hop_env T) (t : hop_table T) (k : T) : Nat :=
  e.m_hasher k % t.m_container.length

/-- Comparison `m_key_equal(*m_container[idx].ptr(), k)`; reading a storage that holds no key is
outside the behaviour of the source (it asserts the bucket is occupied) and compares false. -/
def key_matches {T : Type} (e : hop_env T) (c : List (hop_bucket T)) (idx : Nat) (k : T) : Bool :=
  match (bucket_at c idx).m_storage with
  | some x => e.m_key_equal x k
  | Option.none => false

/-- Loop of `find_impl`: `for (i = 0; i < n_eff_bits; ++i, ++next_idx)`, with `fuel` the number
of iterations left, `n_eff_bits - i`. -/
def find_loop {T : Type} (e : hop_env T) (c : List (hop_bucket T)) (k : T) (b : hop_bucket T) :
    Nat → Nat → Nat → Nat
  | 0, _, _ => c.length
  | fuel + 1, i, next_idx =>
    if next_idx = c.length then c.length
    else if b.test e.nbits i && key_matches e c next_idx k then next_idx
    else find_loop e c k b fuel (i + 1) (next_idx + 1)

/-- Member `find_impl(k, bucket_idx)`. -/
def hop_table.find_impl {T : Type} (e : hop_env T) (t : hop_table T) (k : T)
    (bucket_idx : Nat) : Nat :=
  let b := bucket_at t.m_container bucket_idx
  if b.none then t.end
  else find_loop e t.m_container k b (hop_bucket.n_eff_bits e.nbits) 0 bucket_idx

/-- Member `find(k)`. -/
def hop_table.find {T : Type} (e : hop_env T) (t : hop_table T) (k : T) : Nat :=
  if t.m_container.length = 0 then t.end
  else t.find_impl e k (t.bucket_impl e k)

/-- Linear probe of `_unique_insert`: `for (; alt_idx < container_size; ++alt_idx)` leaving at
the first unoccupied bucket; `fuel` is `container_size - alt_idx`. -/
def linear_probe {T : Type} (c : List (hop_bucket T)) : Nat → Nat → Nat
  | 0, alt_idx => alt_idx
  | fuel + 1, alt_idx =>
    if alt_idx < c.length then
      if !(bucket_at c alt_idx).test_occupied then alt_idx
      else linear_probe c fuel (alt_idx + 1)
    else alt_idx

/-- Inner loop of the displacement,
`while (msb < min_bit_pos && alt_idx < orig_idx) { ++alt_idx; ++min_bit_pos; msb = ...; }`,
returning the final `alt_idx` and `msb`; `fuel` is `orig_idx - alt_idx`. -/
def find_candidate {T : Type} (c : List (hop_bucket T)) (orig_idx : Nat) :
    Nat → Nat → Int → Int → Nat × Int
  | 0, alt_idx, _, msb => (alt_idx, msb)
  | fuel + 1, alt_idx, min_bit_pos, msb =>
    if msb < min_bit_pos ∧ alt_idx < orig_idx then
      find_candidate c orig_idx fuel (alt_idx + 1) (min_bit_pos + 1)
        (mf_int_traits.msb (bucket_at c (alt_idx + 1)).m_bitset)
    else (alt_idx, msb)

/-- One displacement: the key of bucket `next_idx` is move-constructed into `orig_idx` and
destroyed at `next_idx`, both occupied flags are toggled, and the two hop bits of the home
bucket `alt_idx` are toggled. -/
def move_key {T : Type} (nbits : Nat) (c : List (hop_bucket T))
    (alt_idx next_idx orig_idx : Nat) : List (hop_bucket T) :=
  let c1 := update_at c orig_idx (fun b => b.move_construct (bucket_at c next_idx))
  let c2 := update_at c1 next_idx hop_bucket.destroy
  let c3 := update_at c2 orig_idx hop_bucket.toggle_occupied
  let c4 := update_at c3 next_idx hop_bucket.toggle_occupied
  let c5 := update_at c4 alt_idx (fun b => b.toggle nbits (next_idx - alt_idx))
  update_at c5 alt_idx (fun b => b.toggle nbits (orig_idx - alt_idx))

/-- Displacement loop of `_unique_insert`,
`while (alt_idx - bucket_idx >= n_eff_bits) { ... }`: the result is the container and the free
slot brought inside the virtual bucket, or `none` when the source returns `(end(),false)`.
Every iteration lowers `alt_idx`, and `fuel` is an upper bound of `alt_idx`. -/
def displace {T : Type} (nbits : Nat) (bucket_idx : Nat) :
    Nat → List (hop_bucket T) → Nat → List (hop_bucket T) × Option Nat
  | fuel, c, alt_idx =>
    if alt_idx - bucket_idx ≥ hop_bucket.n_eff_bits nbits then
      match fuel with
      | 0 => (c, Option.none)
      | fuel + 1 =>
        let orig_idx := alt_idx
        let start := alt_idx - hop_bucket.max_shift nbits
        let r := find_candidate c orig_idx (orig_idx - start) start 2
          (mf_int_traits.msb (bucket_at c start).m_bitset)
        if r.1 = orig_idx then (c, Option.none)
        else
          let next_idx := r.1 + (hop_bucket.max_shift nbits - (r.2 - 1).toNat)
          displace nbits bucket_idx fuel (move_key nbits c r.1 next_idx orig_idx) next_idx
    else (c, some alt_idx)

/-- Final placement of `_unique_insert`: the key is constructed in bucket `alt_idx`, which is
flagged occupied, and hop bit `alt_idx - bucket_idx` of the home bucket is set. -/
def place_key {T : Type} (nbits : Nat) (c : List (hop_bucket T)) (bucket_idx alt_idx : Nat)
    (k : T) : List (hop_bucket T) :=
  let c1 := update_at c alt_idx (fun b => b.construct k)
  let c2 := update_at c1 alt_idx hop_bucket.set_occupied
  update_at c2 bucket_idx (fun b => b.set nbits (alt_idx - bucket_idx))

/-- Member `_unique_insert(k, bucket_idx)`: the table afterwards and the position of the new
key, or `none` for `(end(),false)`. -/
def hop_table._unique_insert {T : Type} (e : hop_env T) (t : hop_table T) (k : T)
    (bucket_idx : Nat) : hop_table T × Option Nat :=
  let c := t.m_container
  if c.length = 0 then (t, Option.none)
  else if !(bucket_at c bucket_idx).test_occupied then
    let c1 := update_at c bucket_idx (fun b => b.construct k)
    let c2 := update_at c1 bucket_idx hop_bucket.set_occupied
    let c3 := update_at c2 bucket_idx (fun b => b.set e.nbits 0)
    ({ t with m_container := c3 }, some bucket_idx)
  else
    let alt_idx := linear_probe c (c.length - (bucket_idx + 1)) (bucket_idx + 1)
    if alt_idx = c.length then (t, Option.none)
    else
      match displace e.nbits bucket_idx alt_idx c alt_idx with
      | (c0, Option.none) => ({ t with m_container := c0 }, Option.none)
      | (c0, some j) => ({ t with m_container := place_key e.nbits c0 bucket_idx j k }, some j)

/-- Member `erase(it)`.  The iterator must point to an element; on a bucket whose storage holds
no key (not a valid iterator) the table is returned as it is. -/
def hop_table.erase {T : Type} (e : hop_env T) (t : hop_table T) (it : Nat) : hop_table T :=
  match (bucket_at t.m_container it).m_storage with
  | Option.none => t
  | some key =>
    let bucket_idx := t.bucket_impl e key
    let c1 := update_at t.m_container it hop_bucket.destroy
    let c2 := update_at c1 it hop_bucket.toggle_occupied
    let c3 := update_at c2 bucket_idx (fun b => b.toggle e.nbits (it - bucket_idx))
    ⟨c3, t.m_n_elements - 1⟩

/-- Member `get_size_index()`: `std::equal_range` on the sorted array `table_sizes`, whose lower
end is the first entry not less than the number of buckets. -/
def hop_table.get_size_index {T : Type} (e : hop_env T) (t : hop_table T) : Nat :=
  (table_sizes e.mode64).findIdx (fun s => decide (t.m_container.length ≤ s))

/-- Static member `get_size_from_hint(hint)`: `std::lower_bound` on `table_sizes`; `none` stands
for `std::bad_alloc`. -/
def get_size_from_hint (mode64 : Bool) (hint : Nat) : Option Nat :=
  (table_sizes mode64).find? (fun s => decide (hint ≤ s))

/-- Constructor `hop_table(n_buckets, h, k)`: that many default-constructed buckets, or `none`
for `std::bad_alloc`. -/
def hop_table.with_buckets {T : Type} (mode64 : Bool) (n_buckets : Nat) : Option (hop_table T) :=
  (get_size_from_hint mode64 n_buckets).map (fun s => ⟨List.replicate s hop_bucket.empty, 0⟩)

/-- Local state of `increase_size`: the list `temp_tables`, kept as its last table `back` and
the tables before it (front first), and `cur_size_index`.  The list is never empty. -/
structure rehash_state (T : Type) where
  front_tables : List (hop_table T)
  back : hop_table T
  cur_size_index : Nat

/-- The `do { ... } while (!result.second)` of `increase_size` for one key: insert into
`temp_tables.back()`, and on failure append a table of the next size and try again.  `none`
stands for `std::bad_alloc`.  `fuel` is `n_available_sizes - cur_size_index`, a bound on the
number of attempts. -/
def rehash_key {T : Type} (e : hop_env T) (key : T) :
    Nat → rehash_state T → Option (rehash_state T)
  | 0, _ => Option.none
  | fuel + 1, s =>
    let r := s.back._unique_insert e key (s.back.bucket_impl e key)
    match r.2 with
    | some _ => some { s with back := { r.1 with m_n_elements := r.1.m_n_elements + 1 } }
    | Option.none =>
      if s.cur_size_index = n_available_sizes e.mode64 - 1 then Option.none
      else
        match hop_table.with_buckets e.mode64
            ((table_sizes e.mode64).getD (s.cur_size_index + 1) 0) with
        | Option.none => Option.none
        | some nt =>
          rehash_key e key fuel
            { front_tables := s.front_tables ++ [r.1], back := nt,
              cur_size_index := s.cur_size_index + 1 }

/-- Loop of `increase_size` over the buckets of a source container, in bucket order: every
occupied bucket has its key moved into the temporaries.  (An occupied flag on a storage without
key is outside the behaviour of the source; such a bucket is passed over.) -/
def rehash_buckets {T : Type} (e : hop_env T) :
    List (hop_bucket T) → rehash_state T → Option (rehash_state T)
  | [], s => some s
  | b :: bs, s =>
    if b.test_occupied then
      match b.m_storage with
      | Option.none => rehash_buckets e bs s
      | some key =>
        match rehash_key e key (n_available_sizes e.mode64 - s.cur_size_index) s with
        | Option.none => Option.none
        | some s1 => rehash_buckets e bs s1
    else rehash_buckets e bs s

/-- Loop `while (temp_tables.size() > 1)` of `increase_size`: the first temporary is drained
into the last one and popped.  `fuel` bounds the number of iterations by the number of
temporaries that can exist. -/
def rehash_merge {T : Type} (e : hop_env T) : Nat → rehash_state T → Option (rehash_state T)
  | fuel, s =>
    match s.front_tables with
    | [] => some s
    | first :: _ =>
      match fuel with
      | 0 => Option.none
      | fuel + 1 =>
        match rehash_buckets e first.m_container s with
        | Option.none => Option.none
        | some s1 => rehash_merge e fuel { s1 with front_tables := s1.front_tables.tail }

/-- Member `increase_size()`.  An error carries the table as the exception leaves it: untouched
when `std::bad_alloc` is thrown before the `try` block, emptied by the `catch` block otherwise. -/
def hop_table.increase_size {T : Type} (e : hop_env T) (t : hop_table T) :
    Except (hop_table T) (hop_table T) :=
  let cur_size_index := t.get_size_index e
  if cur_size_index = n_available_sizes e.mode64 - 1 then Except.error t
  else
    match hop_table.with_buckets e.mode64
        ((table_sizes e.mode64).getD (cur_size_index + 1) 0) with
    | Option.none => Except.error t
    | some nt =>
      match rehash_buckets e t.m_container ⟨[], nt, cur_size_index + 1⟩ with
      | Option.none => Except.error hop_table.init
      | some s =>
        match rehash_merge e (n_available_sizes e.mode64) s with
        | Option.none => Except.error hop_table.init
        | some s1 => Except.ok { t with m_container := s1.back.m_container }

/-- Loop `while (!ue_retval.second) { increase_size(); ue_retval = _unique_insert(...); }` of
`insert`.  Every iteration raises the size index, `fuel` is the length of the ladder. -/
def insert_retry {T : Type} (e : hop_env T) (k : T) :
    Nat → hop_table T → Except (hop_table T) (hop_table T × Nat)
  | 0, t => Except.error t
  | fuel + 1, t =>
    match t.increase_size e with
    | Except.error t1 => Except.error t1
    | Except.ok t1 =>
      let r := t1._unique_insert e k (t1.bucket_impl e k)
      match r.2 with
      | some it => Except.ok (r.1, it)
      | Option.none => insert_retry e k fuel r.1

/-- Member `insert(k)`: the table afterwards, the returned iterator and the returned flag; an
error carries the table left behind by the exception. -/
def hop_table.insert {T : Type} (e : hop_env T) (t : hop_table T) (k : T) :
    Except (hop_table T) (hop_table T × Nat × Bool) :=
  match (if t.m_container.length = 0 then t.increase_size e else Except.ok t) with
  | Except.error t1 => Except.error t1
  | Except.ok t1 =>
    let bucket_idx := t1.bucket_impl e k
    let it := t1.find_impl e k bucket_idx
    if it ≠ t1.end then Except.ok (t1, it, false)
    else
      let r := t1._unique_insert e k bucket_idx
      match r.2 with
      | some j => Except.ok ({ r.1 with m_n_elements := r.1.m_n_elements + 1 }, j, true)
      | Option.none =>
        match insert_retry e k (n_available_sizes e.mode64) r.1 with
        | Except.error t2 => Except.error t2
        | Except.ok (t2, j) =>
          Except.ok ({ t2 with m_n_elements := t2.m_n_elements + 1 }, j, true)

/-- Loop of `iterator_impl::increment` after the first `++m_idx`: advance while the index is
inside the container and the bucket is not occupied; `fuel` is `container_size - m_idx`. -/
def increment_loop {T : Type} (c : List (hop_bucket T)) : Nat → Nat → Nat
  | 0, m_idx => m_idx
  | fuel + 1, m_idx =>
    if m_idx < c.length ∧ !(bucket_at c m_idx).test_occupied then increment_loop c fuel (m_idx + 1)
    else m_idx

/-- Member `iterator_impl::increment()`. -/
def iterator_impl.increment {T : Type} (t : hop_table T) (m_idx : Nat) : Nat :=
  increment_loop t.m_container (t.m_container.length - (m_idx + 1)) (m_idx + 1)

/-- Member `begin()`. -/
def hop_table.begin {T : Type} (t : hop_table T) : Nat :=
  if t.m_container.length ≠ 0 ∧ !(bucket_at t.m_container 0).test_occupied then
    iterator_impl.increment t 0
  else 0

/-- Traversal `for (it = begin(); it != end(); ++it)`, collecting the visited positions; `fuel`
bounds the number of steps by the number of buckets. -/
def traverse_from {T : Type} (t : hop_table T) : Nat → Nat → List Nat
  | 0, _ => []
  | fuel + 1, it =>
    if it = t.end then [] else it :: traverse_from t fuel (iterator_impl.increment t it)

/-- Positions visited by stepping an iterator from `begin()` to `end()`. -/
def hop_table.traverse {T : Type} (t : hop_table T) : List Nat :=
  traverse_from t t.m_container.length t.begin

/-! ## Vocabulary of the specification -/

/-- Key held in the storage of bucket `j`, if any. -/
def stor {T : Type} (c : List (hop_bucket T)) (j : Nat) : Option T :=
  (bucket_at c j).m_storage

/-- Occupied flag of bucket `j`. -/
def occ {T : Type} (c : List (hop_bucket T)) (j : Nat) : Bool :=
  (bucket_at c j).test_occupied

/-- Hop bit `i` of bucket `h`. -/
def hop {T : Type} (W : Nat) (c : List (hop_bucket T)) (h i : Nat) : Bool :=
  (bucket_at c h).test W i

/-- Home index of a key in a container: `hash(x) mod n_buckets`. -/
def home {T : Type} (e : hop_env T) (c : List (hop_bucket T)) (x : T) : Nat :=
  e.m_hasher x % c.length

/-- The stored keys of a container, in bucket order. -/
def keys_of {T : Type} (c : List (hop_bucket T)) : List T :=
  c.filterMap (fun b => b.m_storage)

/-- Requirements on the parameters: a word of at least two bits, an equality predicate that is
an equivalence relation, and a hasher consistent with it. -/
structure hop_env.lawful {T : Type} (e : hop_env T) : Prop where
  nbits_ge : 2 ≤ e.nbits
  eq_refl : ∀ a, e.m_key_equal a a = true
  eq_symm : ∀ a b, e.m_key_equal a b = true → e.m_key_equal b a = true
  eq_trans : ∀ a b c, e.m_key_equal a b = true → e.m_key_equal b c = true →
    e.m_key_equal a c = true
  hash_eq : ∀ a b, e.m_key_equal a b = true → e.m_hasher a = e.m_hasher b

/-- Structural invariants of a bucket array: bitsets fit the word, a bucket is flagged occupied
exactly when it holds a key, every key sits inside the virtual bucket of its home with the
matching hop bit set, every set hop bit points to a key whose home is that bucket, and no two
stored keys are equal. -/
structure container_inv {T : Type} (e : hop_env T) (c : List (hop_bucket T)) : Prop where
  bound : ∀ j, (bucket_at c j).m_bitset < 2 ^ e.nbits
  occ_stor : ∀ j, occ c j = (stor c j).isSome
  key_home : ∀ j x, stor c j = some x →
    home e c x ≤ j ∧ j < home e c x + hop_bucket.n_eff_bits e.nbits ∧
    hop e.nbits c (home e c x) (j - home e c x) = true
  hop_key : ∀ h i, i < hop_bucket.n_eff_bits e.nbits → hop e.nbits c h i = true →
    ∃ x, stor c (h + i) = some x ∧ home e c x = h
  distinct : (keys_of c).Pairwise (fun x y => e.m_key_equal x y = false)

/-- Invariants of a table: those of its bucket array, `m_n_elements` counts the occupied
buckets, and the number of buckets is an entry of `table_sizes`. -/
structure table_inv {T : Type} (e : hop_env T) (t : hop_table T) : Prop where
  cont : container_inv e t.m_container
  count : t.m_n_elements = t.m_container.countP hop_bucket.test_occupied
  ladder : t.m_container.length ∈ table_sizes e.mode64

/-- Tables reachable from the default-constructed table by `insert` (returning or throwing) and
by `erase` on an iterator that points to an element. -/
inductive reachable {T : Type} (e : hop_env T) : hop_table T → Prop
  | init : reachable e hop_table.init
  | insert_ok (t : hop_table T) (k : T) (r : hop_table T × Nat × Bool) :
      reachable e t → t.insert e k = Except.ok r → reachable e r.1
  | insert_error (t : hop_table T) (k : T) (t1 : hop_table T) :
      reachable e t → t.insert e k = Except.error t1 → reachable e t1
  | erase (t : hop_table T) (it : Nat) :
      reachable e t → it < t.m_container.length → occ t.m_container it = true →
      reachable e (t.erase e it)

/-- The keys stored in a list of tables, table after table. -/
def keys_of_tables {T : Type} : List (hop_table T) → List T
  | [] => []
  | t :: ts => keys_of t.m_container ++ keys_of_tables ts

/-- All the keys held by the temporaries of `increase_size`. -/
def rehash_state.all_keys {T : Type} (s : rehash_state T) : List T :=
  keys_of_tables s.front_tables ++ keys_of s.back.m_container

/-- Every temporary of `increase_size` satisfies the table invariants. -/
structure rehash_state.inv {T : Type} (e : hop_env T) (s : rehash_state T) : Prop where
  front : ∀ t, t ∈ s.front_tables → table_inv e t
  back : table_inv e s.back

/-- The state of `increase_size` with one more table in front of `temp_tables`. -/
def rehash_state.push_front {T : Type} (first : hop_table T) (s : rehash_state T) :
    rehash_state T :=
  { s with front_tables := first :: s.front_tables }

/-- An instantiation for examples: 64-bit words, natural numbers as keys, the identity as
hasher and `==` as equality predicate. -/
def nat_env : hop_env Nat := ⟨64, true, fun k => k, fun a b => a == b⟩

/-- The table obtained from the default-constructed one by inserting the given keys in turn. -/
def table_of {T : Type} (e : hop_env T) (ks : List T) : hop_table T :=
  ks.foldl (fun t k =>
    match t.insert e k with
    | Except.ok r => r.1
    | Except.error t1 => t1) hop_table.init

/-- The table holding the keys 1, 2, 3, 4, 5, 6 and 12 in the instantiation `nat_env`: eleven
buckets, the key 12 displaced to bucket 7. -/
def example_table : hop_table Nat := table_of nat_env [1, 2, 3, 4, 5, 6, 12]

/-! ## Multiprecision integers -/

/-- Exceptions thrown by the functions of `mp_integer.hpp`: `std::overflow_error`,
`piranha::zero_division_error` and `std::invalid_argument`. -/
inductive mp_exception where
  | overflow_error
  | zero_division_error
  | invalid_argument
deriving DecidableEq, Repr

/-- Number of binary digits of a natural number (0 for 0). -/
def binary_digits (n : Nat) : Nat := mf_int_traits.bit_length n n

/-! ### GMP

GMP is an external library.  An `mpz_t` is modelled by the integer it holds and the functions
used by `mp_integer.hpp` by their meaning in the GMP manual.  `mpz_add`, `mpz_sub`, `mpz_mul`,
`mpz_neg`, `mpz_set` and `mpz_swap` are written directly as operations on integers. -/

/-- GMP's `mpz_setbit(rop, bit_index)`, for a non-negative `rop` (every call in the source is
on a non-negative value). -/
def mpz_setbit (rop : Int) (bit_index : Nat) : Int :=
  ((rop.toNat ||| 2 ^ bit_index : Nat) : Int)

/-- GMP's `mpz_tstbit(op, bit_index)`, for a non-negative `op` (every call in the source is on
a non-negative value). -/
def mpz_tstbit (op : Int) (bit_index : Nat) : Bool :=
  op.toNat.testBit bit_index

/-- GMP's `mpz_sizeinbase(op, 2)`: the number of binary digits of the absolute value, and 1
for zero. -/
def mpz_sizeinbase2 (op : Int) : Nat :=
  if op = 0 then 1 else binary_digits op.natAbs

/-- GMP's `mpz_sgn(op)`. -/
def mpz_sgn (op : Int) : Int := Int.sign op

/-- GMP's `mpz_addmul(rop, op1, op2)`: `rop + op1 * op2`. -/
def mpz_addmul (rop op1 op2 : Int) : Int := rop + op1 * op2

/-- GMP's `mpz_tdiv_q(q, n, d)`: the quotient rounded towards zero. -/
def mpz_tdiv_q (n d : Int) : Int := Int.tdiv n d

/-- Largest value of `mp_bitcnt_t` (`unsigned long`), taken as the least maximum the C standard
allows. -/
def mp_bitcnt_max : Nat := 4294967295

/-- Modelled from the spec: `detail::is_digit` (the header `detail/is_digit.hpp` is not among
the sources): whether a character is one of the ten decimal digits. -/
def is_digit (c : Char) : Bool :=
  c ∈ ['0', '1', '2', '3', '4', '5', '6', '7', '8', '9']

/-- Value of a decimal digit character. -/
def digit_value (c : Char) : Nat := c.toNat - 48

/-- Character of a decimal digit. -/
def digit_char (d : Nat) : Char := Char.ofNat (48 + d)

/-- Decimal digits of a natural number, least significant first (none for zero); `fuel` bounds
the number of digits and any `fuel ≥ n` is enough. -/
def decimal_digits : Nat → Nat → List Nat
  | 0, _ => []
  | fuel + 1, n => if n = 0 then [] else (n % 10) :: decimal_digits fuel (n / 10)

/-- GMP's `mpz_get_str(str, 10, op)`: the decimal numeral of `op`, with a leading minus sign
for a negative value and the single digit 0 for zero. -/
def mpz_get_str10 (op : Int) : List Char :=
  (if op < 0 then ['-'] else []) ++
    (if op = 0 then ['0']
     else (decimal_digits op.natAbs op.natAbs).reverse.map digit_char)

/-- Value of a string of decimal digits, most significant first. -/
def decimal_value (ds : List Char) : Nat :=
  ds.foldl (fun acc c => acc * 10 + digit_value c) 0

/-- GMP's `mpz_set_str(rop, str, 10)` on a string made of an optional minus sign followed by
at least one decimal digit: the value read; `none` stands for the return value -1.  (GMP also
skips white space; no string with white space reaches the call in the source.) -/
def mpz_set_str10 (str : List Char) : Option Int :=
  match str with
  | '-' :: ds => if ds ≠ [] ∧ ds.all is_digit then some (-(decimal_value ds : Int)) else none
  | ds => if ds ≠ [] ∧ ds.all is_digit then some (decimal_value ds : Int) else none

/-! ### `static_integer` -/

/-- Class `detail::static_integer<NBits>`: the size field `_mp_size` and the two limbs
`m_limbs`.  The field `_mp_alloc` is set to 0 by the constructors and written by no member
function; the model does not carry it.  The limb width `limb_bits` is a parameter of every
function; the limb type is taken to have exactly `limb_bits` bits (`total_bits == limb_bits`,
so that `clear_extra_bits` is the empty overload) and `dlimb_t` twice as many. -/
structure static_integer where
  _mp_size : Int
  m_limbs : Nat × Nat
deriving DecidableEq, Repr

/-- Conversion `static_cast<limb_t>` of a non-negative value. -/
def limb_cast (limb_bits : Nat) (x : Nat) : Nat := x % 2 ^ limb_bits

/-- Conversion `static_cast<limb_t>` of a difference, which wraps around. -/
def limb_cast_int (limb_bits : Nat) (x : Int) : Nat := (x % 2 ^ limb_bits).toNat

/-- Conversion `static_cast<dlimb_t>`. -/
def dlimb_cast (limb_bits : Nat) (x : Nat) : Nat := x % 2 ^ (2 * limb_bits)

/-- Default constructor `static_integer()`. -/
def static_integer.init : static_integer := ⟨0, (0, 0)⟩

/-- Read of `m_limbs[idx]`. -/
def static_integer.limb (s : static_integer) (idx : Nat) : Nat :=
  if idx = 0 then s.m_limbs.1 else s.m_limbs.2

/-- Write of `m_limbs[idx]`. -/
def static_integer.set_limb (s : static_integer) (idx : Nat) (v : Nat) : static_integer :=
  if idx = 0 then { s with m_limbs := (v, s.m_limbs.2) }
  else { s with m_limbs := (s.m_limbs.1, v) }

/-- Member `negate()`. -/
def static_integer.negate (s : static_integer) : static_integer :=
  { s with _mp_size := -s._mp_size }

/-- Member `set_bit(idx)`. -/
def static_integer.set_bit (limb_bits : Nat) (s : static_integer) (idx : Nat) :
    static_integer :=
  let quot := limb_cast limb_bits (idx / limb_bits)
  let rem := limb_cast limb_bits (idx % limb_bits)
  let s1 := s.set_limb quot
    (limb_cast limb_bits (s.limb quot ||| limb_cast limb_bits (1 <<< rem)))
  let new_size : Int := (quot : Int) + 1
  if s1._mp_size < 0 then
    if -new_size < s1._mp_size then { s1 with _mp_size := -new_size } else s1
  else
    if new_size > s1._mp_size then { s1 with _mp_size := new_size } else s1

/-- Member `calculate_n_limbs()`. -/
def static_integer.calculate_n_limbs (s : static_integer) : Int :=
  if s.m_limbs.2 ≠ 0 then 2
  else if s.m_limbs.1 ≠ 0 then 1
  else 0

/-- Member `consistency_checks()`; the conjunct `_mp_alloc == 0` holds of every
`static_integer`. -/
def static_integer.consistency_checks (limb_bits : Nat) (s : static_integer) : Bool :=
  decide (s._mp_size ≤ 2) && decide (s._mp_size ≥ -2) &&
  decide (s.m_limbs.1 >>> limb_bits = 0) && decide (s.m_limbs.2 >>> limb_bits = 0) &&
  (decide (s.calculate_n_limbs = s._mp_size) || decide (-s.calculate_n_limbs = s._mp_size))

/-- Member `abs_size()`. -/
def static_integer.abs_size (s : static_integer) : Int :=
  if s._mp_size ≥ 0 then s._mp_size else -s._mp_size

/-- One loop of `to_mpz`: `for (i = 0; i < limb_bits; ++i)`, setting bit `i + offset` of `out`
for every set bit of the limb `l`; `fuel` is `limb_bits - i`. -/
def to_mpz_loop (limb_bits offset : Nat) : Nat → Nat → Nat → Int → Int
  | 0, _, _, out => out
  | fuel + 1, i, l, out =>
    to_mpz_loop limb_bits offset fuel (i + 1) (limb_cast limb_bits (l >>> 1))
      (if l % 2 ≠ 0 then mpz_setbit out (i + offset) else out)

/-- Member `to_mpz(out)`, with `out` initialised to zero. -/
def static_integer.to_mpz (limb_bits : Nat) (s : static_integer) : Int :=
  let out1 := to_mpz_loop limb_bits 0 limb_bits 0 s.m_limbs.1 0
  let out2 := to_mpz_loop limb_bits limb_bits limb_bits 0 s.m_limbs.2 out1
  if s._mp_size < 0 then -out2 else out2

/-- Member `is_zero()`. -/
def static_integer.is_zero (s : static_integer) : Bool := decide (s._mp_size = 0)

/-- Loop of `compare`: `while (limb_idx != 0u) { --limb_idx; ... }`. -/
def compare_loop (a b : static_integer) : Nat → Int
  | 0 => 0
  | limb_idx + 1 =>
    if a.limb limb_idx > b.limb limb_idx then 1
    else if a.limb limb_idx < b.limb limb_idx then -1
    else compare_loop a b limb_idx

/-- Static member `compare(a, b, size)`. -/
def static_integer.compare (a b : static_integer) (size : Int) : Int :=
  compare_loop a b size.toNat

/-- Static member `raw_add(res, x, y)`.  An error carries `res` as the exception leaves it. -/
def static_integer.raw_add (limb_bits : Nat) (res x y : static_integer) :
    Except (mp_exception × static_integer) static_integer :=
  let lo := dlimb_cast limb_bits (dlimb_cast limb_bits x.m_limbs.1 + y.m_limbs.1)
  let hi := dlimb_cast limb_bits
    ((dlimb_cast limb_bits x.m_limbs.2 + y.m_limbs.2) + (lo >>> limb_bits))
  if limb_cast limb_bits (hi >>> limb_bits) ≠ 0 then
    Except.error (mp_exception.overflow_error, res)
  else
    let res1 : static_integer :=
      { res with m_limbs := (limb_cast limb_bits lo, limb_cast limb_bits hi) }
    Except.ok { res1 with _mp_size := res1.calculate_n_limbs }

/-- Static member `raw_sub(res, x, y)`. -/
def static_integer.raw_sub (limb_bits : Nat) (res x y : static_integer) : static_integer :=
  let has_borrow := decide (x.m_limbs.1 < y.m_limbs.1)
  let l0 := limb_cast_int limb_bits ((x.m_limbs.1 : Int) - y.m_limbs.1)
  let l1 := limb_cast_int limb_bits
    (((x.m_limbs.2 : Int) - y.m_limbs.2) - (if has_borrow then 1 else 0))
  let res1 : static_integer := { res with m_limbs := (l0, l1) }
  { res1 with _mp_size := res1.calculate_n_limbs }

/-- Static member `add_or_sub<AddOrSub>(res, x, y)`. -/
def static_integer.add_or_sub (limb_bits : Nat) (AddOrSub : Bool)
    (res x y : static_integer) : Except (mp_exception × static_integer) static_integer :=
  let asizex0 := x._mp_size
  let asizey0 := if AddOrSub then y._mp_size else -y._mp_size
  let signx := !decide (asizex0 < 0)
  let asizex := if asizex0 < 0 then -asizex0 else asizex0
  let signy := !decide (asizey0 < 0)
  let asizey := if asizey0 < 0 then -asizey0 else asizey0
  if signx = signy then
    match static_integer.raw_add limb_bits res x y with
    | Except.error err => Except.error err
    | Except.ok r => Except.ok (if !signx then r.negate else r)
  else
    if asizex > asizey ∨ (asizex = asizey ∧ static_integer.compare x y asizex ≥ 0) then
      let r := static_integer.raw_sub limb_bits res x y
      Except.ok (if !signx then r.negate else r)
    else
      let r := static_integer.raw_sub limb_bits res y x
      Except.ok (if !signy then r.negate else r)

/-- Static member `add(res, x, y)`. -/
def static_integer.add (limb_bits : Nat) (res x y : static_integer) :
    Except (mp_exception × static_integer) static_integer :=
  static_integer.add_or_sub limb_bits true res x y

/-- Static member `sub(res, x, y)`. -/
def static_integer.sub (limb_bits : Nat) (res x y : static_integer) :
    Except (mp_exception × static_integer) static_integer :=
  static_integer.add_or_sub limb_bits false res x y

/-- Static member `raw_mul(res, x, y, asizex, asizey)`. -/
def static_integer.raw_mul (limb_bits : Nat) (res x y : static_integer)
    (asizex asizey : Int) : static_integer :=
  let lo := dlimb_cast limb_bits (dlimb_cast limb_bits x.m_limbs.1 * y.m_limbs.1)
  let cy_limb := limb_cast limb_bits (lo >>> limb_bits)
  { res with
    m_limbs := (limb_cast limb_bits lo, cy_limb)
    _mp_size := (asizex + asizey) - (if cy_limb = 0 then 1 else 0) }

/-- Static member `mul(res, x, y)`.  An error carries `res` as the exception leaves it. -/
def static_integer.mul (limb_bits : Nat) (res x y : static_integer) :
    Except (mp_exception × static_integer) static_integer :=
  let asizex0 := x._mp_size
  let asizey0 := y._mp_size
  if asizex0 = 0 ∨ asizey0 = 0 then
    Except.ok { res with _mp_size := 0, m_limbs := (0, 0) }
  else
    let signx := !decide (asizex0 < 0)
    let asizex := if asizex0 < 0 then -asizex0 else asizex0
    let signy := !decide (asizey0 < 0)
    let asizey := if asizey0 < 0 then -asizey0 else asizey0
    if asizex > 1 ∨ asizey > 1 then Except.error (mp_exception.overflow_error, res)
    else
      let r := static_integer.raw_mul limb_bits res x y asizex asizey
      Except.ok (if signx ≠ signy then r.negate else r)

/-- Member `multiply_accumulate(b, c)`.  An error carries the object as the exception leaves
it. -/
def static_integer.multiply_accumulate (limb_bits : Nat) (this b c : static_integer) :
    Except (mp_exception × static_integer) static_integer :=
  let signa := !decide (this._mp_size < 0)
  let asizea := if this._mp_size < 0 then -this._mp_size else this._mp_size
  let signb := !decide (b._mp_size < 0)
  let asizeb := if b._mp_size < 0 then -b._mp_size else b._mp_size
  let signc := !decide (c._mp_size < 0)
  let asizec := if c._mp_size < 0 then -c._mp_size else c._mp_size
  if asizeb > 1 ∨ asizec > 1 then Except.error (mp_exception.overflow_error, this)
  else if asizeb = 0 ∨ asizec = 0 then Except.ok this
  else
    let tmp := static_integer.raw_mul limb_bits static_integer.init b c asizeb asizec
    let asizetmp := tmp._mp_size
    let signtmp := decide (signb = signc)
    if signa = signtmp then
      match static_integer.raw_add limb_bits this this tmp with
      | Except.error err => Except.error err
      | Except.ok r => Except.ok (if !signa then r.negate else r)
    else
      if asizea > asizetmp ∨
          (asizea = asizetmp ∧ static_integer.compare this tmp asizea ≥ 0) then
        let r := static_integer.raw_sub limb_bits this this tmp
        Except.ok (if !signa then r.negate else r)
      else
        let r := static_integer.raw_sub limb_bits this tmp this
        Except.ok (if !signtmp then r.negate else r)

/-- Static member `div(q, r, a, b)`: the quotient and the remainder written to `q` and `r`.
Everything is read from `a` and `b` before `q` and `r` are written, so the same function
describes the calls in which `q` or `r` is the same object as `a` or `b`. -/
def static_integer.div (limb_bits : Nat) (q r a b : static_integer) :
    static_integer × static_integer :=
  let signa := decide (a._mp_size ≥ 0)
  let signb := decide (b._mp_size ≥ 0)
  let ad := dlimb_cast limb_bits
    (a.m_limbs.1 + dlimb_cast limb_bits (dlimb_cast limb_bits a.m_limbs.2 <<< limb_bits))
  let bd := dlimb_cast limb_bits
    (b.m_limbs.1 + dlimb_cast limb_bits (dlimb_cast limb_bits b.m_limbs.2 <<< limb_bits))
  let qd := dlimb_cast limb_bits (ad / bd)
  let rd := dlimb_cast limb_bits (ad % bd)
  let q1 : static_integer :=
    { q with m_limbs := (limb_cast limb_bits qd, limb_cast limb_bits (qd >>> limb_bits)) }
  let q2 : static_integer := { q1 with _mp_size := q1.calculate_n_limbs }
  let r1 : static_integer :=
    { r with m_limbs := (limb_cast limb_bits rd, limb_cast limb_bits (rd >>> limb_bits)) }
  let r2 : static_integer := { r1 with _mp_size := r1.calculate_n_limbs }
  let r3 := if !signa then r2.negate else r2
  let q3 := if signa ≠ signb then q2.negate else q2
  (q3, r3)

/-- Loop of `bits_size`: `while (limb != 0u) { ++size; limb >>= 1; }`; `fuel` bounds the
number of shifts and any `fuel ≥ limb` is enough. -/
def bits_size_loop (limb_bits : Nat) : Nat → Nat → Nat → Nat
  | 0, size, _ => size
  | fuel + 1, size, limb =>
    if limb ≠ 0 then
      bits_size_loop limb_bits fuel (limb_cast limb_bits (size + 1))
        (limb_cast limb_bits (limb >>> 1))
    else size

/-- Member `bits_size()`. -/
def static_integer.bits_size (limb_bits : Nat) (s : static_integer) : Nat :=
  let asize := s.abs_size
  if asize = 0 then 0
  else
    let idx := (asize - 1).toNat
    bits_size_loop limb_bits (s.limb idx) (limb_cast limb_bits (limb_bits * idx)) (s.limb idx)

/-- Member `test_bit(idx)`. -/
def static_integer.test_bit (limb_bits : Nat) (s : static_integer) (idx : Nat) : Bool :=
  let quot := limb_cast limb_bits (idx / limb_bits)
  let rem := limb_cast limb_bits (idx % limb_bits)
  decide (limb_cast limb_bits (s.limb quot &&& limb_cast limb_bits (1 <<< rem)) ≠ 0)

/-! ### `integer_union` and `mp_integer` -/

/-- Union `detail::integer_union<NBits>`: either the static storage `st` or the GMP integer
`dy`.  The discriminator is the field `_mp_alloc`, which is 0 for the static storage and
positive for an initialised GMP integer. -/
inductive integer_union where
  | st (s : static_integer)
  | dy (z : Int)
deriving DecidableEq, Repr

/-- Member `is_static()`. -/
def integer_union.is_static : integer_union → Bool
  | integer_union.st _ => true
  | integer_union.dy _ => false

/-- Read of `st._mp_size` through the union.  For the dynamic storage this is the field
`_mp_size` of the GMP integer, which has the sign of the value; the source only compares it
with zero, and the model keeps the sign. -/
def integer_union.mp_size : integer_union → Int
  | integer_union.st s => s._mp_size
  | integer_union.dy z => Int.sign z

/-- Static member `fits_in_static(mpz)`. -/
def integer_union.fits_in_static (limb_bits : Nat) (mpz : Int) : Bool :=
  decide (mpz_sizeinbase2 mpz ≤ limb_bits * 2)

/-- Class `mp_integer<NBits>`: the data member `m_int`. -/
structure mp_integer where
  m_int : integer_union
deriving DecidableEq, Repr

/-- Default constructor of `mp_integer`. -/
def mp_integer.init : mp_integer := ⟨integer_union.st static_integer.init⟩

/-- Member `is_static()`. -/
def mp_integer.is_static (x : mp_integer) : Bool := x.m_int.is_static

/-- Member `negate()`. -/
def mp_integer.negate (x : mp_integer) : mp_integer :=
  match x.m_int with
  | integer_union.st s => ⟨integer_union.st s.negate⟩
  | integer_union.dy z => ⟨integer_union.dy (-z)⟩

/-- Member `sign()`. -/
def mp_integer.sign (x : mp_integer) : Int :=
  match x.m_int with
  | integer_union.st s => if s._mp_size > 0 then 1 else if s._mp_size < 0 then -1 else 0
  | integer_union.dy z => mpz_sgn z

/-- A native integral type other than `bool`: its signedness and its number of value bits
`std::numeric_limits<T>::digits` (the width, less the sign bit of a signed type). -/
structure integral_type where
  is_signed : Bool
  digits : Nat
deriving DecidableEq, Repr

/-- Value `std::numeric_limits<T>::min()`. -/
def integral_type.min (T : integral_type) : Int :=
  if T.is_signed then -(2 ^ T.digits) else 0

/-- Value `std::numeric_limits<T>::max()`. -/
def integral_type.max (T : integral_type) : Int := 2 ^ T.digits - 1

/-- Conversion `static_cast<T>` of an integer value: reduction modulo two to the width of the
type into its range. -/
def integral_type.cast (T : integral_type) (x : Int) : Int :=
  if T.is_signed then (x + 2 ^ T.digits) % 2 ^ (T.digits + 1) - 2 ^ T.digits
  else x % 2 ^ T.digits

/-- First loop of `construct_from_integral`: `while (n != Integer(0))`, collecting the binary
digits of `n` in the GMP integer `m`.  `fuel` bounds the number of halvings; any
`fuel ≥ |n|` is enough. -/
def construct_bits_loop (T : integral_type) : Nat → Int → Int → Nat → Except mp_exception Int
  | 0, _, m, _ => Except.ok m
  | fuel + 1, n, m, bit_idx =>
    if n = 0 then Except.ok m
    else
      let div := T.cast (Int.tdiv n 2)
      let rem := T.cast (Int.tmod n 2)
      let m1 := if rem ≠ 0 then mpz_setbit m bit_idx else m
      if bit_idx = mp_bitcnt_max then Except.error mp_exception.invalid_argument
      else construct_bits_loop T fuel div m1 (bit_idx + 1)

/-- Loop `for (i = 0; i < size2; ++i) if (mpz_tstbit(m, i)) st.set_bit(i)` shared by the
constructors; `fuel` is `size2 - i`. -/
def set_bits_loop (limb_bits : Nat) (m : Int) : Nat → Nat → static_integer → static_integer
  | 0, _, s => s
  | fuel + 1, i, s =>
    set_bits_loop limb_bits m fuel (i + 1)
      (if mpz_tstbit m i then s.set_bit limb_bits (limb_cast limb_bits i) else s)

/-- Tail shared by `construct_from_integral` and `construct_from_string`: the non-negative
GMP integer `m` is stored statically when it fits and dynamically otherwise, and the sign is
set. -/
def mp_integer.construct_from_mpz (limb_bits : Nat) (m : Int) (negate : Bool) : mp_integer :=
  if integer_union.fits_in_static limb_bits m then
    let size2 := mpz_sizeinbase2 m
    let s := set_bits_loop limb_bits m size2 0 static_integer.init
    ⟨integer_union.st (if negate then s.negate else s)⟩
  else
    ⟨integer_union.dy (if negate then -m else m)⟩

/-- Member `construct_from_integral(n_orig)` on a default-constructed object, that is the
constructor `mp_integer(const T &)` for an integral type other than `bool`. -/
def mp_integer.construct_from_integral (limb_bits : Nat) (T : integral_type) (n_orig : Int) :
    Except mp_exception mp_integer :=
  if n_orig = 0 then Except.ok mp_integer.init
  else
    match construct_bits_loop T n_orig.natAbs n_orig 0 0 with
    | Except.error err => Except.error err
    | Except.ok m =>
      Except.ok (mp_integer.construct_from_mpz limb_bits m (decide (n_orig ≤ 0)))

/-- Static member `validate_string(str, size)`, the string given by its `size` characters:
`none` when it returns, the exception when it throws. -/
def mp_integer.validate_string (str : List Char) : Option mp_exception :=
  let size := str.length
  if size = 0 then some mp_exception.invalid_argument
  else
    let has_minus : Nat := if str.head? = some '-' then 1 else 0
    let signed_size := size - has_minus
    if signed_size = 0 then some mp_exception.invalid_argument
    else if str.get? has_minus = some '0' ∧ (signed_size > 1 ∨ has_minus ≠ 0) then
      some mp_exception.invalid_argument
    else if (str.drop has_minus).all is_digit then Option.none
    else some mp_exception.invalid_argument

/-- Member `construct_from_string(str)` on a default-constructed object, that is the
constructor `mp_integer(const std::string &)`. -/
def mp_integer.construct_from_string (limb_bits : Nat) (str : List Char) :
    Except mp_exception mp_integer :=
  match mp_integer.validate_string str with
  | some err => Except.error err
  | Option.none =>
    match mpz_set_str10 str with
    | Option.none => Except.error mp_exception.invalid_argument
    | some m0 =>
      let negate := decide (mpz_sgn m0 = -1)
      let m := if negate then -m0 else m0
      Except.ok (mp_integer.construct_from_mpz limb_bits m negate)

/-- Static member `check_mult2(n)`: whether it throws. -/
def mp_integer.check_mult2 (T : integral_type) (n : Int) : Bool :=
  if T.is_signed then decide (n < Int.tdiv T.min 2 ∨ n > Int.tdiv T.max 2)
  else decide (n > Int.tdiv T.max 2)

/-- Loop `for (i = 0; i < bits_size; ++i)` of `convert_to_impl`, common to the static and the
dynamic branch, which differ in the test of bit `i`; `fuel` is `bits_size - i`. -/
def convert_loop (T : integral_type) (negative : Bool)
    (test_bit : Nat → Except mp_exception Bool) :
    Nat → Nat → Int → Int → Except mp_exception Int
  | 0, _, retval, _ => Except.ok retval
  | fuel + 1, i, retval, tmp =>
    if i ≠ 0 ∧ mp_integer.check_mult2 T tmp then Except.error mp_exception.overflow_error
    else
      let tmp1 := if i ≠ 0 then T.cast (tmp * 2) else tmp
      match test_bit i with
      | Except.error err => Except.error err
      | Except.ok false => convert_loop T negative test_bit fuel (i + 1) retval tmp1
      | Except.ok true =>
        if negative ∧ retval < T.min - tmp1 then Except.error mp_exception.overflow_error
        else if ¬ negative ∧ retval > T.max - tmp1 then
          Except.error mp_exception.overflow_error
        else convert_loop T negative test_bit fuel (i + 1) (T.cast (retval + tmp1)) tmp1

/-- Member `convert_to_impl<T>()` for an integral type other than `bool`, that is the
conversion operator `operator T()`. -/
def mp_integer.convert_to_impl (limb_bits : Nat) (T : integral_type) (x : mp_integer) :
    Except mp_exception Int :=
  if x.m_int.mp_size = 0 then Except.ok 0
  else
    let negative := decide (x.m_int.mp_size < 0)
    if !T.is_signed && negative then Except.error mp_exception.overflow_error
    else
      let tmp := T.cast (if negative then -1 else 1)
      match x.m_int with
      | integer_union.st s =>
        let bits_size := s.bits_size limb_bits
        convert_loop T negative (fun i => Except.ok (s.test_bit limb_bits i)) bits_size 0 0 tmp
      | integer_union.dy z =>
        let tmp_mpz := if mpz_sgn z = -1 then -z else z
        let bits_size := mpz_sizeinbase2 tmp_mpz
        convert_loop T negative
          (fun i =>
            if i ≤ mp_bitcnt_max then Except.ok (mpz_tstbit tmp_mpz i)
            else Except.error mp_exception.overflow_error)
          bits_size 0 0 tmp

/-- Member `in_place_add_or_sub<AddOrSub>(other)`, `other` being another object than `this`.
The four cases are the values of `s1` and `s2`.  When both are static and the static operation
throws, the exception is caught, `this` (left untouched by the exception) is promoted and the
GMP operation is applied to it and to the conversion of `other`. -/
def mp_integer.in_place_add_or_sub (limb_bits : Nat) (AddOrSub : Bool)
    (this other : mp_integer) : mp_integer :=
  match this.m_int, other.m_int with
  | integer_union.st s, integer_union.st o =>
    match (if AddOrSub then static_integer.add limb_bits s s o
           else static_integer.sub limb_bits s s o) with
    | Except.ok r => ⟨integer_union.st r⟩
    | Except.error err =>
      let dy := err.2.to_mpz limb_bits
      let m := o.to_mpz limb_bits
      ⟨integer_union.dy (if AddOrSub then dy + m else dy - m)⟩
  | integer_union.st s, integer_union.dy z =>
    let dy := s.to_mpz limb_bits
    ⟨integer_union.dy (if AddOrSub then dy + z else dy - z)⟩
  | integer_union.dy dy, integer_union.st o =>
    let m := o.to_mpz limb_bits
    ⟨integer_union.dy (if AddOrSub then dy + m else dy - m)⟩
  | integer_union.dy dy, integer_union.dy z =>
    ⟨integer_union.dy (if AddOrSub then dy + z else dy - z)⟩

/-- Member `in_place_add(other)`, that is `operator+=` with an `mp_integer` argument. -/
def mp_integer.in_place_add (limb_bits : Nat) (this other : mp_integer) : mp_integer :=
  mp_integer.in_place_add_or_sub limb_bits true this other

/-- Member `in_place_sub(other)`, that is `operator-=` with an `mp_integer` argument. -/
def mp_integer.in_place_sub (limb_bits : Nat) (this other : mp_integer) : mp_integer :=
  mp_integer.in_place_add_or_sub limb_bits false this other

/-- Static member `binary_plus(n1, n2)` for two `mp_integer` arguments, that is `n1 + n2`:
a copy of `n1` to which `n2` is added in place. -/
def mp_integer.binary_plus (limb_bits : Nat) (n1 n2 : mp_integer) : mp_integer :=
  mp_integer.in_place_add limb_bits n1 n2

/-- Static member `binary_subtract(n1, n2)` for two `mp_integer` arguments, that is `n1 - n2`:
a copy of `n2` from which `n1` is subtracted in place, negated. -/
def mp_integer.binary_subtract (limb_bits : Nat) (n1 n2 : mp_integer) : mp_integer :=
  (mp_integer.in_place_sub limb_bits n2 n1).negate

/-- Member `in_place_mul(other)`, that is `operator*=` with an `mp_integer` argument, `other`
being another object than `this`. -/
def mp_integer.in_place_mul (limb_bits : Nat) (this other : mp_integer) : mp_integer :=
  match this.m_int, other.m_int with
  | integer_union.st s, integer_union.st o =>
    match static_integer.mul limb_bits s s o with
    | Except.ok r => ⟨integer_union.st r⟩
    | Except.error err =>
      let dy := err.2.to_mpz limb_bits
      let m := o.to_mpz limb_bits
      ⟨integer_union.dy (dy * m)⟩
  | integer_union.st s, integer_union.dy z =>
    let dy := s.to_mpz limb_bits
    ⟨integer_union.dy (dy * z)⟩
  | integer_union.dy dy, integer_union.st o =>
    let m := o.to_mpz limb_bits
    ⟨integer_union.dy (dy * m)⟩
  | integer_union.dy dy, integer_union.dy z =>
    ⟨integer_union.dy (dy * z)⟩

/-- Member `in_place_div(other)`, that is `operator/=` with an `mp_integer` argument, `other`
being another object than `this`.  In the static case the quotient is written to `this` and the
remainder to a default-constructed temporary.  An error carries `this` as the exception leaves
it. -/
def mp_integer.in_place_div (limb_bits : Nat) (this other : mp_integer) :
    Except (mp_exception × mp_integer) mp_integer :=
  if other.sign = 0 then Except.error (mp_exception.zero_division_error, this)
  else
    match this.m_int, other.m_int with
    | integer_union.st s, integer_union.st o =>
      Except.ok ⟨integer_union.st (static_integer.div limb_bits s static_integer.init s o).1⟩
    | integer_union.st s, integer_union.dy z =>
      Except.ok ⟨integer_union.dy (mpz_tdiv_q (s.to_mpz limb_bits) z)⟩
    | integer_union.dy dy, integer_union.st o =>
      Except.ok ⟨integer_union.dy (mpz_tdiv_q dy (o.to_mpz limb_bits))⟩
    | integer_union.dy dy, integer_union.dy z =>
      Except.ok ⟨integer_union.dy (mpz_tdiv_q dy z)⟩

/-- Member `multiply_accumulate(n1, n2)` of `mp_integer`, `n1` and `n2` being other objects
than `this`.  The first case is the static attempt, followed by case 0 of the `switch` when
the attempt throws; the other cases are the cases 1 to 7 of the `switch`. -/
def mp_integer.multiply_accumulate (limb_bits : Nat) (this n1 n2 : mp_integer) : mp_integer :=
  match this.m_int, n1.m_int, n2.m_int with
  | integer_union.st s0, integer_union.st s1, integer_union.st s2 =>
    match s0.multiply_accumulate limb_bits s1 s2 with
    | Except.ok r => ⟨integer_union.st r⟩
    | Except.error err =>
      ⟨integer_union.dy (mpz_addmul (err.2.to_mpz limb_bits) (s1.to_mpz limb_bits)
        (s2.to_mpz limb_bits))⟩
  | integer_union.dy z0, integer_union.st s1, integer_union.st s2 =>
    ⟨integer_union.dy (mpz_addmul z0 (s1.to_mpz limb_bits) (s2.to_mpz limb_bits))⟩
  | integer_union.st s0, integer_union.dy z1, integer_union.st s2 =>
    ⟨integer_union.dy (mpz_addmul (s0.to_mpz limb_bits) z1 (s2.to_mpz limb_bits))⟩
  | integer_union.dy z0, integer_union.dy z1, integer_union.st s2 =>
    ⟨integer_union.dy (mpz_addmul z0 z1 (s2.to_mpz limb_bits))⟩
  | integer_union.st s0, integer_union.st s1, integer_union.dy z2 =>
    ⟨integer_union.dy (mpz_addmul (s0.to_mpz limb_bits) (s1.to_mpz limb_bits) z2)⟩
  | integer_union.dy z0, integer_union.st s1, integer_union.dy z2 =>
    ⟨integer_union.dy (mpz_addmul z0 (s1.to_mpz limb_bits) z2)⟩
  | integer_union.st s0, integer_union.dy z1, integer_union.dy z2 =>
    ⟨integer_union.dy (mpz_addmul (s0.to_mpz limb_bits) z1 z2)⟩
  | integer_union.dy z0, integer_union.dy z1, integer_union.dy z2 =>
    ⟨integer_union.dy (mpz_addmul z0 z1 z2)⟩

/-- Function `detail::stream_mpz(os, mpz)`: the characters sent to the stream.  (The buffer of
the model is unbounded: the exception for a number of digits above the range of `std::size_t`
is not reachable by a value held in memory.) -/
def stream_mpz (mpz : Int) : List Char := mpz_get_str10 mpz

/-- Stream operator `operator<<(os, n)` of `mp_integer`: the characters sent to the stream. -/
def mp_integer.stream (limb_bits : Nat) (n : mp_integer) : List Char :=
  match n.m_int with
  | integer_union.st s => stream_mpz (s.to_mpz limb_bits)
  | integer_union.dy z => stream_mpz z

/-! ### Vocabulary of the specification for integers -/

/-- The magnitude held by the two limbs, as digits in base `2 ^ limb_bits`. -/
def static_integer.mag (limb_bits : Nat) (s : static_integer) : Nat :=
  s.m_limbs.1 + s.m_limbs.2 * 2 ^ limb_bits

/-- The consistent `static_integer` of a natural number below `2 ^ (2 * limb_bits)`. -/
def static_integer.of_nat (limb_bits : Nat) (m : Nat) : static_integer :=
  { _mp_size := static_integer.calculate_n_limbs
      ⟨0, (m % 2 ^ limb_bits, m / 2 ^ limb_bits % 2 ^ limb_bits)⟩
    m_limbs := (m % 2 ^ limb_bits, m / 2 ^ limb_bits % 2 ^ limb_bits) }

/-- The consistent `static_integer` of an integer of absolute value below
`2 ^ (2 * limb_bits)`. -/
def static_integer.of_int (limb_bits : Nat) (v : Int) : static_integer :=
  if v < 0 then (static_integer.of_nat limb_bits v.natAbs).negate
  else static_integer.of_nat limb_bits v.natAbs

/-- The integer represented by a `static_integer`: the two limbs as digits in base
`2 ^ limb_bits`, with the sign of `_mp_size`. -/
def static_integer.value (limb_bits : Nat) (s : static_integer) : Int :=
  if s._mp_size < 0 then -(s.mag limb_bits : Int) else (s.mag limb_bits : Int)

/-- The integer represented by an `mp_integer`. -/
def mp_integer.value (limb_bits : Nat) (x : mp_integer) : Int :=
  match x.m_int with
  | integer_union.st s => s.value limb_bits
  | integer_union.dy z => z

/-- A well-formed `mp_integer`: its static storage, if any, passes `consistency_checks`. -/
def mp_integer.valid (limb_bits : Nat) (x : mp_integer) : Bool :=
  match x.m_int with
  | integer_union.st s => s.consistency_checks limb_bits
  | integer_union.dy _ => true

/-- The native type `int64_t`. -/
def int64_t : integral_type := ⟨true, 63⟩

/-- The native type `uint8_t`. -/
def uint8_t : integral_type := ⟨false, 8⟩

/-- The value built by the constructor from an integral type, or zero when it throws (for
examples). -/
def mp_integer.of_int (limb_bits : Nat) (T : integral_type) (n : Int) : mp_integer :=
  match mp_integer.construct_from_integral limb_bits T n with
  | Except.ok x => x
  | Except.error _ => mp_integer.init

/-! ## Further members of the table and of the integers -/

/-- Member `bucket(k)` of `hop_table`: it throws `zero_division_error` when the container has
no bucket and returns `bucket_impl(k)` otherwise.  The member is `const`: the table is an
argument that the function only reads. -/
def hop_table.bucket {T : Type} (e : hop_env T) (t : hop_table T) (k : T) :
    Except mp_exception Nat :=
  if t.m_container.length = 0 then Except.error mp_exception.zero_division_error
  else Except.ok (t.bucket_impl e k)

/-- Loop of the constructor `static_integer(Integer n)`: `while (n != Integer(0))`, setting in
the object the bits of the magnitude of `n`, lowest first, and throwing `overflow_error` when a
bit of index `2 * limb_bits` is reached.  `fuel` bounds the number of halvings; any
`fuel ≥ |n|` is enough. -/
def static_construct_loop (limb_bits : Nat) (T : integral_type) :
    Nat → Int → Nat → static_integer → Except mp_exception static_integer
  | 0, _, _, s => Except.ok s
  | fuel + 1, n, bit_idx, s =>
    if n = 0 then Except.ok s
    else if bit_idx = limb_bits * 2 then Except.error mp_exception.overflow_error
    else
      let quot := T.cast (Int.tdiv n 2)
      let rem := T.cast (Int.tmod n 2)
      let s1 := if rem ≠ 0 then s.set_bit limb_bits bit_idx else s
      static_construct_loop limb_bits T fuel quot (limb_cast limb_bits (bit_idx + 1)) s1

/-- Constructor `static_integer(Integer n)` for an integral type other than `bool`, followed
by `fix_sign_ctor`, which negates the object for a negative `n` of a signed type. -/
def static_integer.construct (limb_bits : Nat) (T : integral_type) (n : Int) :
    Except mp_exception static_integer :=
  match static_construct_loop limb_bits T n.natAbs n 0 static_integer.init with
  | Except.error err => Except.error err
  | Except.ok s => Except.ok (if T.is_signed ∧ n < 0 then s.negate else s)

/-- Member `lshift1()`, whose precondition (asserted in the source) is that the highest bit of
the second limb is not set. -/
def static_integer.lshift1 (limb_bits : Nat) (s : static_integer) : static_integer :=
  let lo := dlimb_cast limb_bits (dlimb_cast limb_bits s.m_limbs.1 <<< 1)
  let hi := dlimb_cast limb_bits (dlimb_cast limb_bits s.m_limbs.2 <<< 1)
  let s1 : static_integer :=
    { s with m_limbs := (limb_cast limb_bits lo, limb_cast limb_bits (hi + (lo >>> limb_bits))) }
  let sign := decide (¬ s1._mp_size < 0)
  let asize : Int := if s1._mp_size < 0 then -s1._mp_size else s1._mp_size
  if asize < 2 then
    let asize1 : Int := asize + (if s1.limb asize.toNat ≠ 0 then 1 else 0)
    { s1 with _mp_size := if sign then asize1 else -asize1 }
  else s1

/-- Copy constructor `integer_union(const integer_union &other)`: the new object. -/
def integer_union.copy_construct : integer_union → integer_union
  | integer_union.st s => integer_union.st s
  | integer_union.dy z => integer_union.dy z

/-- Move constructor `integer_union(integer_union &&other)`: the new object and `other`
afterwards.  The move constructor of `static_integer` is defaulted and copies the members, so
a static `other` is left as it was; a dynamic `other` hands over its limbs and is rebuilt as a
default-constructed static storage. -/
def integer_union.move_construct : integer_union → integer_union × integer_union
  | integer_union.st s => (integer_union.st s, integer_union.st s)
  | integer_union.dy z => (integer_union.dy z, integer_union.st static_integer.init)

/-- Defaulted copy constructor of `mp_integer`. -/
def mp_integer.copy_construct (other : mp_integer) : mp_integer :=
  ⟨other.m_int.copy_construct⟩

/-- Defaulted move constructor of `mp_integer`: the new object and `other` afterwards. -/
def mp_integer.move_construct (other : mp_integer) : mp_integer × mp_integer :=
  (⟨other.m_int.move_construct.1⟩, ⟨other.m_int.move_construct.2⟩)

/-- Static member `binary_mul(n1, n2)` for two `mp_integer` arguments, that is `n1 * n2`:
a copy of `n2` multiplied in place by `n1`. -/
def mp_integer.binary_mul (limb_bits : Nat) (n1 n2 : mp_integer) : mp_integer :=
  mp_integer.in_place_mul limb_bits n2.copy_construct n1

/-- Member `in_place_add_or_sub<AddOrSub>(other)` when `other` is the very object `this`
(`a += a`, `a -= a`).  Both `s1` and `s2` are read before anything is written.  When the object
is static and the static operation throws, the object is promoted, and the branch `if (s2)` then
reads `other.m_int.st` from a union that now holds the GMP struct: `_mp_size` is the field of
the same name of the GMP struct, and the two limbs are the bytes that follow it, which hold the
pointer `_mp_d` written by the promotion.  The program does not determine these bytes; the
model takes the two limbs read there as the argument `overlay`. -/
def mp_integer.in_place_add_or_sub_self (limb_bits : Nat) (AddOrSub : Bool)
    (overlay : Nat × Nat) (this : mp_integer) : mp_integer :=
  match this.m_int with
  | integer_union.st s =>
    match (if AddOrSub then static_integer.add limb_bits s s s
           else static_integer.sub limb_bits s s s) with
    | Except.ok r => ⟨integer_union.st r⟩
    | Except.error err =>
      let dy := err.2.to_mpz limb_bits
      let view : static_integer := ⟨(integer_union.dy dy).mp_size, overlay⟩
      let m := view.to_mpz limb_bits
      ⟨integer_union.dy (if AddOrSub then dy + m else dy - m)⟩
  | integer_union.dy dy =>
    ⟨integer_union.dy (if AddOrSub then dy + dy else dy - dy)⟩

/-! ## The displacement step, the assertions of `_unique_insert` and the comparisons -/

/-- One pass of the body of the displacement loop of `_unique_insert`, up to the choice of the
source: from the free slot `orig_idx`, the candidate home `alt_idx` found by the inner loop and
the source `next_idx = alt_idx + (max_shift - (msb - 1))`, or `none` when the pass ends with
`return (end(),false)`. -/
def displacement_step {T : Type} (nbits : Nat) (c : List (hop_bucket T)) (orig_idx : Nat) :
    Option (Nat × Nat) :=
  let start := orig_idx - hop_bucket.max_shift nbits
  let r := find_candidate c orig_idx (orig_idx - start) start 2
    (mf_int_traits.msb (bucket_at c start).m_bitset)
  if r.1 = orig_idx then Option.none
  else some (r.1, r.1 + (hop_bucket.max_shift nbits - (r.2 - 1).toNat))

/-- The assertions met by the displacement loop of `_unique_insert`: whether every
`piranha_assert` evaluated by the loop holds.  The loop is that of `displace`, with the same
`fuel`. -/
def displace_asserts {T : Type} (nbits : Nat) (bucket_idx : Nat) :
    Nat → List (hop_bucket T) → Nat → Bool
  | fuel, c, alt_idx =>
    if alt_idx - bucket_idx ≥ hop_bucket.n_eff_bits nbits then
      match fuel with
      | 0 => true
      | fuel + 1 =>
        let orig_idx := alt_idx
        let start := alt_idx - hop_bucket.max_shift nbits
        let msb0 := mf_int_traits.msb (bucket_at c start).m_bitset
        let r := find_candidate c orig_idx (orig_idx - start) start 2 msb0
        if r.1 = orig_idx then decide (msb0 ≠ 1)
        else
          let msb := r.2
          let next_idx := r.1 + (hop_bucket.max_shift nbits - (msb - 1).toNat)
          let c1 := move_key nbits c r.1 next_idx orig_idx
          decide (msb0 ≠ 1) &&
          decide (msb > 0) &&
          decide ((hop_bucket.max_shift nbits : Int) ≥ msb - 1) &&
          decide (next_idx < orig_idx ∧ next_idx ≥ r.1 ∧ orig_idx ≥ r.1) &&
          (bucket_at c r.1).test nbits (next_idx - r.1) &&
          !(bucket_at c r.1).test nbits (orig_idx - r.1) &&
          !(bucket_at c1 r.1).test nbits (next_idx - r.1) &&
          (bucket_at c1 r.1).test nbits (orig_idx - r.1) &&
          displace_asserts nbits bucket_idx fuel c1 next_idx
    else true

/-- The assertions of `_unique_insert(k, bucket_idx)`: whether every `piranha_assert` evaluated
by the call holds. -/
def hop_table.unique_insert_asserts {T : Type} (e : hop_env T) (t : hop_table T) (k : T)
    (bucket_idx : Nat) : Bool :=
  let c := t.m_container
  if c.length = 0 then true
  else
    decide (bucket_idx = t.bucket_impl e k) &&
    (if !(bucket_at c bucket_idx).test_occupied then !(bucket_at c bucket_idx).test e.nbits 0
     else
      let alt_idx := linear_probe c (c.length - (bucket_idx + 1)) (bucket_idx + 1)
      if alt_idx = c.length then true
      else
        displace_asserts e.nbits bucket_idx alt_idx c alt_idx &&
        (match displace e.nbits bucket_idx alt_idx c alt_idx with
         | (_, Option.none) => true
         | (c0, some j) =>
           !(bucket_at c0 j).test_occupied &&
           !(bucket_at c0 bucket_idx).test e.nbits (j - bucket_idx)))

/-- Member `operator==` of `static_integer`. -/
def static_integer.operator_eq (this other : static_integer) : Bool :=
  decide (this._mp_size = other._mp_size) && decide (this.m_limbs = other.m_limbs)

/-- Member `operator<` of `static_integer`. -/
def static_integer.operator_lt (this other : static_integer) : Bool :=
  let size0 := this._mp_size
  let size1 := other._mp_size
  if size0 < size1 then true
  else if size1 < size0 then false
  else
    let abs_size : Int := if size0 ≥ 0 then size0 else -size0
    let cmp := static_integer.compare this other abs_size
    if size0 ≥ 0 then decide (cmp < 0) else decide (cmp > 0)

/-- Member `operator>` of `static_integer`. -/
def static_integer.operator_gt (this other : static_integer) : Bool :=
  let size0 := this._mp_size
  let size1 := other._mp_size
  if size0 < size1 then false
  else if size1 < size0 then true
  else
    let abs_size : Int := if size0 ≥ 0 then size0 else -size0
    let cmp := static_integer.compare this other abs_size
    if size0 ≥ 0 then decide (cmp > 0) else decide (cmp < 0)

/-- An instantiation for examples with 4-bit words, that is three hop bits: natural numbers
as keys, the identity as hasher and `==` as equality predicate. -/
def small_env : hop_env Nat := ⟨4, true, fun k => k, fun a b => a == b⟩

/-! ## Bit-level facts about buckets -/

section bits

theorem and_two_pow_eq_zero_iff (b k : Nat) : (b &&& 2 ^ k = 0) ↔ b.testBit k = false := by
  constructor
  · intro h
    have h1 := congrArg (fun n => n.testBit k) h
    simpa [Nat.testBit_two_pow_self] using h1
  · intro h
    apply Nat.eq_of_testBit_eq
    intro i
    simp only [Nat.testBit_and, Nat.testBit_two_pow, Nat.zero_testBit]
    by_cases hk : k = i
    · subst hk; simp [h]
    · simp [hk]

theorem highest_bit_shift (W idx : Nat) (h : idx ≤ hop_bucket.n_eff_bits W) :
    hop_bucket.highest_bit W >>> idx = 2 ^ (hop_bucket.n_eff_bits W - idx) := by
  unfold hop_bucket.highest_bit
  rw [Nat.one_shiftLeft, Nat.shiftRight_eq_div_pow, Nat.pow_div h (by decide)]

theorem hb_test_eq {T : Type} (W : Nat) (b : hop_bucket T) (idx : Nat)
    (h : idx ≤ hop_bucket.n_eff_bits W) :
    b.test W idx = b.m_bitset.testBit (hop_bucket.n_eff_bits W - idx) := by
  unfold hop_bucket.test
  rw [highest_bit_shift W idx h]
  cases hb : b.m_bitset.testBit (hop_bucket.n_eff_bits W - idx)
  · have := (and_two_pow_eq_zero_iff _ _).2 hb
    simp [this]
  · have h1 : ¬ (b.m_bitset &&& 2 ^ (hop_bucket.n_eff_bits W - idx) = 0) := by
      intro h0
      have := (and_two_pow_eq_zero_iff _ _).1 h0
      simp [hb] at this
    simp [h1]

theorem hb_occ_eq {T : Type} (b : hop_bucket T) :
    b.test_occupied = b.m_bitset.testBit 0 := by
  unfold hop_bucket.test_occupied
  rw [Nat.testBit_zero, Nat.and_one_is_mod]
  rcases Nat.mod_two_eq_zero_or_one b.m_bitset with h | h <;> simp [h]

theorem hb_test_toggle {T : Type} (W : Nat) (b : hop_bucket T) (i j : Nat)
    (hi : i < hop_bucket.n_eff_bits W) (hj : j < hop_bucket.n_eff_bits W) :
    (b.toggle W i).test W j = (if i = j then !b.test W j else b.test W j) := by
  rw [hb_test_eq W _ j (Nat.le_of_lt hj), hb_test_eq W b j (Nat.le_of_lt hj)]
  unfold hop_bucket.toggle
  simp only [highest_bit_shift W i (Nat.le_of_lt hi), Nat.testBit_xor, Nat.testBit_two_pow]
  by_cases hij : i = j
  · subst hij; simp
  · have : ¬ (hop_bucket.n_eff_bits W - i = hop_bucket.n_eff_bits W - j) := by omega
    simp [hij, this]

theorem hb_occ_toggle {T : Type} (W : Nat) (b : hop_bucket T) (i : Nat)
    (hi : i < hop_bucket.n_eff_bits W) :
    (b.toggle W i).test_occupied = b.test_occupied := by
  rw [hb_occ_eq, hb_occ_eq]
  unfold hop_bucket.toggle
  simp only [highest_bit_shift W i (Nat.le_of_lt hi), Nat.testBit_xor, Nat.testBit_two_pow]
  have : ¬ (hop_bucket.n_eff_bits W - i = 0) := by omega
  simp [this]

theorem hb_test_set {T : Type} (W : Nat) (b : hop_bucket T) (i j : Nat)
    (hi : i < hop_bucket.n_eff_bits W) (hj : j < hop_bucket.n_eff_bits W) :
    (b.set W i).test W j = (if i = j then true else b.test W j) := by
  rw [hb_test_eq W _ j (Nat.le_of_lt hj), hb_test_eq W b j (Nat.le_of_lt hj)]
  unfold hop_bucket.set
  simp only [highest_bit_shift W i (Nat.le_of_lt hi), Nat.testBit_or, Nat.testBit_two_pow]
  by_cases hij : i = j
  · subst hij; simp
  · have : ¬ (hop_bucket.n_eff_bits W - i = hop_bucket.n_eff_bits W - j) := by omega
    simp [hij, this]

theorem hb_occ_set {T : Type} (W : Nat) (b : hop_bucket T) (i : Nat)
    (hi : i < hop_bucket.n_eff_bits W) :
    (b.set W i).test_occupied = b.test_occupied := by
  rw [hb_occ_eq, hb_occ_eq]
  unfold hop_bucket.set
  simp only [highest_bit_shift W i (Nat.le_of_lt hi), Nat.testBit_or, Nat.testBit_two_pow]
  have : ¬ (hop_bucket.n_eff_bits W - i = 0) := by omega
  simp [this]

theorem hb_test_toggle_occupied {T : Type} (W : Nat) (b : hop_bucket T) (j : Nat)
    (hj : j < hop_bucket.n_eff_bits W) :
    (b.toggle_occupied).test W j = b.test W j := by
  rw [hb_test_eq W _ j (Nat.le_of_lt hj), hb_test_eq W b j (Nat.le_of_lt hj)]
  unfold hop_bucket.toggle_occupied
  have h1 : (1 : Nat) = 2 ^ 0 := rfl
  have : ¬ (0 = hop_bucket.n_eff_bits W - j) := by omega
  simp only [Nat.testBit_xor]
  rw [h1, Nat.testBit_two_pow]
  simp [this]

theorem hb_occ_toggle_occupied {T : Type} (b : hop_bucket T) :
    (b.toggle_occupied).test_occupied = !b.test_occupied := by
  rw [hb_occ_eq, hb_occ_eq]
  unfold hop_bucket.toggle_occupied
  have h1 : (1 : Nat) = 2 ^ 0 := rfl
  simp only [Nat.testBit_xor]
  rw [h1, Nat.testBit_two_pow]
  simp

theorem hb_test_set_occupied {T : Type} (W : Nat) (b : hop_bucket T) (j : Nat)
    (hj : j < hop_bucket.n_eff_bits W) :
    (b.set_occupied).test W j = b.test W j := by
  rw [hb_test_eq W _ j (Nat.le_of_lt hj), hb_test_eq W b j (Nat.le_of_lt hj)]
  unfold hop_bucket.set_occupied
  have h1 : (1 : Nat) = 2 ^ 0 := rfl
  have : ¬ (0 = hop_bucket.n_eff_bits W - j) := by omega
  simp only [Nat.testBit_or]
  rw [h1, Nat.testBit_two_pow]
  simp [this]

theorem hb_occ_set_occupied {T : Type} (b : hop_bucket T) :
    (b.set_occupied).test_occupied = true := by
  rw [hb_occ_eq]
  unfold hop_bucket.set_occupied
  have h1 : (1 : Nat) = 2 ^ 0 := rfl
  simp only [Nat.testBit_or]
  rw [h1, Nat.testBit_two_pow]
  simp

theorem two_pow_eff_lt (W i : Nat) (hi : i < hop_bucket.n_eff_bits W) :
    2 ^ (hop_bucket.n_eff_bits W - i) < 2 ^ W := by
  apply Nat.pow_lt_pow_right (by decide)
  unfold hop_bucket.n_eff_bits at *
  omega

theorem one_lt_two_pow_word (W i : Nat) (hi : i < hop_bucket.n_eff_bits W) : 1 < 2 ^ W := by
  have h1 : (1 : Nat) = 2 ^ 0 := rfl
  rw [h1]
  apply Nat.pow_lt_pow_right (by decide)
  unfold hop_bucket.n_eff_bits at *
  omega

theorem hb_bound_toggle {T : Type} (W : Nat) (b : hop_bucket T) (i : Nat)
    (hi : i < hop_bucket.n_eff_bits W) (hb : b.m_bitset < 2 ^ W) :
    (b.toggle W i).m_bitset < 2 ^ W := by
  unfold hop_bucket.toggle
  simp only [highest_bit_shift W i (Nat.le_of_lt hi)]
  exact Nat.xor_lt_two_pow hb (two_pow_eff_lt W i hi)

theorem hb_bound_set {T : Type} (W : Nat) (b : hop_bucket T) (i : Nat)
    (hi : i < hop_bucket.n_eff_bits W) (hb : b.m_bitset < 2 ^ W) :
    (b.set W i).m_bitset < 2 ^ W := by
  unfold hop_bucket.set
  simp only [highest_bit_shift W i (Nat.le_of_lt hi)]
  exact Nat.or_lt_two_pow hb (two_pow_eff_lt W i hi)

theorem hb_bound_toggle_occupied {T : Type} (W : Nat) (b : hop_bucket T)
    (hW : 1 < 2 ^ W) (hb : b.m_bitset < 2 ^ W) :
    (b.toggle_occupied).m_bitset < 2 ^ W := by
  unfold hop_bucket.toggle_occupied
  exact Nat.xor_lt_two_pow hb hW

theorem hb_bound_set_occupied {T : Type} (W : Nat) (b : hop_bucket T)
    (hW : 1 < 2 ^ W) (hb : b.m_bitset < 2 ^ W) :
    (b.set_occupied).m_bitset < 2 ^ W := by
  unfold hop_bucket.set_occupied
  exact Nat.or_lt_two_pow hb hW

theorem hb_none_test {T : Type} (W : Nat) (b : hop_bucket T) (j : Nat)
    (hj : j < hop_bucket.n_eff_bits W) (hn : b.none = true) : b.test W j = false := by
  rw [hb_test_eq W b j (Nat.le_of_lt hj)]
  unfold hop_bucket.none at hn
  have h0 : b.m_bitset >>> 1 = 0 := by simpa using hn
  have h1 : (b.m_bitset >>> 1).testBit (hop_bucket.n_eff_bits W - j - 1) = false := by
    rw [h0]; simp
  rw [Nat.testBit_shiftRight] at h1
  have : 1 + (hop_bucket.n_eff_bits W - j - 1) = hop_bucket.n_eff_bits W - j := by omega
  rw [this] at h1
  exact h1

theorem bit_length_spec : ∀ (fuel n : Nat), n ≤ fuel →
    n < 2 ^ mf_int_traits.bit_length fuel n ∧
    (n ≠ 0 → 1 ≤ mf_int_traits.bit_length fuel n ∧
      2 ^ (mf_int_traits.bit_length fuel n - 1) ≤ n) := by
  intro fuel
  induction fuel with
  | zero =>
    intro n hn
    have : n = 0 := by omega
    subst this
    simp [mf_int_traits.bit_length]
  | succ f ih =>
    intro n hn
    unfold mf_int_traits.bit_length
    by_cases h0 : n = 0
    · subst h0; simp
    · simp only [h0, if_false]
      have hdiv : n / 2 ≤ f := by omega
      obtain ⟨h1, h2⟩ := ih (n / 2) hdiv
      constructor
      · rw [Nat.pow_succ]; omega
      · intro _
        refine ⟨by omega, ?_⟩
        simp only [Nat.add_sub_cancel]
        by_cases hd : n / 2 = 0
        · have hb : mf_int_traits.bit_length f (n / 2) = 0 := by
            rw [hd]; cases f <;> simp [mf_int_traits.bit_length]
          rw [hb]; simp; omega
        · obtain ⟨h3, h4⟩ := h2 hd
          have : mf_int_traits.bit_length f (n / 2) =
              (mf_int_traits.bit_length f (n / 2) - 1) + 1 := by omega
          rw [this, Nat.pow_succ]; omega

theorem testBit_of_pow_le_lt (n p : Nat) (h1 : 2 ^ p ≤ n) (h2 : n < 2 ^ (p + 1)) :
    n.testBit p = true := by
  rw [Nat.testBit_to_div_mod]
  have hpos : 0 < 2 ^ p := Nat.pow_pos (by decide)
  have hle : 1 ≤ n / 2 ^ p := (Nat.le_div_iff_mul_le hpos).2 (by simpa using h1)
  have hlt : n / 2 ^ p < 2 := by
    rw [Nat.div_lt_iff_lt_mul hpos]
    rw [Nat.pow_succ] at h2
    omega
  have : n / 2 ^ p = 1 := by omega
  simp [this]

/-- What `msb` returns on a nonzero word below `2 ^ W`: the position of a set bit, below `W`,
above which no bit is set. -/
theorem msb_spec (W n : Nat) (hn : n < 2 ^ W) (h : 0 ≤ mf_int_traits.msb n) :
    n.testBit (mf_int_traits.msb n).toNat = true ∧
    (mf_int_traits.msb n).toNat < W ∧
    ∀ q, (mf_int_traits.msb n).toNat < q → n.testBit q = false := by
  unfold mf_int_traits.msb at *
  have hn0 : n ≠ 0 := by
    intro h0
    subst h0
    have : mf_int_traits.bit_length 0 0 = 0 := rfl
    rw [this] at h
    omega
  obtain ⟨h1, h2⟩ := bit_length_spec n n (Nat.le_refl n)
  obtain ⟨h3, h4⟩ := h2 hn0
  have hto : ((mf_int_traits.bit_length n n : Int) - 1).toNat =
      mf_int_traits.bit_length n n - 1 := by omega
  rw [hto]
  refine ⟨?_, ?_, ?_⟩
  · apply testBit_of_pow_le_lt _ _ h4
    have : mf_int_traits.bit_length n n - 1 + 1 = mf_int_traits.bit_length n n := by omega
    rw [this]; exact h1
  · by_contra hc
    have hle : W ≤ mf_int_traits.bit_length n n - 1 := by omega
    have : 2 ^ W ≤ 2 ^ (mf_int_traits.bit_length n n - 1) :=
      Nat.pow_le_pow_right (by decide) hle
    omega
  · intro q hq
    apply Nat.testBit_lt_two_pow
    have : 2 ^ mf_int_traits.bit_length n n ≤ 2 ^ q :=
      Nat.pow_le_pow_right (by decide) (by omega)
    omega

end bits

/-! ## Containers -/

section containers

theorem bucket_at_of_ge {T : Type} (c : List (hop_bucket T)) (j : Nat) (h : c.length ≤ j) :
    bucket_at c j = hop_bucket.empty := by
  unfold bucket_at
  rw [List.getD_eq_getElem?_getD, List.getElem?_eq_none h]
  rfl

theorem length_update_at {T : Type} (c : List (hop_bucket T)) (i : Nat)
    (f : hop_bucket T → hop_bucket T) : (update_at c i f).length = c.length := by
  unfold update_at
  exact List.length_set _ _ _

theorem bucket_at_update_at {T : Type} (c : List (hop_bucket T)) (i j : Nat)
    (f : hop_bucket T → hop_bucket T) (hi : i < c.length) :
    bucket_at (update_at c i f) j = if j = i then f (bucket_at c i) else bucket_at c j := by
  unfold update_at bucket_at
  simp only [List.getD_eq_getElem?_getD, List.getElem?_set]
  by_cases h : i = j
  · subst h; simp [hi]
  · have h2 : ¬ j = i := fun hh => h hh.symm
    simp [h, h2]

theorem stor_of_ge {T : Type} (c : List (hop_bucket T)) (j : Nat) (h : c.length ≤ j) :
    stor c j = none := by
  unfold stor; rw [bucket_at_of_ge c j h]; rfl

theorem stor_lt {T : Type} (c : List (hop_bucket T)) (j : Nat) (x : T)
    (h : stor c j = some x) : j < c.length := by
  by_contra hc
  rw [stor_of_ge c j (by omega)] at h
  cases h

theorem bucket_at_cons_zero {T : Type} (a : hop_bucket T) (l : List (hop_bucket T)) :
    bucket_at (a :: l) 0 = a := rfl

theorem bucket_at_cons_succ {T : Type} (a : hop_bucket T) (l : List (hop_bucket T)) (n : Nat) :
    bucket_at (a :: l) (n + 1) = bucket_at l n := rfl

theorem bucket_at_mem {T : Type} (l : List (hop_bucket T)) (j : Nat) (h : j < l.length) :
    bucket_at l j ∈ l := by
  induction l generalizing j with
  | nil => simp at h
  | cons a l ih =>
    cases j with
    | zero => simp [bucket_at_cons_zero]
    | succ n =>
      rw [bucket_at_cons_succ]
      exact List.mem_cons_of_mem _ (ih n (by simpa using h))

theorem mem_keys_of {T : Type} (l : List (hop_bucket T)) (x : T) :
    x ∈ keys_of l ↔ ∃ j, stor l j = some x := by
  unfold keys_of
  rw [List.mem_filterMap]
  constructor
  · rintro ⟨b, hb, hx⟩
    obtain ⟨n, hn⟩ := List.mem_iff_getElem?.1 hb
    refine ⟨n, ?_⟩
    unfold stor bucket_at
    rw [List.getD_eq_getElem?_getD, hn]
    exact hx
  · rintro ⟨j, hj⟩
    have hlt := stor_lt l j x hj
    exact ⟨bucket_at l j, bucket_at_mem l j hlt, hj⟩

theorem keys_of_set {T : Type} (l : List (hop_bucket T)) (i : Nat) (b : hop_bucket T)
    (hi : i < l.length) :
    (keys_of (l.set i b) ++ ((bucket_at l i).m_storage).toList).Perm
      (keys_of l ++ (b.m_storage).toList) := by
  induction l generalizing i with
  | nil => simp at hi
  | cons a l ih =>
    cases i with
    | zero =>
      simp only [List.set_cons_zero, bucket_at_cons_zero, keys_of, List.filterMap_cons]
      cases ha : a.m_storage with
      | none =>
        cases hb : b.m_storage with
        | none => simp
        | some y =>
          have h2 : (List.filterMap (fun b => b.m_storage) l ++ [y]).Perm
              (y :: List.filterMap (fun b => b.m_storage) l) := by simp
          simpa using h2.symm
      | some x =>
        cases hb : b.m_storage with
        | none => simp
        | some y =>
          simp only [Option.toList_some]
          have h1 : (List.filterMap (fun b => b.m_storage) l ++ [x]).Perm
              (x :: List.filterMap (fun b => b.m_storage) l) := by simp
          have h2 : (List.filterMap (fun b => b.m_storage) l ++ [y]).Perm
              (y :: List.filterMap (fun b => b.m_storage) l) := by simp
          exact ((List.Perm.cons y h1).trans (List.Perm.swap x y _)).trans
            (List.Perm.cons x h2).symm
    | succ n =>
      have hn : n < l.length := by simpa using hi
      have := ih n hn
      simp only [List.set_cons_succ, bucket_at_cons_succ, keys_of, List.filterMap_cons]
      unfold keys_of at this
      cases ha : a.m_storage with
      | none => simpa using this
      | some x => simpa using List.Perm.cons x this

theorem keys_of_update_at {T : Type} (l : List (hop_bucket T)) (i : Nat)
    (f : hop_bucket T → hop_bucket T) (hi : i < l.length) :
    (keys_of (update_at l i f) ++ (stor l i).toList).Perm
      (keys_of l ++ ((f (bucket_at l i)).m_storage).toList) :=
  keys_of_set l i (f (bucket_at l i)) hi

theorem keys_of_update_at_same {T : Type} (c : List (hop_bucket T)) (i : Nat)
    (f : hop_bucket T → hop_bucket T)
    (hf : (f (bucket_at c i)).m_storage = (bucket_at c i).m_storage) :
    (keys_of (update_at c i f)).Perm (keys_of c) := by
  by_cases hi : i < c.length
  · have := keys_of_update_at c i f hi
    rw [hf] at this
    exact (List.perm_append_right_iff _).1 this
  · unfold update_at
    rw [List.set_eq_of_length_le (by omega)]

theorem count_occ_eq_length {T : Type} (c : List (hop_bucket T))
    (h : ∀ j, occ c j = (stor c j).isSome) :
    c.countP hop_bucket.test_occupied = (keys_of c).length := by
  unfold keys_of
  rw [List.length_filterMap_eq_countP]
  apply List.countP_congr
  intro b hb
  obtain ⟨n, hn⟩ := List.mem_iff_getElem?.1 hb
  have := h n
  unfold occ stor bucket_at at this
  rw [List.getD_eq_getElem?_getD, hn] at this
  simp only [Option.getD_some] at this
  simp [this]

end containers

/-! ## Effect of the bucket updates on a container -/

section updates

theorem home_update_at {T : Type} (e : hop_env T) (c : List (hop_bucket T)) (i : Nat)
    (f : hop_bucket T → hop_bucket T) (x : T) :
    home e (update_at c i f) x = home e c x := by
  unfold home; rw [length_update_at]

theorem occ_of_ge {T : Type} (c : List (hop_bucket T)) (j : Nat) (h : c.length ≤ j) :
    occ c j = false := by
  unfold occ; rw [bucket_at_of_ge c j h]
  simp [hop_bucket.test_occupied, hop_bucket.empty]

theorem hop_of_ge {T : Type} (W : Nat) (c : List (hop_bucket T)) (j i : Nat)
    (h : c.length ≤ j) : hop W c j i = false := by
  unfold hop; rw [bucket_at_of_ge c j h]
  simp [hop_bucket.test, hop_bucket.empty]

theorem bucket_at_update_at_gen {T : Type} (c : List (hop_bucket T)) (i j : Nat)
    (f : hop_bucket T → hop_bucket T) :
    bucket_at (update_at c i f) j =
      if j = i ∧ i < c.length then f (bucket_at c i) else bucket_at c j := by
  by_cases hi : i < c.length
  · rw [bucket_at_update_at c i j f hi]
    simp [hi]
  · have : update_at c i f = c := by
      unfold update_at
      rw [List.set_eq_of_length_le (by omega)]
    rw [this]
    simp [hi]

theorem stor_update_at {T : Type} (c : List (hop_bucket T)) (i j : Nat)
    (f : hop_bucket T → hop_bucket T) :
    stor (update_at c i f) j =
      if j = i ∧ i < c.length then (f (bucket_at c i)).m_storage else stor c j := by
  unfold stor
  rw [bucket_at_update_at_gen]
  split <;> rfl

theorem occ_update_at {T : Type} (c : List (hop_bucket T)) (i j : Nat)
    (f : hop_bucket T → hop_bucket T) :
    occ (update_at c i f) j =
      if j = i ∧ i < c.length then (f (bucket_at c i)).test_occupied else occ c j := by
  unfold occ
  rw [bucket_at_update_at_gen]
  split <;> rfl

theorem hop_update_at {T : Type} (W : Nat) (c : List (hop_bucket T)) (i j k : Nat)
    (f : hop_bucket T → hop_bucket T) :
    hop W (update_at c i f) j k =
      if j = i ∧ i < c.length then (f (bucket_at c i)).test W k else hop W c j k := by
  unfold hop
  rw [bucket_at_update_at_gen]
  split <;> rfl

theorem stor_update_at_pres {T : Type} (c : List (hop_bucket T)) (i j : Nat)
    (f : hop_bucket T → hop_bucket T)
    (hf : (f (bucket_at c i)).m_storage = (bucket_at c i).m_storage) :
    stor (update_at c i f) j = stor c j := by
  rw [stor_update_at]
  split
  · rename_i h; rw [hf, h.1]; rfl
  · rfl

theorem occ_update_at_pres {T : Type} (c : List (hop_bucket T)) (i j : Nat)
    (f : hop_bucket T → hop_bucket T)
    (hf : (f (bucket_at c i)).test_occupied = (bucket_at c i).test_occupied) :
    occ (update_at c i f) j = occ c j := by
  rw [occ_update_at]
  split
  · rename_i h; rw [hf, h.1]; rfl
  · rfl

theorem hop_update_at_pres {T : Type} (W : Nat) (c : List (hop_bucket T)) (i j k : Nat)
    (f : hop_bucket T → hop_bucket T)
    (hf : (f (bucket_at c i)).test W k = (bucket_at c i).test W k) :
    hop W (update_at c i f) j k = hop W c j k := by
  rw [hop_update_at]
  split
  · rename_i h; rw [hf, h.1]; rfl
  · rfl

theorem bound_update_at {T : Type} (W : Nat) (c : List (hop_bucket T)) (i : Nat)
    (f : hop_bucket T → hop_bucket T)
    (h : ∀ j, (bucket_at c j).m_bitset < 2 ^ W)
    (hf : (f (bucket_at c i)).m_bitset < 2 ^ W) :
    ∀ j, (bucket_at (update_at c i f) j).m_bitset < 2 ^ W := by
  intro j
  rw [bucket_at_update_at_gen]
  split
  · exact hf
  · exact h j

end updates

/-! ## One displacement step -/

section move

theorem storage_toggle {T : Type} (W : Nat) (b : hop_bucket T) (k : Nat) :
    (b.toggle W k).m_storage = b.m_storage := rfl

theorem storage_set {T : Type} (W : Nat) (b : hop_bucket T) (k : Nat) :
    (b.set W k).m_storage = b.m_storage := rfl

theorem storage_toggle_occupied {T : Type} (b : hop_bucket T) :
    (b.toggle_occupied).m_storage = b.m_storage := rfl

theorem storage_set_occupied {T : Type} (b : hop_bucket T) :
    (b.set_occupied).m_storage = b.m_storage := rfl

theorem storage_destroy {T : Type} (b : hop_bucket T) :
    (b.destroy).m_storage = none := rfl

theorem storage_construct {T : Type} (b : hop_bucket T) (k : T) :
    (b.construct k).m_storage = some k := rfl

theorem storage_move_construct {T : Type} (b src : hop_bucket T) :
    (b.move_construct src).m_storage = src.m_storage := rfl

theorem occ_destroy {T : Type} (b : hop_bucket T) :
    (b.destroy).test_occupied = b.test_occupied := rfl

theorem occ_construct {T : Type} (b : hop_bucket T) (k : T) :
    (b.construct k).test_occupied = b.test_occupied := rfl

theorem occ_move_construct {T : Type} (b src : hop_bucket T) :
    (b.move_construct src).test_occupied = b.test_occupied := rfl

theorem test_destroy {T : Type} (W : Nat) (b : hop_bucket T) (i : Nat) :
    (b.destroy).test W i = b.test W i := rfl

theorem test_construct {T : Type} (W : Nat) (b : hop_bucket T) (k : T) (i : Nat) :
    (b.construct k).test W i = b.test W i := rfl

theorem test_move_construct {T : Type} (W : Nat) (b src : hop_bucket T) (i : Nat) :
    (b.move_construct src).test W i = b.test W i := rfl

theorem bitset_destroy {T : Type} (b : hop_bucket T) :
    (b.destroy).m_bitset = b.m_bitset := rfl

theorem bitset_construct {T : Type} (b : hop_bucket T) (k : T) :
    (b.construct k).m_bitset = b.m_bitset := rfl

theorem bitset_move_construct {T : Type} (b src : hop_bucket T) :
    (b.move_construct src).m_bitset = b.m_bitset := rfl

theorem bucket_at_storage {T : Type} (c : List (hop_bucket T)) (i : Nat) :
    (bucket_at c i).m_storage = stor c i := rfl

theorem bucket_at_occ {T : Type} (c : List (hop_bucket T)) (i : Nat) :
    (bucket_at c i).test_occupied = occ c i := rfl

theorem bucket_at_test {T : Type} (W : Nat) (c : List (hop_bucket T)) (i k : Nat) :
    (bucket_at c i).test W k = hop W c i k := rfl

theorem move_key_length {T : Type} (W : Nat) (c : List (hop_bucket T)) (a n o : Nat) :
    (move_key W c a n o).length = c.length := by
  simp [move_key, length_update_at]

theorem move_key_stor {T : Type} (W : Nat) (c : List (hop_bucket T)) (a n o j : Nat)
    (hn : n < c.length) (ho : o < c.length) (hno : n ≠ o) :
    stor (move_key W c a n o) j =
      if j = o then stor c n else if j = n then none else stor c j := by
  simp only [move_key, stor_update_at, length_update_at, storage_toggle,
    storage_toggle_occupied, storage_destroy, storage_move_construct, bucket_at_storage,
    hn, ho, and_true]
  by_cases h1 : j = o <;> by_cases h2 : j = n <;> by_cases h3 : j = a <;>
    by_cases h4 : a = n <;> by_cases h5 : a = o <;> by_cases h6 : o = n <;>
    simp_all

theorem move_key_occ {T : Type} (W : Nat) (c : List (hop_bucket T)) (a n o j : Nat)
    (hn : n < c.length) (ho : o < c.length) (hno : n ≠ o)
    (hna : n - a < hop_bucket.n_eff_bits W) (hoa : o - a < hop_bucket.n_eff_bits W) :
    occ (move_key W c a n o) j =
      if j = o then !occ c o else if j = n then !occ c n else occ c j := by
  simp only [move_key, occ_update_at, length_update_at, hb_occ_toggle W _ _ hoa,
    hb_occ_toggle W _ _ hna, hb_occ_toggle_occupied, occ_destroy, occ_move_construct,
    bucket_at_occ, hn, ho, and_true]
  by_cases h1 : j = o <;> by_cases h2 : j = n <;> by_cases h3 : j = a <;>
    by_cases h4 : a = n <;> by_cases h5 : a = o <;> by_cases h6 : o = n <;>
    simp_all

theorem hop_update_toggle {T : Type} (W : Nat) (c : List (hop_bucket T)) (a k h i : Nat)
    (ha : a < c.length) (hk : k < hop_bucket.n_eff_bits W)
    (hi : i < hop_bucket.n_eff_bits W) :
    hop W (update_at c a (fun b => b.toggle W k)) h i =
      if h = a ∧ i = k then !hop W c h i else hop W c h i := by
  rw [hop_update_at]
  simp only [ha, and_true, hb_test_toggle W _ _ _ hk hi, bucket_at_test]
  by_cases h1 : h = a
  · subst h1
    by_cases h2 : k = i
    · subst h2; simp
    · have : ¬ i = k := fun hh => h2 hh.symm
      simp [h2, this]
  · simp [h1]

theorem hop_update_set {T : Type} (W : Nat) (c : List (hop_bucket T)) (a k h i : Nat)
    (ha : a < c.length) (hk : k < hop_bucket.n_eff_bits W)
    (hi : i < hop_bucket.n_eff_bits W) :
    hop W (update_at c a (fun b => b.set W k)) h i =
      if h = a ∧ i = k then true else hop W c h i := by
  rw [hop_update_at]
  simp only [ha, and_true, hb_test_set W _ _ _ hk hi, bucket_at_test]
  by_cases h1 : h = a
  · subst h1
    by_cases h2 : k = i
    · subst h2; simp
    · have : ¬ i = k := fun hh => h2 hh.symm
      simp [h2, this]
  · simp [h1]

theorem move_key_hop {T : Type} (W : Nat) (c : List (hop_bucket T)) (a n o h i : Nat)
    (ha : a < c.length)
    (hna : n - a < hop_bucket.n_eff_bits W) (hoa : o - a < hop_bucket.n_eff_bits W)
    (hne : n - a ≠ o - a) (hi : i < hop_bucket.n_eff_bits W) :
    hop W (move_key W c a n o) h i =
      if h = a ∧ (i = n - a ∨ i = o - a) then !hop W c h i else hop W c h i := by
  simp only [move_key]
  rw [hop_update_toggle W _ a (o - a) h i (by simp [length_update_at, ha]) hoa hi,
    hop_update_toggle W _ a (n - a) h i (by simp [length_update_at, ha]) hna hi,
    hop_update_at_pres W _ n h i _ (hb_test_toggle_occupied W _ _ hi),
    hop_update_at_pres W _ o h i _ (hb_test_toggle_occupied W _ _ hi),
    hop_update_at_pres W _ n h i _ rfl,
    hop_update_at_pres W _ o h i _ rfl]
  by_cases h1 : h = a
  · by_cases h2 : i = n - a
    · have h3 : ¬ i = o - a := by omega
      simp [h1, h2, h3]
      omega
    · by_cases h3 : i = o - a
      · simp [h1, h3]
        omega
      · simp [h1, h2, h3]
  · simp [h1]

theorem move_key_bound {T : Type} (W : Nat) (c : List (hop_bucket T)) (a n o : Nat)
    (hna : n - a < hop_bucket.n_eff_bits W) (hoa : o - a < hop_bucket.n_eff_bits W)
    (h : ∀ j, (bucket_at c j).m_bitset < 2 ^ W) :
    ∀ j, (bucket_at (move_key W c a n o) j).m_bitset < 2 ^ W := by
  have hW := one_lt_two_pow_word W _ hna
  have b1 := bound_update_at W c o (fun b => b.move_construct (bucket_at c n)) h (h o)
  have b2 := bound_update_at W _ n hop_bucket.destroy b1 (b1 n)
  have b3 := bound_update_at W _ o hop_bucket.toggle_occupied b2
    (hb_bound_toggle_occupied W _ hW (b2 o))
  have b4 := bound_update_at W _ n hop_bucket.toggle_occupied b3
    (hb_bound_toggle_occupied W _ hW (b3 n))
  have b5 := bound_update_at W _ a (fun b => b.toggle W (n - a)) b4
    (hb_bound_toggle W _ _ hna (b4 a))
  exact bound_update_at W _ a (fun b => b.toggle W (o - a)) b5
    (hb_bound_toggle W _ _ hoa (b5 a))

theorem move_key_keys {T : Type} (W : Nat) (c : List (hop_bucket T)) (a n o : Nat) (x : T)
    (hn : n < c.length) (ho : o < c.length) (hno : n ≠ o)
    (hso : stor c o = none) (hsn : stor c n = some x) :
    (keys_of (move_key W c a n o)).Perm (keys_of c) := by
  have p1 := keys_of_update_at c o (fun b => b.move_construct (bucket_at c n)) ho
  simp only [hso, Option.toList_none, List.append_nil, storage_move_construct,
    bucket_at_storage, hsn, Option.toList_some] at p1
  have hn1 : n < (update_at c o (fun b => b.move_construct (bucket_at c n))).length := by
    rw [length_update_at]; exact hn
  have p2 := keys_of_update_at _ n hop_bucket.destroy hn1
  have hs1 : stor (update_at c o (fun b => b.move_construct (bucket_at c n))) n = some x := by
    rw [stor_update_at]
    simp [hno, hsn]
  simp only [hs1, storage_destroy, Option.toList_some, Option.toList_none,
    List.append_nil] at p2
  have p3 : (keys_of (update_at (update_at c o
      (fun b => b.move_construct (bucket_at c n))) n hop_bucket.destroy)).Perm (keys_of c) :=
    (List.perm_append_right_iff [x]).1 (p2.trans p1)
  have p4 := keys_of_update_at_same (update_at (update_at c o
      (fun b => b.move_construct (bucket_at c n))) n hop_bucket.destroy) o
      hop_bucket.toggle_occupied rfl
  have p5 := keys_of_update_at_same (update_at (update_at (update_at c o
      (fun b => b.move_construct (bucket_at c n))) n hop_bucket.destroy) o
      hop_bucket.toggle_occupied) n hop_bucket.toggle_occupied rfl
  have p6 := keys_of_update_at_same (update_at (update_at (update_at (update_at c o
      (fun b => b.move_construct (bucket_at c n))) n hop_bucket.destroy) o
      hop_bucket.toggle_occupied) n hop_bucket.toggle_occupied) a
      (fun b => b.toggle W (n - a)) rfl
  have p7 := keys_of_update_at_same (update_at (update_at (update_at (update_at (update_at c o
      (fun b => b.move_construct (bucket_at c n))) n hop_bucket.destroy) o
      hop_bucket.toggle_occupied) n hop_bucket.toggle_occupied) a
      (fun b => b.toggle W (n - a))) a (fun b => b.toggle W (o - a)) rfl
  exact p7.trans (p6.trans (p5.trans (p4.trans p3)))

theorem key_ne_symm {T : Type} (e : hop_env T) (hl : e.lawful) (x y : T)
    (h : e.m_key_equal x y = false) : e.m_key_equal y x = false := by
  cases hyx : e.m_key_equal y x
  · rfl
  · have := hl.eq_symm y x hyx
    rw [h] at this
    cases this

theorem distinct_perm {T : Type} (e : hop_env T) (hl : e.lawful) (l1 l2 : List T)
    (hp : l1.Perm l2) (h : l1.Pairwise (fun x y => e.m_key_equal x y = false)) :
    l2.Pairwise (fun x y => e.m_key_equal x y = false) :=
  (List.Perm.pairwise_iff (fun {x y} hxy => key_ne_symm e hl x y hxy) hp).1 h

theorem hop_lt_length {T : Type} (W : Nat) (c : List (hop_bucket T)) (h i : Nat)
    (hh : hop W c h i = true) : h < c.length := by
  by_contra hc
  rw [hop_of_ge W c h i (by omega)] at hh
  cases hh

theorem move_key_inv {T : Type} (e : hop_env T) (hl : e.lawful) (c : List (hop_bucket T))
    (a n o : Nat) (hinv : container_inv e c) (ho : o < c.length) (hso : stor c o = none)
    (han : a ≤ n) (hno : n < o) (hoa : o - a < hop_bucket.n_eff_bits e.nbits)
    (hhop : hop e.nbits c a (n - a) = true) :
    container_inv e (move_key e.nbits c a n o) := by
  have hna : n - a < hop_bucket.n_eff_bits e.nbits := by omega
  have ha : a < c.length := hop_lt_length _ _ _ _ hhop
  obtain ⟨x, hx, hxh⟩ := hinv.hop_key a (n - a) hna hhop
  have hanEq : a + (n - a) = n := by omega
  rw [hanEq] at hx
  have hn : n < c.length := stor_lt c n x hx
  have hne : n ≠ o := by omega
  have hne2 : n - a ≠ o - a := by omega
  have hoo : occ c o = false := by rw [hinv.occ_stor, hso]; rfl
  have hon : occ c n = true := by rw [hinv.occ_stor, hx]; rfl
  have hhopo : hop e.nbits c a (o - a) = false := by
    cases hh : hop e.nbits c a (o - a)
    · rfl
    · obtain ⟨y, hy, _⟩ := hinv.hop_key a (o - a) hoa hh
      have : a + (o - a) = o := by omega
      rw [this, hso] at hy
      cases hy
  have hhome : ∀ y, home e (move_key e.nbits c a n o) y = home e c y := by
    intro y; unfold home; rw [move_key_length]
  constructor
  · exact move_key_bound e.nbits c a n o hna hoa hinv.bound
  · intro j
    rw [move_key_occ e.nbits c a n o j hn ho hne hna hoa, move_key_stor e.nbits c a n o j hn ho hne]
    by_cases h1 : j = o
    · simp [h1, hoo, hx]
    · by_cases h2 : j = n
      · subst h2; simp [h1, hon]
      · simp [h1, h2, hinv.occ_stor j]
  · intro j y hy
    rw [move_key_stor e.nbits c a n o j hn ho hne] at hy
    rw [hhome]
    by_cases h1 : j = o
    · simp only [h1, if_true] at hy
      rw [hx] at hy
      cases hy
      rw [hxh, h1]
      refine ⟨by omega, by omega, ?_⟩
      rw [move_key_hop e.nbits c a n o a (o - a) ha hna hoa hne2 hoa]
      simp [hhopo]
    · by_cases h2 : j = n
      · subst h2; simp [h1] at hy
      · simp only [h1, h2, if_false] at hy
        obtain ⟨k1, k2, k3⟩ := hinv.key_home j y hy
        refine ⟨k1, k2, ?_⟩
        rw [move_key_hop e.nbits c a n o _ _ ha hna hoa hne2 (by omega)]
        have : ¬ (home e c y = a ∧ (j - home e c y = n - a ∨ j - home e c y = o - a)) := by
          rintro ⟨q1, q2⟩
          omega
        simp only [this, if_false]
        exact k3
  · intro h i hi hh
    rw [move_key_hop e.nbits c a n o h i ha hna hoa hne2 hi] at hh
    rw [move_key_stor e.nbits c a n o _ hn ho hne]
    by_cases h1 : h = a ∧ (i = n - a ∨ i = o - a)
    · rw [if_pos h1] at hh
      obtain ⟨q1, q2⟩ := h1
      rcases q2 with q2 | q2
      · rw [q1, q2, hhop] at hh
        cases hh
      · have : h + i = o := by omega
        refine ⟨x, ?_, ?_⟩
        · simp [this, hx]
        · rw [hhome, hxh, q1]
    · rw [if_neg h1] at hh
      obtain ⟨y, hy, hyh⟩ := hinv.hop_key h i hi hh
      have k1 : h + i ≠ o := by
        intro hc; rw [hc, hso] at hy; cases hy
      have k2 : h + i ≠ n := by
        intro hc
        rw [hc, hx] at hy
        cases hy
        apply h1
        rw [hxh] at hyh
        exact ⟨hyh.symm, Or.inl (by omega)⟩
      refine ⟨y, ?_, ?_⟩
      · simp [k1, k2, hy]
      · rw [hhome]; exact hyh
  · exact distinct_perm e hl _ _ (move_key_keys e.nbits c a n o x hn ho hne hso hx).symm
      hinv.distinct

end move

/-! ## Placement of a new key -/

section place

theorem place_key_length {T : Type} (W : Nat) (c : List (hop_bucket T)) (b j : Nat) (k : T) :
    (place_key W c b j k).length = c.length := by
  simp [place_key, length_update_at]

theorem place_key_stor {T : Type} (W : Nat) (c : List (hop_bucket T)) (b j i : Nat) (k : T)
    (hj : j < c.length) :
    stor (place_key W c b j k) i = if i = j then some k else stor c i := by
  simp only [place_key]
  rw [stor_update_at_pres _ b i _ rfl, stor_update_at_pres _ j i _ rfl, stor_update_at]
  simp [hj, storage_construct]

theorem place_key_occ {T : Type} (W : Nat) (c : List (hop_bucket T)) (b j i : Nat) (k : T)
    (hj : j < c.length) (hjb : j - b < hop_bucket.n_eff_bits W) :
    occ (place_key W c b j k) i = if i = j then true else occ c i := by
  simp only [place_key]
  rw [occ_update_at_pres _ b i _ (hb_occ_set W _ _ hjb), occ_update_at,
    occ_update_at_pres _ j i _ rfl]
  simp [hj, length_update_at, hb_occ_set_occupied]

theorem place_key_hop {T : Type} (W : Nat) (c : List (hop_bucket T)) (b j h i : Nat) (k : T)
    (hb : b < c.length) (hjb : j - b < hop_bucket.n_eff_bits W)
    (hi : i < hop_bucket.n_eff_bits W) :
    hop W (place_key W c b j k) h i =
      if h = b ∧ i = j - b then true else hop W c h i := by
  simp only [place_key]
  rw [hop_update_set W _ b (j - b) h i (by simp [length_update_at, hb]) hjb hi,
    hop_update_at_pres W _ j h i _ (hb_test_set_occupied W _ _ hi),
    hop_update_at_pres W _ j h i _ rfl]

theorem place_key_bound {T : Type} (W : Nat) (c : List (hop_bucket T)) (b j : Nat) (k : T)
    (hjb : j - b < hop_bucket.n_eff_bits W)
    (h : ∀ i, (bucket_at c i).m_bitset < 2 ^ W) :
    ∀ i, (bucket_at (place_key W c b j k) i).m_bitset < 2 ^ W := by
  have hW := one_lt_two_pow_word W _ hjb
  have b1 := bound_update_at W c j (fun b => b.construct k) h (h j)
  have b2 := bound_update_at W _ j hop_bucket.set_occupied b1
    (hb_bound_set_occupied W _ hW (b1 j))
  exact bound_update_at W _ b (fun bk => bk.set W (j - b)) b2
    (hb_bound_set W _ _ hjb (b2 b))

theorem place_key_keys {T : Type} (W : Nat) (c : List (hop_bucket T)) (b j : Nat) (k : T)
    (hj : j < c.length) (hs : stor c j = none) :
    (keys_of (place_key W c b j k)).Perm (k :: keys_of c) := by
  have p1 := keys_of_update_at c j (fun b => b.construct k) hj
  simp only [hs, Option.toList_none, List.append_nil, storage_construct,
    Option.toList_some] at p1
  have p2 := keys_of_update_at_same (update_at c j (fun b => b.construct k)) j
    hop_bucket.set_occupied rfl
  have p3 := keys_of_update_at_same (update_at (update_at c j (fun b => b.construct k)) j
    hop_bucket.set_occupied) b (fun bk => bk.set W (j - b)) rfl
  have p4 : (keys_of c ++ [k]).Perm (k :: keys_of c) := by simp
  exact p3.trans (p2.trans (p1.trans p4))

theorem place_key_inv {T : Type} (e : hop_env T) (hl : e.lawful) (c : List (hop_bucket T))
    (b j : Nat) (k : T) (hinv : container_inv e c) (hj : j < c.length)
    (hs : stor c j = none) (hbj : b ≤ j) (hjb : j - b < hop_bucket.n_eff_bits e.nbits)
    (hk : home e c k = b)
    (hnew : ∀ x, x ∈ keys_of c → e.m_key_equal x k = false) :
    container_inv e (place_key e.nbits c b j k) := by
  have hb : b < c.length := by omega
  have hhome : ∀ y, home e (place_key e.nbits c b j k) y = home e c y := by
    intro y; unfold home; rw [place_key_length]
  constructor
  · exact place_key_bound e.nbits c b j k hjb hinv.bound
  · intro i
    rw [place_key_occ e.nbits c b j i k hj hjb, place_key_stor e.nbits c b j i k hj]
    by_cases h1 : i = j
    · simp [h1]
    · simp [h1, hinv.occ_stor i]
  · intro i y hy
    rw [place_key_stor e.nbits c b j i k hj] at hy
    rw [hhome]
    by_cases h1 : i = j
    · rw [if_pos h1] at hy
      cases hy
      rw [hk, h1]
      refine ⟨hbj, by omega, ?_⟩
      rw [place_key_hop e.nbits c b j b (j - b) k hb hjb hjb]
      simp
    · rw [if_neg h1] at hy
      obtain ⟨k1, k2, k3⟩ := hinv.key_home i y hy
      refine ⟨k1, k2, ?_⟩
      rw [place_key_hop e.nbits c b j _ _ k hb hjb (by omega)]
      split
      · rfl
      · exact k3
  · intro h i hi hh
    rw [place_key_hop e.nbits c b j h i k hb hjb hi] at hh
    rw [place_key_stor e.nbits c b j _ k hj]
    by_cases h1 : h = b ∧ i = j - b
    · obtain ⟨q1, q2⟩ := h1
      have : h + i = j := by omega
      refine ⟨k, by simp [this], ?_⟩
      rw [hhome, hk, q1]
    · rw [if_neg h1] at hh
      obtain ⟨y, hy, hyh⟩ := hinv.hop_key h i hi hh
      have k1 : h + i ≠ j := by
        intro hc; rw [hc, hs] at hy; cases hy
      refine ⟨y, by simp [k1, hy], ?_⟩
      rw [hhome]; exact hyh
  · apply distinct_perm e hl _ _ (place_key_keys e.nbits c b j k hj hs).symm
    rw [List.pairwise_cons]
    refine ⟨?_, hinv.distinct⟩
    intro x hx
    exact key_ne_symm e hl x k (hnew x hx)

end place

/-! ## The loops of `_unique_insert` -/

section loops

theorem linear_probe_spec {T : Type} (c : List (hop_bucket T)) :
    ∀ (fuel alt : Nat), alt + fuel = c.length →
      alt ≤ linear_probe c fuel alt ∧ linear_probe c fuel alt ≤ c.length ∧
      (linear_probe c fuel alt < c.length → occ c (linear_probe c fuel alt) = false) := by
  intro fuel
  induction fuel with
  | zero =>
    intro alt h
    simp only [linear_probe]
    refine ⟨Nat.le_refl _, by omega, fun hh => by omega⟩
  | succ f ih =>
    intro alt h
    simp only [linear_probe]
    have hlt : alt < c.length := by omega
    simp only [hlt, if_true]
    by_cases ho : (bucket_at c alt).test_occupied = true
    · simp only [ho, Bool.not_true, Bool.false_eq_true, if_false]
      obtain ⟨h1, h2, h3⟩ := ih (alt + 1) (by omega)
      exact ⟨by omega, h2, h3⟩
    · have ho2 : (bucket_at c alt).test_occupied = false := by
        cases hh : (bucket_at c alt).test_occupied
        · rfl
        · exact absurd hh ho
      simp only [ho2, Bool.not_false, if_true]
      exact ⟨Nat.le_refl _, by omega, fun _ => ho2⟩

theorem find_candidate_spec {T : Type} (c : List (hop_bucket T)) (orig : Nat) :
    ∀ (fuel alt : Nat) (mbp : Int), alt + fuel = orig →
      alt ≤ (find_candidate c orig fuel alt mbp
        (mf_int_traits.msb (bucket_at c alt).m_bitset)).1 ∧
      (find_candidate c orig fuel alt mbp
        (mf_int_traits.msb (bucket_at c alt).m_bitset)).1 ≤ orig ∧
      (find_candidate c orig fuel alt mbp
        (mf_int_traits.msb (bucket_at c alt).m_bitset)).2 =
        mf_int_traits.msb (bucket_at c (find_candidate c orig fuel alt mbp
          (mf_int_traits.msb (bucket_at c alt).m_bitset)).1).m_bitset ∧
      ((find_candidate c orig fuel alt mbp
        (mf_int_traits.msb (bucket_at c alt).m_bitset)).1 ≠ orig →
        mbp + (((find_candidate c orig fuel alt mbp
          (mf_int_traits.msb (bucket_at c alt).m_bitset)).1 : Int) - (alt : Int)) ≤
        (find_candidate c orig fuel alt mbp
          (mf_int_traits.msb (bucket_at c alt).m_bitset)).2) := by
  intro fuel
  induction fuel with
  | zero =>
    intro alt mbp h
    unfold find_candidate
    refine ⟨Nat.le_refl _, by omega, rfl, fun hh => absurd (by omega) hh⟩
  | succ f ih =>
    intro alt mbp h
    unfold find_candidate
    by_cases hc : mf_int_traits.msb (bucket_at c alt).m_bitset < mbp ∧ alt < orig
    · rw [if_pos hc]
      obtain ⟨h1, h2, h3, h4⟩ := ih (alt + 1) (mbp + 1) (by omega)
      refine ⟨by omega, h2, h3, ?_⟩
      intro hne
      have := h4 hne
      push_cast at this
      omega
    · rw [if_neg hc]
      refine ⟨Nat.le_refl _, by omega, rfl, ?_⟩
      intro hne
      have hlt : alt < orig := by omega
      have : ¬ mf_int_traits.msb (bucket_at c alt).m_bitset < mbp := fun hh => hc ⟨hh, hlt⟩
      simp only [sub_self, add_zero]
      omega

theorem displace_spec {T : Type} (e : hop_env T) (hl : e.lawful) (b : Nat) :
    ∀ (fuel : Nat) (c : List (hop_bucket T)) (alt : Nat),
      container_inv e c → alt < c.length → stor c alt = none → b < alt → alt ≤ fuel →
      container_inv e (displace e.nbits b fuel c alt).1 ∧
      (displace e.nbits b fuel c alt).1.length = c.length ∧
      (keys_of (displace e.nbits b fuel c alt).1).Perm (keys_of c) ∧
      (∀ j, (displace e.nbits b fuel c alt).2 = some j →
        j < c.length ∧ stor (displace e.nbits b fuel c alt).1 j = none ∧ b < j ∧
        j - b < hop_bucket.n_eff_bits e.nbits) := by
  intro fuel
  induction fuel with
  | zero =>
    intro c alt _ _ _ hb hf
    omega
  | succ f ih =>
    intro c alt hinv halt hs hb hf
    unfold displace
    by_cases hc : alt - b ≥ hop_bucket.n_eff_bits e.nbits
    · rw [if_pos hc]
      simp only []
      have hH : 1 ≤ hop_bucket.n_eff_bits e.nbits := by
        have := hl.nbits_ge
        unfold hop_bucket.n_eff_bits; omega
      have hms : hop_bucket.max_shift e.nbits = hop_bucket.n_eff_bits e.nbits - 1 := rfl
      obtain ⟨h1, h2, h3, h4⟩ := find_candidate_spec c alt
        (alt - (alt - hop_bucket.max_shift e.nbits)) (alt - hop_bucket.max_shift e.nbits) 2
        (by omega)
      generalize hr : find_candidate c alt (alt - (alt - hop_bucket.max_shift e.nbits))
        (alt - hop_bucket.max_shift e.nbits) 2
        (mf_int_traits.msb (bucket_at c (alt - hop_bucket.max_shift e.nbits)).m_bitset) = r
        at h1 h2 h3 h4
      by_cases hfail : r.1 = alt
      · rw [if_pos hfail]
        refine ⟨hinv, rfl, List.Perm.refl _, ?_⟩
        intro j hj
        cases hj
      · rw [if_neg hfail]
        have h5 := h4 hfail
        have hm0 : 0 ≤ mf_int_traits.msb (bucket_at c r.1).m_bitset := by
          rw [← h3]; omega
        obtain ⟨m1, m2, m3⟩ := msb_spec e.nbits _ (hinv.bound r.1) hm0
        rw [← h3] at m1 m2
        have hnb : hop_bucket.n_eff_bits e.nbits = e.nbits - 1 := rfl
        have hp2 : 2 + (r.1 - (alt - hop_bucket.max_shift e.nbits)) ≤ r.2.toNat := by omega
        have hoff : hop_bucket.max_shift e.nbits - (r.2 - 1).toNat =
            hop_bucket.n_eff_bits e.nbits - r.2.toNat := by omega
        have hhop : hop e.nbits c r.1
            (hop_bucket.n_eff_bits e.nbits - r.2.toNat) = true := by
          unfold hop
          rw [hb_test_eq e.nbits _ _ (by omega)]
          have : hop_bucket.n_eff_bits e.nbits -
              (hop_bucket.n_eff_bits e.nbits - r.2.toNat) = r.2.toNat := by omega
          rw [this]
          exact m1
        rw [hoff]
        have hmv := move_key_inv e hl c r.1
          (r.1 + (hop_bucket.n_eff_bits e.nbits - r.2.toNat)) alt hinv halt hs (by omega)
          (by omega) (by omega)
          (by rw [Nat.add_sub_cancel_left]; exact hhop)
        have hx : ∃ x, stor c (r.1 + (hop_bucket.n_eff_bits e.nbits - r.2.toNat)) = some x := by
          obtain ⟨x, hx, _⟩ := hinv.hop_key r.1 _ (by omega) hhop
          exact ⟨x, hx⟩
        obtain ⟨x, hx⟩ := hx
        have hn := stor_lt c _ x hx
        have hne : r.1 + (hop_bucket.n_eff_bits e.nbits - r.2.toNat) ≠ alt := by omega
        have hlen := move_key_length e.nbits c r.1
          (r.1 + (hop_bucket.n_eff_bits e.nbits - r.2.toNat)) alt
        have hsn : stor (move_key e.nbits c r.1
            (r.1 + (hop_bucket.n_eff_bits e.nbits - r.2.toNat)) alt)
            (r.1 + (hop_bucket.n_eff_bits e.nbits - r.2.toNat)) = none := by
          rw [move_key_stor e.nbits c _ _ _ _ hn halt hne]
          simp [hne]
        obtain ⟨i1, i2, i3, i4⟩ := ih _ (r.1 + (hop_bucket.n_eff_bits e.nbits - r.2.toNat))
          hmv (by rw [hlen]; exact hn) hsn (by omega) (by omega)
        refine ⟨i1, by rw [i2, hlen], ?_, ?_⟩
        · exact i3.trans (move_key_keys e.nbits c _ _ _ x hn halt hne hs hx)
        · intro j hj
          obtain ⟨j1, j2, j3, j4⟩ := i4 j hj
          exact ⟨by rw [hlen] at j1; exact j1, j2, j3, j4⟩
    · rw [if_neg hc]
      refine ⟨hinv, rfl, List.Perm.refl _, ?_⟩
      intro j hj
      cases hj
      exact ⟨halt, hs, hb, by omega⟩

end loops

/-! ## `_unique_insert` and `find` -/

section unique_insert

theorem unique_insert_spec {T : Type} (e : hop_env T) (hl : e.lawful) (t : hop_table T)
    (k : T) (hinv : container_inv e t.m_container)
    (hnew : ∀ x, x ∈ keys_of t.m_container → e.m_key_equal x k = false) :
    (t._unique_insert e k (t.bucket_impl e k)).1.m_n_elements = t.m_n_elements ∧
    (t._unique_insert e k (t.bucket_impl e k)).1.m_container.length = t.m_container.length ∧
    container_inv e (t._unique_insert e k (t.bucket_impl e k)).1.m_container ∧
    ((t._unique_insert e k (t.bucket_impl e k)).2 = none →
      (keys_of (t._unique_insert e k (t.bucket_impl e k)).1.m_container).Perm
        (keys_of t.m_container)) ∧
    (∀ j, (t._unique_insert e k (t.bucket_impl e k)).2 = some j →
      (keys_of (t._unique_insert e k (t.bucket_impl e k)).1.m_container).Perm
        (k :: keys_of t.m_container) ∧
      stor (t._unique_insert e k (t.bucket_impl e k)).1.m_container j = some k ∧
      j < t.m_container.length) := by
  have hH : 1 ≤ hop_bucket.n_eff_bits e.nbits := by
    have := hl.nbits_ge
    unfold hop_bucket.n_eff_bits; omega
  unfold hop_table._unique_insert
  simp only []
  by_cases h0 : t.m_container.length = 0
  · rw [if_pos h0]
    refine ⟨rfl, rfl, hinv, fun _ => List.Perm.refl _, ?_⟩
    intro j hj; cases hj
  · rw [if_neg h0]
    have hb : t.bucket_impl e k < t.m_container.length := by
      unfold hop_table.bucket_impl
      exact Nat.mod_lt _ (by omega)
    have hhome : home e t.m_container k = t.bucket_impl e k := rfl
    by_cases ho : (bucket_at t.m_container (t.bucket_impl e k)).test_occupied = true
    · simp only [ho, Bool.not_true, Bool.false_eq_true, if_false]
      obtain ⟨p1, p2, p3⟩ := linear_probe_spec t.m_container
        (t.m_container.length - (t.bucket_impl e k + 1)) (t.bucket_impl e k + 1) (by omega)
      generalize linear_probe t.m_container
        (t.m_container.length - (t.bucket_impl e k + 1)) (t.bucket_impl e k + 1) = alt
        at p1 p2 p3
      by_cases hend : alt = t.m_container.length
      · rw [if_pos hend]
        refine ⟨rfl, rfl, hinv, fun _ => List.Perm.refl _, ?_⟩
        intro j hj; cases hj
      · rw [if_neg hend]
        have halt : alt < t.m_container.length := by omega
        have hso : stor t.m_container alt = none := by
          have h1 := hinv.occ_stor alt
          rw [p3 halt] at h1
          cases hs : stor t.m_container alt
          · rfl
          · rw [hs] at h1; cases h1
        obtain ⟨d1, d2, d3, d4⟩ := displace_spec e hl (t.bucket_impl e k) alt t.m_container
          alt hinv halt hso (by omega) (Nat.le_refl _)
        generalize displace e.nbits (t.bucket_impl e k) alt t.m_container alt = r
          at d1 d2 d3 d4
        obtain ⟨c0, res⟩ := r
        cases res with
        | none =>
          simp only []
          refine ⟨trivial, d2, d1, fun _ => d3, ?_⟩
          intro j hj; cases hj
        | some j =>
          simp only []
          obtain ⟨j1, j2, j3, j4⟩ := d4 j rfl
          simp only [] at d1 d2 d3 j2
          have hjl : j < c0.length := by rw [d2]; exact j1
          have hk0 : home e c0 k = t.bucket_impl e k := by
            unfold home hop_table.bucket_impl; rw [d2]
          have hnew0 : ∀ x, x ∈ keys_of c0 → e.m_key_equal x k = false :=
            fun x hx => hnew x (d3.mem_iff.1 hx)
          refine ⟨trivial, ?_, ?_, ?_, ?_⟩
          · rw [place_key_length, d2]
          · exact place_key_inv e hl c0 _ j k d1 hjl j2 (by omega) j4 hk0 hnew0
          · intro hc; cases hc
          · intro j' hj'
            cases hj'
            refine ⟨?_, ?_, j1⟩
            · exact (place_key_keys e.nbits c0 _ j k hjl j2).trans (List.Perm.cons k d3)
            · rw [place_key_stor e.nbits c0 _ j j k hjl]; simp
    · have ho2 : (bucket_at t.m_container (t.bucket_impl e k)).test_occupied = false := by
        cases hh : (bucket_at t.m_container (t.bucket_impl e k)).test_occupied
        · rfl
        · exact absurd hh ho
      simp only [ho2, Bool.not_false, if_true]
      have hso : stor t.m_container (t.bucket_impl e k) = none := by
        have h1 := hinv.occ_stor (t.bucket_impl e k)
        unfold occ at h1
        rw [ho2] at h1
        cases hs : stor t.m_container (t.bucket_impl e k)
        · rfl
        · rw [hs] at h1; cases h1
      have heq : update_at (update_at (update_at t.m_container (t.bucket_impl e k)
          (fun b => b.construct k)) (t.bucket_impl e k) hop_bucket.set_occupied)
          (t.bucket_impl e k) (fun b => b.set e.nbits 0) =
          place_key e.nbits t.m_container (t.bucket_impl e k) (t.bucket_impl e k) k := by
        simp [place_key]
      rw [heq]
      refine ⟨trivial, ?_, ?_, ?_, ?_⟩
      · rw [place_key_length]
      · exact place_key_inv e hl t.m_container _ _ k hinv hb hso (Nat.le_refl _)
          (by omega) hhome hnew
      · intro hc; cases hc
      · intro j' hj'
        cases hj'
        refine ⟨?_, ?_, hb⟩
        · exact place_key_keys e.nbits t.m_container _ _ k hb hso
        · rw [place_key_stor e.nbits t.m_container _ _ _ k hb]; simp

theorem find_loop_spec {T : Type} (e : hop_env T) (c : List (hop_bucket T)) (k : T)
    (b : hop_bucket T) (h : Nat) :
    ∀ (fuel i : Nat), i + fuel = hop_bucket.n_eff_bits e.nbits →
      (find_loop e c k b fuel i (h + i) = c.length ∧
        ∀ i1, i ≤ i1 → i1 < hop_bucket.n_eff_bits e.nbits → h + i1 < c.length →
          (b.test e.nbits i1 && key_matches e c (h + i1) k) = false) ∨
      (∃ i1, i ≤ i1 ∧ i1 < hop_bucket.n_eff_bits e.nbits ∧
        find_loop e c k b fuel i (h + i) = h + i1 ∧ h + i1 < c.length ∧
        b.test e.nbits i1 = true ∧ key_matches e c (h + i1) k = true) := by
  intro fuel
  induction fuel with
  | zero =>
    intro i hi
    left
    unfold find_loop
    refine ⟨rfl, ?_⟩
    intro i1 h1 h2 _
    omega
  | succ f ih =>
    intro i hi
    unfold find_loop
    by_cases hend : h + i = c.length
    · rw [if_pos hend]
      left
      refine ⟨rfl, ?_⟩
      intro i1 h1 _ h3
      omega
    · rw [if_neg hend]
      by_cases hm : (b.test e.nbits i && key_matches e c (h + i) k) = true
      · rw [if_pos hm]
        right
        have hm2 := hm
        rw [Bool.and_eq_true] at hm2
        by_cases hlt : h + i < c.length
        · exact ⟨i, Nat.le_refl _, by omega, rfl, hlt, hm2.1, hm2.2⟩
        · exfalso
          have hk := hm2.2
          unfold key_matches at hk
          rw [bucket_at_of_ge c (h + i) (by omega)] at hk
          simp [hop_bucket.empty] at hk
      · rw [if_neg hm]
        have hm2 : (b.test e.nbits i && key_matches e c (h + i) k) = false := by
          cases hh : (b.test e.nbits i && key_matches e c (h + i) k)
          · rfl
          · exact absurd hh hm
        rcases ih (i + 1) (by omega) with ⟨r1, r2⟩ | ⟨i1, r1, r2, r3, r4, r5, r6⟩
        · left
          refine ⟨r1, ?_⟩
          intro i1 h1 h2 h3
          by_cases hi1 : i1 = i
          · rw [hi1]; exact hm2
          · exact r2 i1 (by omega) h2 h3
        · right
          exact ⟨i1, by omega, r2, r3, r4, r5, r6⟩

theorem key_matches_iff {T : Type} (e : hop_env T) (c : List (hop_bucket T)) (j : Nat)
    (k : T) : key_matches e c j k = true ↔ ∃ x, stor c j = some x ∧ e.m_key_equal x k = true := by
  unfold key_matches stor
  cases (bucket_at c j).m_storage with
  | none => simp
  | some x => simp

/-- A successful `find`: the returned position holds a key equal to the argument. -/
theorem find_found {T : Type} (e : hop_env T) (t : hop_table T) (k : T)
    (h : t.find e k ≠ t.end) :
    t.find e k < t.m_container.length ∧
    ∃ x, stor t.m_container (t.find e k) = some x ∧ e.m_key_equal x k = true := by
  unfold hop_table.find at *
  by_cases h0 : t.m_container.length = 0
  · rw [if_pos h0] at h; exact absurd rfl h
  · rw [if_neg h0] at h ⊢
    unfold hop_table.find_impl at *
    simp only [] at h ⊢
    by_cases hn : (bucket_at t.m_container (t.bucket_impl e k)).none = true
    · rw [if_pos hn] at h; exact absurd rfl h
    · rw [if_neg hn] at h ⊢
      have := find_loop_spec e t.m_container k (bucket_at t.m_container (t.bucket_impl e k))
        (t.bucket_impl e k) (hop_bucket.n_eff_bits e.nbits) 0 (by omega)
      simp only [Nat.add_zero] at this
      rcases this with ⟨r1, _⟩ | ⟨i1, _, _, r3, r4, _, r6⟩
      · exact absurd r1 h
      · rw [r3]
        exact ⟨r4, (key_matches_iff e _ _ k).1 r6⟩

/-- A failed `find`: on a container satisfying the invariants no stored key is equal to the
argument. -/
theorem find_end {T : Type} (e : hop_env T) (hl : e.lawful) (t : hop_table T) (k : T)
    (hinv : container_inv e t.m_container) (h : t.find e k = t.end) :
    ∀ x, x ∈ keys_of t.m_container → e.m_key_equal x k = false := by
  intro x hx
  obtain ⟨j, hj⟩ := (mem_keys_of _ x).1 hx
  have hjl := stor_lt _ j x hj
  cases hxk : e.m_key_equal x k
  · rfl
  · exfalso
    obtain ⟨k1, k2, k3⟩ := hinv.key_home j x hj
    have hh : home e t.m_container x = t.bucket_impl e k := by
      unfold home hop_table.bucket_impl
      rw [hl.hash_eq x k hxk]
    rw [hh] at k1 k2 k3
    unfold hop_table.find at h
    have h0 : ¬ t.m_container.length = 0 := by omega
    rw [if_neg h0] at h
    unfold hop_table.find_impl at h
    simp only [] at h
    by_cases hn : (bucket_at t.m_container (t.bucket_impl e k)).none = true
    · have := hb_none_test e.nbits _ (j - t.bucket_impl e k) (by omega) hn
      unfold hop at k3
      rw [this] at k3
      cases k3
    · rw [if_neg hn] at h
      have := find_loop_spec e t.m_container k (bucket_at t.m_container (t.bucket_impl e k))
        (t.bucket_impl e k) (hop_bucket.n_eff_bits e.nbits) 0 (by omega)
      simp only [Nat.add_zero] at this
      rcases this with ⟨_, r2⟩ | ⟨i1, _, _, r3, r4, _, _⟩
      · have h2 := r2 (j - t.bucket_impl e k) (Nat.zero_le _) (by omega) (by omega)
        have hjj : t.bucket_impl e k + (j - t.bucket_impl e k) = j := by omega
        rw [hjj] at h2
        have hm : key_matches e t.m_container j k = true :=
          (key_matches_iff e _ _ k).2 ⟨x, hj, hxk⟩
        unfold hop at k3
        rw [k3, hm] at h2
        cases h2
      · rw [r3] at h
        unfold hop_table.end at h
        omega

end unique_insert

/-! ## `erase` -/

section erase

theorem erase_eq {T : Type} (e : hop_env T) (t : hop_table T) (it : Nat) (x : T)
    (hx : stor t.m_container it = some x) :
    t.erase e it =
      ⟨update_at (update_at (update_at t.m_container it hop_bucket.destroy) it
          hop_bucket.toggle_occupied) (t.bucket_impl e x)
          (fun b => b.toggle e.nbits (it - t.bucket_impl e x)),
        t.m_n_elements - 1⟩ := by
  unfold hop_table.erase
  unfold stor at hx
  rw [hx]

theorem erase_spec {T : Type} (e : hop_env T) (hl : e.lawful) (t : hop_table T) (it : Nat)
    (x : T) (hinv : container_inv e t.m_container) (hx : stor t.m_container it = some x) :
    (t.erase e it).m_n_elements = t.m_n_elements - 1 ∧
    (t.erase e it).m_container.length = t.m_container.length ∧
    container_inv e (t.erase e it).m_container ∧
    (x :: keys_of (t.erase e it).m_container).Perm (keys_of t.m_container) ∧
    (∀ i, stor (t.erase e it).m_container i = if i = it then none else stor t.m_container i) := by
  rw [erase_eq e t it x hx]
  simp only []
  obtain ⟨k1, k2, k3⟩ := hinv.key_home it x hx
  have hhx : home e t.m_container x = t.bucket_impl e x := rfl
  rw [hhx] at k1 k2 k3
  have hit : it < t.m_container.length := stor_lt _ it x hx
  have hh : t.bucket_impl e x < t.m_container.length := by omega
  have hoff : it - t.bucket_impl e x < hop_bucket.n_eff_bits e.nbits := by omega
  have hocc : occ t.m_container it = true := by rw [hinv.occ_stor, hx]; rfl
  generalize hc1 : update_at (update_at (update_at t.m_container it hop_bucket.destroy) it
    hop_bucket.toggle_occupied) (t.bucket_impl e x)
    (fun b => b.toggle e.nbits (it - t.bucket_impl e x)) = c1
  have hlen : c1.length = t.m_container.length := by
    rw [← hc1]; simp [length_update_at]
  have hstor : ∀ i, stor c1 i = if i = it then none else stor t.m_container i := by
    intro i
    rw [← hc1, stor_update_at_pres _ _ i _ rfl, stor_update_at_pres _ _ i _ rfl, stor_update_at]
    simp [hit, storage_destroy]
  have hocc1 : ∀ i, occ c1 i = if i = it then false else occ t.m_container i := by
    intro i
    rw [← hc1, occ_update_at_pres _ _ i _ (hb_occ_toggle e.nbits _ _ hoff), occ_update_at]
    simp only [length_update_at, hit, and_true, hb_occ_toggle_occupied, bucket_at_occ]
    rw [occ_update_at_pres _ _ _ _ rfl, occ_update_at_pres _ _ _ _ rfl]
    by_cases h1 : i = it
    · simp [h1, hocc]
    · simp [h1]
  have hhop1 : ∀ h i, i < hop_bucket.n_eff_bits e.nbits → hop e.nbits c1 h i =
      if h = t.bucket_impl e x ∧ i = it - t.bucket_impl e x then !hop e.nbits t.m_container h i
      else hop e.nbits t.m_container h i := by
    intro h i hi
    rw [← hc1, hop_update_toggle e.nbits _ _ _ h i (by simp [length_update_at, hh]) hoff hi,
      hop_update_at_pres e.nbits _ it h i _ (hb_test_toggle_occupied e.nbits _ _ hi),
      hop_update_at_pres e.nbits _ it h i _ rfl]
  have hkeys : (x :: keys_of c1).Perm (keys_of t.m_container) := by
    have p1 := keys_of_update_at t.m_container it hop_bucket.destroy hit
    simp only [hx, storage_destroy, Option.toList_some, Option.toList_none,
      List.append_nil] at p1
    have p2 := keys_of_update_at_same (update_at t.m_container it hop_bucket.destroy) it
      hop_bucket.toggle_occupied rfl
    have p3 := keys_of_update_at_same (update_at (update_at t.m_container it
      hop_bucket.destroy) it hop_bucket.toggle_occupied) (t.bucket_impl e x)
      (fun b => b.toggle e.nbits (it - t.bucket_impl e x)) rfl
    rw [hc1] at p3
    have p4 : (keys_of c1 ++ [x]).Perm (keys_of t.m_container) :=
      (List.Perm.append_right [x] (p3.trans p2)).trans p1
    have p5 : (keys_of c1 ++ [x]).Perm (x :: keys_of c1) := by simp
    exact p5.symm.trans p4
  have hhome : ∀ y, home e c1 y = home e t.m_container y := by
    intro y; unfold home; rw [hlen]
  have hW := one_lt_two_pow_word e.nbits _ hoff
  refine ⟨trivial, hlen, ?_, hkeys, hstor⟩
  constructor
  · rw [← hc1]
    have b1 := bound_update_at e.nbits t.m_container it hop_bucket.destroy hinv.bound
      (hinv.bound it)
    have b2 := bound_update_at e.nbits _ it hop_bucket.toggle_occupied b1
      (hb_bound_toggle_occupied e.nbits _ hW (b1 it))
    exact bound_update_at e.nbits _ (t.bucket_impl e x)
      (fun b => b.toggle e.nbits (it - t.bucket_impl e x)) b2
      (hb_bound_toggle e.nbits _ _ hoff (b2 _))
  · intro i
    rw [hocc1, hstor]
    by_cases h1 : i = it
    · simp [h1]
    · simp [h1, hinv.occ_stor i]
  · intro i y hy
    rw [hstor] at hy
    rw [hhome]
    by_cases h1 : i = it
    · rw [if_pos h1] at hy; cases hy
    · rw [if_neg h1] at hy
      obtain ⟨q1, q2, q3⟩ := hinv.key_home i y hy
      refine ⟨q1, q2, ?_⟩
      rw [hhop1 _ _ (by omega)]
      have : ¬ (home e t.m_container y = t.bucket_impl e x ∧
          i - home e t.m_container y = it - t.bucket_impl e x) := by
        rintro ⟨a1, a2⟩
        omega
      rw [if_neg this]
      exact q3
  · intro h i hi hhp
    rw [hhop1 h i hi] at hhp
    rw [hstor]
    by_cases h1 : h = t.bucket_impl e x ∧ i = it - t.bucket_impl e x
    · rw [if_pos h1] at hhp
      obtain ⟨a1, a2⟩ := h1
      rw [a1, a2, k3] at hhp
      cases hhp
    · rw [if_neg h1] at hhp
      obtain ⟨y, hy, hyh⟩ := hinv.hop_key h i hi hhp
      have hne : h + i ≠ it := by
        intro hc
        rw [hc, hx] at hy
        cases hy
        apply h1
        rw [hhx] at hyh
        exact ⟨hyh.symm, by omega⟩
      refine ⟨y, by simp [hne, hy], ?_⟩
      rw [hhome]; exact hyh
  · have := distinct_perm e hl _ _ hkeys.symm hinv.distinct
    rw [List.pairwise_cons] at this
    exact this.2

end erase

/-! ## Growth -/

section growth

theorem bucket_at_replicate {T : Type} (n j : Nat) :
    bucket_at (List.replicate n (hop_bucket.empty : hop_bucket T)) j = hop_bucket.empty := by
  unfold bucket_at
  rw [List.getD_eq_getElem?_getD, List.getElem?_replicate]
  split <;> rfl

theorem keys_of_replicate {T : Type} (n : Nat) :
    keys_of (List.replicate n (hop_bucket.empty : hop_bucket T)) = [] := by
  induction n with
  | zero => rfl
  | succ m ih =>
    rw [List.replicate_succ]
    unfold keys_of at *
    rw [List.filterMap_cons]
    simp only [hop_bucket.empty]
    exact ih

theorem container_inv_replicate {T : Type} (e : hop_env T) (n : Nat) :
    container_inv e (List.replicate n (hop_bucket.empty : hop_bucket T)) := by
  constructor
  · intro j
    rw [bucket_at_replicate]
    exact Nat.pow_pos (by decide)
  · intro j
    unfold occ stor
    rw [bucket_at_replicate]
    simp [hop_bucket.test_occupied, hop_bucket.empty]
  · intro j x hx
    unfold stor at hx
    rw [bucket_at_replicate] at hx
    cases hx
  · intro h i _ hh
    unfold hop at hh
    rw [bucket_at_replicate] at hh
    simp [hop_bucket.test, hop_bucket.empty] at hh
  · rw [keys_of_replicate]
    exact List.Pairwise.nil

theorem with_buckets_inv {T : Type} (e : hop_env T) (n : Nat) (nt : hop_table T)
    (h : hop_table.with_buckets e.mode64 n = some nt) :
    table_inv e nt ∧ keys_of nt.m_container = [] := by
  unfold hop_table.with_buckets get_size_from_hint at h
  cases hf : List.find? (fun s => decide (n ≤ s)) (table_sizes e.mode64) with
  | none => rw [hf] at h; cases h
  | some sz =>
    rw [hf] at h
    simp only [Option.map_some'] at h
    cases h
    refine ⟨⟨container_inv_replicate e sz, ?_, ?_⟩, keys_of_replicate sz⟩
    · simp only []
      rw [count_occ_eq_length _ (container_inv_replicate e sz).occ_stor, keys_of_replicate]
      rfl
    · simp only [List.length_replicate]
      exact List.mem_of_find?_eq_some hf

theorem table_inv_empty {T : Type} (e : hop_env T) : table_inv e (hop_table.init : hop_table T) := by
  refine ⟨?_, rfl, ?_⟩
  · exact container_inv_replicate e 0
  · show 0 ∈ table_sizes e.mode64
    unfold table_sizes
    simp

theorem keys_of_tables_append {T : Type} (l1 l2 : List (hop_table T)) :
    keys_of_tables (l1 ++ l2) = keys_of_tables l1 ++ keys_of_tables l2 := by
  induction l1 with
  | nil => rfl
  | cons a l ih =>
    show keys_of a.m_container ++ keys_of_tables (l ++ l2) =
      (keys_of a.m_container ++ keys_of_tables l) ++ keys_of_tables l2
    rw [ih, List.append_assoc]

theorem rehash_key_spec {T : Type} (e : hop_env T) (hl : e.lawful) (k : T) :
    ∀ (fuel : Nat) (s s1 : rehash_state T), s.inv e →
      (k :: s.all_keys).Pairwise (fun x y => e.m_key_equal x y = false) →
      rehash_key e k fuel s = some s1 →
      s1.inv e ∧ s1.all_keys.Perm (k :: s.all_keys) := by
  intro fuel
  induction fuel with
  | zero =>
    intro s s1 _ _ h
    unfold rehash_key at h
    cases h
  | succ f ih =>
    intro s s1 hs hp h
    unfold rehash_key at h
    simp only [] at h
    have hnew : ∀ x, x ∈ keys_of s.back.m_container → e.m_key_equal x k = false := by
      intro x hx
      rw [List.pairwise_cons] at hp
      apply key_ne_symm e hl k x
      apply hp.1
      unfold rehash_state.all_keys
      exact List.mem_append_right _ hx
    obtain ⟨u1, u2, u3, u4, u5⟩ := unique_insert_spec e hl s.back k hs.back.cont hnew
    generalize s.back._unique_insert e k (s.back.bucket_impl e k) = r at h u1 u2 u3 u4 u5
    obtain ⟨t1, res⟩ := r
    simp only [] at h u1 u2 u3 u4 u5
    cases res with
    | some j =>
      simp only [] at h
      cases h
      obtain ⟨v1, _, _⟩ := u5 j rfl
      constructor
      · refine ⟨hs.front, ⟨u3, ?_, ?_⟩⟩
        · simp only []
          rw [count_occ_eq_length _ u3.occ_stor, v1.length_eq, u1, hs.back.count,
            count_occ_eq_length _ hs.back.cont.occ_stor]
          rfl
        · simp only []
          rw [u2]; exact hs.back.ladder
      · unfold rehash_state.all_keys
        simp only []
        exact (List.Perm.append_left _ v1).trans List.perm_middle
    | none =>
      simp only [] at h
      have v1 := u4 rfl
      by_cases hlast : s.cur_size_index = n_available_sizes e.mode64 - 1
      · rw [if_pos hlast] at h; cases h
      · rw [if_neg hlast] at h
        cases hw : (hop_table.with_buckets e.mode64
            ((table_sizes e.mode64).getD (s.cur_size_index + 1) 0) : Option (hop_table T)) with
        | none => rw [hw] at h; cases h
        | some nt =>
          rw [hw] at h
          simp only [] at h
          obtain ⟨w1, w2⟩ := with_buckets_inv e _ nt hw
          have ht1 : table_inv e t1 := by
            refine ⟨u3, ?_, ?_⟩
            · rw [count_occ_eq_length _ u3.occ_stor, v1.length_eq, u1, hs.back.count,
                count_occ_eq_length _ hs.back.cont.occ_stor]
            · rw [u2]; exact hs.back.ladder
          have hkeys : (rehash_state.all_keys
              { front_tables := s.front_tables ++ [t1], back := nt,
                cur_size_index := s.cur_size_index + 1 }).Perm s.all_keys := by
            unfold rehash_state.all_keys
            simp only [keys_of_tables_append, keys_of_tables, w2, List.append_nil]
            exact List.Perm.append_left _ v1
          have hinv2 : rehash_state.inv e
              { front_tables := s.front_tables ++ [t1], back := nt,
                cur_size_index := s.cur_size_index + 1 } := by
            refine ⟨?_, w1⟩
            intro t ht
            simp only [List.mem_append, List.mem_singleton] at ht
            rcases ht with ht | ht
            · exact hs.front t ht
            · rw [ht]; exact ht1
          obtain ⟨i1, i2⟩ := ih _ s1 hinv2
            (distinct_perm e hl _ _ (List.Perm.cons k hkeys.symm) hp) h
          exact ⟨i1, i2.trans (List.Perm.cons k hkeys)⟩

theorem rehash_key_push_front {T : Type} (e : hop_env T) (k : T) (first : hop_table T) :
    ∀ (fuel : Nat) (s : rehash_state T),
      rehash_key e k fuel (rehash_state.push_front first s) =
        (rehash_key e k fuel s).map (rehash_state.push_front first) := by
  intro fuel
  induction fuel with
  | zero => intro s; rfl
  | succ f ih =>
    intro s
    unfold rehash_key
    simp only [rehash_state.push_front]
    cases (s.back._unique_insert e k (s.back.bucket_impl e k)).2 with
    | some j => rfl
    | none =>
      simp only []
      by_cases hlast : s.cur_size_index = n_available_sizes e.mode64 - 1
      · rw [if_pos hlast, if_pos hlast]; rfl
      · rw [if_neg hlast, if_neg hlast]
        cases (hop_table.with_buckets e.mode64
            ((table_sizes e.mode64).getD (s.cur_size_index + 1) 0) : Option (hop_table T)) with
        | none => rfl
        | some nt =>
          simp only []
          exact ih ⟨s.front_tables ++
            [(hop_table._unique_insert e s.back k (hop_table.bucket_impl e s.back k)).1],
            nt, s.cur_size_index + 1⟩

theorem rehash_buckets_push_front {T : Type} (e : hop_env T) (first : hop_table T) :
    ∀ (bs : List (hop_bucket T)) (s : rehash_state T),
      rehash_buckets e bs (rehash_state.push_front first s) =
        (rehash_buckets e bs s).map (rehash_state.push_front first) := by
  intro bs
  induction bs with
  | nil => intro s; rfl
  | cons b bs ih =>
    intro s
    unfold rehash_buckets
    by_cases ho : b.test_occupied = true
    · rw [if_pos ho, if_pos ho]
      cases hst : b.m_storage with
      | none => exact ih s
      | some key =>
        simp only []
        have hc : (rehash_state.push_front first s).cur_size_index = s.cur_size_index := rfl
        rw [hc, rehash_key_push_front]
        cases rehash_key e key (n_available_sizes e.mode64 - s.cur_size_index) s with
        | none => rfl
        | some s1 => exact ih s1
    · rw [if_neg ho, if_neg ho]
      exact ih s

theorem rehash_buckets_spec {T : Type} (e : hop_env T) (hl : e.lawful) :
    ∀ (bs : List (hop_bucket T)) (s s1 : rehash_state T), s.inv e →
      (∀ b, b ∈ bs → b.test_occupied = b.m_storage.isSome) →
      (keys_of bs ++ s.all_keys).Pairwise (fun x y => e.m_key_equal x y = false) →
      rehash_buckets e bs s = some s1 →
      s1.inv e ∧ s1.all_keys.Perm (keys_of bs ++ s.all_keys) := by
  intro bs
  induction bs with
  | nil =>
    intro s s1 hs _ _ h
    unfold rehash_buckets at h
    cases h
    exact ⟨hs, List.Perm.refl _⟩
  | cons b bs ih =>
    intro s s1 hs hocc hp h
    unfold rehash_buckets at h
    have hocc2 : ∀ b1, b1 ∈ bs → b1.test_occupied = b1.m_storage.isSome :=
      fun b1 hb1 => hocc b1 (List.mem_cons_of_mem _ hb1)
    have hb := hocc b (List.mem_cons_self _ _)
    cases hst : b.m_storage with
    | none =>
      rw [hst] at hb
      have hk : keys_of (b :: bs) = keys_of bs := by
        unfold keys_of
        rw [List.filterMap_cons, hst]
      rw [hk] at hp ⊢
      have hb2 : b.test_occupied = false := by simpa using hb
      rw [hb2] at h
      simp only [Bool.false_eq_true, if_false] at h
      exact ih s s1 hs hocc2 hp h
    | some key =>
      rw [hst] at hb
      have hk : keys_of (b :: bs) = key :: keys_of bs := by
        unfold keys_of
        rw [List.filterMap_cons, hst]
      rw [hk] at hp ⊢
      have hb2 : b.test_occupied = true := by simpa using hb
      rw [hb2, hst] at h
      simp only [if_true] at h
      cases hr : rehash_key e key (n_available_sizes e.mode64 - s.cur_size_index) s with
      | none => rw [hr] at h; cases h
      | some s2 =>
        rw [hr] at h
        simp only [] at h
        have hp1 : (key :: s.all_keys).Pairwise (fun x y => e.m_key_equal x y = false) := by
          apply List.Pairwise.sublist _ hp
          exact List.Sublist.cons₂ key (List.sublist_append_right _ _)
        obtain ⟨r1, r2⟩ := rehash_key_spec e hl key _ s s2 hs hp1 hr
        have hperm : (keys_of bs ++ s2.all_keys).Perm (key :: keys_of bs ++ s.all_keys) := by
          have := List.Perm.append_left (keys_of bs) r2
          exact this.trans List.perm_middle
        obtain ⟨i1, i2⟩ := ih s2 s1 r1 hocc2 (distinct_perm e hl _ _ hperm.symm hp) h
        exact ⟨i1, i2.trans hperm⟩

theorem occ_stor_mem {T : Type} (c : List (hop_bucket T))
    (h : ∀ j, occ c j = (stor c j).isSome) :
    ∀ b, b ∈ c → b.test_occupied = b.m_storage.isSome := by
  intro b hb
  obtain ⟨n, hn⟩ := List.mem_iff_getElem?.1 hb
  have := h n
  unfold occ stor bucket_at at this
  rw [List.getD_eq_getElem?_getD, hn] at this
  exact this

theorem rehash_merge_spec {T : Type} (e : hop_env T) (hl : e.lawful) :
    ∀ (fuel : Nat) (s s1 : rehash_state T), s.inv e →
      s.all_keys.Pairwise (fun x y => e.m_key_equal x y = false) →
      rehash_merge e fuel s = some s1 →
      s1.inv e ∧ s1.front_tables = [] ∧
      (keys_of s1.back.m_container).Perm s.all_keys := by
  intro fuel
  induction fuel with
  | zero =>
    intro s s1 hs hp h
    obtain ⟨front, back, cur⟩ := s
    cases front with
    | nil =>
      unfold rehash_merge at h
      simp only [] at h
      cases h
      exact ⟨hs, rfl, List.Perm.refl _⟩
    | cons first rest =>
      unfold rehash_merge at h
      simp only [] at h
      cases h
  | succ f ih =>
    intro s s1 hs hp h
    obtain ⟨front, back, cur⟩ := s
    cases front with
    | nil =>
      unfold rehash_merge at h
      simp only [] at h
      cases h
      exact ⟨hs, rfl, List.Perm.refl _⟩
    | cons first rest =>
      unfold rehash_merge at h
      simp only [] at h
      have hpf : (⟨first :: rest, back, cur⟩ : rehash_state T) =
          rehash_state.push_front first ⟨rest, back, cur⟩ := rfl
      rw [hpf, rehash_buckets_push_front] at h
      have hs0 : rehash_state.inv e (⟨rest, back, cur⟩ : rehash_state T) :=
        ⟨fun t ht => hs.front t (List.mem_cons_of_mem _ ht), hs.back⟩
      have hfirst : table_inv e first := hs.front first (List.mem_cons_self _ _)
      have hkeys : rehash_state.all_keys (⟨first :: rest, back, cur⟩ : rehash_state T) =
          keys_of first.m_container ++ rehash_state.all_keys (⟨rest, back, cur⟩ : rehash_state T) := by
        unfold rehash_state.all_keys
        simp only [keys_of_tables, List.append_assoc]
      rw [hkeys] at hp ⊢
      cases hr : rehash_buckets e first.m_container ⟨rest, back, cur⟩ with
      | none => rw [hr] at h; cases h
      | some s2 =>
        rw [hr] at h
        simp only [Option.map_some'] at h
        obtain ⟨r1, r2⟩ := rehash_buckets_spec e hl first.m_container _ s2 hs0
          (occ_stor_mem _ hfirst.cont.occ_stor) hp hr
        have htail : ({ rehash_state.push_front first s2 with
            front_tables := (rehash_state.push_front first s2).front_tables.tail } :
            rehash_state T) = s2 := by
          obtain ⟨f2, b2, c2⟩ := s2
          rfl
        rw [htail] at h
        obtain ⟨i1, i2, i3⟩ := ih s2 s1 r1 (distinct_perm e hl _ _ r2.symm hp) h
        exact ⟨i1, i2, i3.trans r2⟩

/-- A successful `increase_size` keeps the invariants, the stored keys and the element count. -/
theorem increase_size_ok {T : Type} (e : hop_env T) (hl : e.lawful) (t t1 : hop_table T)
    (hinv : table_inv e t) (h : t.increase_size e = Except.ok t1) :
    table_inv e t1 ∧ (keys_of t1.m_container).Perm (keys_of t.m_container) ∧
    t1.m_n_elements = t.m_n_elements := by
  unfold hop_table.increase_size at h
  simp only [] at h
  by_cases hlast : t.get_size_index e = n_available_sizes e.mode64 - 1
  · rw [if_pos hlast] at h; cases h
  · rw [if_neg hlast] at h
    cases hw : (hop_table.with_buckets e.mode64
        ((table_sizes e.mode64).getD (t.get_size_index e + 1) 0) : Option (hop_table T)) with
    | none => rw [hw] at h; cases h
    | some nt =>
      rw [hw] at h
      simp only [] at h
      obtain ⟨w1, w2⟩ := with_buckets_inv e _ nt hw
      have hs0 : rehash_state.inv e (⟨[], nt, t.get_size_index e + 1⟩ : rehash_state T) :=
        ⟨fun t ht => absurd ht (List.not_mem_nil t), w1⟩
      have hk0 : rehash_state.all_keys (⟨[], nt, t.get_size_index e + 1⟩ : rehash_state T) = [] := by
        unfold rehash_state.all_keys
        simp only [keys_of_tables, w2, List.append_nil]
      cases hr : rehash_buckets e t.m_container ⟨[], nt, t.get_size_index e + 1⟩ with
      | none => rw [hr] at h; cases h
      | some s =>
        rw [hr] at h
        simp only [] at h
        obtain ⟨r1, r2⟩ := rehash_buckets_spec e hl t.m_container _ s hs0
          (occ_stor_mem _ hinv.cont.occ_stor)
          (by rw [hk0, List.append_nil]; exact hinv.cont.distinct) hr
        rw [hk0, List.append_nil] at r2
        cases hm : rehash_merge e (n_available_sizes e.mode64) s with
        | none => rw [hm] at h; cases h
        | some s1 =>
          rw [hm] at h
          simp only [] at h
          cases h
          obtain ⟨m1, _, m3⟩ := rehash_merge_spec e hl _ s s1 r1
            (distinct_perm e hl _ _ r2.symm hinv.cont.distinct) hm
          have hperm := m3.trans r2
          refine ⟨⟨m1.back.cont, ?_, m1.back.ladder⟩, hperm, rfl⟩
          simp only []
          rw [hinv.count, count_occ_eq_length _ hinv.cont.occ_stor,
            count_occ_eq_length _ m1.back.cont.occ_stor, hperm.length_eq]

/-- A failing `increase_size` leaves the table untouched or empty. -/
theorem increase_size_error {T : Type} (e : hop_env T) (t t1 : hop_table T)
    (h : t.increase_size e = Except.error t1) : t1 = t ∨ t1 = hop_table.init := by
  unfold hop_table.increase_size at h
  simp only [] at h
  by_cases hlast : t.get_size_index e = n_available_sizes e.mode64 - 1
  · rw [if_pos hlast] at h; cases h; exact Or.inl rfl
  · rw [if_neg hlast] at h
    cases hw : (hop_table.with_buckets e.mode64
        ((table_sizes e.mode64).getD (t.get_size_index e + 1) 0) : Option (hop_table T)) with
    | none => rw [hw] at h; cases h; exact Or.inl rfl
    | some nt =>
      rw [hw] at h
      simp only [] at h
      cases hr : rehash_buckets e t.m_container ⟨[], nt, t.get_size_index e + 1⟩ with
      | none => rw [hr] at h; cases h; exact Or.inr rfl
      | some s =>
        rw [hr] at h
        simp only [] at h
        cases hm : rehash_merge e (n_available_sizes e.mode64) s with
        | none => rw [hm] at h; cases h; exact Or.inr rfl
        | some s1 => rw [hm] at h; cases h

end growth

/-! ## `insert` -/

section insert

theorem find_impl_eq_find {T : Type} (e : hop_env T) (t : hop_table T) (k : T) :
    t.find_impl e k (t.bucket_impl e k) = t.find e k := by
  unfold hop_table.find
  by_cases h0 : t.m_container.length = 0
  · rw [if_pos h0]
    unfold hop_table.find_impl
    simp only []
    rw [bucket_at_of_ge _ _ (by omega)]
    have : (hop_bucket.empty : hop_bucket T).none = true := by
      simp [hop_bucket.none, hop_bucket.empty]
    rw [if_pos this]
  · rw [if_neg h0]

theorem table_inv_of_perm {T : Type} (e : hop_env T) (t t1 : hop_table T)
    (hc : container_inv e t1.m_container) (hinv : table_inv e t)
    (hp : (keys_of t1.m_container).Perm (keys_of t.m_container))
    (hn : t1.m_n_elements = t.m_n_elements)
    (hl : t1.m_container.length ∈ table_sizes e.mode64) : table_inv e t1 := by
  refine ⟨hc, ?_, hl⟩
  rw [hn, hinv.count, count_occ_eq_length _ hinv.cont.occ_stor,
    count_occ_eq_length _ hc.occ_stor, hp.length_eq]

theorem insert_retry_spec {T : Type} (e : hop_env T) (hl : e.lawful) (k : T) :
    ∀ (fuel : Nat) (t : hop_table T), table_inv e t →
      (∀ x, x ∈ keys_of t.m_container → e.m_key_equal x k = false) →
      (∀ t1, insert_retry e k fuel t = Except.error t1 → table_inv e t1) ∧
      (∀ r, insert_retry e k fuel t = Except.ok r →
        container_inv e r.1.m_container ∧ r.1.m_container.length ∈ table_sizes e.mode64 ∧
        (keys_of r.1.m_container).Perm (k :: keys_of t.m_container) ∧
        r.1.m_n_elements = t.m_n_elements ∧ stor r.1.m_container r.2 = some k) := by
  intro fuel
  induction fuel with
  | zero =>
    intro t hinv _
    unfold insert_retry
    constructor
    · intro t1 h; cases h; exact hinv
    · intro r h; cases h
  | succ f ih =>
    intro t hinv hnew
    unfold insert_retry
    cases hg : t.increase_size e with
    | error t1 =>
      simp only []
      constructor
      · intro t2 h
        cases h
        rcases increase_size_error e t t1 hg with h1 | h1
        · rw [h1]; exact hinv
        · rw [h1]; exact table_inv_empty e
      · intro r h; cases h
    | ok t1 =>
      simp only []
      obtain ⟨g1, g2, g3⟩ := increase_size_ok e hl t t1 hinv hg
      have hnew1 : ∀ x, x ∈ keys_of t1.m_container → e.m_key_equal x k = false :=
        fun x hx => hnew x (g2.mem_iff.1 hx)
      obtain ⟨u1, u2, u3, u4, u5⟩ := unique_insert_spec e hl t1 k g1.cont hnew1
      generalize t1._unique_insert e k (t1.bucket_impl e k) = r at u1 u2 u3 u4 u5
      obtain ⟨t2, res⟩ := r
      simp only [] at u1 u2 u3 u4 u5 ⊢
      cases res with
      | some j =>
        simp only []
        obtain ⟨v1, v2, _⟩ := u5 j rfl
        constructor
        · intro t3 h; cases h
        · intro r h
          cases h
          refine ⟨u3, ?_, v1.trans (List.Perm.cons k g2), ?_, v2⟩
          · simp only []; rw [u2]; exact g1.ladder
          · simp only []; rw [u1, g3]
      | none =>
        simp only []
        have v1 := u4 rfl
        have ht2 : table_inv e t2 :=
          table_inv_of_perm e t1 t2 u3 g1 v1 u1 (by rw [u2]; exact g1.ladder)
        have hnew2 : ∀ x, x ∈ keys_of t2.m_container → e.m_key_equal x k = false :=
          fun x hx => hnew1 x (v1.mem_iff.1 hx)
        obtain ⟨i1, i2⟩ := ih t2 ht2 hnew2
        refine ⟨i1, ?_⟩
        intro r h
        obtain ⟨j1, j2, j3, j4, j5⟩ := i2 r h
        exact ⟨j1, j2, j3.trans (List.Perm.cons k (v1.trans g2)), by rw [j4, u1, g3], j5⟩

/-- What a returning `insert` does to a table satisfying the invariants. -/
theorem insert_ok_spec {T : Type} (e : hop_env T) (hl : e.lawful) (t : hop_table T) (k : T)
    (r : hop_table T × Nat × Bool) (hinv : table_inv e t) (h : t.insert e k = Except.ok r) :
    table_inv e r.1 ∧
    (r.2.2 = false → r.2.1 = r.1.find e k ∧ r.1.find e k ≠ r.1.end ∧
      (keys_of r.1.m_container).Perm (keys_of t.m_container) ∧
      r.1.m_n_elements = t.m_n_elements ∧ (t.m_container.length ≠ 0 → r.1 = t)) ∧
    (r.2.2 = true → (keys_of r.1.m_container).Perm (k :: keys_of t.m_container) ∧
      r.1.m_n_elements = t.m_n_elements + 1 ∧
      (∀ x, x ∈ keys_of t.m_container → e.m_key_equal x k = false) ∧
      stor r.1.m_container r.2.1 = some k) := by
  unfold hop_table.insert at h
  have hstart : ∀ t1, (if t.m_container.length = 0 then t.increase_size e else Except.ok t) =
      Except.ok t1 → table_inv e t1 ∧ (keys_of t1.m_container).Perm (keys_of t.m_container) ∧
      t1.m_n_elements = t.m_n_elements ∧ (t.m_container.length ≠ 0 → t1 = t) := by
    intro t1 h1
    by_cases h0 : t.m_container.length = 0
    · rw [if_pos h0] at h1
      obtain ⟨g1, g2, g3⟩ := increase_size_ok e hl t t1 hinv h1
      exact ⟨g1, g2, g3, fun hh => absurd h0 hh⟩
    · rw [if_neg h0] at h1
      cases h1
      exact ⟨hinv, List.Perm.refl _, rfl, fun _ => rfl⟩
  cases hs : (if t.m_container.length = 0 then t.increase_size e else Except.ok t) with
  | error t1 => rw [hs] at h; cases h
  | ok t1 =>
    rw [hs] at h
    simp only [] at h
    obtain ⟨s1, s2, s3, s4⟩ := hstart t1 hs
    rw [find_impl_eq_find] at h
    by_cases hf : t1.find e k ≠ t1.end
    · rw [if_pos hf] at h
      cases h
      refine ⟨s1, ?_, ?_⟩
      · intro _
        exact ⟨rfl, hf, s2, s3, s4⟩
      · intro hc; cases hc
    · rw [if_neg hf] at h
      have hf2 : t1.find e k = t1.end := by
        by_contra hc; exact hf hc
      have hnew1 := find_end e hl t1 k s1.cont hf2
      obtain ⟨u1, u2, u3, u4, u5⟩ := unique_insert_spec e hl t1 k s1.cont hnew1
      generalize t1._unique_insert e k (t1.bucket_impl e k) = ru at h u1 u2 u3 u4 u5
      obtain ⟨t2, res⟩ := ru
      simp only [] at u1 u2 u3 u4 u5 h
      have hnew : ∀ x, x ∈ keys_of t.m_container → e.m_key_equal x k = false :=
        fun x hx => hnew1 x (s2.mem_iff.2 hx)
      cases res with
      | some j =>
        simp only [] at h
        cases h
        obtain ⟨v1, v2, _⟩ := u5 j rfl
        have hperm := v1.trans (List.Perm.cons k s2)
        refine ⟨⟨u3, ?_, ?_⟩, ?_, ?_⟩
        · simp only []
          rw [count_occ_eq_length _ u3.occ_stor, v1.length_eq, u1, s1.count,
            count_occ_eq_length _ s1.cont.occ_stor]
          rfl
        · simp only []; rw [u2]; exact s1.ladder
        · intro hc; cases hc
        · intro _
          refine ⟨hperm, ?_, hnew, v2⟩
          simp only []; rw [u1, s3]
      | none =>
        simp only [] at h
        have v1 := u4 rfl
        have ht2 : table_inv e t2 :=
          table_inv_of_perm e t1 t2 u3 s1 v1 u1 (by rw [u2]; exact s1.ladder)
        have hnew2 : ∀ x, x ∈ keys_of t2.m_container → e.m_key_equal x k = false :=
          fun x hx => hnew1 x (v1.mem_iff.1 hx)
        obtain ⟨_, i2⟩ := insert_retry_spec e hl k (n_available_sizes e.mode64) t2 ht2 hnew2
        cases hr : insert_retry e k (n_available_sizes e.mode64) t2 with
        | error t3 => rw [hr] at h; cases h
        | ok r3 =>
          rw [hr] at h
          obtain ⟨t3, j⟩ := r3
          simp only [] at h
          cases h
          obtain ⟨j1, j2, j3, j4, j5⟩ := i2 _ hr
          simp only [] at j1 j2 j3 j4 j5
          have hperm := j3.trans (List.Perm.cons k (v1.trans s2))
          refine ⟨⟨j1, ?_, j2⟩, ?_, ?_⟩
          · simp only []
            rw [count_occ_eq_length _ j1.occ_stor, j3.length_eq, j4, ht2.count,
              count_occ_eq_length _ ht2.cont.occ_stor]
            rfl
          · intro hc; cases hc
          · intro _
            refine ⟨hperm, ?_, hnew, j5⟩
            simp only []; rw [j4, u1, s3]

/-- A throwing `insert` leaves a table that satisfies the invariants. -/
theorem insert_error_spec {T : Type} (e : hop_env T) (hl : e.lawful) (t : hop_table T)
    (k : T) (t1 : hop_table T) (hinv : table_inv e t)
    (h : t.insert e k = Except.error t1) : table_inv e t1 := by
  unfold hop_table.insert at h
  cases hs : (if t.m_container.length = 0 then t.increase_size e else Except.ok t) with
  | error t0 =>
    rw [hs] at h
    simp only [] at h
    cases h
    by_cases h0 : t.m_container.length = 0
    · rw [if_pos h0] at hs
      rcases increase_size_error e t t1 hs with h1 | h1
      · rw [h1]; exact hinv
      · rw [h1]; exact table_inv_empty e
    · rw [if_neg h0] at hs; cases hs
  | ok t0 =>
    rw [hs] at h
    simp only [] at h
    have hs1 : table_inv e t0 := by
      by_cases h0 : t.m_container.length = 0
      · rw [if_pos h0] at hs
        exact (increase_size_ok e hl t t0 hinv hs).1
      · rw [if_neg h0] at hs; cases hs; exact hinv
    rw [find_impl_eq_find] at h
    by_cases hf : t0.find e k ≠ t0.end
    · rw [if_pos hf] at h; cases h
    · rw [if_neg hf] at h
      have hf2 : t0.find e k = t0.end := by
        by_contra hc; exact hf hc
      have hnew1 := find_end e hl t0 k hs1.cont hf2
      obtain ⟨u1, u2, u3, u4, u5⟩ := unique_insert_spec e hl t0 k hs1.cont hnew1
      generalize t0._unique_insert e k (t0.bucket_impl e k) = ru at h u1 u2 u3 u4 u5
      obtain ⟨t2, res⟩ := ru
      simp only [] at u1 u2 u3 u4 u5 h
      cases res with
      | some j => simp only [] at h; cases h
      | none =>
        simp only [] at h
        have v1 := u4 rfl
        have ht2 : table_inv e t2 :=
          table_inv_of_perm e t0 t2 u3 hs1 v1 u1 (by rw [u2]; exact hs1.ladder)
        have hnew2 : ∀ x, x ∈ keys_of t2.m_container → e.m_key_equal x k = false :=
          fun x hx => hnew1 x (v1.mem_iff.1 hx)
        obtain ⟨i1, _⟩ := insert_retry_spec e hl k (n_available_sizes e.mode64) t2 ht2 hnew2
        cases hr : insert_retry e k (n_available_sizes e.mode64) t2 with
        | error t3 =>
          rw [hr] at h
          simp only [] at h
          cases h
          exact i1 _ hr
        | ok r3 =>
          rw [hr] at h
          obtain ⟨t3, j⟩ := r3
          simp only [] at h
          cases h

/-- Every reachable table satisfies the invariants. -/
theorem reachable_inv {T : Type} (e : hop_env T) (hl : e.lawful) (t : hop_table T)
    (h : reachable e t) : table_inv e t := by
  induction h with
  | init => exact table_inv_empty e
  | insert_ok t k r _ hi ih => exact (insert_ok_spec e hl t k r ih hi).1
  | insert_error t k t1 _ hi ih => exact insert_error_spec e hl t k t1 ih hi
  | erase t it _ hit hocc ih =>
    have hs := ih.cont.occ_stor it
    rw [hocc] at hs
    cases hx : stor t.m_container it with
    | none => rw [hx] at hs; cases hs
    | some x =>
      obtain ⟨e1, e2, e3, e4, _⟩ := erase_spec e hl t it x ih.cont hx
      refine ⟨e3, ?_, by rw [e2]; exact ih.ladder⟩
      rw [e1, count_occ_eq_length _ e3.occ_stor, ih.count,
        count_occ_eq_length _ ih.cont.occ_stor, ← e4.length_eq]
      rfl

end insert

/-! ## The claims about the table -/

section claims

theorem nat_env_lawful : nat_env.lawful := by
  refine ⟨by decide, ?_, ?_, ?_, ?_⟩
  · intro a; simp [nat_env]
  · intro a b h; simp [nat_env] at h ⊢; exact h.symm
  · intro a b c h1 h2; simp [nat_env] at h1 h2 ⊢; exact h1.trans h2
  · intro a b h; simp [nat_env] at h ⊢; exact h

theorem reachable_foldl {T : Type} (e : hop_env T) (ks : List T) :
    ∀ t, reachable e t → reachable e (ks.foldl (fun t k =>
      match t.insert e k with
      | Except.ok r => r.1
      | Except.error t1 => t1) t) := by
  induction ks with
  | nil => intro t h; exact h
  | cons k ks ih =>
    intro t h
    rw [List.foldl_cons]
    apply ih
    cases hi : t.insert e k with
    | ok r => exact reachable.insert_ok t k r h hi
    | error t1 => exact reachable.insert_error t k t1 h hi

theorem reachable_table_of {T : Type} (e : hop_env T) (ks : List T) :
    reachable e (table_of e ks) :=
  reachable_foldl e ks _ reachable.init

theorem stored_mem_keys {T : Type} (c : List (hop_bucket T)) (j : Nat) (x : T)
    (h : stor c j = some x) : x ∈ keys_of c :=
  (mem_keys_of c x).2 ⟨j, h⟩

theorem find_ne_end_of_stored {T : Type} (e : hop_env T) (hl : e.lawful) (t : hop_table T)
    (k x : T) (hinv : container_inv e t.m_container) (hx : x ∈ keys_of t.m_container)
    (hxk : e.m_key_equal x k = true) : t.find e k ≠ t.end := by
  intro hc
  have := find_end e hl t k hinv hc x hx
  rw [hxk] at this
  cases this

/-- C1: on a reachable table, once `insert(k)` has returned, `find(k)` is not `end()`, is a
valid bucket index, the bucket is occupied, and its key is equal to `k`. -/
theorem C1_insert_then_find {T : Type} (e : hop_env T) (hl : e.lawful) (t : hop_table T)
    (k : T) (r : hop_table T × Nat × Bool) (hr : reachable e t)
    (hi : t.insert e k = Except.ok r) :
    r.1.find e k ≠ r.1.end ∧ r.1.find e k < r.1.n_buckets ∧
    (bucket_at r.1.m_container (r.1.find e k)).test_occupied = true ∧
    ∃ x, (bucket_at r.1.m_container (r.1.find e k)).m_storage = some x ∧
      e.m_key_equal x k = true := by
  obtain ⟨i1, i2, i3⟩ := insert_ok_spec e hl t k r (reachable_inv e hl t hr) hi
  have hne : r.1.find e k ≠ r.1.end := by
    cases hb : r.2.2 with
    | false => exact (i2 hb).2.1
    | true =>
      obtain ⟨_, _, _, j4⟩ := i3 hb
      exact find_ne_end_of_stored e hl r.1 k k i1.cont (stored_mem_keys _ _ _ j4)
        (hl.eq_refl k)
  obtain ⟨f1, x, f2, f3⟩ := find_found e r.1 k hne
  refine ⟨hne, f1, ?_, x, f2, f3⟩
  have := i1.cont.occ_stor (r.1.find e k)
  rw [f2] at this
  exact this

/-- C1 witness: inserting 12 into the table built from the keys 1 to 6, in the 64-bit
instantiation. -/
theorem C1_insert_then_find_witness :
    ((table_of nat_env [1, 2, 3, 4, 5, 6]).insert nat_env 12 =
      Except.ok (table_of nat_env [1, 2, 3, 4, 5, 6, 12], 7, true)) ∧
    (table_of nat_env [1, 2, 3, 4, 5, 6, 12]).find nat_env 12 ≠
      (table_of nat_env [1, 2, 3, 4, 5, 6, 12]).end ∧
    (table_of nat_env [1, 2, 3, 4, 5, 6, 12]).find nat_env 12 <
      (table_of nat_env [1, 2, 3, 4, 5, 6, 12]).n_buckets ∧
    (bucket_at (table_of nat_env [1, 2, 3, 4, 5, 6, 12]).m_container
      ((table_of nat_env [1, 2, 3, 4, 5, 6, 12]).find nat_env 12)).test_occupied = true ∧
    ∃ x, (bucket_at (table_of nat_env [1, 2, 3, 4, 5, 6, 12]).m_container
      ((table_of nat_env [1, 2, 3, 4, 5, 6, 12]).find nat_env 12)).m_storage = some x ∧
      nat_env.m_key_equal x 12 = true :=
  ⟨rfl, C1_insert_then_find nat_env nat_env_lawful (table_of nat_env [1, 2, 3, 4, 5, 6]) 12
    (table_of nat_env [1, 2, 3, 4, 5, 6, 12], 7, true) (reachable_table_of nat_env _) rfl⟩

theorem stor_cons_zero {T : Type} (a : hop_bucket T) (l : List (hop_bucket T)) :
    stor (a :: l) 0 = a.m_storage := rfl

theorem stor_cons_succ {T : Type} (a : hop_bucket T) (l : List (hop_bucket T)) (n : Nat) :
    stor (a :: l) (n + 1) = stor l n := rfl

theorem keys_of_cons {T : Type} (a : hop_bucket T) (l : List (hop_bucket T)) :
    keys_of (a :: l) = (match a.m_storage with
      | some x => x :: keys_of l
      | Option.none => keys_of l) := by
  unfold keys_of
  rw [List.filterMap_cons]
  cases a.m_storage <;> rfl

/-- Two keys stored at different positions of a container with pairwise different keys are
different. -/
theorem distinct_index {T : Type} (R : T → T → Prop) :
    ∀ (c : List (hop_bucket T)), (keys_of c).Pairwise R →
    ∀ i j x y, i < j → stor c i = some x → stor c j = some y → R x y := by
  intro c
  induction c with
  | nil =>
    intro _ i j x y _ hx _
    unfold stor bucket_at at hx
    simp [hop_bucket.empty] at hx
  | cons a l ih =>
    intro hp i j x y hij hx hy
    rw [keys_of_cons] at hp
    cases j with
    | zero => omega
    | succ j1 =>
      rw [stor_cons_succ] at hy
      cases i with
      | zero =>
        rw [stor_cons_zero] at hx
        rw [hx] at hp
        simp only [] at hp
        exact (List.pairwise_cons.1 hp).1 y (stored_mem_keys l j1 y hy)
      | succ i1 =>
        rw [stor_cons_succ] at hx
        have hp1 : (keys_of l).Pairwise R := by
          cases ha : a.m_storage with
          | none => rw [ha] at hp; exact hp
          | some z => rw [ha] at hp; exact (List.pairwise_cons.1 hp).2
        exact ih hp1 i1 j1 x y (by omega) hx hy

/-- In a container satisfying the invariants, two stored keys that are equal under the
predicate sit at the same position. -/
theorem equal_keys_same_index {T : Type} (e : hop_env T) (hl : e.lawful)
    (c : List (hop_bucket T)) (hinv : container_inv e c) (i j : Nat) (x y : T)
    (hx : stor c i = some x) (hy : stor c j = some y) (hxy : e.m_key_equal x y = true) :
    i = j := by
  rcases Nat.lt_trichotomy i j with h | h | h
  · have := distinct_index (fun x y => e.m_key_equal x y = false) c hinv.distinct i j x y h hx hy
    simp only [] at this
    rw [hxy] at this; cases this
  · exact h
  · have := distinct_index (fun x y => e.m_key_equal x y = false) c hinv.distinct j i y x h hy hx
    simp only [] at this
    rw [hl.eq_symm x y hxy] at this; cases this

theorem occ_of_stor {T : Type} (e : hop_env T) (c : List (hop_bucket T))
    (hinv : container_inv e c) (j : Nat) (x : T) (hx : stor c j = some x) :
    (bucket_at c j).test_occupied = true := by
  have := hinv.occ_stor j
  rw [hx] at this
  exact this

theorem stor_of_occ {T : Type} (e : hop_env T) (c : List (hop_bucket T))
    (hinv : container_inv e c) (j : Nat) (ho : (bucket_at c j).test_occupied = true) :
    ∃ x, stor c j = some x := by
  have := hinv.occ_stor j
  unfold occ at this
  rw [ho] at this
  exact Option.isSome_iff_exists.1 this.symm

/-- The tables after a completed insert or erase, and after a completed growth of such a
table, satisfy the structural invariants. -/
theorem settled_inv {T : Type} (e : hop_env T) (hl : e.lawful) (t : hop_table T)
    (h : reachable e t ∨ ∃ t0, reachable e t0 ∧ t0.increase_size e = Except.ok t) :
    table_inv e t := by
  rcases h with h | ⟨t0, h0, h1⟩
  · exact reachable_inv e hl t h
  · exact (increase_size_ok e hl t0 t (reachable_inv e hl t0 h0) h1).1

/-- C2: on a reachable table `find(k)` is `end()` exactly when no occupied bucket holds a key
equal to `k`; when it is not `end()` it is the position of an occupied bucket whose key is equal
to `k`, and the only such position; on a table without buckets it is `end()`. -/
theorem C2_find_end_iff_absent {T : Type} (e : hop_env T) (hl : e.lawful) (t : hop_table T)
    (k : T) (hr : reachable e t) :
    (t.find e k = t.end ↔
      ∀ j x, j < t.n_buckets → (bucket_at t.m_container j).test_occupied = true →
        (bucket_at t.m_container j).m_storage = some x → e.m_key_equal x k = false) ∧
    (t.find e k ≠ t.end →
      t.find e k < t.n_buckets ∧
      (bucket_at t.m_container (t.find e k)).test_occupied = true ∧
      (∃ x, (bucket_at t.m_container (t.find e k)).m_storage = some x ∧
        e.m_key_equal x k = true) ∧
      ∀ j y, (bucket_at t.m_container j).m_storage = some y → e.m_key_equal y k = true →
        j = t.find e k) ∧
    (t.n_buckets = 0 → t.find e k = t.end) := by
  have hinv := (reachable_inv e hl t hr).cont
  refine ⟨⟨?_, ?_⟩, ?_, ?_⟩
  · intro h j x _ _ hx
    exact find_end e hl t k hinv h x (stored_mem_keys _ j x hx)
  · intro h
    by_contra hne
    obtain ⟨f1, x, f2, f3⟩ := find_found e t k hne
    have := h (t.find e k) x f1 (occ_of_stor e _ hinv _ x f2) f2
    rw [f3] at this; cases this
  · intro hne
    obtain ⟨f1, x, f2, f3⟩ := find_found e t k hne
    refine ⟨f1, occ_of_stor e _ hinv _ x f2, ⟨x, f2, f3⟩, ?_⟩
    intro j y hy hyk
    exact equal_keys_same_index e hl _ hinv j _ y x hy f2
      (hl.eq_trans y k x hyk (hl.eq_symm x k f3))
  · intro h0
    have h1 : t.m_container.length = 0 := h0
    unfold hop_table.find
    rw [if_pos h1]

/-- C2 witness: in the table holding 1, 2, 3, 4, 5, 6 and 12 the key 12 is found in bucket 7
and the key 7 is not found. -/
theorem C2_find_end_iff_absent_witness :
    reachable nat_env example_table ∧
    example_table.find nat_env 12 = 7 ∧ example_table.find nat_env 7 = example_table.end ∧
    ∀ j x, j < example_table.n_buckets →
      (bucket_at example_table.m_container j).test_occupied = true →
      (bucket_at example_table.m_container j).m_storage = some x →
      nat_env.m_key_equal x 7 = false :=
  ⟨reachable_table_of nat_env _, by decide, by decide,
    (C2_find_end_iff_absent nat_env nat_env_lawful example_table 7
      (reachable_table_of nat_env _)).1.1 (by decide)⟩

/-- C3: on a reachable table that holds, in bucket `j`, a key equal to `k`, `insert(k)`
returns the position `j` of that key with the flag false, and the table it leaves is the table
it was called on: no bucket and no count is modified. -/
theorem C3_insert_existing {T : Type} (e : hop_env T) (hl : e.lawful) (t : hop_table T)
    (k : T) (hr : reachable e t) (j : Nat) (x : T)
    (hx : (bucket_at t.m_container j).m_storage = some x) (hxk : e.m_key_equal x k = true) :
    t.insert e k = Except.ok (t, j, false) := by
  have hinv := (reachable_inv e hl t hr).cont
  have hne := find_ne_end_of_stored e hl t k x hinv (stored_mem_keys _ j x hx) hxk
  obtain ⟨f1, y, f2, f3⟩ := find_found e t k hne
  have hj : j = t.find e k :=
    equal_keys_same_index e hl _ hinv j _ x y hx f2
      (hl.eq_trans x k y hxk (hl.eq_symm y k f3))
  have h0 : t.m_container.length ≠ 0 := by omega
  unfold hop_table.insert
  rw [if_neg h0]
  simp only []
  rw [find_impl_eq_find, if_pos hne, ← hj]

/-- C3 witness: inserting 12 again into the table that holds it in bucket 7. -/
theorem C3_insert_existing_witness :
    reachable nat_env example_table ∧
    (bucket_at example_table.m_container 7).m_storage = some 12 ∧
    example_table.insert nat_env 12 = Except.ok (example_table, 7, false) :=
  ⟨reachable_table_of nat_env _, by decide,
    C3_insert_existing nat_env nat_env_lawful example_table 12
      (reachable_table_of nat_env _) 7 12 (by decide) (by decide)⟩

/-- C4: on a reachable table that holds a key equal to `k`, after `erase(find(k))` the search
`find(k)` returns `end()` and `size()` is one less than before. -/
theorem C4_erase_then_find {T : Type} (e : hop_env T) (hl : e.lawful) (t : hop_table T)
    (k : T) (hr : reachable e t) (j : Nat) (x : T)
    (hx : (bucket_at t.m_container j).m_storage = some x) (hxk : e.m_key_equal x k = true) :
    (t.erase e (t.find e k)).find e k = (t.erase e (t.find e k)).end ∧
    (t.erase e (t.find e k)).size + 1 = t.size := by
  have htinv := reachable_inv e hl t hr
  have hinv := htinv.cont
  have hne := find_ne_end_of_stored e hl t k x hinv (stored_mem_keys _ j x hx) hxk
  obtain ⟨f1, y, f2, f3⟩ := find_found e t k hne
  obtain ⟨e1, e2, e3, e4, e5⟩ := erase_spec e hl t (t.find e k) y hinv f2
  constructor
  · by_contra hc
    obtain ⟨g1, z, g2, g3⟩ := find_found e _ k hc
    rw [e5] at g2
    by_cases hq : (t.erase e (t.find e k)).find e k = t.find e k
    · rw [if_pos hq] at g2; cases g2
    · rw [if_neg hq] at g2
      exact hq (equal_keys_same_index e hl _ hinv _ _ z y g2 f2
        (hl.eq_trans z k y g3 (hl.eq_symm y k f3)))
  · unfold hop_table.size
    rw [e1]
    have hc := htinv.count
    rw [count_occ_eq_length _ hinv.occ_stor] at hc
    have hm : y ∈ keys_of t.m_container := stored_mem_keys _ _ y f2
    have : 0 < (keys_of t.m_container).length := List.length_pos_of_mem hm
    omega

/-- C4 witness: erasing 12 from the table that holds 1, 2, 3, 4, 5, 6 and 12. -/
theorem C4_erase_then_find_witness :
    reachable nat_env example_table ∧
    (bucket_at example_table.m_container 7).m_storage = some 12 ∧
    (example_table.erase nat_env (example_table.find nat_env 12)).find nat_env 12 =
      (example_table.erase nat_env (example_table.find nat_env 12)).end ∧
    (example_table.erase nat_env (example_table.find nat_env 12)).size + 1 =
      example_table.size :=
  ⟨reachable_table_of nat_env _, by decide,
    C4_erase_then_find nat_env nat_env_lawful example_table 12
      (reachable_table_of nat_env _) 7 12 (by decide) (by decide)⟩

/-- C5: in a table left by a completed insert or erase, or by a completed growth of such a
table, every occupied bucket `j` holds a key whose home `h = hash mod n_buckets` satisfies
`h <= j < h + H` with `H = nbits - 1`, and hop bit `j - h` of bucket `h` is set. -/
theorem C5_occupied_in_virtual_bucket {T : Type} (e : hop_env T) (hl : e.lawful)
    (t : hop_table T)
    (h : reachable e t ∨ ∃ t0, reachable e t0 ∧ t0.increase_size e = Except.ok t)
    (j : Nat) (hocc : (bucket_at t.m_container j).test_occupied = true) :
    j < t.n_buckets ∧
    ∃ x, (bucket_at t.m_container j).m_storage = some x ∧
      e.m_hasher x % t.n_buckets ≤ j ∧ j < e.m_hasher x % t.n_buckets + (e.nbits - 1) ∧
      (bucket_at t.m_container (e.m_hasher x % t.n_buckets)).test e.nbits
        (j - e.m_hasher x % t.n_buckets) = true := by
  have hinv := (settled_inv e hl t h).cont
  obtain ⟨x, hx⟩ := stor_of_occ e _ hinv j hocc
  obtain ⟨k1, k2, k3⟩ := hinv.key_home j x hx
  exact ⟨stor_lt _ j x hx, x, hx, k1, k2, k3⟩

/-- C5 witness: bucket 7 of the table holding 1, 2, 3, 4, 5, 6 and 12, whose key 12 has home
bucket 1. -/
theorem C5_occupied_in_virtual_bucket_witness :
    (reachable nat_env example_table ∨
      ∃ t0, reachable nat_env t0 ∧ t0.increase_size nat_env = Except.ok example_table) ∧
    (bucket_at example_table.m_container 7).test_occupied = true ∧
    7 < example_table.n_buckets ∧
    ∃ x, (bucket_at example_table.m_container 7).m_storage = some x ∧
      nat_env.m_hasher x % example_table.n_buckets ≤ 7 ∧
      7 < nat_env.m_hasher x % example_table.n_buckets + (nat_env.nbits - 1) ∧
      (bucket_at example_table.m_container
        (nat_env.m_hasher x % example_table.n_buckets)).test nat_env.nbits
        (7 - nat_env.m_hasher x % example_table.n_buckets) = true :=
  ⟨Or.inl (reachable_table_of nat_env _), by decide,
    C5_occupied_in_virtual_bucket nat_env nat_env_lawful example_table
      (Or.inl (reachable_table_of nat_env _)) 7 (by decide)⟩

/-- C6: in a table left by a completed insert or erase, or by a completed growth of such a
table, whenever hop bit `i < H` of bucket `h` is set, `h + i` is a bucket index, bucket `h + i`
is occupied, and the home of its key is `h`. -/
theorem C6_hop_bit_points_to_key {T : Type} (e : hop_env T) (hl : e.lawful)
    (t : hop_table T)
    (h : reachable e t ∨ ∃ t0, reachable e t0 ∧ t0.increase_size e = Except.ok t)
    (b i : Nat) (hi : i < e.nbits - 1)
    (hb : (bucket_at t.m_container b).test e.nbits i = true) :
    b + i < t.n_buckets ∧ (bucket_at t.m_container (b + i)).test_occupied = true ∧
    ∃ x, (bucket_at t.m_container (b + i)).m_storage = some x ∧
      e.m_hasher x % t.n_buckets = b := by
  have hinv := (settled_inv e hl t h).cont
  obtain ⟨x, h1, h2⟩ := hinv.hop_key b i hi hb
  exact ⟨stor_lt _ _ x h1, occ_of_stor e _ hinv _ x h1, x, h1, h2⟩

/-- C6 witness: hop bit 6 of bucket 1 of the table holding 1, 2, 3, 4, 5, 6 and 12. -/
theorem C6_hop_bit_points_to_key_witness :
    (bucket_at example_table.m_container 1).test nat_env.nbits 6 = true ∧
    1 + 6 < example_table.n_buckets ∧
    (bucket_at example_table.m_container (1 + 6)).test_occupied = true ∧
    ∃ x, (bucket_at example_table.m_container (1 + 6)).m_storage = some x ∧
      nat_env.m_hasher x % example_table.n_buckets = 1 :=
  ⟨by decide,
    C6_hop_bit_points_to_key nat_env nat_env_lawful example_table
      (Or.inl (reachable_table_of nat_env _)) 1 6 (by decide) (by decide)⟩

/-- C7: in a table left by a completed insert (growing or not) or erase, or by a completed
growth of such a table, `size()` is the number of buckets whose occupied flag is set. -/
theorem C7_size_counts_occupied {T : Type} (e : hop_env T) (hl : e.lawful) (t : hop_table T)
    (h : reachable e t ∨ ∃ t0, reachable e t0 ∧ t0.increase_size e = Except.ok t) :
    t.size = t.m_container.countP (fun b => b.test_occupied) :=
  (settled_inv e hl t h).count

/-- C7 witness: the table holding 1, 2, 3, 4, 5, 6 and 12 has size 7 and seven occupied
buckets. -/
theorem C7_size_counts_occupied_witness :
    example_table.size = 7 ∧
    example_table.size = example_table.m_container.countP (fun b => b.test_occupied) :=
  ⟨by decide, C7_size_counts_occupied nat_env nat_env_lawful example_table
    (Or.inl (reachable_table_of nat_env _))⟩

/-- C8: when `insert(k)` on a reachable table completes, every key stored before the call is
found afterwards, `k` is found, and if the number of buckets has changed (the call has grown the
table) the returned flag is true and `size()` is the old size plus one. -/
theorem C8_insert_with_growth {T : Type} (e : hop_env T) (hl : e.lawful) (t : hop_table T)
    (k : T) (r : hop_table T × Nat × Bool) (hr : reachable e t)
    (hi : t.insert e k = Except.ok r) :
    (∀ j x, (bucket_at t.m_container j).m_storage = some x →
      r.1.find e x ≠ r.1.end ∧
      ∃ y, (bucket_at r.1.m_container (r.1.find e x)).m_storage = some y ∧
        e.m_key_equal y x = true) ∧
    (r.1.find e k ≠ r.1.end ∧
      ∃ y, (bucket_at r.1.m_container (r.1.find e k)).m_storage = some y ∧
        e.m_key_equal y k = true) ∧
    (r.1.n_buckets ≠ t.n_buckets → r.2.2 = true ∧ r.1.size = t.size + 1) := by
  have hinv := reachable_inv e hl t hr
  obtain ⟨i1, i2, i3⟩ := insert_ok_spec e hl t k r hinv hi
  have hkeys : ∀ x, x ∈ keys_of t.m_container → x ∈ keys_of r.1.m_container := by
    intro x hx
    cases hb : r.2.2 with
    | false => exact (i2 hb).2.2.1.mem_iff.2 hx
    | true => exact (i3 hb).1.mem_iff.2 (List.mem_cons_of_mem k hx)
  have hfound : ∀ x, x ∈ keys_of r.1.m_container → r.1.find e x ≠ r.1.end ∧
      ∃ y, (bucket_at r.1.m_container (r.1.find e x)).m_storage = some y ∧
        e.m_key_equal y x = true := by
    intro x hx
    have hne := find_ne_end_of_stored e hl r.1 x x i1.cont hx (hl.eq_refl x)
    obtain ⟨_, y, f2, f3⟩ := find_found e r.1 x hne
    exact ⟨hne, y, f2, f3⟩
  refine ⟨fun j x hx => hfound x (hkeys x (stored_mem_keys _ j x hx)), ?_, ?_⟩
  · cases hb : r.2.2 with
    | false =>
      have hne := (i2 hb).2.1
      obtain ⟨_, y, f2, f3⟩ := find_found e r.1 k hne
      exact ⟨hne, y, f2, f3⟩
    | true =>
      exact hfound k (stored_mem_keys _ _ k (i3 hb).2.2.2)
  · intro hg
    cases hb : r.2.2 with
    | true => exact ⟨rfl, (i3 hb).2.1⟩
    | false =>
      exfalso
      obtain ⟨_, j2, j3, _, j5⟩ := i2 hb
      by_cases h0 : t.m_container.length = 0
      · obtain ⟨_, y, f2, _⟩ := find_found e r.1 k j2
        have hy : y ∈ keys_of t.m_container := j3.mem_iff.1 (stored_mem_keys _ _ y f2)
        have hnil : keys_of t.m_container = [] := by
          rw [List.length_eq_zero.1 h0]; rfl
        rw [hnil] at hy
        exact absurd hy (List.not_mem_nil y)
      · exact hg (by rw [j5 h0])

/-- C8 witness: inserting 4 into the table holding 1, 2 and 3, which has three buckets, grows
it to five buckets. -/
theorem C8_insert_with_growth_witness :
    (table_of nat_env [1, 2, 3]).insert nat_env 4 =
      Except.ok (table_of nat_env [1, 2, 3, 4], 4, true) ∧
    (table_of nat_env [1, 2, 3]).n_buckets = 3 ∧ (table_of nat_env [1, 2, 3, 4]).n_buckets = 5 ∧
    (table_of nat_env [1, 2, 3, 4]).size = (table_of nat_env [1, 2, 3]).size + 1 :=
  ⟨rfl, by decide, by decide,
    ((C8_insert_with_growth nat_env nat_env_lawful (table_of nat_env [1, 2, 3]) 4
      (table_of nat_env [1, 2, 3, 4], 4, true) (reachable_table_of nat_env _) rfl).2.2
      (by decide)).2⟩

/-- The loop of `increment` stops at the first occupied bucket at or after its start, or at the
end of the container. -/
theorem increment_loop_spec {T : Type} (c : List (hop_bucket T)) :
    ∀ (fuel i : Nat), i + fuel = c.length →
      i ≤ increment_loop c fuel i ∧ increment_loop c fuel i ≤ c.length ∧
      (increment_loop c fuel i < c.length →
        (bucket_at c (increment_loop c fuel i)).test_occupied = true) ∧
      (List.range' i fuel).filter (fun j => (bucket_at c j).test_occupied) =
        (List.range' (increment_loop c fuel i) (c.length - increment_loop c fuel i)).filter
          (fun j => (bucket_at c j).test_occupied) := by
  intro fuel
  induction fuel with
  | zero =>
    intro i hi
    unfold increment_loop
    have : c.length - i = 0 := by omega
    rw [this]
    exact ⟨Nat.le_refl _, by omega, fun h => by omega, rfl⟩
  | succ fuel ih =>
    intro i hi
    unfold increment_loop
    by_cases hc : i < c.length ∧ (!(bucket_at c i).test_occupied) = true
    · rw [if_pos hc]
      obtain ⟨h1, h2, h3, h4⟩ := ih (i + 1) (by omega)
      refine ⟨by omega, h2, h3, ?_⟩
      rw [← h4, List.range'_succ, List.filter_cons]
      have : (bucket_at c i).test_occupied = false := by
        have := hc.2
        simpa using this
      rw [this]
      simp
    · rw [if_neg hc]
      have hlt : i < c.length := by omega
      have hocc : (bucket_at c i).test_occupied = true := by
        cases ho : (bucket_at c i).test_occupied with
        | true => rfl
        | false => exact absurd ⟨hlt, by rw [ho]; rfl⟩ hc
      refine ⟨Nat.le_refl _, by omega, fun _ => hocc, ?_⟩
      have : c.length - i = fuel + 1 := by omega
      rw [this]

/-- The iterator `begin()` is the first occupied bucket, or the end of the container. -/
theorem begin_eq {T : Type} (t : hop_table T) :
    t.begin = increment_loop t.m_container t.m_container.length 0 := by
  unfold hop_table.begin
  by_cases hc : t.m_container.length ≠ 0 ∧ (!(bucket_at t.m_container 0).test_occupied) = true
  · rw [if_pos hc]
    unfold iterator_impl.increment
    obtain ⟨n, hn⟩ : ∃ n, t.m_container.length = n + 1 := ⟨t.m_container.length - 1, by omega⟩
    rw [hn]
    conv => rhs; unfold increment_loop
    rw [if_pos ⟨by omega, hc.2⟩]
    rfl
  · rw [if_neg hc]
    cases hn : t.m_container.length with
    | zero => rfl
    | succ n =>
      unfold increment_loop
      rw [if_neg]
      intro h
      exact hc ⟨by omega, h.2⟩

theorem traverse_from_spec {T : Type} (t : hop_table T) :
    ∀ (fuel it : Nat), it ≤ t.m_container.length → t.m_container.length - it ≤ fuel →
      (it < t.m_container.length → (bucket_at t.m_container it).test_occupied = true) →
      traverse_from t fuel it =
        (List.range' it (t.m_container.length - it)).filter
          (fun j => (bucket_at t.m_container j).test_occupied) := by
  intro fuel
  induction fuel with
  | zero =>
    intro it h1 h2 _
    have : t.m_container.length - it = 0 := by omega
    rw [this]
    rfl
  | succ fuel ih =>
    intro it h1 h2 h3
    unfold traverse_from
    by_cases he : it = t.end
    · rw [if_pos he]
      have : t.m_container.length - it = 0 := by
        unfold hop_table.end at he; omega
      rw [this]
      rfl
    · rw [if_neg he]
      have hlt : it < t.m_container.length := by
        unfold hop_table.end at he; omega
      obtain ⟨n, hn⟩ : ∃ n, t.m_container.length - it = n + 1 :=
        ⟨t.m_container.length - it - 1, by omega⟩
      rw [hn, List.range'_succ, List.filter_cons, h3 hlt, if_pos rfl]
      obtain ⟨g1, g2, g3, g4⟩ := increment_loop_spec t.m_container
        (t.m_container.length - (it + 1)) (it + 1) (by omega)
      have hn1 : t.m_container.length - (it + 1) = n := by omega
      unfold iterator_impl.increment
      rw [ih _ g2 (by omega) g3, ← g4, hn1]

/-- The traversal visits the occupied buckets in increasing order of index. -/
theorem traverse_eq {T : Type} (t : hop_table T) :
    t.traverse = (List.range t.m_container.length).filter
      (fun j => (bucket_at t.m_container j).test_occupied) := by
  unfold hop_table.traverse
  rw [begin_eq]
  obtain ⟨g1, g2, g3, g4⟩ := increment_loop_spec t.m_container t.m_container.length 0
    (by omega)
  rw [traverse_from_spec t _ _ g2 (by omega) g3, ← g4, List.range_eq_range']

theorem map_bucket_at_range {T : Type} (c : List (hop_bucket T)) :
    (List.range c.length).map (fun j => bucket_at c j) = c := by
  apply List.ext_getElem
  · simp
  · intro n h1 h2
    simp only [List.getElem_map, List.getElem_range]
    unfold bucket_at
    rw [List.getD_eq_getElem?_getD, List.getElem?_eq_getElem h2]
    rfl

theorem length_filter_occ {T : Type} (c : List (hop_bucket T)) :
    ((List.range c.length).filter (fun j => (bucket_at c j).test_occupied)).length =
      c.countP (fun b => b.test_occupied) := by
  conv => rhs; rw [← map_bucket_at_range c]
  rw [List.countP_map, List.countP_eq_length_filter]
  rfl

/-- C9: on a reachable table, stepping an iterator from `begin()` until `end()` visits exactly
the occupied buckets, in strictly increasing index (so each once), which makes `size()` visits;
the keys visited are pairwise non-equal under the predicate; and `begin() == end()` exactly when
`size()` is zero. -/
theorem C9_iterator_traversal {T : Type} (e : hop_env T) (hl : e.lawful) (t : hop_table T)
    (hr : reachable e t) :
    (∀ j, j ∈ t.traverse ↔
      j < t.n_buckets ∧ (bucket_at t.m_container j).test_occupied = true) ∧
    t.traverse.Pairwise (fun i j => i < j) ∧
    t.traverse.length = t.size ∧
    t.traverse.Pairwise (fun i j =>
      ∃ x y, (bucket_at t.m_container i).m_storage = some x ∧
        (bucket_at t.m_container j).m_storage = some y ∧
        e.m_key_equal x y = false ∧ e.m_key_equal y x = false) ∧
    (t.begin = t.end ↔ t.size = 0) := by
  have hinv := reachable_inv e hl t hr
  have hmem : ∀ j, j ∈ t.traverse ↔
      j < t.n_buckets ∧ (bucket_at t.m_container j).test_occupied = true := by
    intro j
    rw [traverse_eq, List.mem_filter, List.mem_range]
    rfl
  have hsorted : t.traverse.Pairwise (fun i j => i < j) := by
    rw [traverse_eq]
    exact List.Pairwise.filter _ (List.pairwise_lt_range _)
  have hlen : t.traverse.length = t.size := by
    rw [traverse_eq, length_filter_occ]
    exact hinv.count.symm
  refine ⟨hmem, hsorted, hlen, ?_, ?_⟩
  · refine List.Pairwise.imp_of_mem ?_ hsorted
    intro i j hi hj hij
    obtain ⟨x, hx⟩ := stor_of_occ e _ hinv.cont i ((hmem i).1 hi).2
    obtain ⟨y, hy⟩ := stor_of_occ e _ hinv.cont j ((hmem j).1 hj).2
    have hxy := distinct_index (fun x y => e.m_key_equal x y = false) _ hinv.cont.distinct
      i j x y hij hx hy
    refine ⟨x, y, hx, hy, hxy, ?_⟩
    cases hyx : e.m_key_equal y x with
    | false => rfl
    | true =>
      have := hl.eq_symm y x hyx
      simp only [] at hxy
      rw [hxy] at this
      cases this
  · constructor
    · intro hb
      rw [← hlen]
      unfold hop_table.traverse
      cases hn : t.m_container.length with
      | zero => rfl
      | succ n =>
        unfold traverse_from
        rw [if_pos hb]
        rfl
    · intro hs
      rw [← hlen] at hs
      have hnil := List.length_eq_zero.1 hs
      by_contra hb
      unfold hop_table.traverse at hnil
      cases hn : t.m_container.length with
      | zero =>
        apply hb
        rw [begin_eq]
        unfold hop_table.end
        rw [hn]
        rfl
      | succ n =>
        rw [hn] at hnil
        unfold traverse_from at hnil
        rw [if_neg hb] at hnil
        cases hnil

/-- C9 witness: the traversal of the table holding 1, 2, 3, 4, 5, 6 and 12 visits the buckets
1 to 7. -/
theorem C9_iterator_traversal_witness :
    reachable nat_env example_table ∧
    example_table.traverse = [1, 2, 3, 4, 5, 6, 7] ∧
    example_table.traverse.length = example_table.size :=
  ⟨reachable_table_of nat_env _, by decide,
    (C9_iterator_traversal nat_env nat_env_lawful example_table
      (reachable_table_of nat_env _)).2.2.1⟩

end claims

section static_arith

theorem shiftRight_eq_zero_iff (B x : Nat) : x >>> B = 0 ↔ x < 2 ^ B := by
  rw [Nat.shiftRight_eq_div_pow]
  exact Nat.div_eq_zero_iff (Nat.pow_pos (by decide))

theorem two_le_two_pow (B : Nat) (hB : 1 ≤ B) : 2 ≤ 2 ^ B := by
  calc 2 = 2 ^ 1 := rfl
    _ ≤ 2 ^ B := Nat.pow_le_pow_right (by decide) hB

theorem two_pow_two_mul (B : Nat) : 2 ^ (2 * B) = 2 ^ B * 2 ^ B := by
  rw [two_mul, Nat.pow_add]

/-- What `consistency_checks` verifies. -/
theorem consistency_checks_iff (B : Nat) (s : static_integer) :
    s.consistency_checks B = true ↔
      s.m_limbs.1 < 2 ^ B ∧ s.m_limbs.2 < 2 ^ B ∧
      (s._mp_size = s.calculate_n_limbs ∨ s._mp_size = -s.calculate_n_limbs) := by
  unfold static_integer.consistency_checks
  simp only [Bool.and_eq_true, Bool.or_eq_true, decide_eq_true_eq, shiftRight_eq_zero_iff]
  have hn : s.calculate_n_limbs = 0 ∨ s.calculate_n_limbs = 1 ∨ s.calculate_n_limbs = 2 := by
    unfold static_integer.calculate_n_limbs
    split_ifs <;> simp
  constructor
  · rintro ⟨⟨⟨⟨_, _⟩, h1⟩, h2⟩, h3⟩
    refine ⟨h1, h2, ?_⟩
    rcases h3 with h | h
    · exact Or.inl h.symm
    · exact Or.inr h.symm
  · rintro ⟨h1, h2, h3⟩
    refine ⟨⟨⟨⟨?_, ?_⟩, h1⟩, h2⟩, ?_⟩
    · rcases h3 with h | h <;> rcases hn with h0 | h0 | h0 <;> omega
    · rcases h3 with h | h <;> rcases hn with h0 | h0 | h0 <;> omega
    · rcases h3 with h | h
      · exact Or.inl h.symm
      · exact Or.inr h.symm

theorem n_limbs_cases (s : static_integer) :
    (s.calculate_n_limbs = 0 ∧ s.m_limbs.1 = 0 ∧ s.m_limbs.2 = 0) ∨
    (s.calculate_n_limbs = 1 ∧ s.m_limbs.1 ≠ 0 ∧ s.m_limbs.2 = 0) ∨
    (s.calculate_n_limbs = 2 ∧ s.m_limbs.2 ≠ 0) := by
  unfold static_integer.calculate_n_limbs
  by_cases h2 : s.m_limbs.2 = 0
  · by_cases h1 : s.m_limbs.1 = 0
    · left; simp [h1, h2]
    · right; left; simp [h1, h2]
  · right; right; simp [h2]

theorem mag_lt (B : Nat) (s : static_integer) (h1 : s.m_limbs.1 < 2 ^ B)
    (h2 : s.m_limbs.2 < 2 ^ B) : s.mag B < 2 ^ B * 2 ^ B := by
  unfold static_integer.mag
  have : s.m_limbs.2 * 2 ^ B ≤ (2 ^ B - 1) * 2 ^ B := Nat.mul_le_mul_right _ (by omega)
  have h3 : (2 ^ B - 1) * 2 ^ B = 2 ^ B * 2 ^ B - 2 ^ B := by
    rw [Nat.sub_mul, Nat.one_mul]
  have h4 : 2 ^ B ≤ 2 ^ B * 2 ^ B := Nat.le_mul_of_pos_left _ (Nat.pow_pos (by decide))
  omega

theorem of_nat_limbs (B m : Nat) :
    (static_integer.of_nat B m).m_limbs = (m % 2 ^ B, m / 2 ^ B % 2 ^ B) := rfl

theorem of_nat_size (B m : Nat) :
    (static_integer.of_nat B m)._mp_size = (static_integer.of_nat B m).calculate_n_limbs := rfl

theorem of_nat_mag (B m : Nat) (hm : m < 2 ^ B * 2 ^ B) :
    (static_integer.of_nat B m).mag B = m := by
  unfold static_integer.mag
  rw [of_nat_limbs]
  simp only []
  have hd : m / 2 ^ B < 2 ^ B := Nat.div_lt_of_lt_mul hm
  rw [Nat.mod_eq_of_lt hd]
  exact Nat.mod_add_div' m (2 ^ B)

theorem of_nat_size_nonneg (B m : Nat) : 0 ≤ (static_integer.of_nat B m)._mp_size := by
  rw [of_nat_size]
  rcases n_limbs_cases (static_integer.of_nat B m) with h | h | h <;> omega

theorem of_nat_consistent (B m : Nat) :
    (static_integer.of_nat B m).consistency_checks B = true := by
  rw [consistency_checks_iff, of_nat_limbs]
  exact ⟨Nat.mod_lt _ (Nat.pow_pos (by decide)), Nat.mod_lt _ (Nat.pow_pos (by decide)),
    Or.inl rfl⟩

theorem of_nat_value (B m : Nat) (hm : m < 2 ^ B * 2 ^ B) :
    (static_integer.of_nat B m).value B = m := by
  unfold static_integer.value
  rw [if_neg (by have := of_nat_size_nonneg B m; omega), of_nat_mag B m hm]

theorem of_nat_size_eq_zero (B m : Nat) (hm : m < 2 ^ B * 2 ^ B) :
    (static_integer.of_nat B m)._mp_size = 0 ↔ m = 0 := by
  have hmag := of_nat_mag B m hm
  unfold static_integer.mag at hmag
  rw [of_nat_size]
  rcases n_limbs_cases (static_integer.of_nat B m) with ⟨h, h1, h2⟩ | ⟨h, h1, h2⟩ | ⟨h, h2⟩
  · rw [h1, h2] at hmag
    simp at hmag
    rw [h]
    simp [hmag.symm]
  · rw [h]
    have : m ≠ 0 := by
      intro h0
      rw [← hmag, h2] at h0
      simp at h0
      exact h1 h0
    simp [this]
  · rw [h]
    have : m ≠ 0 := by
      intro h0
      rw [← hmag] at h0
      have hp : 0 < 2 ^ B := Nat.pow_pos (by decide)
      have : 0 < (static_integer.of_nat B m).m_limbs.2 * 2 ^ B :=
        Nat.mul_pos (Nat.pos_of_ne_zero h2) hp
      omega
    simp [this]

theorem negate_negate (s : static_integer) : s.negate.negate = s := by
  unfold static_integer.negate
  simp

theorem negate_limbs (s : static_integer) : s.negate.m_limbs = s.m_limbs := rfl

theorem negate_size (s : static_integer) : s.negate._mp_size = -s._mp_size := rfl

theorem negate_n_limbs (s : static_integer) : s.negate.calculate_n_limbs = s.calculate_n_limbs :=
  rfl

theorem negate_mag (B : Nat) (s : static_integer) : s.negate.mag B = s.mag B := rfl

theorem negate_consistent (B : Nat) (s : static_integer)
    (h : s.consistency_checks B = true) : s.negate.consistency_checks B = true := by
  rw [consistency_checks_iff] at h ⊢
  rw [negate_limbs, negate_size, negate_n_limbs]
  obtain ⟨h1, h2, h3⟩ := h
  refine ⟨h1, h2, ?_⟩
  rcases h3 with h | h
  · right; omega
  · left; omega

/-- In a consistent `static_integer` the size field is zero exactly when both limbs are. -/
theorem consistent_size_zero_iff (B : Nat) (s : static_integer)
    (h : s.consistency_checks B = true) : s._mp_size = 0 ↔ s.mag B = 0 := by
  rw [consistency_checks_iff] at h
  obtain ⟨_, _, h3⟩ := h
  unfold static_integer.mag
  have hp : 0 < 2 ^ B := Nat.pow_pos (by decide)
  rcases n_limbs_cases s with ⟨h, h1, h2⟩ | ⟨h, h1, h2⟩ | ⟨h, h2⟩
  · rw [h1, h2]; simp; omega
  · rw [h2]; simp
    constructor
    · intro h0; omega
    · intro h0; exact absurd h0 h1
  · have : 0 < s.m_limbs.2 * 2 ^ B := Nat.mul_pos (Nat.pos_of_ne_zero h2) hp
    constructor
    · intro h0; omega
    · intro h0; omega

theorem negate_value (B : Nat) (s : static_integer) (h : s.consistency_checks B = true) :
    s.negate.value B = -s.value B := by
  have hz := consistent_size_zero_iff B s h
  unfold static_integer.value
  rw [negate_size, negate_mag]
  by_cases h1 : s._mp_size < 0
  · rw [if_pos h1, if_neg (by omega)]; simp
  · by_cases h2 : s._mp_size = 0
    · have := hz.1 h2
      rw [if_neg (by omega), if_neg h1, this]; simp
    · rw [if_pos (by omega), if_neg h1]

/-- A consistent `static_integer` is determined by its value. -/
theorem consistent_eq_of_int (B : Nat) (s : static_integer)
    (h : s.consistency_checks B = true) :
    s = static_integer.of_int B (s.value B) ∧ (s.value B).natAbs < 2 ^ B * 2 ^ B := by
  have hz := consistent_size_zero_iff B s h
  have hc := (consistency_checks_iff B s).1 h
  obtain ⟨h1, h2, h3⟩ := hc
  have hm := mag_lt B s h1 h2
  have hof : static_integer.of_nat B (s.mag B) = ⟨s.calculate_n_limbs, s.m_limbs⟩ := by
    have e1 : s.mag B % 2 ^ B = s.m_limbs.1 := by
      unfold static_integer.mag
      rw [Nat.add_mul_mod_self_right, Nat.mod_eq_of_lt h1]
    have e2 : s.mag B / 2 ^ B % 2 ^ B = s.m_limbs.2 := by
      unfold static_integer.mag
      rw [Nat.add_mul_div_right _ _ (Nat.pow_pos (by decide)), Nat.div_eq_of_lt h1,
        Nat.zero_add, Nat.mod_eq_of_lt h2]
    unfold static_integer.of_nat
    rw [e1, e2]
    rfl
  have hnl : 0 ≤ s.calculate_n_limbs := by
    rcases n_limbs_cases s with h | h | h <;> omega
  unfold static_integer.value static_integer.of_int
  by_cases hneg : s._mp_size < 0
  · rw [if_pos hneg]
    have hpos : 0 < s.mag B := by
      rcases Nat.eq_zero_or_pos (s.mag B) with h0 | h0
      · have := hz.2 h0; omega
      · exact h0
    rw [if_pos (by omega)]
    simp only [Int.natAbs_neg, Int.natAbs_ofNat]
    refine ⟨?_, hm⟩
    rw [hof]
    unfold static_integer.negate
    simp only []
    have : s._mp_size = -s.calculate_n_limbs := by omega
    rw [← this]
  · rw [if_neg hneg, if_neg (by omega)]
    simp only [Int.natAbs_ofNat]
    refine ⟨?_, hm⟩
    rw [hof]
    have : s._mp_size = s.calculate_n_limbs := by
      rcases h3 with h | h
      · exact h
      · omega
    rw [← this]

theorem of_int_consistent (B : Nat) (v : Int) :
    (static_integer.of_int B v).consistency_checks B = true := by
  unfold static_integer.of_int
  split_ifs
  · exact negate_consistent B _ (of_nat_consistent B _)
  · exact of_nat_consistent B _

theorem of_int_value (B : Nat) (v : Int) (hv : v.natAbs < 2 ^ B * 2 ^ B) :
    (static_integer.of_int B v).value B = v := by
  unfold static_integer.of_int
  split_ifs with h
  · rw [negate_value B _ (of_nat_consistent B _), of_nat_value B _ hv]
    omega
  · rw [of_nat_value B _ hv]
    omega

theorem of_int_neg (B : Nat) (v : Int) (hv : v.natAbs < 2 ^ B * 2 ^ B) :
    (static_integer.of_int B v).negate = static_integer.of_int B (-v) := by
  unfold static_integer.of_int
  by_cases h : v < 0
  · rw [if_pos h, if_neg (by omega), negate_negate, Int.natAbs_neg]
  · by_cases h0 : v = 0
    · subst h0
      simp only [Int.neg_zero, lt_self_iff_false, if_false]
      unfold static_integer.negate
      have := (of_nat_size_eq_zero B 0 (by positivity)).2 rfl
      simp only [Int.natAbs_zero] at this ⊢
      rw [this]
      simp
      rw [← this]
    · rw [if_neg h, if_pos (by omega), Int.natAbs_neg]

theorem of_int_size_neg (B : Nat) (v : Int) (hv : v.natAbs < 2 ^ B * 2 ^ B) :
    (static_integer.of_int B v)._mp_size < 0 ↔ v < 0 := by
  unfold static_integer.of_int
  by_cases h : v < 0
  · rw [if_pos h, negate_size]
    have h1 := of_nat_size_nonneg B v.natAbs
    have h2 := of_nat_size_eq_zero B v.natAbs hv
    constructor
    · intro _; exact h
    · intro _
      have : v.natAbs ≠ 0 := by omega
      have : (static_integer.of_nat B v.natAbs)._mp_size ≠ 0 := fun hh => this (h2.1 hh)
      omega
  · rw [if_neg h]
    have h1 := of_nat_size_nonneg B v.natAbs
    constructor
    · intro hh; omega
    · intro hh; exact absurd hh h

end static_arith

section static_ops

theorem dlimb_cast_of_lt (B x : Nat) (h : x < 2 ^ B * 2 ^ B) : dlimb_cast B x = x := by
  unfold dlimb_cast
  rw [two_pow_two_mul]
  exact Nat.mod_eq_of_lt h

theorem limb_lt_dlimb (B x : Nat) (hB : 1 ≤ B) (h : x < 2 ^ B) : x < 2 ^ B * 2 ^ B := by
  have := two_le_two_pow B hB
  calc x < 2 ^ B := h
    _ = 1 * 2 ^ B := (Nat.one_mul _).symm
    _ ≤ 2 ^ B * 2 ^ B := Nat.mul_le_mul_right _ (by omega)

theorem two_mul_le_sq (P : Nat) (hP : 2 ≤ P) : 2 * P ≤ P * P :=
  Nat.mul_le_mul_right _ hP

/-- The value computed by `raw_add`: the sum of the magnitudes when it fits two limbs, and an
exception leaving `res` untouched otherwise. -/
theorem raw_add_eq (B : Nat) (hB : 1 ≤ B) (res x y : static_integer)
    (hx1 : x.m_limbs.1 < 2 ^ B) (hx2 : x.m_limbs.2 < 2 ^ B)
    (hy1 : y.m_limbs.1 < 2 ^ B) (hy2 : y.m_limbs.2 < 2 ^ B) :
    static_integer.raw_add B res x y =
      if x.mag B + y.mag B < 2 ^ B * 2 ^ B then
        Except.ok (static_integer.of_nat B (x.mag B + y.mag B))
      else Except.error (mp_exception.overflow_error, res) := by
  have hP := two_le_two_pow B hB
  have hPP := two_mul_le_sq _ hP
  have hpos : 0 < 2 ^ B := by omega
  unfold static_integer.raw_add
  simp only []
  rw [dlimb_cast_of_lt B x.m_limbs.1 (limb_lt_dlimb B _ hB hx1),
    dlimb_cast_of_lt B (x.m_limbs.1 + y.m_limbs.1) (by omega),
    dlimb_cast_of_lt B x.m_limbs.2 (limb_lt_dlimb B _ hB hx2)]
  have hc : (x.m_limbs.1 + y.m_limbs.1) >>> B ≤ 1 := by
    rw [Nat.shiftRight_eq_div_pow]
    have : (x.m_limbs.1 + y.m_limbs.1) / 2 ^ B < 2 :=
      Nat.div_lt_of_lt_mul (by omega)
    omega
  rw [dlimb_cast_of_lt B _ (by omega : x.m_limbs.2 + y.m_limbs.2 +
    (x.m_limbs.1 + y.m_limbs.1) >>> B < 2 ^ B * 2 ^ B)]
  have hS : x.mag B + y.mag B =
      (x.m_limbs.1 + y.m_limbs.1) + (x.m_limbs.2 + y.m_limbs.2) * 2 ^ B := by
    unfold static_integer.mag
    rw [Nat.add_mul]
    omega
  have hdiv : (x.mag B + y.mag B) / 2 ^ B =
      x.m_limbs.2 + y.m_limbs.2 + (x.m_limbs.1 + y.m_limbs.1) >>> B := by
    rw [hS, Nat.add_mul_div_right _ _ hpos, Nat.shiftRight_eq_div_pow]
    omega
  have hmod : (x.mag B + y.mag B) % 2 ^ B = (x.m_limbs.1 + y.m_limbs.1) % 2 ^ B := by
    rw [hS, Nat.add_mul_mod_self_right]
  rw [← hdiv]
  unfold limb_cast
  rw [Nat.shiftRight_eq_div_pow]
  have hlt2 : (x.mag B + y.mag B) / 2 ^ B < 2 * 2 ^ B := by
    rw [hdiv]; omega
  by_cases hfit : x.mag B + y.mag B < 2 ^ B * 2 ^ B
  · have hq : (x.mag B + y.mag B) / 2 ^ B < 2 ^ B := Nat.div_lt_of_lt_mul hfit
    have h0 : (x.mag B + y.mag B) / 2 ^ B / 2 ^ B = 0 := Nat.div_eq_of_lt hq
    rw [h0, if_pos hfit, if_neg (by simp), ← hmod]
    rfl
  · have hq : 2 ^ B ≤ (x.mag B + y.mag B) / 2 ^ B := by
      rw [Nat.le_div_iff_mul_le hpos]; omega
    have h1 : (x.mag B + y.mag B) / 2 ^ B / 2 ^ B = 1 := by
      have h2 : (x.mag B + y.mag B) / 2 ^ B / 2 ^ B < 2 :=
        Nat.div_lt_of_lt_mul (by omega)
      have h3 : 1 ≤ (x.mag B + y.mag B) / 2 ^ B / 2 ^ B := by
        rw [Nat.le_div_iff_mul_le hpos]; omega
      omega
    rw [h1, if_neg hfit, if_pos]
    rw [Nat.mod_eq_of_lt (by omega)]
    decide

/-- The conversion to `limb_t` of a wrapped difference. -/
theorem limb_cast_int_wrap (B : Nat) (z k : Int) (n : Nat) (h : z + k * 2 ^ B = n)
    (hn : n < 2 ^ B) : limb_cast_int B z = n := by
  unfold limb_cast_int
  have h1 : z % 2 ^ B = (z + k * 2 ^ B) % 2 ^ B := (Int.add_mul_emod_self).symm
  rw [h1, h]
  have h2 : ((n : Int)) % 2 ^ B = n := by
    apply Int.emod_eq_of_lt (by omega)
    exact_mod_cast hn
  rw [h2]
  simp

/-- The value computed by `raw_sub` when the first operand is not smaller in magnitude: the
difference of the magnitudes. -/
theorem raw_sub_eq (B : Nat) (res x y : static_integer)
    (hx1 : x.m_limbs.1 < 2 ^ B) (hx2 : x.m_limbs.2 < 2 ^ B)
    (hy1 : y.m_limbs.1 < 2 ^ B) (hy2 : y.m_limbs.2 < 2 ^ B)
    (hle : y.mag B ≤ x.mag B) :
    static_integer.raw_sub B res x y = static_integer.of_nat B (x.mag B - y.mag B) := by
  have hpos : 0 < 2 ^ B := Nat.pow_pos (by decide)
  have hxm := mag_lt B x hx1 hx2
  unfold static_integer.mag at hle hxm
  -- the high limbs are ordered, with a strict order under a borrow
  have hhi : y.m_limbs.2 ≤ x.m_limbs.2 := by
    by_contra hc
    have : (x.m_limbs.2 + 1) * 2 ^ B ≤ y.m_limbs.2 * 2 ^ B :=
      Nat.mul_le_mul_right _ (by omega)
    rw [Nat.add_mul] at this
    omega
  have hborrow : x.m_limbs.1 < y.m_limbs.1 → y.m_limbs.2 < x.m_limbs.2 := by
    intro hb
    by_contra hc
    have : x.m_limbs.2 = y.m_limbs.2 := by omega
    rw [this] at hle
    omega
  unfold static_integer.raw_sub static_integer.of_nat
  simp only []
  have key : ∀ (l0 l1 : Nat), l0 < 2 ^ B → l1 < 2 ^ B →
      x.m_limbs.1 + x.m_limbs.2 * 2 ^ B - (y.m_limbs.1 + y.m_limbs.2 * 2 ^ B) =
        l0 + l1 * 2 ^ B →
      (x.m_limbs.1 + x.m_limbs.2 * 2 ^ B - (y.m_limbs.1 + y.m_limbs.2 * 2 ^ B)) % 2 ^ B = l0 ∧
      (x.m_limbs.1 + x.m_limbs.2 * 2 ^ B - (y.m_limbs.1 + y.m_limbs.2 * 2 ^ B)) / 2 ^ B %
        2 ^ B = l1 := by
    intro l0 l1 h0 h1 he
    rw [he, Nat.add_mul_mod_self_right, Nat.mod_eq_of_lt h0,
      Nat.add_mul_div_right _ _ hpos, Nat.div_eq_of_lt h0, Nat.zero_add, Nat.mod_eq_of_lt h1]
    exact ⟨rfl, rfl⟩
  by_cases hb : x.m_limbs.1 < y.m_limbs.1
  · have hlt := hborrow hb
    have e0 : limb_cast_int B ((x.m_limbs.1 : Int) - y.m_limbs.1) =
        x.m_limbs.1 + 2 ^ B - y.m_limbs.1 := by
      apply limb_cast_int_wrap B _ 1
      · push_cast [Nat.cast_sub (by omega : y.m_limbs.1 ≤ x.m_limbs.1 + 2 ^ B)]
        ring
      · omega
    have e1 : limb_cast_int B (((x.m_limbs.2 : Int) - y.m_limbs.2) -
        (if decide (x.m_limbs.1 < y.m_limbs.1) = true then 1 else 0)) =
        x.m_limbs.2 - y.m_limbs.2 - 1 := by
      rw [if_pos (by simpa using hb)]
      apply limb_cast_int_wrap B _ 0
      · omega
      · omega
    rw [e0, e1]
    have he : x.m_limbs.1 + x.m_limbs.2 * 2 ^ B - (y.m_limbs.1 + y.m_limbs.2 * 2 ^ B) =
        (x.m_limbs.1 + 2 ^ B - y.m_limbs.1) + (x.m_limbs.2 - y.m_limbs.2 - 1) * 2 ^ B := by
      obtain ⟨d, hd⟩ : ∃ d, x.m_limbs.2 = y.m_limbs.2 + 1 + d := ⟨x.m_limbs.2 - y.m_limbs.2 - 1,
        by omega⟩
      rw [hd]
      have : y.m_limbs.2 + 1 + d - y.m_limbs.2 - 1 = d := by omega
      rw [this, Nat.add_mul, Nat.add_mul, Nat.one_mul]
      omega
    obtain ⟨k0, k1⟩ := key _ _ (by omega) (by omega) he
    unfold static_integer.mag
    rw [k0, k1]
    rfl
  · have e0 : limb_cast_int B ((x.m_limbs.1 : Int) - y.m_limbs.1) =
        x.m_limbs.1 - y.m_limbs.1 := by
      apply limb_cast_int_wrap B _ 0
      · omega
      · omega
    have e1 : limb_cast_int B (((x.m_limbs.2 : Int) - y.m_limbs.2) -
        (if decide (x.m_limbs.1 < y.m_limbs.1) = true then 1 else 0)) =
        x.m_limbs.2 - y.m_limbs.2 := by
      rw [if_neg (by simpa using hb)]
      apply limb_cast_int_wrap B _ 0
      · omega
      · omega
    rw [e0, e1]
    have he : x.m_limbs.1 + x.m_limbs.2 * 2 ^ B - (y.m_limbs.1 + y.m_limbs.2 * 2 ^ B) =
        (x.m_limbs.1 - y.m_limbs.1) + (x.m_limbs.2 - y.m_limbs.2) * 2 ^ B := by
      obtain ⟨d, hd⟩ : ∃ d, x.m_limbs.2 = y.m_limbs.2 + d := ⟨x.m_limbs.2 - y.m_limbs.2,
        by omega⟩
      rw [hd]
      have : y.m_limbs.2 + d - y.m_limbs.2 = d := by omega
      rw [this, Nat.add_mul]
      omega
    obtain ⟨k0, k1⟩ := key _ _ (by omega) (by omega) he
    unfold static_integer.mag
    rw [k0, k1]
    rfl

end static_ops

section static_ops2

theorem limb_zero (s : static_integer) : s.limb 0 = s.m_limbs.1 := rfl

theorem limb_one (s : static_integer) : s.limb 1 = s.m_limbs.2 := rfl

theorem mag_lt_of_hi_lt (B : Nat) (x y : static_integer) (hy1 : y.m_limbs.1 < 2 ^ B)
    (h : y.m_limbs.2 < x.m_limbs.2) : y.mag B < x.mag B := by
  unfold static_integer.mag
  have : (y.m_limbs.2 + 1) * 2 ^ B ≤ x.m_limbs.2 * 2 ^ B := Nat.mul_le_mul_right _ (by omega)
  rw [Nat.add_mul] at this
  omega

/-- In a consistent `static_integer` the absolute value of the size field is the number of
limbs in use. -/
theorem consistent_abs_size (B : Nat) (s : static_integer)
    (h : s.consistency_checks B = true) :
    (if s._mp_size < 0 then -s._mp_size else s._mp_size) = s.calculate_n_limbs ∧
    (if -s._mp_size < 0 then - -s._mp_size else -s._mp_size) = s.calculate_n_limbs := by
  obtain ⟨_, _, h3⟩ := (consistency_checks_iff B s).1 h
  have : 0 ≤ s.calculate_n_limbs := by
    rcases n_limbs_cases s with h | h | h <;> omega
  constructor <;> split_ifs <;> omega

/-- The test made by `add_or_sub` and `multiply_accumulate` before `raw_sub`: the first
operand is not smaller in magnitude. -/
theorem ge_cond_iff (B : Nat) (x y : static_integer)
    (hx : x.consistency_checks B = true) (hy : y.consistency_checks B = true) :
    (x.calculate_n_limbs > y.calculate_n_limbs ∨
      (x.calculate_n_limbs = y.calculate_n_limbs ∧
        static_integer.compare x y x.calculate_n_limbs ≥ 0)) ↔ y.mag B ≤ x.mag B := by
  obtain ⟨hx1, hx2, _⟩ := (consistency_checks_iff B x).1 hx
  obtain ⟨hy1, hy2, _⟩ := (consistency_checks_iff B y).1 hy
  have hpos : 0 < 2 ^ B := Nat.pow_pos (by decide)
  have hhx := mag_lt_of_hi_lt B x y hy1
  have hhy := mag_lt_of_hi_lt B y x hx1
  unfold static_integer.compare
  rcases n_limbs_cases x with ⟨nx, x1, x2⟩ | ⟨nx, x1, x2⟩ | ⟨nx, x2⟩ <;>
  rcases n_limbs_cases y with ⟨ny, y1, y2⟩ | ⟨ny, y1, y2⟩ | ⟨ny, y2⟩ <;>
  rw [nx, ny]
  · simp [static_integer.mag, x1, x2, y1, y2, compare_loop]
  · simp [static_integer.mag, x1, x2, y2]
    omega
  · have : 0 < y.m_limbs.2 * 2 ^ B := Nat.mul_pos (Nat.pos_of_ne_zero y2) hpos
    simp [static_integer.mag, x1, x2]
    omega
  · simp [static_integer.mag, x2, y1, y2]
  · have e : (1 : Int).toNat = 1 := rfl
    simp only [gt_iff_lt, lt_self_iff_false, true_and, false_or, e, compare_loop, limb_zero]
    simp only [static_integer.mag, x2, y2, Nat.zero_mul, Nat.add_zero]
    split_ifs <;> simp <;> omega
  · have := hhy (by omega)
    simp
    omega
  · have := hhx (by omega)
    simp
    omega
  · have := hhx (by omega)
    simp
    omega
  · have e : (2 : Int).toNat = 2 := rfl
    simp only [gt_iff_lt, lt_self_iff_false, true_and, false_or, e, compare_loop, limb_zero,
      limb_one]
    by_cases h1 : y.m_limbs.2 < x.m_limbs.2
    · have := hhx h1
      rw [if_pos h1]
      simp; omega
    · rw [if_neg h1]
      by_cases h2 : x.m_limbs.2 < y.m_limbs.2
      · have := hhy h2
        rw [if_pos h2]
        simp; omega
      · rw [if_neg h2]
        have h3 : x.m_limbs.2 = y.m_limbs.2 := by omega
        unfold static_integer.mag
        rw [h3]
        split_ifs <;> simp <;> omega

theorem of_nat_eq_of_int (B m : Nat) :
    static_integer.of_nat B m = static_integer.of_int B (m : Int) := by
  unfold static_integer.of_int
  rw [if_neg (by omega)]
  simp

theorem negate_of_nat_eq_of_int (B m : Nat) (hm : m < 2 ^ B * 2 ^ B) :
    (static_integer.of_nat B m).negate = static_integer.of_int B (-(m : Int)) := by
  rw [of_nat_eq_of_int, of_int_neg B _ (by simpa using hm)]

/-- Value and sign of a consistent `static_integer`. -/
theorem consistent_value_cases (B : Nat) (s : static_integer)
    (h : s.consistency_checks B = true) :
    (s._mp_size < 0 → s.value B = -(s.mag B : Int) ∧ 0 < s.mag B) ∧
    (¬ s._mp_size < 0 → s.value B = (s.mag B : Int)) ∧
    (s._mp_size ≤ 0 → s.value B = -(s.mag B : Int)) ∧
    (0 < s._mp_size → s.value B = (s.mag B : Int) ∧ 0 < s.mag B) := by
  have hz := consistent_size_zero_iff B s h
  unfold static_integer.value
  refine ⟨?_, ?_, ?_, ?_⟩
  · intro h1
    rw [if_pos h1]
    refine ⟨rfl, ?_⟩
    rcases Nat.eq_zero_or_pos (s.mag B) with h0 | h0
    · have := hz.2 h0; omega
    · exact h0
  · intro h1; rw [if_neg h1]
  · intro h1
    by_cases h2 : s._mp_size < 0
    · rw [if_pos h2]
    · rw [if_neg h2]
      have := hz.1 (by omega)
      rw [this]; simp
  · intro h1
    rw [if_neg (by omega)]
    refine ⟨rfl, ?_⟩
    rcases Nat.eq_zero_or_pos (s.mag B) with h0 | h0
    · have := hz.2 h0; omega
    · exact h0

theorem natAbs_eq_of_cases (z : Int) (n : Nat) (h : z = n ∨ z = -(n : Int)) :
    z.natAbs = n := by
  rcases h with h | h <;> subst h <;> simp

theorem natAbs_diff_lt (a b P : Nat) (ha : a < P) (hb : b < P) :
    (-(a : Int) + (b : Int)).natAbs < P ∧ ((a : Int) + -(b : Int)).natAbs < P := by
  by_cases h : a ≤ b
  · rw [natAbs_eq_of_cases _ (b - a) (by omega), natAbs_eq_of_cases _ (b - a) (by omega)]
    omega
  · rw [natAbs_eq_of_cases _ (a - b) (by omega), natAbs_eq_of_cases _ (a - b) (by omega)]
    omega

/-- The static addition and subtraction: the exact result when its absolute value fits two
limbs, and an exception leaving `res` untouched otherwise. -/
theorem add_or_sub_eq (B : Nat) (hB : 1 ≤ B) (op : Bool) (res x y : static_integer)
    (hx : x.consistency_checks B = true) (hy : y.consistency_checks B = true) :
    static_integer.add_or_sub B op res x y =
      if (x.value B + (if op then y.value B else -y.value B)).natAbs < 2 ^ B * 2 ^ B then
        Except.ok (static_integer.of_int B
          (x.value B + (if op then y.value B else -y.value B)))
      else Except.error (mp_exception.overflow_error, res) := by
  obtain ⟨hx1, hx2, _⟩ := (consistency_checks_iff B x).1 hx
  obtain ⟨hy1, hy2, _⟩ := (consistency_checks_iff B y).1 hy
  have hmx := mag_lt B x hx1 hx2
  have hmy := mag_lt B y hy1 hy2
  obtain ⟨vx1, vx2, _, _⟩ := consistent_value_cases B x hx
  obtain ⟨vy1, vy2, vy3, vy4⟩ := consistent_value_cases B y hy
  have hax := (consistent_abs_size B x hx).1
  have hay := consistent_abs_size B y hy
  have hge := ge_cond_iff B x y hx hy
  have hge2 := ge_cond_iff B y x hy hx
  -- the effective second operand
  generalize hvy : (if op then y.value B else -y.value B) = vy
  have hy_eff : ((if op then y._mp_size else -y._mp_size) < 0 →
        vy = -(y.mag B : Int) ∧ 0 < y.mag B) ∧
      (¬ (if op then y._mp_size else -y._mp_size) < 0 → vy = (y.mag B : Int)) ∧
      (if (if op then y._mp_size else -y._mp_size) < 0 then
          -(if op then y._mp_size else -y._mp_size)
        else (if op then y._mp_size else -y._mp_size)) = y.calculate_n_limbs := by
    cases op
    · simp only [Bool.false_eq_true, if_false] at hvy ⊢
      refine ⟨?_, ?_, hay.2⟩
      · intro h
        have := vy4 (by omega)
        rw [← hvy, this.1]; exact ⟨rfl, this.2⟩
      · intro h
        have := vy3 (by omega)
        rw [← hvy, this]; simp
    · simp only [if_true] at hvy ⊢
      refine ⟨?_, ?_, hay.1⟩
      · intro h
        have := vy1 h
        rw [← hvy, this.1]; exact ⟨rfl, this.2⟩
      · intro h
        rw [← hvy, vy2 h]
  obtain ⟨ye1, ye2, ye3⟩ := hy_eff
  unfold static_integer.add_or_sub
  simp only []
  rw [hax, ye3]
  generalize (if op then y._mp_size else -y._mp_size) = sy at ye1 ye2
  by_cases sx : x._mp_size < 0
  · obtain ⟨ex, px⟩ := vx1 sx
    by_cases hsy : sy < 0
    · obtain ⟨ey, py⟩ := ye1 hsy
      have e1 : (!decide (x._mp_size < 0)) = (!decide (sy < 0)) := by simp [sx, hsy]
      rw [if_pos e1, raw_add_eq B hB res x y hx1 hx2 hy1 hy2, ex, ey]
      have e2 : (-(x.mag B : Int) + -(y.mag B : Int)).natAbs = x.mag B + y.mag B :=
        natAbs_eq_of_cases _ _ (by omega)
      rw [e2]
      by_cases hfit : x.mag B + y.mag B < 2 ^ B * 2 ^ B
      · rw [if_pos hfit, if_pos hfit]
        simp only [sx, decide_True, decide_False, Bool.not_true, Bool.not_false,
          Bool.false_eq_true, eq_self_iff_true, if_true, if_false]
        rw [negate_of_nat_eq_of_int B _ hfit]
        congr 1
        congr 1
        push_cast
        ring
      · rw [if_neg hfit, if_neg hfit]
    · have ey := ye2 hsy
      have e1 : ¬ ((!decide (x._mp_size < 0)) = (!decide (sy < 0))) := by simp [sx, hsy]
      rw [if_neg e1, ex, ey]
      have hn : (-(x.mag B : Int) + (y.mag B : Int)).natAbs < 2 ^ B * 2 ^ B :=
        (natAbs_diff_lt _ _ _ hmx hmy).1
      rw [if_pos hn]
      by_cases hle : y.mag B ≤ x.mag B
      · rw [if_pos (hge.2 hle), raw_sub_eq B res x y hx1 hx2 hy1 hy2 hle]
        simp only [sx, decide_True, decide_False, Bool.not_true, Bool.not_false,
          Bool.false_eq_true, eq_self_iff_true, if_true, if_false]
        rw [negate_of_nat_eq_of_int B _ (by omega)]
        congr 1
        congr 1
        omega
      · rw [if_neg (fun h => hle (hge.1 h)),
          raw_sub_eq B res y x hy1 hy2 hx1 hx2 (by omega)]
        simp only [hsy, decide_True, decide_False, Bool.not_true, Bool.not_false,
          Bool.false_eq_true, eq_self_iff_true, if_true, if_false]
        rw [of_nat_eq_of_int]
        congr 1
        congr 1
        omega
  · have ex := vx2 sx
    by_cases hsy : sy < 0
    · obtain ⟨ey, py⟩ := ye1 hsy
      have e1 : ¬ ((!decide (x._mp_size < 0)) = (!decide (sy < 0))) := by simp [sx, hsy]
      rw [if_neg e1, ex, ey]
      have hn : ((x.mag B : Int) + -(y.mag B : Int)).natAbs < 2 ^ B * 2 ^ B :=
        (natAbs_diff_lt _ _ _ hmx hmy).2
      rw [if_pos hn]
      by_cases hle : y.mag B ≤ x.mag B
      · rw [if_pos (hge.2 hle), raw_sub_eq B res x y hx1 hx2 hy1 hy2 hle]
        simp only [sx, decide_True, decide_False, Bool.not_true, Bool.not_false,
          Bool.false_eq_true, eq_self_iff_true, if_true, if_false]
        rw [of_nat_eq_of_int]
        congr 1
        congr 1
        omega
      · rw [if_neg (fun h => hle (hge.1 h)),
          raw_sub_eq B res y x hy1 hy2 hx1 hx2 (by omega)]
        simp only [hsy, decide_True, decide_False, Bool.not_true, Bool.not_false,
          Bool.false_eq_true, eq_self_iff_true, if_true, if_false]
        rw [negate_of_nat_eq_of_int B _ (by omega)]
        congr 1
        congr 1
        omega
    · have ey := ye2 hsy
      have e1 : (!decide (x._mp_size < 0)) = (!decide (sy < 0)) := by simp [sx, hsy]
      rw [if_pos e1, raw_add_eq B hB res x y hx1 hx2 hy1 hy2, ex, ey]
      have e2 : ((x.mag B : Int) + (y.mag B : Int)).natAbs = x.mag B + y.mag B :=
        natAbs_eq_of_cases _ _ (by omega)
      rw [e2]
      by_cases hfit : x.mag B + y.mag B < 2 ^ B * 2 ^ B
      · rw [if_pos hfit, if_pos hfit]
        simp only [sx, decide_True, decide_False, Bool.not_true, Bool.not_false,
          Bool.false_eq_true, eq_self_iff_true, if_true, if_false]
        rw [of_nat_eq_of_int]
        congr 1
      · rw [if_neg hfit, if_neg hfit]

end static_ops2

section to_mpz

theorem mpz_setbit_of_lt (out : Int) (k : Nat) (h0 : 0 ≤ out) (h1 : out < 2 ^ k) :
    mpz_setbit out k = out + 2 ^ k := by
  unfold mpz_setbit
  obtain ⟨n, rfl⟩ := Int.eq_ofNat_of_zero_le h0
  have hn : n < 2 ^ k := by exact_mod_cast h1
  have := Nat.mul_add_lt_is_or hn 1
  rw [Nat.mul_one] at this
  simp only [Int.toNat_ofNat]
  rw [Nat.or_comm, ← this]
  push_cast
  ring

/-- One loop of `to_mpz` adds to `out` the low `fuel` bits of the limb, shifted to the position
of the loop. -/
theorem to_mpz_loop_eq (B off : Nat) :
    ∀ (fuel i l : Nat) (out : Int), l < 2 ^ B → 0 ≤ out → out < 2 ^ (i + off) →
      to_mpz_loop B off fuel i l out = out + ((l % 2 ^ fuel * 2 ^ (i + off) : Nat) : Int) := by
  intro fuel
  induction fuel with
  | zero =>
    intro i l out _ _ _
    unfold to_mpz_loop
    simp [Nat.mod_one]
  | succ fuel ih =>
    intro i l out hl h0 h1
    unfold to_mpz_loop
    have hl2 : l >>> 1 < 2 ^ B := by
      rw [Nat.shiftRight_eq_div_pow]
      exact Nat.lt_of_le_of_lt (Nat.div_le_self _ _) hl
    have hc : limb_cast B (l >>> 1) = l / 2 := by
      unfold limb_cast
      rw [Nat.mod_eq_of_lt hl2, Nat.shiftRight_eq_div_pow, Nat.pow_one]
    rw [hc]
    have hl3 : l / 2 < 2 ^ B := by rw [← hc]; exact Nat.mod_lt _ (Nat.pow_pos (by decide))
    have hp : (2 : Int) ^ (i + 1 + off) = 2 ^ (i + off) + 2 ^ (i + off) := by
      have : i + 1 + off = (i + off) + 1 := by omega
      rw [this, pow_succ]; ring
    have hsplit : l % 2 ^ (fuel + 1) = l % 2 + 2 * (l / 2 % 2 ^ fuel) := by
      rw [Nat.pow_succ, Nat.mul_comm, Nat.mod_mul]
    have hpn : 2 ^ (i + 1 + off) = 2 * 2 ^ (i + off) := by
      have : i + 1 + off = (i + off) + 1 := by omega
      rw [this, Nat.pow_succ, Nat.mul_comm]
    by_cases hb : l % 2 ≠ 0
    · rw [if_pos hb, mpz_setbit_of_lt out _ h0 h1]
      have hpos : (0 : Int) < 2 ^ (i + off) := by positivity
      rw [ih (i + 1) (l / 2) _ hl3 (by omega) (by omega), hsplit, hpn]
      have h1' : l % 2 = 1 := by omega
      rw [h1']
      push_cast
      ring
    · rw [if_neg hb]
      have hpos : (0 : Int) < 2 ^ (i + off) := by positivity
      rw [ih (i + 1) (l / 2) _ hl3 h0 (by omega), hsplit, hpn]
      have h1' : l % 2 = 0 := by omega
      rw [h1']
      push_cast
      ring

/-- The conversion `to_mpz` of a consistent `static_integer` gives its value. -/
theorem to_mpz_eq_value (B : Nat) (s : static_integer)
    (h : s.consistency_checks B = true) : s.to_mpz B = s.value B := by
  obtain ⟨h1, h2, _⟩ := (consistency_checks_iff B s).1 h
  unfold static_integer.to_mpz
  simp only []
  rw [to_mpz_loop_eq B 0 B 0 s.m_limbs.1 0 h1 (Int.le_refl _) (by positivity)]
  simp only [Nat.zero_add, Nat.add_zero, Nat.pow_zero, Nat.mul_one, Int.zero_add,
    Nat.mod_eq_of_lt h1]
  rw [to_mpz_loop_eq B B B 0 s.m_limbs.2 _ h2 (by omega) (by
    simp only [Nat.zero_add]; exact_mod_cast h1)]
  simp only [Nat.zero_add, Nat.mod_eq_of_lt h2]
  unfold static_integer.value static_integer.mag
  push_cast
  rfl

end to_mpz

section mp_integer_arith

theorem value_st (B : Nat) (s : static_integer) :
    mp_integer.value B ⟨integer_union.st s⟩ = s.value B := rfl

theorem value_dy (B : Nat) (z : Int) : mp_integer.value B ⟨integer_union.dy z⟩ = z := rfl

theorem valid_st (B : Nat) (s : static_integer) :
    mp_integer.valid B ⟨integer_union.st s⟩ = s.consistency_checks B := rfl

theorem valid_dy (B : Nat) (z : Int) : mp_integer.valid B ⟨integer_union.dy z⟩ = true := rfl

/-- In-place addition and subtraction of `mp_integer`: the result is well formed, its value is
exact, and it is static exactly when both operands are and the result fits two limbs. -/
theorem in_place_add_or_sub_spec (B : Nat) (hB : 1 ≤ B) (op : Bool) (a b : mp_integer)
    (ha : a.valid B = true) (hb : b.valid B = true) :
    (mp_integer.in_place_add_or_sub B op a b).valid B = true ∧
    (mp_integer.in_place_add_or_sub B op a b).value B =
      a.value B + (if op then b.value B else -b.value B) := by
  obtain ⟨ua⟩ := a
  obtain ⟨ub⟩ := b
  have hsub : ∀ (x y : Int), (if op = true then x + y else x - y) =
      x + (if op = true then y else -y) := by
    intro x y; cases op <;> simp; ring
  cases ua with
  | st s =>
    cases ub with
    | st o =>
      rw [valid_st] at ha hb
      have hop : (if op = true then static_integer.add B s s o
          else static_integer.sub B s s o) = static_integer.add_or_sub B op s s o := by
        cases op <;> rfl
      unfold mp_integer.in_place_add_or_sub
      simp only []
      rw [hop, add_or_sub_eq B hB op s s o ha hb]
      simp only [value_st]
      by_cases hfit : (s.value B + (if op = true then o.value B else -o.value B)).natAbs <
          2 ^ B * 2 ^ B
      · rw [if_pos hfit]
        simp only []
        exact ⟨(valid_st B _).trans (of_int_consistent B _), by
          rw [value_st, of_int_value B _ hfit]⟩
      · rw [if_neg hfit]
        simp only []
        refine ⟨rfl, ?_⟩
        rw [value_dy, to_mpz_eq_value B s ha, to_mpz_eq_value B o hb, hsub]
    | dy z =>
      rw [valid_st] at ha
      unfold mp_integer.in_place_add_or_sub
      simp only []
      refine ⟨rfl, ?_⟩
      rw [value_dy, value_dy, value_st, to_mpz_eq_value B s ha, hsub]
  | dy w =>
    cases ub with
    | st o =>
      rw [valid_st] at hb
      unfold mp_integer.in_place_add_or_sub
      simp only []
      refine ⟨rfl, ?_⟩
      rw [value_dy, value_dy, value_st, to_mpz_eq_value B o hb, hsub]
    | dy z =>
      unfold mp_integer.in_place_add_or_sub
      simp only []
      refine ⟨rfl, ?_⟩
      rw [value_dy, value_dy, value_dy, hsub]

end mp_integer_arith

section static_mul

theorem of_int_zero (B : Nat) : static_integer.of_int B 0 = ⟨0, (0, 0)⟩ := by
  unfold static_integer.of_int static_integer.of_nat static_integer.calculate_n_limbs
  simp

/-- A consistent `static_integer` of size one or minus one holds its magnitude in the first
limb. -/
theorem single_limb (B : Nat) (s : static_integer) (h : s.consistency_checks B = true)
    (h0 : s._mp_size ≠ 0) (h1 : ¬ 1 < s.calculate_n_limbs) :
    s.m_limbs.1 ≠ 0 ∧ s.m_limbs.2 = 0 ∧ s.mag B = s.m_limbs.1 := by
  obtain ⟨_, _, h3⟩ := (consistency_checks_iff B s).1 h
  rcases n_limbs_cases s with ⟨n, l1, l2⟩ | ⟨n, l1, l2⟩ | ⟨n, l2⟩
  · omega
  · refine ⟨l1, l2, ?_⟩
    unfold static_integer.mag
    rw [l2]; simp
  · omega

theorem raw_mul_eq (B : Nat) (res x y : static_integer)
    (hx1 : x.m_limbs.1 < 2 ^ B) (hy1 : y.m_limbs.1 < 2 ^ B)
    (hx0 : x.m_limbs.1 ≠ 0) (hy0 : y.m_limbs.1 ≠ 0) :
    static_integer.raw_mul B res x y 1 1 =
      static_integer.of_nat B (x.m_limbs.1 * y.m_limbs.1) := by
  have hpos : 0 < 2 ^ B := Nat.pow_pos (by decide)
  have hlt : x.m_limbs.1 * y.m_limbs.1 < 2 ^ B * 2 ^ B :=
    Nat.mul_lt_mul'' hx1 hy1
  have hne : x.m_limbs.1 * y.m_limbs.1 ≠ 0 := Nat.mul_ne_zero hx0 hy0
  unfold static_integer.raw_mul static_integer.of_nat
  simp only []
  have hxd : x.m_limbs.1 < 2 ^ B * 2 ^ B :=
    Nat.lt_of_lt_of_le hx1 (Nat.le_mul_of_pos_left _ hpos)
  rw [dlimb_cast_of_lt B _ hxd, dlimb_cast_of_lt B _ hlt]
  unfold limb_cast
  rw [Nat.shiftRight_eq_div_pow]
  generalize x.m_limbs.1 * y.m_limbs.1 = lo at hlt hne
  have hq : lo / 2 ^ B < 2 ^ B := Nat.div_lt_of_lt_mul hlt
  rw [Nat.mod_eq_of_lt hq]
  unfold static_integer.calculate_n_limbs
  simp only []
  by_cases hc : lo / 2 ^ B = 0
  · have hlo : lo < 2 ^ B := by
      rcases Nat.lt_or_ge lo (2 ^ B) with h | h
      · exact h
      · have := Nat.div_pos h hpos; omega
    rw [hc, Nat.mod_eq_of_lt hlo]
    simp [hne]
  · simp [hc]

/-- The static multiplication: zero when an operand is zero, an exception leaving `res`
untouched when an operand has two limbs, and the exact product of two single limbs. -/
theorem mul_eq (B : Nat) (res x y : static_integer)
    (hx : x.consistency_checks B = true) (hy : y.consistency_checks B = true) :
    static_integer.mul B res x y =
      if x._mp_size = 0 ∨ y._mp_size = 0 then Except.ok (static_integer.of_int B 0)
      else if 1 < x.calculate_n_limbs ∨ 1 < y.calculate_n_limbs then
        Except.error (mp_exception.overflow_error, res)
      else Except.ok (static_integer.of_int B (x.value B * y.value B)) := by
  obtain ⟨hx1, hx2, _⟩ := (consistency_checks_iff B x).1 hx
  obtain ⟨hy1, hy2, _⟩ := (consistency_checks_iff B y).1 hy
  obtain ⟨vx1, vx2, _, _⟩ := consistent_value_cases B x hx
  obtain ⟨vy1, vy2, _, _⟩ := consistent_value_cases B y hy
  have hax := (consistent_abs_size B x hx).1
  have hay := (consistent_abs_size B y hy).1
  unfold static_integer.mul
  simp only []
  by_cases hz : x._mp_size = 0 ∨ y._mp_size = 0
  · rw [if_pos hz, if_pos hz, of_int_zero]
  · rw [if_neg hz, if_neg hz, hax, hay]
    have e1 : (x.calculate_n_limbs > 1 ∨ y.calculate_n_limbs > 1) ↔
        (1 < x.calculate_n_limbs ∨ 1 < y.calculate_n_limbs) := Iff.rfl
    by_cases hbig : 1 < x.calculate_n_limbs ∨ 1 < y.calculate_n_limbs
    · rw [if_pos (e1.2 hbig), if_pos hbig]
    · rw [if_neg (fun h => hbig (e1.1 h)), if_neg hbig]
      have hnx : x.calculate_n_limbs = 1 := by
        rcases n_limbs_cases x with ⟨n, _⟩ | ⟨n, _⟩ | ⟨n, _⟩ <;> omega
      have hny : y.calculate_n_limbs = 1 := by
        rcases n_limbs_cases y with ⟨n, _⟩ | ⟨n, _⟩ | ⟨n, _⟩ <;> omega
      obtain ⟨x0, _, mx⟩ := single_limb B x hx (by omega) (by omega)
      obtain ⟨y0, _, my⟩ := single_limb B y hy (by omega) (by omega)
      rw [hnx, hny, raw_mul_eq B res x y hx1 hy1 x0 y0]
      have hlt : x.m_limbs.1 * y.m_limbs.1 < 2 ^ B * 2 ^ B := Nat.mul_lt_mul'' hx1 hy1
      congr 1
      by_cases sx : x._mp_size < 0 <;> by_cases sy : y._mp_size < 0
      · rw [(vx1 sx).1, (vy1 sy).1, mx, my]
        simp only [sx, sy, decide_True, decide_False, Bool.not_true, Bool.not_false,
          ne_eq, not_true_eq_false, not_false_eq_true, Bool.false_eq_true,
          Bool.true_eq_false, eq_self_iff_true, if_true, if_false]
        rw [of_nat_eq_of_int]
        congr 1
        push_cast
        ring
      · rw [(vx1 sx).1, vy2 sy, mx, my]
        simp only [sx, sy, decide_True, decide_False, Bool.not_true, Bool.not_false,
          ne_eq, not_true_eq_false, not_false_eq_true, Bool.false_eq_true,
          Bool.true_eq_false, eq_self_iff_true, if_true, if_false]
        rw [negate_of_nat_eq_of_int B _ hlt]
        congr 1
        push_cast
        ring
      · rw [vx2 sx, (vy1 sy).1, mx, my]
        simp only [sx, sy, decide_True, decide_False, Bool.not_true, Bool.not_false,
          ne_eq, not_true_eq_false, not_false_eq_true, Bool.false_eq_true,
          Bool.true_eq_false, eq_self_iff_true, if_true, if_false]
        rw [negate_of_nat_eq_of_int B _ hlt]
        congr 1
        push_cast
        ring
      · rw [vx2 sx, vy2 sy, mx, my]
        simp only [sx, sy, decide_True, decide_False, Bool.not_true, Bool.not_false,
          ne_eq, not_true_eq_false, not_false_eq_true, Bool.false_eq_true,
          Bool.true_eq_false, eq_self_iff_true, if_true, if_false]
        rw [of_nat_eq_of_int]
        congr 1

/-- The product of two single limbs fits two limbs. -/
theorem single_limb_product_fits (B : Nat) (x y : static_integer)
    (hx : x.consistency_checks B = true) (hy : y.consistency_checks B = true)
    (h1 : ¬ 1 < x.calculate_n_limbs) (h2 : ¬ 1 < y.calculate_n_limbs) :
    (x.value B * y.value B).natAbs < 2 ^ B * 2 ^ B := by
  obtain ⟨hx1, hx2, _⟩ := (consistency_checks_iff B x).1 hx
  obtain ⟨hy1, hy2, _⟩ := (consistency_checks_iff B y).1 hy
  have ex : (x.value B).natAbs = x.mag B := by
    unfold static_integer.value; split_ifs <;> simp
  have ey : (y.value B).natAbs = y.mag B := by
    unfold static_integer.value; split_ifs <;> simp
  have mx : x.mag B < 2 ^ B := by
    unfold static_integer.mag
    rcases n_limbs_cases x with ⟨n, l1, l2⟩ | ⟨n, l1, l2⟩ | ⟨n, l2⟩
    · rw [l2]; simpa using hx1
    · rw [l2]; simpa using hx1
    · omega
  have my : y.mag B < 2 ^ B := by
    unfold static_integer.mag
    rcases n_limbs_cases y with ⟨n, l1, l2⟩ | ⟨n, l1, l2⟩ | ⟨n, l2⟩
    · rw [l2]; simpa using hy1
    · rw [l2]; simpa using hy1
    · omega
  rw [Int.natAbs_mul, ex, ey]
  exact Nat.mul_lt_mul'' mx my

end static_mul

section static_macc

theorem raw_add_negate (B : Nat) (res x y : static_integer) :
    static_integer.raw_add B res x y.negate = static_integer.raw_add B res x y := rfl

theorem raw_sub_negate_right (B : Nat) (res x y : static_integer) :
    static_integer.raw_sub B res x y.negate = static_integer.raw_sub B res x y := rfl

theorem raw_sub_negate_left (B : Nat) (res x y : static_integer) :
    static_integer.raw_sub B res y.negate x = static_integer.raw_sub B res y x := rfl

theorem compare_negate (x y : static_integer) (n : Int) :
    static_integer.compare x y.negate n = static_integer.compare x y n := by
  unfold static_integer.compare
  generalize n.toNat = k
  induction k with
  | zero => rfl
  | succ k ih =>
    unfold compare_loop
    rw [ih]
    rfl

/-- The static `multiply_accumulate`: an exception leaving the object untouched when `b` or
`c` has two limbs or when the result does not fit two limbs, and the exact result otherwise. -/
theorem multiply_accumulate_eq (B : Nat) (hB : 1 ≤ B) (a b c : static_integer)
    (ha : a.consistency_checks B = true) (hb : b.consistency_checks B = true)
    (hc : c.consistency_checks B = true) :
    static_integer.multiply_accumulate B a b c =
      if 1 < b.calculate_n_limbs ∨ 1 < c.calculate_n_limbs then
        Except.error (mp_exception.overflow_error, a)
      else if b._mp_size = 0 ∨ c._mp_size = 0 then Except.ok a
      else if (a.value B + b.value B * c.value B).natAbs < 2 ^ B * 2 ^ B then
        Except.ok (static_integer.of_int B (a.value B + b.value B * c.value B))
      else Except.error (mp_exception.overflow_error, a) := by
  obtain ⟨hb1, hb2, _⟩ := (consistency_checks_iff B b).1 hb
  obtain ⟨hc1, hc2, _⟩ := (consistency_checks_iff B c).1 hc
  obtain ⟨vb1, vb2, _, _⟩ := consistent_value_cases B b hb
  obtain ⟨vc1, vc2, _, _⟩ := consistent_value_cases B c hc
  have hab := (consistent_abs_size B b hb).1
  have hac := (consistent_abs_size B c hc).1
  unfold static_integer.multiply_accumulate
  simp only []
  rw [hab, hac]
  have e1 : (b.calculate_n_limbs > 1 ∨ c.calculate_n_limbs > 1) ↔
      (1 < b.calculate_n_limbs ∨ 1 < c.calculate_n_limbs) := Iff.rfl
  by_cases hbig : 1 < b.calculate_n_limbs ∨ 1 < c.calculate_n_limbs
  · rw [if_pos (e1.2 hbig), if_pos hbig]
  · rw [if_neg (fun h => hbig (e1.1 h)), if_neg hbig]
    have e2 : (b.calculate_n_limbs = 0 ∨ c.calculate_n_limbs = 0) ↔
        (b._mp_size = 0 ∨ c._mp_size = 0) := by
      have := consistent_abs_size B b hb
      have := consistent_abs_size B c hc
      constructor
      · rintro (h | h)
        · left; split_ifs at hab <;> omega
        · right; split_ifs at hac <;> omega
      · rintro (h | h)
        · left; rw [h] at hab; simpa using hab.symm
        · right; rw [h] at hac; simpa using hac.symm
    by_cases hz : b._mp_size = 0 ∨ c._mp_size = 0
    · rw [if_pos (e2.2 hz), if_pos hz]
    · rw [if_neg (fun h => hz (e2.1 h)), if_neg hz]
      have hnb : b.calculate_n_limbs = 1 := by
        have := (e2.not).2 hz
        rcases n_limbs_cases b with ⟨n, _⟩ | ⟨n, _⟩ | ⟨n, _⟩ <;> omega
      have hnc : c.calculate_n_limbs = 1 := by
        have := (e2.not).2 hz
        rcases n_limbs_cases c with ⟨n, _⟩ | ⟨n, _⟩ | ⟨n, _⟩ <;> omega
      obtain ⟨b0, _, mb⟩ := single_limb B b hb (by omega) (by omega)
      obtain ⟨c0, _, mc⟩ := single_limb B c hc (by omega) (by omega)
      rw [hnb, hnc, raw_mul_eq B static_integer.init b c hb1 hc1 b0 c0]
      have hlt : b.m_limbs.1 * c.m_limbs.1 < 2 ^ B * 2 ^ B := Nat.mul_lt_mul'' hb1 hc1
      have hne : b.m_limbs.1 * c.m_limbs.1 ≠ 0 := Nat.mul_ne_zero b0 c0
      generalize hT : static_integer.of_nat B (b.m_limbs.1 * c.m_limbs.1) = T
      have hTc : T.consistency_checks B = true := by rw [← hT]; exact of_nat_consistent B _
      have hTv : T.value B = ((b.m_limbs.1 * c.m_limbs.1 : Nat) : Int) := by
        rw [← hT]; exact of_nat_value B _ hlt
      have hTs : 0 < T._mp_size := by
        have h1 := of_nat_size_nonneg B (b.m_limbs.1 * c.m_limbs.1)
        have h2 := (of_nat_size_eq_zero B (b.m_limbs.1 * c.m_limbs.1) hlt).not.2 hne
        rw [hT] at h1 h2
        omega
      have hTa := (consistent_abs_size B T hTc).1
      rw [if_neg (by omega)] at hTa
      -- the same computation as the static addition of the signed product
      have key : ∀ (sg : Bool) (T1 : static_integer),
          T1 = (if sg then T else T.negate) →
          (if (!decide (a._mp_size < 0)) = sg then
            match static_integer.raw_add B a a T with
            | Except.error err => Except.error err
            | Except.ok r => Except.ok (if (!(!decide (a._mp_size < 0))) = true then r.negate
                else r)
          else
            if (if a._mp_size < 0 then -a._mp_size else a._mp_size) > T._mp_size ∨
                ((if a._mp_size < 0 then -a._mp_size else a._mp_size) = T._mp_size ∧
                  static_integer.compare a T
                    (if a._mp_size < 0 then -a._mp_size else a._mp_size) ≥ 0) then
              Except.ok (if (!(!decide (a._mp_size < 0))) = true then
                (static_integer.raw_sub B a a T).negate else static_integer.raw_sub B a a T)
            else
              Except.ok (if (!sg) = true then (static_integer.raw_sub B a T a).negate
                else static_integer.raw_sub B a T a)) =
          static_integer.add_or_sub B true a a T1 := by
        intro sg T1 hT1
        unfold static_integer.add_or_sub
        simp only [if_true]
        cases sg
        · simp only [Bool.false_eq_true, if_false] at hT1
          subst hT1
          have hs : T.negate._mp_size < 0 := by rw [negate_size]; omega
          have hs2 : (if T.negate._mp_size < 0 then -T.negate._mp_size
              else T.negate._mp_size) = T._mp_size := by
            rw [if_pos hs, negate_size]; omega
          rw [hs2, raw_add_negate, raw_sub_negate_right, raw_sub_negate_left, compare_negate]
          simp only [hs, decide_True, Bool.not_true]
        · simp only [if_true] at hT1
          subst hT1
          have hs : ¬ T1._mp_size < 0 := by omega
          have hs2 : (if T1._mp_size < 0 then -T1._mp_size else T1._mp_size) = T1._mp_size := by
            rw [if_neg hs]
          rw [hs2]
          simp only [hs, decide_False, Bool.not_false]
      have hsg : decide ((!decide (b._mp_size < 0)) = (!decide (c._mp_size < 0))) =
          decide ((b._mp_size < 0) ↔ (c._mp_size < 0)) := by
        by_cases sb : b._mp_size < 0 <;> by_cases sc : c._mp_size < 0 <;> simp [sb, sc]
      rw [hsg]
      refine (key (decide ((b._mp_size < 0) ↔ (c._mp_size < 0)))
        (if decide ((b._mp_size < 0) ↔ (c._mp_size < 0)) then T else T.negate) rfl).trans ?_
      have hT1c : (if decide ((b._mp_size < 0) ↔ (c._mp_size < 0)) = true then T
          else T.negate).consistency_checks B = true := by
        split_ifs
        · exact hTc
        · exact negate_consistent B T hTc
      rw [add_or_sub_eq B hB true a a _ ha hT1c]
      have hv : (if decide ((b._mp_size < 0) ↔ (c._mp_size < 0)) = true then T
          else T.negate).value B = b.value B * c.value B := by
        by_cases sb : b._mp_size < 0 <;> by_cases sc : c._mp_size < 0
        · simp only [sb, sc, iff_self, decide_True, if_true]
          rw [hTv, (vb1 sb).1, (vc1 sc).1, mb, mc]; push_cast; ring
        · simp only [sb, sc, iff_false, not_true_eq_false, decide_False, Bool.false_eq_true,
            if_false]
          rw [negate_value B T hTc, hTv, (vb1 sb).1, vc2 sc, mb, mc]; push_cast; ring
        · simp only [sb, sc, false_iff, not_true_eq_false, decide_False, Bool.false_eq_true,
            if_false]
          rw [negate_value B T hTc, hTv, vb2 sb, (vc1 sc).1, mb, mc]; push_cast; ring
        · simp only [sb, sc, iff_self, decide_True, if_true]
          rw [hTv, vb2 sb, vc2 sc, mb, mc]; push_cast; ring
      simp only [if_true]
      rw [hv]

end static_macc

section static_div

theorem neg_tmod_eq (a b : Int) : (-a).tmod b = -(a.tmod b) := by
  have h1 := Int.tdiv_add_tmod (-a) b
  have h2 := Int.tdiv_add_tmod a b
  rw [Int.neg_tdiv] at h1
  have : b * -(a.tdiv b) = -(b * a.tdiv b) := by ring
  rw [this] at h1
  omega

/-- The double limb read by `div` from a consistent operand is its magnitude. -/
theorem div_read (B : Nat) (s : static_integer) (h1 : s.m_limbs.1 < 2 ^ B)
    (h2 : s.m_limbs.2 < 2 ^ B) :
    dlimb_cast B (s.m_limbs.1 + dlimb_cast B (dlimb_cast B s.m_limbs.2 <<< B)) = s.mag B := by
  have hpos : 0 < 2 ^ B := Nat.pow_pos (by decide)
  have hm := mag_lt B s h1 h2
  unfold static_integer.mag at hm ⊢
  have h2d : s.m_limbs.2 < 2 ^ B * 2 ^ B :=
    Nat.lt_of_lt_of_le h2 (Nat.le_mul_of_pos_left _ hpos)
  have h3 : s.m_limbs.2 * 2 ^ B < 2 ^ B * 2 ^ B := (Nat.mul_lt_mul_right hpos).2 h2
  rw [dlimb_cast_of_lt B _ h2d, Nat.shiftLeft_eq, dlimb_cast_of_lt B _ h3,
    dlimb_cast_of_lt B _ hm]

theorem of_nat_of_limbs (B m : Nat) (sz : Int) :
    ({ _mp_size := static_integer.calculate_n_limbs
        { _mp_size := sz, m_limbs := (limb_cast B m, limb_cast B (m >>> B)) },
       m_limbs := (limb_cast B m, limb_cast B (m >>> B)) } : static_integer) =
      static_integer.of_nat B m := by
  unfold static_integer.of_nat limb_cast
  rw [Nat.shiftRight_eq_div_pow]
  rfl

/-- The static division writes the quotient and the remainder of the magnitudes, the quotient
negated when the signs of the operands differ and the remainder negated when the dividend is
negative. -/
theorem div_eq (B : Nat) (q r a b : static_integer)
    (ha : a.consistency_checks B = true) (hb : b.consistency_checks B = true) :
    static_integer.div B q r a b =
      (if decide (a._mp_size ≥ 0) ≠ decide (b._mp_size ≥ 0) then
          (static_integer.of_nat B (a.mag B / b.mag B)).negate
        else static_integer.of_nat B (a.mag B / b.mag B),
       if ¬ a._mp_size ≥ 0 then (static_integer.of_nat B (a.mag B % b.mag B)).negate
        else static_integer.of_nat B (a.mag B % b.mag B)) := by
  obtain ⟨ha1, ha2, _⟩ := (consistency_checks_iff B a).1 ha
  obtain ⟨hb1, hb2, _⟩ := (consistency_checks_iff B b).1 hb
  have hma := mag_lt B a ha1 ha2
  unfold static_integer.div
  simp only []
  rw [div_read B a ha1 ha2, div_read B b hb1 hb2]
  have hq : a.mag B / b.mag B < 2 ^ B * 2 ^ B :=
    Nat.lt_of_le_of_lt (Nat.div_le_self _ _) hma
  have hr : a.mag B % b.mag B < 2 ^ B * 2 ^ B :=
    Nat.lt_of_le_of_lt (Nat.mod_le _ _) hma
  rw [dlimb_cast_of_lt B _ hq, dlimb_cast_of_lt B _ hr, of_nat_of_limbs, of_nat_of_limbs]
  by_cases sa : a._mp_size ≥ 0 <;> by_cases sb : b._mp_size ≥ 0 <;>
    simp [sa, sb]

/-- Values of the quotient and of the remainder written by the static division: the quotient
rounded towards zero and the remainder of that division. -/
theorem div_value (B : Nat) (q r a b : static_integer)
    (ha : a.consistency_checks B = true) (hb : b.consistency_checks B = true)
    (hb0 : b._mp_size ≠ 0) :
    (static_integer.div B q r a b).1 = static_integer.of_int B (Int.tdiv (a.value B) (b.value B)) ∧
    (static_integer.div B q r a b).2 = static_integer.of_int B (Int.tmod (a.value B) (b.value B)) ∧
    (Int.tdiv (a.value B) (b.value B)).natAbs = a.mag B / b.mag B ∧
    (Int.tmod (a.value B) (b.value B)).natAbs = a.mag B % b.mag B ∧
    0 < b.mag B := by
  obtain ⟨ha1, ha2, _⟩ := (consistency_checks_iff B a).1 ha
  have hma := mag_lt B a ha1 ha2
  obtain ⟨va1, va2, _, _⟩ := consistent_value_cases B a ha
  obtain ⟨vb1, vb2, _, vb4⟩ := consistent_value_cases B b hb
  have hq : a.mag B / b.mag B < 2 ^ B * 2 ^ B :=
    Nat.lt_of_le_of_lt (Nat.div_le_self _ _) hma
  have hr : a.mag B % b.mag B < 2 ^ B * 2 ^ B :=
    Nat.lt_of_le_of_lt (Nat.mod_le _ _) hma
  have hbpos : 0 < b.mag B := by
    by_cases sb : b._mp_size < 0
    · exact (vb1 sb).2
    · exact (vb4 (by omega)).2
  rw [div_eq B q r a b ha hb]
  simp only []
  have fin : ∀ (vq vr : Int) (sq sr : Bool),
      vq = (if sq then -((a.mag B / b.mag B : Nat) : Int) else ((a.mag B / b.mag B : Nat) : Int)) →
      vr = (if sr then -((a.mag B % b.mag B : Nat) : Int) else ((a.mag B % b.mag B : Nat) : Int)) →
      (if sq then (static_integer.of_nat B (a.mag B / b.mag B)).negate
        else static_integer.of_nat B (a.mag B / b.mag B)) = static_integer.of_int B vq ∧
      (if sr then (static_integer.of_nat B (a.mag B % b.mag B)).negate
        else static_integer.of_nat B (a.mag B % b.mag B)) = static_integer.of_int B vr ∧
      vq.natAbs = a.mag B / b.mag B ∧ vr.natAbs = a.mag B % b.mag B ∧ 0 < b.mag B := by
    intro vq vr sq sr h1 h2
    subst h1 h2
    refine ⟨?_, ?_, ?_, ?_, hbpos⟩
    · cases sq
      · simp only [Bool.false_eq_true, if_false]; exact of_nat_eq_of_int B _
      · simp only [if_true]; exact negate_of_nat_eq_of_int B _ hq
    · cases sr
      · simp only [Bool.false_eq_true, if_false]; exact of_nat_eq_of_int B _
      · simp only [if_true]; exact negate_of_nat_eq_of_int B _ hr
    · cases sq <;>
        simp only [Bool.false_eq_true, if_false, if_true, Int.natAbs_neg, Int.natAbs_ofNat]
    · cases sr <;>
        simp only [Bool.false_eq_true, if_false, if_true, Int.natAbs_neg, Int.natAbs_ofNat]
  by_cases sa : a._mp_size < 0 <;> by_cases sb : b._mp_size < 0
  · have e1 : ¬ (decide (a._mp_size ≥ 0) ≠ decide (b._mp_size ≥ 0)) := by
      simp [sa, sb]
      omega
    rw [if_neg e1, if_pos (by omega)]
    have := fin (Int.tdiv (a.value B) (b.value B)) (Int.tmod (a.value B) (b.value B))
      false true
      (by rw [(va1 sa).1, (vb1 sb).1, Int.neg_tdiv, Int.tdiv_neg, ← Int.ofNat_tdiv, neg_neg]
          simp)
      (by rw [(va1 sa).1, (vb1 sb).1, Int.tmod_neg, neg_tmod_eq, ← Int.ofNat_tmod]
          simp)
    simpa using this
  · have e1 : decide (a._mp_size ≥ 0) ≠ decide (b._mp_size ≥ 0) := by
      simp [sa, sb]
      omega
    rw [if_pos e1, if_pos (by omega)]
    have := fin (Int.tdiv (a.value B) (b.value B)) (Int.tmod (a.value B) (b.value B))
      true true
      (by rw [(va1 sa).1, vb2 sb, Int.neg_tdiv, ← Int.ofNat_tdiv]
          simp)
      (by rw [(va1 sa).1, vb2 sb, neg_tmod_eq, ← Int.ofNat_tmod]
          simp)
    simpa using this
  · have e1 : decide (a._mp_size ≥ 0) ≠ decide (b._mp_size ≥ 0) := by
      simp [sa, sb]
      omega
    rw [if_pos e1, if_neg (by omega)]
    have := fin (Int.tdiv (a.value B) (b.value B)) (Int.tmod (a.value B) (b.value B))
      true false
      (by rw [va2 sa, (vb1 sb).1, Int.tdiv_neg, ← Int.ofNat_tdiv]
          simp)
      (by rw [va2 sa, (vb1 sb).1, Int.tmod_neg, ← Int.ofNat_tmod]
          simp)
    simpa using this
  · have e1 : ¬ (decide (a._mp_size ≥ 0) ≠ decide (b._mp_size ≥ 0)) := by
      simp [sa, sb]
      omega
    rw [if_neg e1, if_neg (by omega)]
    have := fin (Int.tdiv (a.value B) (b.value B)) (Int.tmod (a.value B) (b.value B))
      false false
      (by rw [va2 sa, vb2 sb, ← Int.ofNat_tdiv]
          simp)
      (by rw [va2 sa, vb2 sb, ← Int.ofNat_tmod]
          simp)
    simpa using this

end static_div

section mp_integer_ops

theorem mp_negate_spec (B : Nat) (a : mp_integer) (ha : a.valid B = true) :
    a.negate.valid B = true ∧ a.negate.value B = -a.value B := by
  obtain ⟨ua⟩ := a
  cases ua with
  | st s =>
    rw [valid_st] at ha
    exact ⟨negate_consistent B s ha, negate_value B s ha⟩
  | dy z => exact ⟨rfl, rfl⟩

/-- In-place multiplication of `mp_integer`: the result is well formed and its value exact. -/
theorem in_place_mul_spec (B : Nat) (a b : mp_integer)
    (ha : a.valid B = true) (hb : b.valid B = true) :
    (a.in_place_mul B b).valid B = true ∧
    (a.in_place_mul B b).value B = a.value B * b.value B := by
  obtain ⟨ua⟩ := a
  obtain ⟨ub⟩ := b
  cases ua with
  | st s =>
    cases ub with
    | st o =>
      rw [valid_st] at ha hb
      unfold mp_integer.in_place_mul
      simp only []
      rw [mul_eq B s s o ha hb]
      simp only [value_st]
      by_cases hz : s._mp_size = 0 ∨ o._mp_size = 0
      · rw [if_pos hz]
        simp only []
        refine ⟨(valid_st B _).trans (of_int_consistent B _), ?_⟩
        rw [value_st, of_int_value B 0 (by simp)]
        rcases hz with h | h
        · have := (consistent_size_zero_iff B s ha).1 h
          unfold static_integer.value
          rw [this]; simp
        · have := (consistent_size_zero_iff B o hb).1 h
          unfold static_integer.value
          rw [this]; simp
      · rw [if_neg hz]
        by_cases hbig : 1 < s.calculate_n_limbs ∨ 1 < o.calculate_n_limbs
        · rw [if_pos hbig]
          simp only []
          refine ⟨rfl, ?_⟩
          rw [value_dy, to_mpz_eq_value B s ha, to_mpz_eq_value B o hb]
        · rw [if_neg hbig]
          simp only []
          refine ⟨(valid_st B _).trans (of_int_consistent B _), ?_⟩
          rw [value_st, of_int_value B _ (single_limb_product_fits B s o ha hb
            (fun h => hbig (Or.inl h)) (fun h => hbig (Or.inr h)))]
    | dy z =>
      rw [valid_st] at ha
      unfold mp_integer.in_place_mul
      simp only []
      refine ⟨rfl, ?_⟩
      rw [value_dy, value_dy, value_st, to_mpz_eq_value B s ha]
  | dy w =>
    cases ub with
    | st o =>
      rw [valid_st] at hb
      unfold mp_integer.in_place_mul
      simp only []
      refine ⟨rfl, ?_⟩
      rw [value_dy, value_dy, value_st, to_mpz_eq_value B o hb]
    | dy z =>
      unfold mp_integer.in_place_mul
      simp only []
      exact ⟨rfl, rfl⟩

/-- Signs of the quotient and of the remainder of the division rounded towards zero. -/
theorem tdiv_tmod_signs (a b : Int) (hb : b ≠ 0) :
    (Int.tdiv a b < 0 ↔ ((a < 0 ∧ 0 < b) ∨ (0 < a ∧ b < 0)) ∧ Int.tdiv a b ≠ 0) ∧
    (Int.tmod a b = 0 ∨ (0 < Int.tmod a b ∧ 0 < a) ∨ (Int.tmod a b < 0 ∧ a < 0)) := by
  obtain ⟨n, rfl | rfl⟩ := Int.eq_nat_or_neg a <;>
  obtain ⟨m, rfl | rfl⟩ := Int.eq_nat_or_neg b
  · rw [← Int.ofNat_tdiv, ← Int.ofNat_tmod]
    generalize n / m = k
    generalize hr : n % m = r
    have : r ≤ n := by rw [← hr]; exact Nat.mod_le _ _
    omega
  · rw [Int.tdiv_neg, Int.tmod_neg, ← Int.ofNat_tdiv, ← Int.ofNat_tmod]
    have hk : n / m ≠ 0 → 0 < n := by
      intro h
      rcases Nat.eq_zero_or_pos n with h0 | h0
      · rw [h0] at h; simp at h
      · exact h0
    generalize n / m = k at hk
    generalize hr : n % m = r
    have : r ≤ n := by rw [← hr]; exact Nat.mod_le _ _
    omega
  · rw [Int.neg_tdiv, neg_tmod_eq, ← Int.ofNat_tdiv, ← Int.ofNat_tmod]
    have hk : n / m ≠ 0 → 0 < n := by
      intro h
      rcases Nat.eq_zero_or_pos n with h0 | h0
      · rw [h0] at h; simp at h
      · exact h0
    generalize n / m = k at hk
    generalize hr : n % m = r
    have : r ≤ n := by rw [← hr]; exact Nat.mod_le _ _
    omega
  · rw [Int.neg_tdiv, Int.tdiv_neg, Int.tmod_neg, neg_tmod_eq, ← Int.ofNat_tdiv,
      ← Int.ofNat_tmod]
    generalize n / m = k
    generalize hr : n % m = r
    have : r ≤ n := by rw [← hr]; exact Nat.mod_le _ _
    omega

theorem value_natAbs (B : Nat) (s : static_integer) : (s.value B).natAbs = s.mag B := by
  unfold static_integer.value
  split_ifs <;> simp

end mp_integer_ops

section claims_arith

/-- C10: for well-formed `mp_integer` objects `a` and `b` in any of the four combinations of
static and dynamic storage, `a += b` leaves in `a` exactly `value(a) + value(b)` and `a -= b`
exactly `value(a) - value(b)`, as a well-formed object.  The operand `b` is a constant
reference to another object, which the function only reads. -/
theorem C10_add_sub_exact (B : Nat) (hB : 1 ≤ B) (a b : mp_integer)
    (ha : a.valid B = true) (hb : b.valid B = true) :
    (a.in_place_add B b).value B = a.value B + b.value B ∧
    (a.in_place_sub B b).value B = a.value B - b.value B ∧
    (a.in_place_add B b).valid B = true ∧ (a.in_place_sub B b).valid B = true := by
  have h1 := in_place_add_or_sub_spec B hB true a b ha hb
  have h2 := in_place_add_or_sub_spec B hB false a b ha hb
  refine ⟨?_, ?_, h1.1, h2.1⟩
  · exact h1.2
  · have := h2.2
    simp only [Bool.false_eq_true, if_false] at this
    unfold mp_integer.in_place_sub
    rw [this]
    ring

/-- C10 witness: with 32-bit limbs, a static and a dynamic operand, and two static operands
whose sum does not fit two limbs. -/
theorem C10_add_sub_exact_witness :
    ((⟨integer_union.st ⟨2, (4294967295, 4294967295)⟩⟩ : mp_integer).in_place_add 32
        ⟨integer_union.st ⟨1, (1, 0)⟩⟩).value 32 = 18446744073709551616 ∧
    ((⟨integer_union.st ⟨2, (4294967295, 4294967295)⟩⟩ : mp_integer).in_place_sub 32
        ⟨integer_union.dy 18446744073709551616⟩).value 32 = -1 :=
  ⟨(C10_add_sub_exact 32 (by decide) ⟨integer_union.st ⟨2, (4294967295, 4294967295)⟩⟩
      ⟨integer_union.st ⟨1, (1, 0)⟩⟩ (by decide) (by decide)).1,
   (C10_add_sub_exact 32 (by decide) ⟨integer_union.st ⟨2, (4294967295, 4294967295)⟩⟩
      ⟨integer_union.dy 18446744073709551616⟩ (by decide) (by decide)).2.1⟩

end claims_arith

section claims_arith2

/-- C12: for consistent static integers `a` and `b` with `b` not zero, whatever objects `q`
and `r` are written (in particular when `q` is `a`), `div(q, r, a, b)` leaves `q` and `r`
consistent with `a = q * b + r`, `|r| < |b|`, `q` the quotient rounded towards zero, `q`
negative exactly when the signs of the operands differ and `q` is not zero, and `r` zero or of
the sign of `a`. -/
theorem C12_static_div (B : Nat) (q r a b : static_integer)
    (ha : a.consistency_checks B = true) (hb : b.consistency_checks B = true)
    (hb0 : b.is_zero = false) :
    (static_integer.div B q r a b).1.consistency_checks B = true ∧
    (static_integer.div B q r a b).2.consistency_checks B = true ∧
    a.value B = (static_integer.div B q r a b).1.value B * b.value B +
      (static_integer.div B q r a b).2.value B ∧
    ((static_integer.div B q r a b).2.value B).natAbs < (b.value B).natAbs ∧
    (static_integer.div B q r a b).1.value B = Int.tdiv (a.value B) (b.value B) ∧
    ((static_integer.div B q r a b).1.value B < 0 ↔
      ((a.value B < 0 ∧ 0 < b.value B) ∨ (0 < a.value B ∧ b.value B < 0)) ∧
      (static_integer.div B q r a b).1.value B ≠ 0) ∧
    ((static_integer.div B q r a b).2.value B = 0 ∨
      (0 < (static_integer.div B q r a b).2.value B ∧ 0 < a.value B) ∨
      ((static_integer.div B q r a b).2.value B < 0 ∧ a.value B < 0)) ∧
    static_integer.div B a r a b = static_integer.div B q r a b := by
  have hb1 : b._mp_size ≠ 0 := by
    unfold static_integer.is_zero at hb0
    simpa using hb0
  obtain ⟨d1, d2, d3, d4, d5⟩ := div_value B q r a b ha hb hb1
  obtain ⟨ha1, ha2, _⟩ := (consistency_checks_iff B a).1 ha
  have hma := mag_lt B a ha1 ha2
  have hq : (Int.tdiv (a.value B) (b.value B)).natAbs < 2 ^ B * 2 ^ B := by
    rw [d3]; exact Nat.lt_of_le_of_lt (Nat.div_le_self _ _) hma
  have hr : (Int.tmod (a.value B) (b.value B)).natAbs < 2 ^ B * 2 ^ B := by
    rw [d4]; exact Nat.lt_of_le_of_lt (Nat.mod_le _ _) hma
  have hbv : b.value B ≠ 0 := by
    intro h
    have := value_natAbs B b
    rw [h] at this
    simp at this
    omega
  obtain ⟨s1, s2⟩ := tdiv_tmod_signs (a.value B) (b.value B) hbv
  rw [d1, d2]
  rw [of_int_value B _ hq, of_int_value B _ hr]
  refine ⟨of_int_consistent B _, of_int_consistent B _, ?_, ?_, rfl, s1, s2, rfl⟩
  · have := Int.tdiv_add_tmod (a.value B) (b.value B)
    rw [Int.mul_comm] at this
    exact this.symm
  · rw [d4, value_natAbs]
    exact Nat.mod_lt _ d5

/-- C12 witness: with 8-bit limbs, -1000 divided by 7 gives -142 and -6. -/
theorem C12_static_div_witness :
    static_integer.div 8 ⟨-2, (232, 3)⟩ static_integer.init ⟨-2, (232, 3)⟩ ⟨1, (7, 0)⟩ =
      (⟨-1, (142, 0)⟩, ⟨-1, (6, 0)⟩) ∧
    (static_integer.value 8 ⟨-2, (232, 3)⟩ : Int) =
      (static_integer.div 8 ⟨-2, (232, 3)⟩ static_integer.init ⟨-2, (232, 3)⟩
        ⟨1, (7, 0)⟩).1.value 8 * static_integer.value 8 ⟨1, (7, 0)⟩ +
      (static_integer.div 8 ⟨-2, (232, 3)⟩ static_integer.init ⟨-2, (232, 3)⟩
        ⟨1, (7, 0)⟩).2.value 8 :=
  ⟨by decide,
   (C12_static_div 8 ⟨-2, (232, 3)⟩ static_integer.init ⟨-2, (232, 3)⟩ ⟨1, (7, 0)⟩
      (by decide) (by decide) (by decide)).2.2.1⟩

/-- C13: for every `mp_integer` `a` and every well-formed `mp_integer` `b` of value zero,
static or dynamic, `a /= b` throws `zero_division_error` and leaves `a` as it was: the same
value in the same storage. -/
theorem C13_division_by_zero (B : Nat) (a b : mp_integer) (hb : b.valid B = true)
    (hz : b.value B = 0) :
    a.in_place_div B b = Except.error (mp_exception.zero_division_error, a) := by
  have hs : b.sign = 0 := by
    obtain ⟨ub⟩ := b
    cases ub with
    | st o =>
      rw [valid_st] at hb
      rw [value_st] at hz
      have hm : o.mag B = 0 := by
        have := value_natAbs B o
        rw [hz] at this
        simpa using this.symm
      have := (consistent_size_zero_iff B o hb).2 hm
      unfold mp_integer.sign
      simp [this]
    | dy z =>
      rw [value_dy] at hz
      unfold mp_integer.sign mpz_sgn
      simp [hz]
  unfold mp_integer.in_place_div
  rw [if_pos hs]

/-- C13 witness: with 8-bit limbs, the static -1000 divided by the dynamic zero. -/
theorem C13_division_by_zero_witness :
    (⟨integer_union.st ⟨-2, (232, 3)⟩⟩ : mp_integer).in_place_div 8 ⟨integer_union.dy 0⟩ =
      Except.error (mp_exception.zero_division_error, ⟨integer_union.st ⟨-2, (232, 3)⟩⟩) :=
  C13_division_by_zero 8 ⟨integer_union.st ⟨-2, (232, 3)⟩⟩ ⟨integer_union.dy 0⟩
    (by decide) (by decide)

/-- C15: for consistent static integers `a`, `b` and `c`, `a.multiply_accumulate(b, c)`
either completes, leaving `a` consistent with value `a + b * c`, or throws `overflow_error`,
leaving `a` exactly as it was. -/
theorem C15_static_multiply_accumulate (B : Nat) (hB : 1 ≤ B) (a b c : static_integer)
    (ha : a.consistency_checks B = true) (hb : b.consistency_checks B = true)
    (hc : c.consistency_checks B = true) :
    (∃ r, a.multiply_accumulate B b c = Except.ok r ∧ r.consistency_checks B = true ∧
      r.value B = a.value B + b.value B * c.value B) ∨
    a.multiply_accumulate B b c = Except.error (mp_exception.overflow_error, a) := by
  rw [multiply_accumulate_eq B hB a b c ha hb hc]
  by_cases hbig : 1 < b.calculate_n_limbs ∨ 1 < c.calculate_n_limbs
  · rw [if_pos hbig]; exact Or.inr rfl
  · rw [if_neg hbig]
    by_cases h0 : b._mp_size = 0 ∨ c._mp_size = 0
    · rw [if_pos h0]
      refine Or.inl ⟨a, rfl, ha, ?_⟩
      have : b.value B * c.value B = 0 := by
        rcases h0 with h | h
        · have := (consistent_size_zero_iff B b hb).1 h
          unfold static_integer.value
          rw [this]; simp
        · have := (consistent_size_zero_iff B c hc).1 h
          unfold static_integer.value
          rw [this]; simp
      rw [this]; simp
    · rw [if_neg h0]
      by_cases hfit : (a.value B + b.value B * c.value B).natAbs < 2 ^ B * 2 ^ B
      · rw [if_pos hfit]
        exact Or.inl ⟨_, rfl, of_int_consistent B _, of_int_value B _ hfit⟩
      · rw [if_neg hfit]; exact Or.inr rfl

/-- C15 witness: with 8-bit limbs, 65535 + 1 * 1 throws and leaves 65535, and -1000 + 10 * 20
completes. -/
theorem C15_static_multiply_accumulate_witness :
    static_integer.multiply_accumulate 8 ⟨2, (255, 255)⟩ ⟨1, (1, 0)⟩ ⟨1, (1, 0)⟩ =
      Except.error (mp_exception.overflow_error, ⟨2, (255, 255)⟩) ∧
    static_integer.multiply_accumulate 8 ⟨-2, (232, 3)⟩ ⟨1, (10, 0)⟩ ⟨1, (20, 0)⟩ =
      Except.ok ⟨-2, (32, 3)⟩ ∧
    ((∃ r, static_integer.multiply_accumulate 8 ⟨2, (255, 255)⟩ ⟨1, (1, 0)⟩ ⟨1, (1, 0)⟩ =
        Except.ok r ∧ r.consistency_checks 8 = true ∧
        r.value 8 = static_integer.value 8 ⟨2, (255, 255)⟩ +
          static_integer.value 8 ⟨1, (1, 0)⟩ * static_integer.value 8 ⟨1, (1, 0)⟩) ∨
      static_integer.multiply_accumulate 8 ⟨2, (255, 255)⟩ ⟨1, (1, 0)⟩ ⟨1, (1, 0)⟩ =
        Except.error (mp_exception.overflow_error, ⟨2, (255, 255)⟩)) :=
  ⟨rfl, rfl,
   C15_static_multiply_accumulate 8 (by decide) ⟨2, (255, 255)⟩ ⟨1, (1, 0)⟩ ⟨1, (1, 0)⟩
    (by decide) (by decide) (by decide)⟩

/-- C20: for well-formed `mp_integer` objects `a` and `b` in any combination of storage, the
value of `(a + b) - b` is the value of `a`, both with the binary operators and with the
in-place operators `a += b; a -= b`. -/
theorem C20_add_then_subtract (B : Nat) (hB : 1 ≤ B) (a b : mp_integer)
    (ha : a.valid B = true) (hb : b.valid B = true) :
    (mp_integer.binary_subtract B (mp_integer.binary_plus B a b) b).value B = a.value B ∧
    ((a.in_place_add B b).in_place_sub B b).value B = a.value B := by
  have h1 := in_place_add_or_sub_spec B hB true a b ha hb
  simp only [if_true] at h1
  constructor
  · unfold mp_integer.binary_subtract mp_integer.binary_plus mp_integer.in_place_sub
      mp_integer.in_place_add
    have h2 := in_place_add_or_sub_spec B hB false b _ hb h1.1
    simp only [Bool.false_eq_true, if_false] at h2
    rw [(mp_negate_spec B _ h2.1).2, h2.2, h1.2]
    ring
  · unfold mp_integer.in_place_sub mp_integer.in_place_add
    have h2 := in_place_add_or_sub_spec B hB false _ b h1.1 hb
    simp only [Bool.false_eq_true, if_false] at h2
    rw [h2.2, h1.2]
    ring

/-- C20 witness: with 32-bit limbs, `a = b = 9223372036854775807`, the largest `int64_t`;
`a += b; a -= b` gives back that value. -/
theorem C20_add_then_subtract_witness :
    (((⟨integer_union.st ⟨2, (4294967295, 2147483647)⟩⟩ : mp_integer).in_place_add 32
        ⟨integer_union.st ⟨2, (4294967295, 2147483647)⟩⟩).in_place_sub 32
        ⟨integer_union.st ⟨2, (4294967295, 2147483647)⟩⟩).value 32 = 9223372036854775807 :=
  (C20_add_then_subtract 32 (by decide) ⟨integer_union.st ⟨2, (4294967295, 2147483647)⟩⟩
    ⟨integer_union.st ⟨2, (4294967295, 2147483647)⟩⟩ (by decide) (by decide)).2

end claims_arith2

section native_types

theorem binary_digits_spec (n : Nat) :
    n < 2 ^ binary_digits n ∧
    (n ≠ 0 → 1 ≤ binary_digits n ∧ 2 ^ (binary_digits n - 1) ≤ n) :=
  bit_length_spec n n (Nat.le_refl n)

theorem binary_digits_unique (n k : Nat) (h1 : 2 ^ k ≤ n) (h2 : n < 2 ^ (k + 1)) :
    binary_digits n = k + 1 := by
  have hn : n ≠ 0 := by
    have : 0 < 2 ^ k := Nat.pow_pos (by decide)
    omega
  obtain ⟨s1, s2⟩ := binary_digits_spec n
  obtain ⟨s3, s4⟩ := s2 hn
  by_contra hne
  rcases Nat.lt_or_gt_of_ne hne with h | h
  · have : 2 ^ binary_digits n ≤ 2 ^ k := Nat.pow_le_pow_right (by decide) (by omega)
    omega
  · have : 2 ^ (k + 1) ≤ 2 ^ (binary_digits n - 1) :=
      Nat.pow_le_pow_right (by decide) (by omega)
    omega

theorem cast_id (T : integral_type) (x : Int) (h1 : T.min ≤ x) (h2 : x ≤ T.max) :
    T.cast x = x := by
  unfold integral_type.cast
  unfold integral_type.min at h1
  unfold integral_type.max at h2
  have hp : (2 : Int) ^ (T.digits + 1) = 2 ^ T.digits + 2 ^ T.digits := by
    rw [pow_succ]; ring
  have hpos : (0 : Int) < 2 ^ T.digits := by positivity
  cases hs : T.is_signed
  · rw [hs] at h1
    simp only [Bool.false_eq_true, if_false] at h1 ⊢
    exact Int.emod_eq_of_lt h1 (by omega)
  · rw [hs] at h1
    simp only [if_true] at h1 ⊢
    rw [Int.emod_eq_of_lt (by omega) (by omega)]
    omega

theorem pow_pred_double (d : Nat) (hd : 1 ≤ d) : (2 : Int) ^ d = 2 ^ (d - 1) + 2 ^ (d - 1) := by
  obtain ⟨k, rfl⟩ : ∃ k, d = k + 1 := ⟨d - 1, by omega⟩
  rw [pow_succ]
  simp
  ring

theorem tdiv_max (T : integral_type) (hd : 1 ≤ T.digits) :
    Int.tdiv T.max 2 = 2 ^ (T.digits - 1) - 1 := by
  unfold integral_type.max
  have hp := pow_pred_double T.digits hd
  have hpos : (0 : Int) < 2 ^ (T.digits - 1) := by positivity
  rw [Int.tdiv_eq_ediv (by omega) (by decide)]
  omega

theorem tdiv_min (T : integral_type) (hd : 1 ≤ T.digits) (hs : T.is_signed = true) :
    Int.tdiv T.min 2 = -(2 ^ (T.digits - 1)) := by
  unfold integral_type.min
  rw [if_pos hs]
  have hp := pow_pred_double T.digits hd
  have hpos : (0 : Int) < 2 ^ (T.digits - 1) := by positivity
  rw [Int.neg_tdiv, Int.tdiv_eq_ediv (by omega) (by decide)]
  omega

/-- The test `check_mult2` on a positive power of two. -/
theorem check_mult2_pos (T : integral_type) (hd : 1 ≤ T.digits) (k : Nat) :
    mp_integer.check_mult2 T (2 ^ k) = decide (T.digits ≤ k + 1) := by
  unfold mp_integer.check_mult2
  have hmax := tdiv_max T hd
  have hpk : (0 : Int) < 2 ^ k := by positivity
  have hcmp : ((2 : Int) ^ k > 2 ^ (T.digits - 1) - 1) ↔ T.digits ≤ k + 1 := by
    constructor
    · intro h
      by_contra hc
      have : (2 : Int) ^ (k + 1) ≤ 2 ^ (T.digits - 1) :=
        pow_le_pow_right₀ (by decide) (by omega)
      rw [pow_succ] at this
      omega
    · intro h
      have : (2 : Int) ^ (T.digits - 1) ≤ 2 ^ k := pow_le_pow_right₀ (by decide) (by omega)
      omega
  cases hs : T.is_signed
  · simp only [Bool.false_eq_true, if_false]
    rw [hmax]
    exact decide_eq_decide.2 hcmp
  · simp only [if_true]
    rw [hmax, tdiv_min T hd hs]
    apply decide_eq_decide.2
    constructor
    · rintro (h | h)
      · have : (0 : Int) < 2 ^ (T.digits - 1) := by positivity
        omega
      · exact hcmp.1 h
    · intro h; exact Or.inr (hcmp.2 h)

/-- The test `check_mult2` on a negative power of two, for a signed type. -/
theorem check_mult2_neg (T : integral_type) (hd : 1 ≤ T.digits) (hs : T.is_signed = true)
    (k : Nat) : mp_integer.check_mult2 T (-(2 ^ k)) = decide (T.digits ≤ k) := by
  unfold mp_integer.check_mult2
  rw [if_pos hs, tdiv_max T hd, tdiv_min T hd hs]
  have hpk : (0 : Int) < 2 ^ k := by positivity
  have hpd : (0 : Int) < 2 ^ (T.digits - 1) := by positivity
  apply decide_eq_decide.2
  constructor
  · rintro (h | h)
    · by_contra hc
      have : (2 : Int) ^ k ≤ 2 ^ (T.digits - 1) := pow_le_pow_right₀ (by decide) (by omega)
      omega
    · omega
  · intro h
    left
    have : (2 : Int) ^ (T.digits - 1 + 1) ≤ 2 ^ k := pow_le_pow_right₀ (by decide) (by omega)
    rw [pow_succ] at this
    omega

theorem mod_two_pow_succ_testBit (m i : Nat) :
    m % 2 ^ (i + 1) = m % 2 ^ i + (if m.testBit i then 2 ^ i else 0) := by
  rw [Nat.mod_pow_succ, Nat.testBit_to_div_mod]
  have : m / 2 ^ i % 2 < 2 := Nat.mod_lt _ (by decide)
  by_cases h : m / 2 ^ i % 2 = 1
  · simp [h]
  · have h0 : m / 2 ^ i % 2 = 0 := by omega
    simp [h0]

end native_types

section conversion

theorem binary_digits_zero : binary_digits 0 = 0 := rfl

theorem binary_digits_half (n : Nat) (hn : n ≠ 0) :
    binary_digits n = binary_digits (n / 2) + 1 := by
  by_cases h : n / 2 = 0
  · have h1 : n = 1 := by omega
    rw [h, h1, binary_digits_zero]
    exact binary_digits_unique 1 0 (by decide) (by decide)
  · obtain ⟨s1, s2⟩ := binary_digits_spec (n / 2)
    obtain ⟨s3, s4⟩ := s2 h
    obtain ⟨k, hk⟩ : ∃ k, binary_digits (n / 2) = k + 1 := ⟨binary_digits (n / 2) - 1, by omega⟩
    rw [hk] at s1 s4 ⊢
    simp only [Nat.add_sub_cancel] at s4
    apply binary_digits_unique
    · rw [Nat.pow_succ]; omega
    · rw [Nat.pow_succ] at s1 ⊢; omega

theorem binary_digits_le (n B : Nat) (h : n < 2 ^ B) : binary_digits n ≤ B := by
  by_cases hn : n = 0
  · rw [hn, binary_digits_zero]; omega
  · obtain ⟨_, s2⟩ := binary_digits_spec n
    obtain ⟨s3, s4⟩ := s2 hn
    by_contra hc
    have : 2 ^ B ≤ 2 ^ (binary_digits n - 1) := Nat.pow_le_pow_right (by decide) (by omega)
    omega

theorem lt_two_pow_self (B : Nat) : B < 2 ^ B := Nat.lt_two_pow B

theorem two_mul_lt_two_pow (B : Nat) (hB : 3 ≤ B) : 2 * B < 2 ^ B := by
  induction B with
  | zero => omega
  | succ n ih =>
    by_cases h : n = 2
    · subst h; decide
    · have := ih (by omega)
      rw [Nat.pow_succ]
      omega

/-- The loop of `bits_size` adds to `size` the number of binary digits of the limb. -/
theorem bits_size_loop_eq (B : Nat) :
    ∀ (fuel size limb : Nat), limb ≤ fuel → limb < 2 ^ B →
      size + binary_digits limb < 2 ^ B →
      bits_size_loop B fuel size limb = size + binary_digits limb := by
  intro fuel
  induction fuel with
  | zero =>
    intro size limb h1 _ _
    have : limb = 0 := by omega
    subst this
    rfl
  | succ fuel ih =>
    intro size limb h1 h2 h3
    unfold bits_size_loop
    by_cases h0 : limb = 0
    · subst h0
      simp [binary_digits_zero]
    · rw [if_pos h0]
      have hb := binary_digits_half limb h0
      have c1 : limb_cast B (size + 1) = size + 1 := Nat.mod_eq_of_lt (by omega)
      have c2 : limb_cast B (limb >>> 1) = limb / 2 := by
        unfold limb_cast
        rw [Nat.shiftRight_eq_div_pow, Nat.pow_one]
        exact Nat.mod_eq_of_lt (by omega)
      rw [c1, c2, ih (size + 1) (limb / 2) (by omega) (by omega) (by omega), hb]
      omega

theorem binary_digits_two_limbs (B l0 l1 : Nat) (h0 : l0 < 2 ^ B) (h1 : l1 ≠ 0) :
    binary_digits (l0 + l1 * 2 ^ B) = B + binary_digits l1 := by
  obtain ⟨s1, s2⟩ := binary_digits_spec l1
  obtain ⟨s3, s4⟩ := s2 h1
  obtain ⟨k, hk⟩ : ∃ k, binary_digits l1 = k + 1 := ⟨binary_digits l1 - 1, by omega⟩
  rw [hk] at s1 s4 ⊢
  simp only [Nat.add_sub_cancel] at s4
  have e : B + (k + 1) = (B + k) + 1 := by omega
  rw [e]
  apply binary_digits_unique
  · rw [Nat.add_comm B k, Nat.pow_add]
    have : 2 ^ k * 2 ^ B ≤ l1 * 2 ^ B := Nat.mul_le_mul_right _ s4
    omega
  · have e2 : B + k + 1 = (k + 1) + B := by omega
    rw [e2, Nat.pow_add]
    have : (l1 + 1) * 2 ^ B ≤ 2 ^ (k + 1) * 2 ^ B := Nat.mul_le_mul_right _ (by omega)
    rw [Nat.add_mul] at this
    omega

/-- The member `bits_size` of a consistent non-zero `static_integer` is the number of binary
digits of its magnitude. -/
theorem bits_size_eq (B : Nat) (hB : 3 ≤ B) (s : static_integer)
    (h : s.consistency_checks B = true) (h0 : s._mp_size ≠ 0) :
    s.bits_size B = binary_digits (s.mag B) := by
  obtain ⟨h1, h2, h3⟩ := (consistency_checks_iff B s).1 h
  have hBB := two_mul_lt_two_pow B hB
  unfold static_integer.bits_size static_integer.abs_size
  simp only []
  have hab : (if s._mp_size ≥ 0 then s._mp_size else -s._mp_size) = s.calculate_n_limbs := by
    rcases n_limbs_cases s with ⟨n, _⟩ | ⟨n, _⟩ | ⟨n, _⟩ <;> split_ifs <;> omega
  rw [hab]
  rcases n_limbs_cases s with ⟨n, l1, l2⟩ | ⟨n, l1, l2⟩ | ⟨n, l2⟩
  · omega
  · rw [n]
    simp only [one_ne_zero, if_false, sub_self, Int.toNat_zero, Nat.mul_zero]
    rw [limb_zero]
    have c : limb_cast B 0 = 0 := Nat.zero_mod _
    have hb := binary_digits_le _ B h1
    rw [c, bits_size_loop_eq B _ 0 _ (Nat.le_refl _) h1 (by omega)]
    unfold static_integer.mag
    rw [l2]
    simp
  · rw [n]
    have e : ((2 : Int) - 1).toNat = 1 := rfl
    simp only [e, Nat.mul_one]
    have h20 : ¬ ((2 : Int) = 0) := by decide
    rw [if_neg h20, limb_one]
    have c : limb_cast B B = B := Nat.mod_eq_of_lt (lt_two_pow_self B)
    have hb := binary_digits_le _ B h2
    rw [c, bits_size_loop_eq B _ B _ (Nat.le_refl _) h2 (by omega)]
    unfold static_integer.mag
    rw [binary_digits_two_limbs B _ _ h1 l2]

/-- The member `test_bit` of a consistent `static_integer` reads the binary digits of its
magnitude. -/
theorem test_bit_eq (B : Nat) (hB : 3 ≤ B) (s : static_integer)
    (h1 : s.m_limbs.1 < 2 ^ B) (h2 : s.m_limbs.2 < 2 ^ B) (j : Nat) (hj : j < 2 * B) :
    s.test_bit B j = (s.mag B).testBit j := by
  have hBB := lt_two_pow_self B
  have hpos : 0 < B := by omega
  have hq : j / B < 2 := Nat.div_lt_of_lt_mul (by omega)
  have hr : j % B < B := Nat.mod_lt _ hpos
  have h2B : 2 ≤ 2 ^ B := two_le_two_pow B (by omega)
  unfold static_integer.test_bit
  simp only []
  have c1 : limb_cast B (j / B) = j / B := Nat.mod_eq_of_lt (by omega)
  have c2 : limb_cast B (j % B) = j % B := Nat.mod_eq_of_lt (by omega)
  have hp : 2 ^ (j % B) < 2 ^ B := Nat.pow_lt_pow_right (by decide) hr
  have c3 : limb_cast B (1 <<< (j % B)) = 2 ^ (j % B) := by
    unfold limb_cast
    rw [Nat.one_shiftLeft]
    exact Nat.mod_eq_of_lt hp
  rw [c1, c2, c3]
  have c4 : ∀ l, limb_cast B (l &&& 2 ^ (j % B)) = l &&& 2 ^ (j % B) := by
    intro l
    exact Nat.mod_eq_of_lt (Nat.lt_of_le_of_lt Nat.and_le_right hp)
  rw [c4]
  have hmag : s.mag B = 2 ^ B * s.m_limbs.2 + s.m_limbs.1 := by
    unfold static_integer.mag
    rw [Nat.mul_comm, Nat.add_comm]
  rw [hmag, Nat.testBit_mul_pow_two_add _ h1]
  have key : ∀ l, decide (l &&& 2 ^ (j % B) ≠ 0) = l.testBit (j % B) := by
    intro l
    have := and_two_pow_eq_zero_iff l (j % B)
    cases hb : l.testBit (j % B)
    · simp [this.2 hb]
    · have : ¬ (l &&& 2 ^ (j % B) = 0) := by
        intro h0
        have := this.1 h0
        rw [hb] at this
        cases this
      simp [this]
  rw [key]
  by_cases hlt : j < B
  · rw [if_pos hlt]
    have e1 : j / B = 0 := Nat.div_eq_of_lt hlt
    have e2 : j % B = j := Nat.mod_eq_of_lt hlt
    rw [e1, e2, limb_zero]
  · rw [if_neg hlt]
    have e1 : j / B = 1 := by
      have : 1 ≤ j / B := (Nat.le_div_iff_mul_le hpos).2 (by omega)
      omega
    have e2 : j % B = j - B := by
      have := Nat.div_add_mod j B
      rw [e1] at this
      omega
    rw [e1, e2, limb_one]

end conversion

section conversion_loop

theorem int_pow_succ_double (i : Nat) : (2 : Int) ^ (i + 1) = 2 ^ i + 2 ^ i := by
  rw [pow_succ]; ring

theorem tmp_double (i : Nat) (hi : i ≠ 0) : (2 : Int) ^ (i - 1) * 2 = 2 ^ i := by
  obtain ⟨k, rfl⟩ : ∃ k, i = k + 1 := ⟨i - 1, by omega⟩
  simp [pow_succ]

/-- The loop of `convert_to_impl` on a positive value: the magnitude when it is at most
`max()`, an `overflow_error` otherwise. -/
theorem convert_loop_pos (T : integral_type) (hd : 1 ≤ T.digits)
    (tb : Nat → Except mp_exception Bool) (mag bs : Nat)
    (hbs : mag < 2 ^ bs) (hbs2 : 1 ≤ bs → 2 ^ (bs - 1) ≤ mag)
    (htb : ∀ j, j < bs → j ≤ T.digits → tb j = Except.ok (mag.testBit j)) :
    ∀ (fuel i : Nat) (retval tmp : Int), i + fuel = bs →
      tmp = (if i = 0 then 1 else 2 ^ (i - 1)) → i ≤ T.digits →
      retval = ((mag % 2 ^ i : Nat) : Int) →
      convert_loop T false tb fuel i retval tmp =
        if (mag : Int) ≤ T.max then Except.ok (mag : Int)
        else Except.error mp_exception.overflow_error := by
  have hmax : T.max = 2 ^ T.digits - 1 := rfl
  have hmin : T.min ≤ 0 := by
    unfold integral_type.min
    split_ifs
    · have : (0 : Int) < 2 ^ T.digits := by positivity
      omega
    · omega
  intro fuel
  induction fuel with
  | zero =>
    intro i retval tmp h1 _ h3 h4
    unfold convert_loop
    have hi : i = bs := by omega
    subst hi
    have hle : (2 : Int) ^ i ≤ 2 ^ T.digits := pow_le_pow_right₀ (by decide) h3
    have hm : ((mag : Nat) : Int) < 2 ^ i := by exact_mod_cast hbs
    rw [if_pos (by rw [hmax]; omega), h4, Nat.mod_eq_of_lt hbs]
  | succ fuel ih =>
    intro i retval tmp h1 h2 h3 h4
    have hib : i < bs := by omega
    have hlow := hbs2 (by omega)
    have hmi : (2 : Int) ^ i ≤ (mag : Int) := by
      have : 2 ^ i ≤ 2 ^ (bs - 1) := Nat.pow_le_pow_right (by decide) (by omega)
      have : 2 ^ i ≤ mag := by omega
      exact_mod_cast this
    have hr : ((mag % 2 ^ i : Nat) : Int) < 2 ^ i := by
      have : mag % 2 ^ i < 2 ^ i := Nat.mod_lt _ (Nat.pow_pos (by decide))
      exact_mod_cast this
    have hr0 : (0 : Int) ≤ ((mag % 2 ^ i : Nat) : Int) := Int.ofNat_nonneg _
    unfold convert_loop
    by_cases hthrow : i ≠ 0 ∧ mp_integer.check_mult2 T tmp = true
    · rw [if_pos hthrow]
      obtain ⟨hi0, hc⟩ := hthrow
      rw [h2, if_neg hi0, check_mult2_pos T hd] at hc
      have hid : i = T.digits := by
        have := of_decide_eq_true hc
        omega
      rw [if_neg]
      rw [hmax, ← hid]
      omega
    · rw [if_neg hthrow]
      have hlt : i < T.digits := by
        by_cases hi0 : i = 0
        · omega
        · have hc : ¬ (mp_integer.check_mult2 T tmp = true) := fun h => hthrow ⟨hi0, h⟩
          rw [h2, if_neg hi0, check_mult2_pos T hd] at hc
          have : ¬ (T.digits ≤ i - 1 + 1) := fun h => hc (decide_eq_true h)
          omega
      have hpow : (2 : Int) ^ (i + 1) ≤ 2 ^ T.digits := pow_le_pow_right₀ (by decide) hlt
      rw [int_pow_succ_double] at hpow
      have hpi : (0 : Int) < 2 ^ i := by positivity
      have htmp1 : (if i ≠ 0 then T.cast (tmp * 2) else tmp) = 2 ^ i := by
        by_cases hi0 : i = 0
        · rw [if_neg (by simpa using hi0), h2, if_pos hi0, hi0]; rfl
        · rw [if_pos hi0, h2, if_neg hi0, tmp_double i hi0]
          exact cast_id T _ (by omega) (by rw [hmax]; omega)
      simp only []
      rw [htmp1, htb i hib (by omega)]
      have hnext : (2 : Int) ^ i = (if i + 1 = 0 then 1 else 2 ^ (i + 1 - 1)) := by
        rw [if_neg (by omega)]; simp
      have hsplit := mod_two_pow_succ_testBit mag i
      cases hbit : mag.testBit i
      · simp only []
        rw [hbit] at hsplit
        simp only [Bool.false_eq_true, if_false, Nat.add_zero] at hsplit
        exact ih (i + 1) retval (2 ^ i) (by omega) hnext (by omega) (by rw [hsplit, h4])
      · simp only []
        rw [hbit] at hsplit
        simp only [if_true] at hsplit
        have hn1 : ¬ ((false : Bool) = true ∧ retval < T.min - 2 ^ i) := by simp
        have hn2 : ¬ (¬ ((false : Bool) = true) ∧ retval > T.max - 2 ^ i) := by
          rw [h4, hmax]
          intro h
          omega
        rw [if_neg hn1, if_neg hn2]
        have hc : T.cast (retval + 2 ^ i) = retval + 2 ^ i :=
          cast_id T _ (by rw [h4]; omega) (by rw [h4, hmax]; omega)
        rw [hc]
        exact ih (i + 1) _ (2 ^ i) (by omega) hnext (by omega) (by
          rw [hsplit, h4]; push_cast; ring)

/-- The loop of `convert_to_impl` on a negative value and a signed type: the value when it is
at least `min()`, an `overflow_error` otherwise. -/
theorem convert_loop_neg (T : integral_type) (hd : 1 ≤ T.digits) (hs : T.is_signed = true)
    (tb : Nat → Except mp_exception Bool) (mag bs : Nat)
    (hbs : mag < 2 ^ bs) (hbs2 : 1 ≤ bs → 2 ^ (bs - 1) ≤ mag)
    (htb : ∀ j, j < bs → j ≤ T.digits → tb j = Except.ok (mag.testBit j)) :
    ∀ (fuel i : Nat) (retval tmp : Int), i + fuel = bs →
      tmp = (if i = 0 then -1 else -(2 ^ (i - 1))) → i ≤ T.digits + 1 →
      retval = -((mag % 2 ^ i : Nat) : Int) → mag % 2 ^ i ≤ 2 ^ T.digits →
      convert_loop T true tb fuel i retval tmp =
        if T.min ≤ -(mag : Int) then Except.ok (-(mag : Int))
        else Except.error mp_exception.overflow_error := by
  have hmax : T.max = 2 ^ T.digits - 1 := rfl
  have hmin : T.min = -(2 ^ T.digits) := by
    unfold integral_type.min
    rw [if_pos hs]
  have hpd : (0 : Int) < 2 ^ T.digits := by positivity
  intro fuel
  induction fuel with
  | zero =>
    intro i retval tmp h1 _ h3 h4 h5
    unfold convert_loop
    have hi : i = bs := by omega
    subst hi
    rw [Nat.mod_eq_of_lt hbs] at h4 h5
    have : ((mag : Nat) : Int) ≤ 2 ^ T.digits := by exact_mod_cast h5
    rw [if_pos (by rw [hmin]; omega), h4]
  | succ fuel ih =>
    intro i retval tmp h1 h2 h3 h4 h5
    have hib : i < bs := by omega
    have hlow := hbs2 (by omega)
    have hmi : (2 : Int) ^ i ≤ (mag : Int) := by
      have : 2 ^ i ≤ 2 ^ (bs - 1) := Nat.pow_le_pow_right (by decide) (by omega)
      have : 2 ^ i ≤ mag := by omega
      exact_mod_cast this
    have hr : ((mag % 2 ^ i : Nat) : Int) < 2 ^ i := by
      have : mag % 2 ^ i < 2 ^ i := Nat.mod_lt _ (Nat.pow_pos (by decide))
      exact_mod_cast this
    have hr0 : (0 : Int) ≤ ((mag % 2 ^ i : Nat) : Int) := Int.ofNat_nonneg _
    have hpi : (0 : Int) < 2 ^ i := by positivity
    unfold convert_loop
    by_cases hthrow : i ≠ 0 ∧ mp_integer.check_mult2 T tmp = true
    · rw [if_pos hthrow]
      obtain ⟨hi0, hc⟩ := hthrow
      rw [h2, if_neg hi0, check_mult2_neg T hd hs] at hc
      have hid : i = T.digits + 1 := by
        have := of_decide_eq_true hc
        omega
      rw [if_neg]
      rw [hmin]
      rw [hid, int_pow_succ_double] at hmi
      omega
    · rw [if_neg hthrow]
      have hle : i ≤ T.digits := by
        by_cases hi0 : i = 0
        · omega
        · have hc : ¬ (mp_integer.check_mult2 T tmp = true) := fun h => hthrow ⟨hi0, h⟩
          rw [h2, if_neg hi0, check_mult2_neg T hd hs] at hc
          have : ¬ (T.digits ≤ i - 1) := fun h => hc (decide_eq_true h)
          omega
      have hpow : (2 : Int) ^ i ≤ 2 ^ T.digits := pow_le_pow_right₀ (by decide) hle
      have htmp1 : (if i ≠ 0 then T.cast (tmp * 2) else tmp) = -(2 ^ i) := by
        by_cases hi0 : i = 0
        · rw [if_neg (by simpa using hi0), h2, if_pos hi0, hi0]; rfl
        · rw [if_pos hi0, h2, if_neg hi0]
          have : -((2 : Int) ^ (i - 1)) * 2 = -(2 ^ i) := by
            rw [← tmp_double i hi0]; ring
          rw [this]
          exact cast_id T _ (by rw [hmin]; omega) (by rw [hmax]; omega)
      simp only []
      rw [htmp1, htb i hib hle]
      have hnext : -((2 : Int) ^ i) = (if i + 1 = 0 then -1 else -(2 ^ (i + 1 - 1))) := by
        rw [if_neg (by omega)]; simp
      have hsplit := mod_two_pow_succ_testBit mag i
      cases hbit : mag.testBit i
      · simp only []
        rw [hbit] at hsplit
        simp only [Bool.false_eq_true, if_false, Nat.add_zero] at hsplit
        exact ih (i + 1) retval (-(2 ^ i)) (by omega) hnext (by omega) (by rw [hsplit, h4])
          (by rw [hsplit]; exact h5)
      · simp only []
        rw [hbit] at hsplit
        simp only [if_true] at hsplit
        have hmge : mag % 2 ^ (i + 1) ≤ mag := Nat.mod_le _ _
        have hmgei : ((mag % 2 ^ i : Nat) : Int) + 2 ^ i ≤ (mag : Int) := by
          have : mag % 2 ^ i + 2 ^ i ≤ mag := by omega
          exact_mod_cast this
        by_cases hover : retval < T.min - -(2 ^ i)
        · have hc1 : (True ∧ retval < T.min - -(2 ^ i)) := ⟨trivial, hover⟩
          rw [if_pos hc1, if_neg]
          rw [hmin] at hover ⊢
          rw [h4] at hover
          omega
        · have hn1 : ¬ (True ∧ retval < T.min - -(2 ^ i)) := fun h => hover h.2
          have hn2 : ¬ (¬ True ∧ retval > T.max - -(2 ^ i)) := by simp
          rw [if_neg hn1, if_neg hn2]
          rw [hmin, h4] at hover
          have hc : T.cast (retval + -(2 ^ i)) = retval + -(2 ^ i) :=
            cast_id T _ (by rw [h4, hmin]; omega) (by rw [h4, hmax]; omega)
          rw [hc]
          have hnat : mag % 2 ^ i + 2 ^ i ≤ 2 ^ T.digits := by
            have : ((mag % 2 ^ i : Nat) : Int) + 2 ^ i ≤ 2 ^ T.digits := by omega
            exact_mod_cast this
          exact ih (i + 1) _ (-(2 ^ i)) (by omega) hnext (by omega) (by
            rw [hsplit, h4]; push_cast; ring) (by rw [hsplit]; exact hnat)

end conversion_loop

section conversion_spec

theorem sign_cases (z : Int) :
    (z.sign < 0 → z < 0) ∧ (0 < z.sign → 0 < z) := by
  rcases lt_trichotomy z 0 with h1 | h1 | h1
  · rw [Int.sign_eq_neg_one_of_neg h1]; constructor <;> intro h <;> omega
  · subst h1; simp
  · rw [Int.sign_eq_one_of_pos h1]; constructor <;> intro h <;> omega

theorem cast_one (T : integral_type) (hd : 1 ≤ T.digits) : T.cast 1 = 1 := by
  have : (2 : Int) ^ 1 ≤ 2 ^ T.digits := pow_le_pow_right₀ (by decide) hd
  apply cast_id
  · unfold integral_type.min
    split_ifs <;> omega
  · unfold integral_type.max
    omega

theorem cast_neg_one (T : integral_type) (hd : 1 ≤ T.digits) (hs : T.is_signed = true) :
    T.cast (-1) = -1 := by
  have : (2 : Int) ^ 1 ≤ 2 ^ T.digits := pow_le_pow_right₀ (by decide) hd
  apply cast_id
  · unfold integral_type.min
    rw [if_pos hs]
    omega
  · unfold integral_type.max
    omega

/-- The two loops of `convert_to_impl`, given the magnitude, its number of binary digits and
a test of its bits. -/
theorem convert_loops (T : integral_type) (hd : 1 ≤ T.digits)
    (tb : Nat → Except mp_exception Bool) (mag : Nat) (hmag : mag ≠ 0)
    (htb : ∀ j, j < binary_digits mag → j ≤ T.digits → tb j = Except.ok (mag.testBit j)) :
    convert_loop T false tb (binary_digits mag) 0 0 1 =
      (if (mag : Int) ≤ T.max then Except.ok (mag : Int)
        else Except.error mp_exception.overflow_error) ∧
    (T.is_signed = true →
      convert_loop T true tb (binary_digits mag) 0 0 (-1) =
        if T.min ≤ -(mag : Int) then Except.ok (-(mag : Int))
        else Except.error mp_exception.overflow_error) := by
  obtain ⟨s1, s2⟩ := binary_digits_spec mag
  have s3 : 1 ≤ binary_digits mag → 2 ^ (binary_digits mag - 1) ≤ mag := fun _ => (s2 hmag).2
  constructor
  · exact convert_loop_pos T hd tb mag _ s1 s3 htb _ 0 0 1 (by omega) (by simp) (by omega)
      (by simp [Nat.mod_one])
  · intro hs
    exact convert_loop_neg T hd hs tb mag _ s1 s3 htb _ 0 0 (-1) (by omega) (by simp)
      (by omega) (by simp [Nat.mod_one]) (by simp [Nat.mod_one])

/-- The conversion to a native integral type returns the value when it lies in the range of
the type and throws `overflow_error` otherwise. -/
theorem convert_to_impl_eq (B : Nat) (hB : 3 ≤ B) (T : integral_type) (hd : 1 ≤ T.digits)
    (hT : T.digits ≤ mp_bitcnt_max) (x : mp_integer) (hx : x.valid B = true) :
    x.convert_to_impl B T =
      if T.min ≤ x.value B ∧ x.value B ≤ T.max then Except.ok (x.value B)
      else Except.error mp_exception.overflow_error := by
  have hmin0 : T.min ≤ 0 := by
    unfold integral_type.min
    split_ifs
    · have : (0 : Int) < 2 ^ T.digits := by positivity
      omega
    · omega
  have hmax0 : 0 ≤ T.max := by
    unfold integral_type.max
    have : (0 : Int) < 2 ^ T.digits := by positivity
    omega
  have hminu : T.is_signed = false → T.min = 0 := by
    intro h
    unfold integral_type.min
    rw [h]; simp
  -- the common part, on the sign and the magnitude
  have main : ∀ (sz : Int) (mag : Nat) (tb : Nat → Except mp_exception Bool) (v : Int),
      (sz = 0 → v = 0) → (sz < 0 → v = -(mag : Int) ∧ mag ≠ 0) →
      (0 < sz → v = (mag : Int) ∧ mag ≠ 0) →
      (∀ j, j < binary_digits mag → j ≤ T.digits → tb j = Except.ok (mag.testBit j)) →
      (if sz = 0 then Except.ok 0
        else
          if (!T.is_signed && decide (sz < 0)) = true then
            Except.error mp_exception.overflow_error
          else convert_loop T (decide (sz < 0)) tb (binary_digits mag) 0 0
            (T.cast (if decide (sz < 0) = true then -1 else 1))) =
      if T.min ≤ v ∧ v ≤ T.max then Except.ok v
      else Except.error mp_exception.overflow_error := by
    intro sz mag tb v h0 hneg hpos htb
    by_cases hz : sz = 0
    · rw [if_pos hz, h0 hz, if_pos ⟨hmin0, hmax0⟩]
    · rw [if_neg hz]
      by_cases hn : sz < 0
      · obtain ⟨hv, hm⟩ := hneg hn
        have hmp : (0 : Int) < (mag : Int) := by omega
        cases hsg : T.is_signed
        · simp only [hn, decide_True, Bool.not_false, Bool.and_self, if_true]
          rw [if_neg]
          rw [hminu hsg, hv]
          omega
        · simp only [hn, decide_True, Bool.not_true, Bool.false_and, Bool.false_eq_true,
            if_false, if_true]
          rw [cast_neg_one T hd hsg, (convert_loops T hd tb mag hm htb).2 hsg, hv]
          by_cases hr : T.min ≤ -(mag : Int)
          · rw [if_pos hr, if_pos ⟨hr, by omega⟩]
          · rw [if_neg hr, if_neg (fun h => hr h.1)]
      · obtain ⟨hv, hm⟩ := hpos (by omega)
        simp only [hn, decide_False, Bool.and_false, Bool.false_eq_true, if_false]
        rw [cast_one T hd, (convert_loops T hd tb mag hm htb).1, hv]
        by_cases hr : (mag : Int) ≤ T.max
        · rw [if_pos hr, if_pos ⟨by omega, hr⟩]
        · rw [if_neg hr, if_neg (fun h => hr h.2)]
  obtain ⟨ux⟩ := x
  cases ux with
  | st s =>
    rw [valid_st] at hx
    obtain ⟨h1, h2, _⟩ := (consistency_checks_iff B s).1 hx
    obtain ⟨v1, v2, _, v4⟩ := consistent_value_cases B s hx
    have hz := consistent_size_zero_iff B s hx
    unfold mp_integer.convert_to_impl
    simp only [integer_union.mp_size, value_st]
    by_cases h0 : s._mp_size = 0
    · have hm := hz.1 h0
      have hv : s.value B = 0 := by
        unfold static_integer.value
        rw [hm]; simp
      rw [if_pos h0, hv, if_pos ⟨hmin0, hmax0⟩]
    · have hbs := bits_size_eq B hB s hx h0
      rw [hbs]
      have hmlt := mag_lt B s h1 h2
      have hbd : binary_digits (s.mag B) ≤ 2 * B := by
        apply binary_digits_le
        rw [two_pow_two_mul]
        exact hmlt
      refine main s._mp_size (s.mag B)
        (fun i => Except.ok (s.test_bit B i)) (s.value B) (fun h => absurd h h0) ?_ ?_ ?_
      · intro h
        exact ⟨(v1 h).1, by have := (v1 h).2; omega⟩
      · intro h
        exact ⟨(v4 h).1, by have := (v4 h).2; omega⟩
      · intro j hj _
        simp only []
        rw [test_bit_eq B hB s h1 h2 j (by omega)]
  | dy z =>
    unfold mp_integer.convert_to_impl
    simp only [integer_union.mp_size, value_dy]
    have hsz : mpz_sizeinbase2 (if mpz_sgn z = -1 then -z else z) =
        if z = 0 then 1 else binary_digits z.natAbs := by
      unfold mpz_sizeinbase2 mpz_sgn
      by_cases hz : z = 0
      · subst hz; simp
      · have : (if z.sign = -1 then -z else z) ≠ 0 := by
          split_ifs <;> omega
        rw [if_neg this, if_neg hz]
        split_ifs <;> simp
    have htn : (if mpz_sgn z = -1 then -z else z).toNat = z.natAbs := by
      unfold mpz_sgn
      by_cases hz : z < 0
      · rw [Int.sign_eq_neg_one_of_neg hz]
        simp only [if_true]
        omega
      · have : z.sign ≠ -1 := by
          intro h
          have := Int.sign_eq_neg_one_iff_neg.1 h
          omega
        rw [if_neg this]
        omega
    by_cases h0 : z = 0
    · subst h0
      simp only [Int.sign_zero, if_true]
      rw [if_pos ⟨hmin0, hmax0⟩]
    · rw [hsz, if_neg h0]
      have hs0 : z.sign = 0 ↔ z = 0 := Int.sign_eq_zero_iff_zero
      refine main z.sign z.natAbs _ z (fun h => absurd (hs0.1 h) h0) ?_ ?_ ?_
      · intro h
        have := (sign_cases z).1 h
        constructor <;> omega
      · intro h
        have := (sign_cases z).2 h
        constructor <;> omega
      · intro j _ hj
        rw [if_pos (by omega)]
        unfold mpz_tstbit
        rw [htn]

end conversion_spec

section construction

theorem or_two_pow_of_lt (k i : Nat) (h : k < 2 ^ i) : k ||| 2 ^ i = k + 2 ^ i := by
  have := Nat.mul_add_lt_is_or h 1
  rw [Nat.mul_one] at this
  rw [Nat.or_comm, ← this, Nat.add_comm]

theorem init_eq_of_nat (B : Nat) : static_integer.init = static_integer.of_nat B 0 := by
  unfold static_integer.init static_integer.of_nat static_integer.calculate_n_limbs
  simp

theorem of_nat_ext (B m : Nat) (sz : Int) (l0 l1 : Nat)
    (h0 : m % 2 ^ B = l0) (h1 : m / 2 ^ B % 2 ^ B = l1)
    (hs : sz = static_integer.calculate_n_limbs ⟨0, (l0, l1)⟩) :
    (⟨sz, (l0, l1)⟩ : static_integer) = static_integer.of_nat B m := by
  unfold static_integer.of_nat
  rw [h0, h1, hs]

/-- Setting a bit above all the set bits of a consistent non-negative `static_integer`. -/
theorem set_bit_of_nat (B : Nat) (hB : 3 ≤ B) (k i : Nat) (hk : k < 2 ^ i) (hi : i < 2 * B) :
    (static_integer.of_nat B k).set_bit B i = static_integer.of_nat B (k + 2 ^ i) := by
  have hBB := lt_two_pow_self B
  have hpos : 0 < B := by omega
  have hP : 0 < 2 ^ B := Nat.pow_pos (by decide)
  have hq : i / B < 2 := Nat.div_lt_of_lt_mul (by omega)
  have hr : i % B < B := Nat.mod_lt _ hpos
  have h2B : 2 ≤ 2 ^ B := two_le_two_pow B (by omega)
  have hp : 2 ^ (i % B) < 2 ^ B := Nat.pow_lt_pow_right (by decide) hr
  have c1 : limb_cast B (i / B) = i / B := Nat.mod_eq_of_lt (by omega)
  have c2 : limb_cast B (i % B) = i % B := Nat.mod_eq_of_lt (by omega)
  have c3 : limb_cast B (1 <<< (i % B)) = 2 ^ (i % B) := by
    unfold limb_cast
    rw [Nat.one_shiftLeft]
    exact Nat.mod_eq_of_lt hp
  unfold static_integer.set_bit
  simp only []
  rw [c1, c2, c3]
  have hsz := of_nat_size_nonneg B k
  by_cases hlt : i < B
  · have e1 : i / B = 0 := Nat.div_eq_of_lt hlt
    have e2 : i % B = i := Nat.mod_eq_of_lt hlt
    have hkP : k < 2 ^ B := Nat.lt_trans hk (Nat.pow_lt_pow_right (by decide) hlt)
    have hsum : k + 2 ^ i < 2 ^ B := by
      have : 2 ^ (i + 1) ≤ 2 ^ B := Nat.pow_le_pow_right (by decide) (by omega)
      rw [Nat.pow_succ] at this
      omega
    rw [e1, e2]
    have hl0 : (static_integer.of_nat B k).limb 0 = k := by
      rw [limb_zero, of_nat_limbs]
      exact Nat.mod_eq_of_lt hkP
    have hl1 : (static_integer.of_nat B k).m_limbs.2 = 0 := by
      rw [of_nat_limbs]
      simp [Nat.div_eq_of_lt hkP]
    rw [hl0, or_two_pow_of_lt k i hk]
    have c4 : limb_cast B (k + 2 ^ i) = k + 2 ^ i := Nat.mod_eq_of_lt hsum
    rw [c4]
    unfold static_integer.set_limb
    simp only [if_true, hl1]
    have hsz1 : (static_integer.of_nat B k)._mp_size ≤ 1 := by
      rw [of_nat_size]
      rcases n_limbs_cases (static_integer.of_nat B k) with ⟨n, _⟩ | ⟨n, _⟩ | ⟨n, l2⟩
      · omega
      · omega
      · exact absurd hl1 l2
    have hne : k + 2 ^ i ≠ 0 := by
      have : 0 < 2 ^ i := Nat.pow_pos (by decide)
      omega
    have hfin : (⟨1, (k + 2 ^ i, 0)⟩ : static_integer) = static_integer.of_nat B (k + 2 ^ i) := by
      apply of_nat_ext
      · exact Nat.mod_eq_of_lt hsum
      · simp [Nat.div_eq_of_lt hsum]
      · unfold static_integer.calculate_n_limbs
        simp [hne]
    rw [if_neg (by omega)]
    by_cases h1 : (static_integer.of_nat B k)._mp_size = 1
    · rw [if_neg (by simp; omega)]
      rw [← hfin]
      congr 1
    · rw [if_pos (by simp; omega)]
      rw [← hfin]
      simp
  · have e1 : i / B = 1 := by
      have : 1 ≤ i / B := (Nat.le_div_iff_mul_le hpos).2 (by omega)
      omega
    have e2 : i % B = i - B := by
      have := Nat.div_add_mod i B
      rw [e1] at this
      omega
    have hsplit : 2 ^ i = 2 ^ (i - B) * 2 ^ B := by
      rw [← Nat.pow_add]
      congr 1
      omega
    have hkq : k / 2 ^ B < 2 ^ (i - B) := by
      rw [Nat.div_lt_iff_lt_mul hP, ← hsplit]
      exact hk
    have hpp : 2 ^ (i - B + 1) ≤ 2 ^ B := Nat.pow_le_pow_right (by decide) (by omega)
    rw [Nat.pow_succ] at hpp
    have hkqP : k / 2 ^ B < 2 ^ B := by
      have : 0 < 2 ^ (i - B) := Nat.pow_pos (by decide)
      omega
    rw [e1, e2]
    have hl1 : (static_integer.of_nat B k).limb 1 = k / 2 ^ B := by
      rw [limb_one, of_nat_limbs]
      exact Nat.mod_eq_of_lt hkqP
    rw [hl1, or_two_pow_of_lt _ _ hkq]
    have c4 : limb_cast B (k / 2 ^ B + 2 ^ (i - B)) = k / 2 ^ B + 2 ^ (i - B) :=
      Nat.mod_eq_of_lt (by omega)
    rw [c4]
    unfold static_integer.set_limb
    simp only [one_ne_zero, if_false]
    have hsz2 : (static_integer.of_nat B k)._mp_size ≤ 2 := by
      rw [of_nat_size]
      rcases n_limbs_cases (static_integer.of_nat B k) with ⟨n, _⟩ | ⟨n, _⟩ | ⟨n, _⟩ <;> omega
    have hne : k / 2 ^ B + 2 ^ (i - B) ≠ 0 := by
      have : 0 < 2 ^ (i - B) := Nat.pow_pos (by decide)
      omega
    have hl0 : (static_integer.of_nat B k).m_limbs.1 = k % 2 ^ B := by
      rw [of_nat_limbs]
    have hfin : (⟨2, (k % 2 ^ B, k / 2 ^ B + 2 ^ (i - B))⟩ : static_integer) =
        static_integer.of_nat B (k + 2 ^ i) := by
      apply of_nat_ext
      · rw [hsplit, Nat.add_mul_mod_self_right]
      · rw [hsplit, Nat.add_mul_div_right _ _ hP]
        exact Nat.mod_eq_of_lt (by omega)
      · unfold static_integer.calculate_n_limbs
        simp [hne]
    rw [if_neg (by omega), hl0]
    by_cases h1 : (static_integer.of_nat B k)._mp_size = 2
    · rw [if_neg (by simp; omega)]
      rw [← hfin]
      congr 1
    · rw [if_pos (by simp; omega)]
      rw [← hfin]
      simp

end construction

section construction2

/-- The loop storing the bits of a non-negative GMP integer in a static integer. -/
theorem set_bits_loop_eq (B : Nat) (hB : 3 ≤ B) (k : Nat) :
    ∀ (fuel i : Nat), i + fuel ≤ 2 * B →
      set_bits_loop B (k : Int) fuel i (static_integer.of_nat B (k % 2 ^ i)) =
        static_integer.of_nat B (k % 2 ^ (i + fuel)) := by
  have h2B := two_mul_lt_two_pow B hB
  intro fuel
  induction fuel with
  | zero => intro i _; rfl
  | succ fuel ih =>
    intro i hi
    unfold set_bits_loop
    have hsplit := mod_two_pow_succ_testBit k i
    have hc : limb_cast B i = i := Nat.mod_eq_of_lt (by omega)
    have ht : mpz_tstbit (k : Int) i = k.testBit i := by
      unfold mpz_tstbit
      simp
    rw [ht, hc]
    have e : i + (fuel + 1) = (i + 1) + fuel := by omega
    rw [e, ← ih (i + 1) (by omega)]
    congr 1
    cases hbit : k.testBit i
    · rw [hbit] at hsplit
      simp only [Bool.false_eq_true, if_false, Nat.add_zero] at hsplit ⊢
      rw [hsplit]
    · rw [hbit] at hsplit
      simp only [if_true] at hsplit ⊢
      rw [hsplit]
      exact set_bit_of_nat B hB _ i (Nat.mod_lt _ (Nat.pow_pos (by decide))) (by omega)

/-- The tail of the constructors: the object built from a magnitude and a sign. -/
theorem construct_from_mpz_spec (B : Nat) (hB : 3 ≤ B) (k : Nat) (neg : Bool) :
    (mp_integer.construct_from_mpz B (k : Int) neg).valid B = true ∧
    (mp_integer.construct_from_mpz B (k : Int) neg).value B =
      (if neg then -(k : Int) else (k : Int)) ∧
    ((mp_integer.construct_from_mpz B (k : Int) neg).is_static = true ↔
      k < 2 ^ B * 2 ^ B) := by
  have hsz : mpz_sizeinbase2 (k : Int) = if k = 0 then 1 else binary_digits k := by
    unfold mpz_sizeinbase2
    by_cases h : k = 0
    · subst h; simp
    · rw [if_neg (by exact_mod_cast h), if_neg h]
      simp
  obtain ⟨s1, s2⟩ := binary_digits_spec k
  have hfit : integer_union.fits_in_static B (k : Int) = true ↔ k < 2 ^ B * 2 ^ B := by
    unfold integer_union.fits_in_static
    rw [hsz, decide_eq_true_iff, ← two_pow_two_mul]
    by_cases h : k = 0
    · subst h
      rw [if_pos rfl]
      constructor
      · intro _; exact Nat.pow_pos (by decide)
      · intro _; omega
    · rw [if_neg h]
      obtain ⟨s3, s4⟩ := s2 h
      constructor
      · intro hle
        have : 2 ^ binary_digits k ≤ 2 ^ (2 * B) := Nat.pow_le_pow_right (by decide) (by omega)
        omega
      · intro hlt
        have := binary_digits_le k (2 * B) hlt
        omega
  unfold mp_integer.construct_from_mpz
  by_cases hf : integer_union.fits_in_static B (k : Int) = true
  · rw [if_pos hf]
    have hk := hfit.1 hf
    have hloop : set_bits_loop B (k : Int) (mpz_sizeinbase2 (k : Int)) 0 static_integer.init =
        static_integer.of_nat B k := by
      have h0 : static_integer.init = static_integer.of_nat B (k % 2 ^ 0) := by
        simp [Nat.mod_one]
        exact init_eq_of_nat B
      have hle : 0 + mpz_sizeinbase2 (k : Int) ≤ 2 * B := by
        unfold integer_union.fits_in_static at hf
        have := of_decide_eq_true hf
        omega
      rw [h0, set_bits_loop_eq B hB k _ 0 hle, hsz]
      congr 1
      by_cases h : k = 0
      · subst h; simp
      · rw [if_neg h, Nat.zero_add]
        exact Nat.mod_eq_of_lt s1
    simp only []
    rw [hloop]
    refine ⟨?_, ?_, ?_⟩
    · rw [valid_st]
      split_ifs
      · exact negate_consistent B _ (of_nat_consistent B k)
      · exact of_nat_consistent B k
    · rw [value_st]
      cases neg
      · simp only [Bool.false_eq_true, if_false]
        exact of_nat_value B k hk
      · simp only [if_true]
        rw [negate_value B _ (of_nat_consistent B k), of_nat_value B k hk]
    · exact ⟨fun _ => hk, fun _ => rfl⟩
  · rw [if_neg hf]
    refine ⟨rfl, ?_, ?_⟩
    · rw [value_dy]
    · constructor
      · intro h; cases h
      · intro h; exact absurd (hfit.2 h) hf

theorem natAbs_tdiv_two (n : Int) : (Int.tdiv n 2).natAbs = n.natAbs / 2 := by
  rw [Int.natAbs_tdiv]
  rfl

theorem ofNat_tdiv_two (k : Nat) : Int.tdiv (k : Int) 2 = ((k / 2 : Nat) : Int) :=
  (Int.ofNat_tdiv k 2).symm

theorem ofNat_tmod_two (k : Nat) : Int.tmod (k : Int) 2 = ((k % 2 : Nat) : Int) :=
  (Int.ofNat_tmod k 2).symm

theorem tmod_two_ne_zero (n : Int) : Int.tmod n 2 ≠ 0 ↔ n.natAbs % 2 ≠ 0 := by
  obtain ⟨k, rfl | rfl⟩ := Int.eq_nat_or_neg n
  · rw [ofNat_tmod_two]
    simp
    omega
  · rw [neg_tmod_eq, ofNat_tmod_two]
    simp
    omega

theorem tmod_two_range (n : Int) : -1 ≤ Int.tmod n 2 ∧ Int.tmod n 2 ≤ 1 ∧
    (0 ≤ n → 0 ≤ Int.tmod n 2) := by
  obtain ⟨k, rfl | rfl⟩ := Int.eq_nat_or_neg n
  · rw [ofNat_tmod_two]
    omega
  · rw [neg_tmod_eq, ofNat_tmod_two]
    omega

theorem tdiv_two_range (n : Int) : (0 ≤ n → 0 ≤ Int.tdiv n 2 ∧ Int.tdiv n 2 ≤ n) ∧
    (n ≤ 0 → n ≤ Int.tdiv n 2 ∧ Int.tdiv n 2 ≤ 0) := by
  obtain ⟨k, rfl | rfl⟩ := Int.eq_nat_or_neg n
  · rw [ofNat_tdiv_two]
    omega
  · rw [Int.neg_tdiv, ofNat_tdiv_two]
    omega

theorem cast_id_abs (T : integral_type) (hd : 1 ≤ T.digits) (n x : Int)
    (h1 : T.min ≤ n) (h2 : n ≤ T.max)
    (hx : (0 ≤ n → 0 ≤ x ∧ x ≤ n) ∧ (n ≤ 0 → n ≤ x ∧ x ≤ 0)) : T.cast x = x := by
  have hmax0 : 0 ≤ T.max := by
    unfold integral_type.max
    have : (0 : Int) < 2 ^ T.digits := by positivity
    omega
  have hmin0 : T.min ≤ 0 := by
    unfold integral_type.min
    split_ifs
    · have : (0 : Int) < 2 ^ T.digits := by positivity
      omega
    · omega
  apply cast_id
  · by_cases h : 0 ≤ n
    · have := hx.1 h; omega
    · have := hx.2 (by omega); omega
  · by_cases h : 0 ≤ n
    · have := hx.1 h; omega
    · have := hx.2 (by omega); omega

/-- The first loop of `construct_from_integral` collects the magnitude of `n`. -/
theorem construct_bits_loop_eq (T : integral_type) (hd : 1 ≤ T.digits) :
    ∀ (fuel : Nat) (n m : Int) (bit_idx : Nat), n.natAbs ≤ fuel →
      T.min ≤ n → n ≤ T.max → 0 ≤ m → m < 2 ^ bit_idx →
      bit_idx + binary_digits n.natAbs ≤ mp_bitcnt_max →
      construct_bits_loop T fuel n m bit_idx =
        Except.ok (m + ((n.natAbs * 2 ^ bit_idx : Nat) : Int)) := by
  have hmax0 : 0 ≤ T.max := by
    unfold integral_type.max
    have : (0 : Int) < 2 ^ T.digits := by positivity
    omega
  have hmin0 : T.min ≤ 0 := by
    unfold integral_type.min
    split_ifs
    · have : (0 : Int) < 2 ^ T.digits := by positivity
      omega
    · omega
  intro fuel
  induction fuel with
  | zero =>
    intro n m bit_idx h1 _ _ _ _ _
    unfold construct_bits_loop
    have : n.natAbs = 0 := by omega
    rw [this]
    simp
  | succ fuel ih =>
    intro n m bit_idx h1 h2 h3 h4 h5 h6
    unfold construct_bits_loop
    by_cases hn : n = 0
    · rw [if_pos hn, hn]
      simp
    · rw [if_neg hn]
      have hna : n.natAbs ≠ 0 := by omega
      have hbd := binary_digits_half n.natAbs hna
      have hdr := tdiv_two_range n
      have hmr := tmod_two_range n
      have hcd : T.cast (Int.tdiv n 2) = Int.tdiv n 2 := cast_id_abs T hd n _ h2 h3 hdr
      have hcm : T.cast (Int.tmod n 2) = Int.tmod n 2 := by
        apply cast_id_abs T hd n _ h2 h3
        obtain ⟨r1, r2, r3⟩ := hmr
        constructor
        · intro h
          have := r3 h
          constructor <;> omega
        · intro h
          have hneg : n < 0 := by omega
          have : Int.tmod n 2 ≤ 0 := by
            obtain ⟨k, rfl | rfl⟩ := Int.eq_nat_or_neg n
            · omega
            · rw [neg_tmod_eq, ofNat_tmod_two]; omega
          constructor <;> omega
      simp only []
      rw [hcd, hcm]
      have hidx : bit_idx ≠ mp_bitcnt_max := by omega
      rw [if_neg hidx]
      have hm1 : (if Int.tmod n 2 ≠ 0 then mpz_setbit m bit_idx else m) =
          m + ((n.natAbs % 2 * 2 ^ bit_idx : Nat) : Int) := by
        by_cases hodd : Int.tmod n 2 ≠ 0
        · rw [if_pos hodd, mpz_setbit_of_lt m _ h4 h5]
          have := (tmod_two_ne_zero n).1 hodd
          have h1' : n.natAbs % 2 = 1 := by omega
          rw [h1']
          push_cast
          ring
        · rw [if_neg hodd]
          have h0' : n.natAbs % 2 = 0 := by
            by_contra hc
            exact hodd ((tmod_two_ne_zero n).2 hc)
          rw [h0']
          simp
      rw [hm1]
      have hpp : (2 : Int) ^ (bit_idx + 1) = 2 ^ bit_idx + 2 ^ bit_idx := int_pow_succ_double _
      have hpos : (0 : Int) < 2 ^ bit_idx := by positivity
      have hlt2 : n.natAbs % 2 < 2 := Nat.mod_lt _ (by decide)
      have hterm : ((n.natAbs % 2 * 2 ^ bit_idx : Nat) : Int) ≤ 2 ^ bit_idx := by
        push_cast
        have : ((n.natAbs % 2 : Nat) : Int) ≤ 1 := by omega
        nlinarith
      have hterm0 : (0 : Int) ≤ ((n.natAbs % 2 * 2 ^ bit_idx : Nat) : Int) := Int.ofNat_nonneg _
      have hmlt : m + ((n.natAbs % 2 * 2 ^ bit_idx : Nat) : Int) < 2 ^ (bit_idx + 1) := by
        generalize ((n.natAbs % 2 * 2 ^ bit_idx : Nat) : Int) = t at hterm hterm0
        omega
      have hmge : 0 ≤ m + ((n.natAbs % 2 * 2 ^ bit_idx : Nat) : Int) := by
        generalize ((n.natAbs % 2 * 2 ^ bit_idx : Nat) : Int) = t at hterm hterm0
        omega
      rw [ih (Int.tdiv n 2) _ (bit_idx + 1) (by rw [natAbs_tdiv_two]; omega)
        (by rcases le_total 0 n with h | h
            · have := hdr.1 h
              omega
            · have := hdr.2 h; omega)
        (by rcases le_total 0 n with h | h
            · have := hdr.1 h; omega
            · have := hdr.2 h
              omega)
        hmge hmlt
        (by rw [natAbs_tdiv_two]; omega)]
      rw [natAbs_tdiv_two]
      congr 1
      have hdm := Nat.div_add_mod n.natAbs 2
      have e : n.natAbs * 2 ^ bit_idx =
          n.natAbs % 2 * 2 ^ bit_idx + n.natAbs / 2 * 2 ^ (bit_idx + 1) := by
        rw [Nat.pow_succ]
        nlinarith
      rw [e]
      push_cast
      ring

end construction2

section claims_conversion

/-- The constructor from a native integral value builds a well-formed object holding that
value. -/
theorem construct_from_integral_spec (B : Nat) (hB : 3 ≤ B) (T : integral_type)
    (hd : 1 ≤ T.digits) (hT : T.digits < mp_bitcnt_max) (n : Int)
    (h1 : T.min ≤ n) (h2 : n ≤ T.max) :
    ∃ x, mp_integer.construct_from_integral B T n = Except.ok x ∧ x.valid B = true ∧
      x.value B = n := by
  unfold mp_integer.construct_from_integral
  by_cases hn : n = 0
  · rw [if_pos hn]
    refine ⟨mp_integer.init, rfl, ?_, ?_⟩
    · show static_integer.consistency_checks B static_integer.init = true
      rw [init_eq_of_nat B]
      exact of_nat_consistent B 0
    · rw [hn]
      show static_integer.value B static_integer.init = 0
      rw [init_eq_of_nat B]
      exact of_nat_value B 0 (by positivity)
  · rw [if_neg hn]
    have hbd : binary_digits n.natAbs ≤ T.digits + 1 := by
      apply binary_digits_le
      have hp : (2 : Int) ^ (T.digits + 1) = 2 ^ T.digits + 2 ^ T.digits :=
        int_pow_succ_double _
      have hpos : (0 : Int) < 2 ^ T.digits := by positivity
      have hmin : -(2 ^ T.digits) ≤ T.min := by
        unfold integral_type.min
        split_ifs <;> omega
      have hmax : T.max = 2 ^ T.digits - 1 := rfl
      have : ((n.natAbs : Nat) : Int) < 2 ^ (T.digits + 1) := by omega
      exact_mod_cast this
    rw [construct_bits_loop_eq T hd n.natAbs n 0 0 (Nat.le_refl _) h1 h2 (Int.le_refl _)
      (by norm_num) (by omega)]
    simp only [Nat.pow_zero, Nat.mul_one, Int.zero_add]
    obtain ⟨c1, c2, _⟩ := construct_from_mpz_spec B hB n.natAbs (decide (n ≤ 0))
    refine ⟨_, rfl, c1, ?_⟩
    rw [c2]
    by_cases hle : n ≤ 0
    · simp only [hle, decide_True, if_true]
      omega
    · simp only [hle, decide_False, Bool.false_eq_true, if_false]
      omega

/-- C16: for a native integral type `T` (other than `bool`) and a well-formed `mp_integer`
`x`, static or dynamic, of value `v`: the conversion of `x` to `T` throws `overflow_error`
exactly when `v` lies outside `[min(T), max(T)]`, which includes every negative `v` when `T`
is unsigned, and returns `v` otherwise. -/
theorem C16_conversion_overflow (B : Nat) (hB : 3 ≤ B) (T : integral_type)
    (hd : 1 ≤ T.digits) (hT : T.digits ≤ mp_bitcnt_max) (x : mp_integer)
    (hx : x.valid B = true) :
    (x.convert_to_impl B T = Except.error mp_exception.overflow_error ↔
      (x.value B < T.min ∨ T.max < x.value B)) ∧
    (¬ (x.value B < T.min ∨ T.max < x.value B) →
      x.convert_to_impl B T = Except.ok (x.value B)) ∧
    (T.is_signed = false → x.value B < 0 →
      x.convert_to_impl B T = Except.error mp_exception.overflow_error) := by
  have h := convert_to_impl_eq B hB T hd hT x hx
  have hminu : T.is_signed = false → T.min = 0 := by
    intro h
    unfold integral_type.min
    rw [h]; simp
  refine ⟨?_, ?_, ?_⟩
  · rw [h]
    by_cases hr : T.min ≤ x.value B ∧ x.value B ≤ T.max
    · rw [if_pos hr]
      constructor
      · intro hc; cases hc
      · intro hc; omega
    · rw [if_neg hr]
      constructor
      · intro _; omega
      · intro _; rfl
  · intro hr
    rw [h, if_pos (by omega)]
  · intro hs hv
    rw [h, if_neg]
    rw [hminu hs]
    omega

/-- C16 witness: with 8-bit limbs, the conversion to `uint8_t` of the static 255 and of the
dynamic 256. -/
theorem C16_conversion_overflow_witness :
    (⟨integer_union.st ⟨1, (255, 0)⟩⟩ : mp_integer).convert_to_impl 8 uint8_t =
      Except.ok 255 ∧
    ((⟨integer_union.dy 256⟩ : mp_integer).convert_to_impl 8 uint8_t =
      Except.error mp_exception.overflow_error ↔
      (mp_integer.value 8 ⟨integer_union.dy 256⟩ < uint8_t.min ∨
        uint8_t.max < mp_integer.value 8 ⟨integer_union.dy 256⟩)) :=
  ⟨(C16_conversion_overflow 8 (by decide) uint8_t (by decide) (by decide)
      ⟨integer_union.st ⟨1, (255, 0)⟩⟩ (by decide)).2.1 (by decide),
   (C16_conversion_overflow 8 (by decide) uint8_t (by decide) (by decide)
      ⟨integer_union.dy 256⟩ (by decide)).1⟩

/-- C17: for a native integral type `T` (other than `bool`), signed or unsigned, and every
value `n` of `T`, its minimum included, the constructor `mp_integer(n)` returns an object whose
conversion back to `T` succeeds and returns `n`. -/
theorem C17_native_round_trip (B : Nat) (hB : 3 ≤ B) (T : integral_type)
    (hd : 1 ≤ T.digits) (hT : T.digits < mp_bitcnt_max) (n : Int)
    (h1 : T.min ≤ n) (h2 : n ≤ T.max) :
    ∃ x, mp_integer.construct_from_integral B T n = Except.ok x ∧
      x.convert_to_impl B T = Except.ok n := by
  obtain ⟨x, c1, c2, c3⟩ := construct_from_integral_spec B hB T hd hT n h1 h2
  refine ⟨x, c1, ?_⟩
  rw [convert_to_impl_eq B hB T hd (by omega) x c2, c3, if_pos ⟨h1, h2⟩]

/-- C17 witness: the minimum of `int64_t`, which is static with 32-bit limbs. -/
theorem C17_native_round_trip_witness :
    mp_integer.construct_from_integral 32 int64_t (-9223372036854775808) =
      Except.ok ⟨integer_union.st ⟨-2, (0, 2147483648)⟩⟩ ∧
    ∃ x, mp_integer.construct_from_integral 32 int64_t (-9223372036854775808) =
        Except.ok x ∧
      x.convert_to_impl 32 int64_t = Except.ok (-9223372036854775808) :=
  ⟨rfl,
   C17_native_round_trip 32 (by decide) int64_t (by decide) (by decide)
    (-9223372036854775808) (by decide) (by decide)⟩

end claims_conversion

section strings

theorem is_digit_iff (c : Char) :
    is_digit c = true ↔ c ∈ ['0', '1', '2', '3', '4', '5', '6', '7', '8', '9'] := by
  unfold is_digit
  simp

theorem digit_char_value (c : Char) (h : is_digit c = true) :
    digit_char (digit_value c) = c := by
  rw [is_digit_iff] at h
  simp only [List.mem_cons, List.mem_singleton, List.mem_nil_iff, or_false] at h
  rcases h with h | h | h | h | h | h | h | h | h | h <;> subst h <;> decide

theorem digit_value_lt (c : Char) (h : is_digit c = true) : digit_value c < 10 := by
  rw [is_digit_iff] at h
  simp only [List.mem_cons, List.mem_singleton, List.mem_nil_iff, or_false] at h
  rcases h with h | h | h | h | h | h | h | h | h | h <;> subst h <;> decide

theorem digit_value_eq_zero (c : Char) (h : is_digit c = true) (h0 : digit_value c = 0) :
    c = '0' := by
  rw [is_digit_iff] at h
  simp only [List.mem_cons, List.mem_singleton, List.mem_nil_iff, or_false] at h
  rcases h with h | h | h | h | h | h | h | h | h | h <;> subst h <;>
    first
    | rfl
    | (exfalso; revert h0; decide)

theorem digit_char_spec (d : Nat) (h : d < 10) :
    is_digit (digit_char d) = true ∧ digit_value (digit_char d) = d ∧
      (d ≠ 0 → digit_char d ≠ '0') ∧ digit_char d ≠ '-' := by
  interval_cases d <;> decide

theorem decimal_digits_eq : ∀ (fuel n : Nat), n ≤ fuel → decimal_digits fuel n = Nat.digits 10 n
  | 0, n, h => by
    have : n = 0 := by omega
    subst this
    simp [decimal_digits]
  | fuel + 1, n, h => by
    unfold decimal_digits
    by_cases hn : n = 0
    · rw [if_pos hn, hn]; simp
    · rw [if_neg hn, Nat.digits_def' (by norm_num) (by omega),
        decimal_digits_eq fuel (n / 10) (by omega)]

theorem decimal_value_append (cs : List Char) (c : Char) :
    decimal_value (cs ++ [c]) = decimal_value cs * 10 + digit_value c := by
  unfold decimal_value
  rw [List.foldl_append]
  rfl

theorem decimal_value_eq (cs : List Char) :
    decimal_value cs = Nat.ofDigits 10 (cs.reverse.map digit_value) := by
  induction cs using List.reverseRecOn with
  | nil => rfl
  | append_singleton cs c ih =>
    rw [decimal_value_append, ih, List.reverse_append, List.reverse_singleton,
      List.singleton_append, List.map_cons, Nat.ofDigits_cons]
    omega

/-- The numeral of a natural number: its decimal digits, most significant first, or the digit
0 for zero. -/
theorem numeral_digits (n : Nat) (hn : n ≠ 0) :
    ∃ d ds, (decimal_digits n n).reverse.map digit_char = d :: ds ∧
      is_digit d = true ∧ d ≠ '0' ∧ d ≠ '-' ∧ ds.all is_digit = true ∧
      decimal_value (d :: ds) = n := by
  rw [decimal_digits_eq n n (Nat.le_refl _)]
  have hne : Nat.digits 10 n ≠ [] := Nat.digits_ne_nil_iff_ne_zero.mpr hn
  have hlast := Nat.getLast_digit_ne_zero 10 hn
  have hlt : ∀ x ∈ Nat.digits 10 n, x < 10 := fun x hx => Nat.digits_lt_base (by norm_num) hx
  have hval : decimal_value ((Nat.digits 10 n).reverse.map digit_char) = n := by
    rw [decimal_value_eq, ← List.map_reverse, List.reverse_reverse, List.map_map]
    have : List.map (digit_value ∘ digit_char) (Nat.digits 10 n) = Nat.digits 10 n := by
      conv_rhs => rw [← List.map_id (Nat.digits 10 n)]
      apply List.map_congr_left
      intro x hx
      exact (digit_char_spec x (hlt x hx)).2.1
    rw [this, Nat.ofDigits_digits]
  have hall : ((Nat.digits 10 n).reverse.map digit_char).all is_digit = true := by
    rw [List.all_eq_true]
    intro c hc
    rw [List.mem_map] at hc
    obtain ⟨x, hx, rfl⟩ := hc
    exact (digit_char_spec x (hlt x (List.mem_reverse.1 hx))).1
  obtain ⟨l, a, hla⟩ : ∃ l a, Nat.digits 10 n = l ++ [a] :=
    ⟨_, _, (List.dropLast_append_getLast hne).symm⟩
  have ha : a ≠ 0 := by
    have : (Nat.digits 10 n).getLast hne = a := by
      simp only [hla, List.getLast_append_singleton]
    rw [← this]; exact hlast
  have hrev : (Nat.digits 10 n).reverse.map digit_char =
      digit_char a :: l.reverse.map digit_char := by
    rw [hla, List.reverse_append, List.reverse_singleton, List.singleton_append, List.map_cons]
  have ha10 : a < 10 := hlt a (by rw [hla]; simp)
  refine ⟨digit_char a, l.reverse.map digit_char, hrev, (digit_char_spec a ha10).1,
    (digit_char_spec a ha10).2.2.1 ha, (digit_char_spec a ha10).2.2.2, ?_, ?_⟩
  · rw [hrev] at hall
    simp only [List.all_cons, Bool.and_eq_true] at hall
    exact hall.2
  · rw [← hrev]; exact hval

/-- A string of digits that does not start with the digit 0 is the numeral of its value. -/
theorem digits_numeral (d : Char) (ds : List Char) (hd : is_digit d = true) (h0 : d ≠ '0')
    (hds : ds.all is_digit = true) :
    decimal_value (d :: ds) ≠ 0 ∧
    (decimal_digits (decimal_value (d :: ds)) (decimal_value (d :: ds))).reverse.map digit_char
      = d :: ds := by
  have hall : ∀ c ∈ d :: ds, is_digit c = true := by
    intro c hc
    rcases List.mem_cons.1 hc with h | h
    · rw [h]; exact hd
    · exact (List.all_eq_true.1 hds) c h
  have hdv : digit_value d ≠ 0 := fun h => h0 (digit_value_eq_zero d hd h)
  have hL : Nat.digits 10 (Nat.ofDigits 10 ((d :: ds).reverse.map digit_value)) =
      (d :: ds).reverse.map digit_value := by
    apply Nat.digits_ofDigits 10 (by norm_num)
    · intro x hx
      rw [List.mem_map] at hx
      obtain ⟨c, hc, rfl⟩ := hx
      exact digit_value_lt c (hall c (List.mem_reverse.1 hc))
    · intro hne
      have : (d :: ds).reverse.map digit_value = (ds.reverse.map digit_value) ++ [digit_value d] := by
        rw [List.reverse_cons, List.map_append]; rfl
      simp only [this, List.getLast_append_singleton]
      exact hdv
  have hne : decimal_value (d :: ds) ≠ 0 := by
    intro h
    rw [decimal_value_eq] at h
    rw [h] at hL
    simp at hL
  refine ⟨hne, ?_⟩
  rw [decimal_digits_eq _ _ (Nat.le_refl _), decimal_value_eq, hL, ← List.map_reverse,
    List.reverse_reverse, List.map_map]
  conv_rhs => rw [← List.map_id (d :: ds)]
  apply List.map_congr_left
  intro c hc
  exact digit_char_value c (hall c hc)

end strings

section strings2

theorem validate_string_nil :
    mp_integer.validate_string [] = some mp_exception.invalid_argument := rfl

theorem validate_string_minus (rest : List Char) :
    mp_integer.validate_string ('-' :: rest) =
      match rest with
      | [] => some mp_exception.invalid_argument
      | d :: ds =>
        if d = '0' then some mp_exception.invalid_argument
        else if (d :: ds).all is_digit then Option.none
        else some mp_exception.invalid_argument := by
  cases rest with
  | nil => rfl
  | cons d ds =>
    unfold mp_integer.validate_string
    simp only [List.length_cons, List.head?_cons, if_true, Nat.add_sub_cancel,
      List.get?_cons_succ, List.get?_cons_zero, List.drop_succ_cons, List.drop_zero]
    by_cases h : d = '0'
    · simp [h]
    · simp [h]

theorem validate_string_no_minus (c : Char) (rest : List Char) (hc : c ≠ '-') :
    mp_integer.validate_string (c :: rest) =
      if c = '0' ∧ rest ≠ [] then some mp_exception.invalid_argument
      else if (c :: rest).all is_digit then Option.none
      else some mp_exception.invalid_argument := by
  unfold mp_integer.validate_string
  have h1 : ¬ ((c :: rest).head? = some '-') := by
    simp [hc]
  simp only [h1, if_false, List.length_cons, Nat.sub_zero, List.get?_cons_zero, List.drop_zero]
  cases rest with
  | nil => simp
  | cons d ds => simp

theorem mpz_set_str10_minus (ds : List Char) :
    mpz_set_str10 ('-' :: ds) =
      if ds ≠ [] ∧ ds.all is_digit then some (-(decimal_value ds : Int)) else Option.none := rfl

theorem mpz_set_str10_no_minus (c : Char) (ds : List Char) (hc : c ≠ '-') :
    mpz_set_str10 (c :: ds) =
      if (c :: ds).all is_digit then some (decimal_value (c :: ds) : Int) else Option.none := by
  unfold mpz_set_str10
  split
  · rename_i h
    exact absurd (List.cons.inj h).1 hc
  · simp

/-- The numeral written by `mpz_get_str` is accepted by `validate_string` and read back by
`mpz_set_str` as the same value. -/
theorem get_str_accepted (v : Int) :
    mp_integer.validate_string (mpz_get_str10 v) = Option.none ∧
      mpz_set_str10 (mpz_get_str10 v) = some v := by
  unfold mpz_get_str10
  rcases Int.lt_trichotomy v 0 with h | h | h
  · have hn : v.natAbs ≠ 0 := by omega
    obtain ⟨d, ds, e, h1, h2, h3, h4, h5⟩ := numeral_digits v.natAbs hn
    rw [if_pos h, if_neg (by omega), e]
    have hall : (d :: ds).all is_digit = true := by
      simp only [List.all_cons, Bool.and_eq_true]; exact ⟨h1, h4⟩
    constructor
    · show mp_integer.validate_string ('-' :: d :: ds) = Option.none
      rw [validate_string_minus]
      simp only []
      rw [if_neg h2, if_pos hall]
    · show mpz_set_str10 ('-' :: d :: ds) = some v
      rw [mpz_set_str10_minus, if_pos ⟨by simp, hall⟩, h5]
      congr 1
      omega
  · subst h
    constructor
    · decide
    · rfl
  · have hn : v.natAbs ≠ 0 := by omega
    obtain ⟨d, ds, e, h1, h2, h3, h4, h5⟩ := numeral_digits v.natAbs hn
    rw [if_neg (by omega), if_neg (by omega), e]
    have hall : (d :: ds).all is_digit = true := by
      simp only [List.all_cons, Bool.and_eq_true]; exact ⟨h1, h4⟩
    constructor
    · show mp_integer.validate_string (d :: ds) = Option.none
      rw [validate_string_no_minus d ds h3, if_neg (fun hc => h2 hc.1), if_pos hall]
    · show mpz_set_str10 (d :: ds) = some v
      rw [mpz_set_str10_no_minus d ds h3, if_pos hall, h5]
      congr 1
      omega

theorem is_digit_minus : is_digit '-' = false := by decide

theorem shape_of_cases {P : Prop} {r : Option mp_exception}
    (h : (r = Option.none ∧ P) ∨ (r = some mp_exception.invalid_argument ∧ ¬ P)) :
    (P → r = Option.none) ∧ (¬ P → r = some mp_exception.invalid_argument) := by
  rcases h with ⟨h1, h2⟩ | ⟨h1, h2⟩
  · exact ⟨fun _ => h1, fun hn => absurd h2 hn⟩
  · exact ⟨fun hp => absurd hp h2, fun _ => h1⟩

/-- The strings accepted by `validate_string`, by shape. -/
theorem validate_string_shape (str : List Char) :
    ((str = ['0'] ∨ ∃ d ds, (str = d :: ds ∨ str = '-' :: d :: ds) ∧
          is_digit d = true ∧ d ≠ '0' ∧ ds.all is_digit = true) →
      mp_integer.validate_string str = Option.none) ∧
    (¬ (str = ['0'] ∨ ∃ d ds, (str = d :: ds ∨ str = '-' :: d :: ds) ∧
          is_digit d = true ∧ d ≠ '0' ∧ ds.all is_digit = true) →
      mp_integer.validate_string str = some mp_exception.invalid_argument) := by
  apply shape_of_cases
  cases str with
  | nil =>
    rw [validate_string_nil]
    refine Or.inr ⟨rfl, ?_⟩
    rintro (h | ⟨d, ds, h | h, _⟩) <;> cases h
  | cons c rest =>
    by_cases hc : c = '-'
    · subst hc
      rw [validate_string_minus]
      cases rest with
      | nil =>
        refine Or.inr ⟨rfl, ?_⟩
        rintro (h | ⟨d, ds, h | h, hd, _⟩)
        · cases h
        · cases h
          rw [is_digit_minus] at hd; cases hd
        · cases h
      | cons d ds =>
        simp only []
        by_cases h0 : d = '0'
        · rw [if_pos h0]
          refine Or.inr ⟨rfl, ?_⟩
          rintro (h | ⟨d1, ds1, h | h, hd, hd0, _⟩)
          · cases h
          · cases h
            rw [is_digit_minus] at hd; cases hd
          · cases h
            exact hd0 h0
        · rw [if_neg h0]
          by_cases hall : (d :: ds).all is_digit = true
          · rw [if_pos hall]
            refine Or.inl ⟨rfl, ?_⟩
            simp only [List.all_cons, Bool.and_eq_true] at hall
            exact Or.inr ⟨d, ds, Or.inr rfl, hall.1, h0, hall.2⟩
          · rw [if_neg hall]
            refine Or.inr ⟨rfl, ?_⟩
            rintro (h | ⟨d1, ds1, h | h, hd, hd0, hds⟩)
            · cases h
            · cases h
              rw [is_digit_minus] at hd; cases hd
            · cases h
              apply hall
              simp only [List.all_cons, Bool.and_eq_true]
              exact ⟨hd, hds⟩
    · rw [validate_string_no_minus c rest hc]
      by_cases h0 : c = '0' ∧ rest ≠ []
      · rw [if_pos h0]
        refine Or.inr ⟨rfl, ?_⟩
        rintro (h | ⟨d1, ds1, h | h, hd, hd0, hds⟩)
        · exact h0.2 (List.cons.inj h).2
        · cases h
          exact hd0 h0.1
        · cases h
          exact hc rfl
      · rw [if_neg h0]
        by_cases hall : (c :: rest).all is_digit = true
        · rw [if_pos hall]
          refine Or.inl ⟨rfl, ?_⟩
          simp only [List.all_cons, Bool.and_eq_true] at hall
          by_cases hc0 : c = '0'
          · left
            have : rest = [] := by
              by_contra hr
              exact h0 ⟨hc0, hr⟩
            rw [hc0, this]
          · exact Or.inr ⟨c, rest, Or.inl rfl, hall.1, hc0, hall.2⟩
        · rw [if_neg hall]
          refine Or.inr ⟨rfl, ?_⟩
          rintro (h | ⟨d1, ds1, h | h, hd, hd0, hds⟩)
          · apply hall
            rw [h]; decide
          · cases h
            apply hall
            simp only [List.all_cons, Bool.and_eq_true]
            exact ⟨hd, hds⟩
          · cases h
            exact hc rfl

/-- Every string accepted by `validate_string` is the numeral of an integer. -/
theorem accepted_is_numeral (str : List Char)
    (h : mp_integer.validate_string str = Option.none) : ∃ v : Int, str = mpz_get_str10 v := by
  have hs : str = ['0'] ∨ ∃ d ds, (str = d :: ds ∨ str = '-' :: d :: ds) ∧
      is_digit d = true ∧ d ≠ '0' ∧ ds.all is_digit = true := by
    by_contra hn
    rw [(validate_string_shape str).2 hn] at h
    cases h
  rcases hs with hs | ⟨d, ds, hs | hs, hd, hd0, hds⟩
  · exact ⟨0, by rw [hs]; rfl⟩
  · obtain ⟨n0, e⟩ := digits_numeral d ds hd hd0 hds
    refine ⟨(decimal_value (d :: ds) : Nat), ?_⟩
    unfold mpz_get_str10
    rw [if_neg (by omega), if_neg (by omega), Int.natAbs_ofNat, e, hs]
    rfl
  · obtain ⟨n0, e⟩ := digits_numeral d ds hd hd0 hds
    refine ⟨-(decimal_value (d :: ds) : Nat), ?_⟩
    unfold mpz_get_str10
    rw [if_pos (by omega), if_neg (by omega), Int.natAbs_neg, Int.natAbs_ofNat, e, hs]
    rfl

/-- The string constructor applied to the numeral of `v`. -/
theorem construct_from_string_get_str (B : Nat) (hB : 3 ≤ B) (v : Int) :
    ∃ y, mp_integer.construct_from_string B (mpz_get_str10 v) = Except.ok y ∧
      y.valid B = true ∧ y.value B = v := by
  obtain ⟨h1, h2⟩ := get_str_accepted v
  unfold mp_integer.construct_from_string
  rw [h1]
  simp only []
  rw [h2]
  simp only []
  have hm : (if decide (mpz_sgn v = -1) = true then -v else v) = ((v.natAbs : Nat) : Int) := by
    unfold mpz_sgn
    rcases Int.lt_trichotomy v 0 with hv | hv | hv
    · rw [Int.sign_eq_neg_one_of_neg hv]; simp only [decide_True, if_true]; omega
    · rw [hv]; rfl
    · rw [Int.sign_eq_one_of_pos hv]
      have : ¬ ((1 : Int) = -1) := by decide
      simp only [this, decide_False, Bool.false_eq_true, if_false]; omega
  rw [hm]
  obtain ⟨c1, c2, _⟩ := construct_from_mpz_spec B hB v.natAbs (decide (mpz_sgn v = -1))
  refine ⟨_, rfl, c1, ?_⟩
  rw [c2]
  unfold mpz_sgn
  rcases Int.lt_trichotomy v 0 with hv | hv | hv
  · rw [Int.sign_eq_neg_one_of_neg hv]; simp only [decide_True, if_true]; omega
  · rw [hv]; rfl
  · rw [Int.sign_eq_one_of_pos hv]
    have : ¬ ((1 : Int) = -1) := by decide
    simp only [this, decide_False, Bool.false_eq_true, if_false]; omega

/-- The characters streamed for a well-formed `mp_integer` are the numeral of its value. -/
theorem stream_eq (B : Nat) (x : mp_integer) (hx : x.valid B = true) :
    x.stream B = mpz_get_str10 (x.value B) := by
  obtain ⟨u⟩ := x
  cases u with
  | st s =>
    rw [valid_st] at hx
    show stream_mpz (s.to_mpz B) = _
    rw [to_mpz_eq_value B s hx]
    rfl
  | dy z => rfl

end strings2

section claims_strings

/-- Examples for C18: accepted and rejected strings. -/
theorem validate_string_examples :
    mp_integer.validate_string ['0'] = Option.none ∧
    mp_integer.validate_string ['-', '4', '0', '2'] = Option.none ∧
    mp_integer.validate_string [] = some mp_exception.invalid_argument ∧
    mp_integer.validate_string ['-'] = some mp_exception.invalid_argument ∧
    mp_integer.validate_string ['-', '0'] = some mp_exception.invalid_argument ∧
    mp_integer.validate_string ['0', '7'] = some mp_exception.invalid_argument ∧
    mp_integer.validate_string ['1', '-', '2'] = some mp_exception.invalid_argument ∧
    mp_integer.validate_string ['1', 'a'] = some mp_exception.invalid_argument := by
  decide

/-- C19: decimal round trip.  For every well-formed `mp_integer` `x`, static or dynamic, the
characters streamed for `x` are accepted by the constructor from a string, which builds a
well-formed object of the same value; and for every string `s` accepted by `validate_string`,
the constructor from `s` succeeds and streaming its result gives `s` back. -/
theorem C19_decimal_round_trip (B : Nat) (hB : 3 ≤ B) :
    (∀ x : mp_integer, x.valid B = true →
      ∃ y, mp_integer.construct_from_string B (x.stream B) = Except.ok y ∧
        y.valid B = true ∧ y.value B = x.value B) ∧
    (∀ s : List Char, mp_integer.validate_string s = Option.none →
      ∃ y, mp_integer.construct_from_string B s = Except.ok y ∧ y.stream B = s) := by
  constructor
  · intro x hx
    rw [stream_eq B x hx]
    exact construct_from_string_get_str B hB (x.value B)
  · intro s hs
    obtain ⟨v, hv⟩ := accepted_is_numeral s hs
    obtain ⟨y, h1, h2, h3⟩ := construct_from_string_get_str B hB v
    refine ⟨y, by rw [hv]; exact h1, ?_⟩
    rw [stream_eq B y h2, h3, hv]

/-- C19 witness: with 32-bit limbs, the static value -42 and the numeral of 2^64, which is
stored dynamically. -/
theorem C19_decimal_round_trip_witness :
    mp_integer.stream 32 ⟨integer_union.st ⟨-1, (42, 0)⟩⟩ = ['-', '4', '2'] ∧
    (∃ y, mp_integer.construct_from_string 32
        (mp_integer.stream 32 ⟨integer_union.st ⟨-1, (42, 0)⟩⟩) = Except.ok y ∧
      y.valid 32 = true ∧
      y.value 32 = mp_integer.value 32 ⟨integer_union.st ⟨-1, (42, 0)⟩⟩) ∧
    (∃ y, mp_integer.construct_from_string 32 "18446744073709551616".toList = Except.ok y ∧
      y.stream 32 = "18446744073709551616".toList) :=
  ⟨by decide,
   (C19_decimal_round_trip 32 (by decide)).1 ⟨integer_union.st ⟨-1, (42, 0)⟩⟩ (by decide),
   (C19_decimal_round_trip 32 (by decide)).2 "18446744073709551616".toList (by decide)⟩

end claims_strings

section claims_table2

/-- C30: `bucket(k)` throws `zero_division_error` exactly when the table has no bucket;
otherwise it returns `hash(k) mod n_buckets()`, which is below `n_buckets()`.  The member is
`const` and the table is an argument that the function only reads. -/
theorem C30_bucket {T : Type} (e : hop_env T) (t : hop_table T) (k : T) :
    (t.bucket e k = Except.error mp_exception.zero_division_error ↔ t.n_buckets = 0) ∧
    (t.n_buckets ≠ 0 →
      t.bucket e k = Except.ok (e.m_hasher k % t.n_buckets) ∧
      e.m_hasher k % t.n_buckets < t.n_buckets) := by
  unfold hop_table.bucket hop_table.n_buckets hop_table.bucket_impl
  constructor
  · constructor
    · intro h
      by_contra hn
      rw [if_neg hn] at h
      cases h
    · intro h
      rw [if_pos h]
  · intro hn
    rw [if_neg hn]
    exact ⟨rfl, Nat.mod_lt _ (Nat.pos_of_ne_zero hn)⟩

/-- Examples for C30: the empty table and the table of seven keys with eleven buckets. -/
theorem bucket_examples :
    hop_table.bucket nat_env (hop_table.init : hop_table Nat) 12 =
      Except.error mp_exception.zero_division_error ∧
    hop_table.bucket nat_env example_table 12 = Except.ok 1 := by
  constructor
  · rfl
  · rfl

end claims_table2

section division

theorem copy_construct_eq (x : mp_integer) : x.copy_construct = x := by
  obtain ⟨u⟩ := x
  cases u <;> rfl

end division

section static_overflow

/-- Storage of the result of an in-place addition or subtraction of two static operands. -/
theorem in_place_add_or_sub_static (B : Nat) (hB : 1 ≤ B) (op : Bool) (x y : static_integer)
    (hx : x.consistency_checks B = true) (hy : y.consistency_checks B = true) :
    ((mp_integer.in_place_add_or_sub B op ⟨integer_union.st x⟩ ⟨integer_union.st y⟩).is_static
        = true ↔
      (x.value B + (if op then y.value B else -y.value B)).natAbs < 2 ^ B * 2 ^ B) := by
  unfold mp_integer.in_place_add_or_sub
  simp only []
  have key : (if op = true then static_integer.add B x x y else static_integer.sub B x x y) =
      static_integer.add_or_sub B op x x y := by
    cases op <;> rfl
  rw [key, add_or_sub_eq B hB op x x y hx hy]
  by_cases hc : (x.value B + (if op then y.value B else -y.value B)).natAbs < 2 ^ B * 2 ^ B
  · rw [if_pos hc]
    simp only [hc, iff_true]
    rfl
  · rw [if_neg hc]
    simp only [hc, iff_false]
    intro h
    cases h

/-- C23: for consistent static integers `x` and `y` of limb width `B`, `add(res, x, y)`
returns exactly when `|x + y| < 2^(2B)`, and then `res` is consistent and holds the exact sum;
otherwise it throws `overflow_error` and `res` is as it was.  The same holds of `sub` and
`x - y`.  The `mp_integer` sum or difference of two static operands is static exactly when it
fits two limbs, and its value is exact either way. -/
theorem C23_static_add_sub_overflow (B : Nat) (hB : 1 ≤ B) (res x y : static_integer)
    (hx : x.consistency_checks B = true) (hy : y.consistency_checks B = true) :
    ((x.value B + y.value B).natAbs < 2 ^ (2 * B) →
      ∃ r, static_integer.add B res x y = Except.ok r ∧ r.consistency_checks B = true ∧
        r.value B = x.value B + y.value B) ∧
    (¬ (x.value B + y.value B).natAbs < 2 ^ (2 * B) →
      static_integer.add B res x y = Except.error (mp_exception.overflow_error, res)) ∧
    ((x.value B - y.value B).natAbs < 2 ^ (2 * B) →
      ∃ r, static_integer.sub B res x y = Except.ok r ∧ r.consistency_checks B = true ∧
        r.value B = x.value B - y.value B) ∧
    (¬ (x.value B - y.value B).natAbs < 2 ^ (2 * B) →
      static_integer.sub B res x y = Except.error (mp_exception.overflow_error, res)) ∧
    (((⟨integer_union.st x⟩ : mp_integer).in_place_add B ⟨integer_union.st y⟩).is_static = true ↔
      (x.value B + y.value B).natAbs < 2 ^ (2 * B)) ∧
    (((⟨integer_union.st x⟩ : mp_integer).in_place_sub B ⟨integer_union.st y⟩).is_static = true ↔
      (x.value B - y.value B).natAbs < 2 ^ (2 * B)) ∧
    ((⟨integer_union.st x⟩ : mp_integer).in_place_add B ⟨integer_union.st y⟩).value B =
      x.value B + y.value B ∧
    ((⟨integer_union.st x⟩ : mp_integer).in_place_sub B ⟨integer_union.st y⟩).value B =
      x.value B - y.value B := by
  rw [two_pow_two_mul]
  have ea := add_or_sub_eq B hB true res x y hx hy
  have es := add_or_sub_eq B hB false res x y hx hy
  simp only [if_true] at ea
  simp only [Bool.false_eq_true, if_false] at es
  have hsub : x.value B + -y.value B = x.value B - y.value B := by ring
  rw [hsub] at es
  have sa := in_place_add_or_sub_static B hB true x y hx hy
  have ss := in_place_add_or_sub_static B hB false x y hx hy
  simp only [if_true] at sa
  simp only [Bool.false_eq_true, if_false] at ss
  rw [hsub] at ss
  have va := in_place_add_or_sub_spec B hB true ⟨integer_union.st x⟩ ⟨integer_union.st y⟩
    (by rw [valid_st]; exact hx) (by rw [valid_st]; exact hy)
  have vs := in_place_add_or_sub_spec B hB false ⟨integer_union.st x⟩ ⟨integer_union.st y⟩
    (by rw [valid_st]; exact hx) (by rw [valid_st]; exact hy)
  simp only [if_true, value_st] at va
  simp only [Bool.false_eq_true, if_false, value_st] at vs
  rw [hsub] at vs
  refine ⟨?_, ?_, ?_, ?_, sa, ss, va.2, vs.2⟩
  · intro h
    refine ⟨static_integer.of_int B (x.value B + y.value B), ?_, of_int_consistent B _,
      of_int_value B _ h⟩
    show static_integer.add_or_sub B true res x y = _
    rw [ea, if_pos h]
  · intro h
    show static_integer.add_or_sub B true res x y = _
    rw [ea, if_neg h]
  · intro h
    refine ⟨static_integer.of_int B (x.value B - y.value B), ?_, of_int_consistent B _,
      of_int_value B _ h⟩
    show static_integer.add_or_sub B false res x y = _
    rw [es, if_pos h]
  · intro h
    show static_integer.add_or_sub B false res x y = _
    rw [es, if_neg h]

/-- C23 witness: with 8-bit limbs, 65535 + 1 throws and leaves `res`, and 65535 - 1 returns
65534. -/
theorem C23_static_add_sub_overflow_witness :
    static_integer.add 8 ⟨1, (7, 0)⟩ ⟨2, (255, 255)⟩ ⟨1, (1, 0)⟩ =
      Except.error (mp_exception.overflow_error, ⟨1, (7, 0)⟩) ∧
    (∃ r, static_integer.sub 8 ⟨1, (7, 0)⟩ ⟨2, (255, 255)⟩ ⟨1, (1, 0)⟩ = Except.ok r ∧
      r.consistency_checks 8 = true ∧
      r.value 8 = static_integer.value 8 ⟨2, (255, 255)⟩ - static_integer.value 8 ⟨1, (1, 0)⟩) ∧
    ((⟨integer_union.st ⟨2, (255, 255)⟩⟩ : mp_integer).in_place_add 8
        ⟨integer_union.st ⟨1, (1, 0)⟩⟩).value 8 = 65536 :=
  ⟨(C23_static_add_sub_overflow 8 (by decide) ⟨1, (7, 0)⟩ ⟨2, (255, 255)⟩ ⟨1, (1, 0)⟩
      (by decide) (by decide)).2.1 (by decide),
   (C23_static_add_sub_overflow 8 (by decide) ⟨1, (7, 0)⟩ ⟨2, (255, 255)⟩ ⟨1, (1, 0)⟩
      (by decide) (by decide)).2.2.1 (by decide),
   (C23_static_add_sub_overflow 8 (by decide) ⟨1, (7, 0)⟩ ⟨2, (255, 255)⟩ ⟨1, (1, 0)⟩
      (by decide) (by decide)).2.2.2.2.2.2.1⟩

/-- C24, as the code has it: the product of two consistent static operands is computed on the
static representation exactly when one operand is zero or both have a single limb; a nonzero
operand of two limbs makes the static multiplication throw, whatever the other nonzero operand,
and the product is then dynamic, also when it fits two limbs.  The value is exact in every
case, and a static result fits two limbs. -/
theorem C24_static_mul_storage (B : Nat) (x y : static_integer)
    (hx : x.consistency_checks B = true) (hy : y.consistency_checks B = true) :
    (((⟨integer_union.st x⟩ : mp_integer).in_place_mul B ⟨integer_union.st y⟩).is_static = true ↔
      (x._mp_size = 0 ∨ y._mp_size = 0 ∨ (x.abs_size ≤ 1 ∧ y.abs_size ≤ 1))) ∧
    ((mp_integer.binary_mul B ⟨integer_union.st x⟩ ⟨integer_union.st y⟩).is_static = true ↔
      (x._mp_size = 0 ∨ y._mp_size = 0 ∨ (x.abs_size ≤ 1 ∧ y.abs_size ≤ 1))) ∧
    ((⟨integer_union.st x⟩ : mp_integer).in_place_mul B ⟨integer_union.st y⟩).value B =
      x.value B * y.value B ∧
    (mp_integer.binary_mul B ⟨integer_union.st x⟩ ⟨integer_union.st y⟩).value B =
      x.value B * y.value B := by
  have hax := (consistent_abs_size B x hx).1
  have hay := (consistent_abs_size B y hy).1
  have ax : x.abs_size = x.calculate_n_limbs := by
    unfold static_integer.abs_size
    split_ifs at hax ⊢ <;> omega
  have ay : y.abs_size = y.calculate_n_limbs := by
    unfold static_integer.abs_size
    split_ifs at hay ⊢ <;> omega
  have stat : ∀ (u v : static_integer), u.consistency_checks B = true →
      v.consistency_checks B = true →
      (((⟨integer_union.st u⟩ : mp_integer).in_place_mul B ⟨integer_union.st v⟩).is_static
          = true ↔
        (u._mp_size = 0 ∨ v._mp_size = 0 ∨
          (¬ 1 < u.calculate_n_limbs ∧ ¬ 1 < v.calculate_n_limbs))) := by
    intro u v hu hv
    unfold mp_integer.in_place_mul
    simp only []
    rw [mul_eq B u u v hu hv]
    by_cases h0 : u._mp_size = 0 ∨ v._mp_size = 0
    · rw [if_pos h0]
      constructor
      · intro _
        rcases h0 with h | h
        · exact Or.inl h
        · exact Or.inr (Or.inl h)
      · intro _; rfl
    · rw [if_neg h0]
      by_cases h1 : 1 < u.calculate_n_limbs ∨ 1 < v.calculate_n_limbs
      · rw [if_pos h1]
        constructor
        · intro h; cases h
        · rintro (h | h | ⟨h2, h3⟩)
          · exact absurd (Or.inl h) h0
          · exact absurd (Or.inr h) h0
          · rcases h1 with h | h
            · exact absurd h h2
            · exact absurd h h3
      · rw [if_neg h1]
        constructor
        · intro _
          exact Or.inr (Or.inr ⟨fun h => h1 (Or.inl h), fun h => h1 (Or.inr h)⟩)
        · intro _; rfl
  have vx : (⟨integer_union.st x⟩ : mp_integer).valid B = true := by rw [valid_st]; exact hx
  have vy : (⟨integer_union.st y⟩ : mp_integer).valid B = true := by rw [valid_st]; exact hy
  refine ⟨?_, ?_, (in_place_mul_spec B _ _ vx vy).2, ?_⟩
  · rw [stat x y hx hy, ax, ay]
    constructor
    · rintro (h | h | ⟨h1, h2⟩)
      · exact Or.inl h
      · exact Or.inr (Or.inl h)
      · exact Or.inr (Or.inr ⟨by omega, by omega⟩)
    · rintro (h | h | ⟨h1, h2⟩)
      · exact Or.inl h
      · exact Or.inr (Or.inl h)
      · exact Or.inr (Or.inr ⟨by omega, by omega⟩)
  · unfold mp_integer.binary_mul
    rw [copy_construct_eq, stat y x hy hx, ax, ay]
    constructor
    · rintro (h | h | ⟨h1, h2⟩)
      · exact Or.inr (Or.inl h)
      · exact Or.inl h
      · exact Or.inr (Or.inr ⟨by omega, by omega⟩)
    · rintro (h | h | ⟨h1, h2⟩)
      · exact Or.inr (Or.inl h)
      · exact Or.inl h
      · exact Or.inr (Or.inr ⟨by omega, by omega⟩)
  · unfold mp_integer.binary_mul
    rw [copy_construct_eq, (in_place_mul_spec B _ _ vy vx).2]
    exact Int.mul_comm _ _

/-- C24 witness: with 8-bit limbs, 100 * 100 is static and 256 * 1 is not. -/
theorem C24_static_mul_storage_witness :
    ((⟨integer_union.st ⟨1, (100, 0)⟩⟩ : mp_integer).in_place_mul 8
        ⟨integer_union.st ⟨1, (100, 0)⟩⟩).is_static = true ∧
    ((⟨integer_union.st ⟨2, (0, 1)⟩⟩ : mp_integer).in_place_mul 8
        ⟨integer_union.st ⟨1, (1, 0)⟩⟩).value 8 =
      static_integer.value 8 ⟨2, (0, 1)⟩ * static_integer.value 8 ⟨1, (1, 0)⟩ :=
  ⟨(C24_static_mul_storage 8 ⟨1, (100, 0)⟩ ⟨1, (100, 0)⟩ (by decide) (by decide)).1.2
      (by decide),
   (C24_static_mul_storage 8 ⟨2, (0, 1)⟩ ⟨1, (1, 0)⟩ (by decide) (by decide)).2.2.1⟩

/-- C24 counterexample: with 8-bit limbs, `x = 256` and `y = 1` are consistent static
integers whose product 256 fits two limbs, and `x * y` is dynamic, with `x *= y` as well as
with the binary operator. -/
theorem C24_counterexample :
    static_integer.consistency_checks 8 ⟨2, (0, 1)⟩ = true ∧
    static_integer.consistency_checks 8 ⟨1, (1, 0)⟩ = true ∧
    (static_integer.value 8 ⟨2, (0, 1)⟩ * static_integer.value 8 ⟨1, (1, 0)⟩).natAbs
      < 2 ^ (2 * 8) ∧
    (⟨integer_union.st ⟨2, (0, 1)⟩⟩ : mp_integer).in_place_mul 8 ⟨integer_union.st ⟨1, (1, 0)⟩⟩
      = ⟨integer_union.dy 256⟩ ∧
    (mp_integer.binary_mul 8 ⟨integer_union.st ⟨2, (0, 1)⟩⟩
      ⟨integer_union.st ⟨1, (1, 0)⟩⟩).is_static = false := by
  decide

end static_overflow

section static_invariant

theorem or_two_pow_ne_zero (a i : Nat) : a ||| 2 ^ i ≠ 0 := by
  intro h
  have : (a ||| 2 ^ i).testBit i = true := by
    rw [Nat.testBit_or, Nat.testBit_two_pow_self]; simp
  rw [h] at this
  simp at this

/-- Member `set_bit(idx)` for a bit of the first limb. -/
theorem set_bit_lo (B : Nat) (s : static_integer) (idx : Nat) (h : idx < B)
    (h1 : s.m_limbs.1 < 2 ^ B) :
    s.set_bit B idx =
      ⟨if s._mp_size < 0 then (if -1 < s._mp_size then -1 else s._mp_size)
        else (if 1 > s._mp_size then 1 else s._mp_size),
       (s.m_limbs.1 ||| 2 ^ idx, s.m_limbs.2)⟩ := by
  have hBB := lt_two_pow_self B
  have hp : 2 ^ idx < 2 ^ B := Nat.pow_lt_pow_right (by decide) h
  have c0 : limb_cast B (idx / B) = 0 := by
    rw [Nat.div_eq_of_lt h]; unfold limb_cast; simp
  have c1 : limb_cast B (idx % B) = idx := by
    rw [Nat.mod_eq_of_lt h]; exact Nat.mod_eq_of_lt (by omega)
  have c2 : limb_cast B (1 <<< idx) = 2 ^ idx := by
    rw [Nat.one_shiftLeft]; exact Nat.mod_eq_of_lt hp
  have c3 : limb_cast B (s.m_limbs.1 ||| 2 ^ idx) = s.m_limbs.1 ||| 2 ^ idx :=
    Nat.mod_eq_of_lt (Nat.or_lt_two_pow h1 hp)
  unfold static_integer.set_bit
  simp only [c0, c1, c2]
  unfold static_integer.set_limb static_integer.limb
  simp only [if_true, c3]
  obtain ⟨sz, l0, l1⟩ := s
  simp only [Nat.cast_zero, Int.zero_add]
  split_ifs <;> rfl

/-- Member `set_bit(idx)` for a bit of the second limb. -/
theorem set_bit_hi (B : Nat) (hB : 1 ≤ B) (s : static_integer) (idx : Nat) (h : B ≤ idx)
    (hidx : idx < 2 * B) (h2 : s.m_limbs.2 < 2 ^ B) :
    s.set_bit B idx =
      ⟨if s._mp_size < 0 then (if -2 < s._mp_size then -2 else s._mp_size)
        else (if 2 > s._mp_size then 2 else s._mp_size),
       (s.m_limbs.1, s.m_limbs.2 ||| 2 ^ (idx - B))⟩ := by
  have hBB := lt_two_pow_self B
  have h2B := two_le_two_pow B hB
  have hr : idx - B < B := by omega
  have hp : 2 ^ (idx - B) < 2 ^ B := Nat.pow_lt_pow_right (by decide) hr
  have d1 : idx / B = 1 := Nat.div_eq_of_lt_le (by omega) (by omega)
  have m1 : idx % B = idx - B := by
    rw [Nat.mod_eq_sub_mod h]; exact Nat.mod_eq_of_lt hr
  have c0 : limb_cast B (idx / B) = 1 := by
    rw [d1]; exact Nat.mod_eq_of_lt (by omega)
  have c1 : limb_cast B (idx % B) = idx - B := by
    rw [m1]; exact Nat.mod_eq_of_lt (by omega)
  have c2 : limb_cast B (1 <<< (idx - B)) = 2 ^ (idx - B) := by
    rw [Nat.one_shiftLeft]; exact Nat.mod_eq_of_lt hp
  have c3 : limb_cast B (s.m_limbs.2 ||| 2 ^ (idx - B)) = s.m_limbs.2 ||| 2 ^ (idx - B) :=
    Nat.mod_eq_of_lt (Nat.or_lt_two_pow h2 hp)
  unfold static_integer.set_bit
  simp only [c0, c1, c2]
  unfold static_integer.set_limb static_integer.limb
  simp only [Nat.one_ne_zero, if_false, c3]
  obtain ⟨sz, l0, l1⟩ := s
  simp only [Nat.cast_one]
  have e2 : (1 : Int) + 1 = 2 := by norm_num
  rw [e2]
  split_ifs <;> rfl

/-- Member `set_bit(idx)` on a consistent `static_integer`, for a bit index below
`2 * limb_bits` (asserted by the source): the result is consistent, the bit is or-ed into its
limb, and the sign is kept. -/
theorem set_bit_consistent (B : Nat) (hB : 1 ≤ B) (s : static_integer)
    (hs : s.consistency_checks B = true) (idx : Nat) (hidx : idx < 2 * B) :
    (s.set_bit B idx).consistency_checks B = true ∧
    (s.set_bit B idx).m_limbs =
      (if idx < B then (s.m_limbs.1 ||| 2 ^ idx, s.m_limbs.2)
       else (s.m_limbs.1, s.m_limbs.2 ||| 2 ^ (idx - B))) ∧
    ((s.set_bit B idx)._mp_size < 0 ↔ s._mp_size < 0) := by
  obtain ⟨h1, h2, h3⟩ := (consistency_checks_iff B s).1 hs
  have hn := n_limbs_cases s
  by_cases h : idx < B
  · rw [set_bit_lo B s idx h h1, if_pos h]
    have hp : 2 ^ idx < 2 ^ B := Nat.pow_lt_pow_right (by decide) h
    have hne := or_two_pow_ne_zero s.m_limbs.1 idx
    have hlt := Nat.or_lt_two_pow h1 hp
    refine ⟨?_, rfl, ?_⟩
    · rw [consistency_checks_iff]
      refine ⟨hlt, h2, ?_⟩
      unfold static_integer.calculate_n_limbs
      simp only [hne, ne_eq, not_false_eq_true, if_true]
      rcases hn with ⟨n, l1, l2⟩ | ⟨n, l1, l2⟩ | ⟨n, l2⟩
      · simp only [l2, not_true_eq_false, if_false]
        split_ifs <;> omega
      · simp only [l2, not_true_eq_false, if_false]
        split_ifs <;> omega
      · simp only [l2, not_false_eq_true, if_true]
        split_ifs <;> omega
    · simp only []
      split_ifs <;> omega
  · rw [set_bit_hi B hB s idx (by omega) hidx h2, if_neg h]
    have hr : idx - B < B := by omega
    have hp : 2 ^ (idx - B) < 2 ^ B := Nat.pow_lt_pow_right (by decide) hr
    have hne := or_two_pow_ne_zero s.m_limbs.2 (idx - B)
    have hlt := Nat.or_lt_two_pow h2 hp
    refine ⟨?_, rfl, ?_⟩
    · rw [consistency_checks_iff]
      refine ⟨h1, hlt, ?_⟩
      unfold static_integer.calculate_n_limbs
      simp only [hne, ne_eq, not_false_eq_true, if_true]
      rcases hn with ⟨n, l1, l2⟩ | ⟨n, l1, l2⟩ | ⟨n, l2⟩ <;> split_ifs <;> omega
    · simp only []
      split_ifs <;> omega

end static_invariant

section static_construct

/-- The loop of the constructor of `static_integer` from a native integer: it collects the
magnitude of `n` when it fits two limbs and throws otherwise. -/
theorem static_construct_loop_eq (B : Nat) (hB : 3 ≤ B) (T : integral_type)
    (hd : 1 ≤ T.digits) :
    ∀ (fuel : Nat) (n : Int) (m bit_idx : Nat), n.natAbs ≤ fuel →
      T.min ≤ n → n ≤ T.max → m < 2 ^ bit_idx → bit_idx ≤ 2 * B →
      static_construct_loop B T fuel n bit_idx (static_integer.of_nat B m) =
        if m + n.natAbs * 2 ^ bit_idx < 2 ^ B * 2 ^ B then
          Except.ok (static_integer.of_nat B (m + n.natAbs * 2 ^ bit_idx))
        else Except.error mp_exception.overflow_error := by
  have h2B := two_mul_lt_two_pow B hB
  have hfit : ∀ (m bit_idx : Nat), m < 2 ^ bit_idx → bit_idx ≤ 2 * B → m < 2 ^ B * 2 ^ B := by
    intro m bit_idx h1 h2
    rw [← two_pow_two_mul]
    exact Nat.lt_of_lt_of_le h1 (Nat.pow_le_pow_right (by decide) h2)
  intro fuel
  induction fuel with
  | zero =>
    intro n m bit_idx h1 _ _ h4 h5
    unfold static_construct_loop
    have : n.natAbs = 0 := by omega
    rw [this]
    simp only [Nat.zero_mul, Nat.add_zero]
    rw [if_pos (hfit m bit_idx h4 h5)]
  | succ fuel ih =>
    intro n m bit_idx h1 h2 h3 h4 h5
    unfold static_construct_loop
    by_cases hn : n = 0
    · rw [if_pos hn, hn]
      simp only [Int.natAbs_zero, Nat.zero_mul, Nat.add_zero]
      rw [if_pos (hfit m bit_idx h4 h5)]
    · rw [if_neg hn]
      have hna : n.natAbs ≠ 0 := by omega
      by_cases hidx : bit_idx = B * 2
      · rw [if_pos hidx, if_neg]
        have e : 2 ^ bit_idx = 2 ^ B * 2 ^ B := by
          rw [hidx, Nat.mul_comm, two_pow_two_mul]
        rw [e]
        have : 1 * (2 ^ B * 2 ^ B) ≤ n.natAbs * (2 ^ B * 2 ^ B) :=
          Nat.mul_le_mul_right _ (by omega)
        omega
      · rw [if_neg hidx]
        have hlt : bit_idx < 2 * B := by omega
        have hdr := tdiv_two_range n
        have hmr := tmod_two_range n
        have hcd : T.cast (Int.tdiv n 2) = Int.tdiv n 2 := cast_id_abs T hd n _ h2 h3 hdr
        have hcm : T.cast (Int.tmod n 2) = Int.tmod n 2 := by
          apply cast_id_abs T hd n _ h2 h3
          obtain ⟨r1, r2, r3⟩ := hmr
          constructor
          · intro h
            have := r3 h
            constructor <;> omega
          · intro h
            have hneg : n < 0 := by omega
            have : Int.tmod n 2 ≤ 0 := by
              obtain ⟨k, rfl | rfl⟩ := Int.eq_nat_or_neg n
              · omega
              · rw [neg_tmod_eq, ofNat_tmod_two]; omega
            constructor <;> omega
        simp only []
        rw [hcd, hcm]
        have hc : limb_cast B (bit_idx + 1) = bit_idx + 1 := Nat.mod_eq_of_lt (by omega)
        rw [hc]
        have hs1 : (if Int.tmod n 2 ≠ 0 then (static_integer.of_nat B m).set_bit B bit_idx
            else static_integer.of_nat B m) =
            static_integer.of_nat B (m + n.natAbs % 2 * 2 ^ bit_idx) := by
          by_cases hodd : Int.tmod n 2 ≠ 0
          · rw [if_pos hodd, set_bit_of_nat B hB m bit_idx h4 hlt]
            have := (tmod_two_ne_zero n).1 hodd
            have h1' : n.natAbs % 2 = 1 := by omega
            rw [h1', Nat.one_mul]
          · rw [if_neg hodd]
            have h0' : n.natAbs % 2 = 0 := by
              by_contra hc'
              exact hodd ((tmod_two_ne_zero n).2 hc')
            rw [h0', Nat.zero_mul, Nat.add_zero]
        rw [hs1]
        have hpp : 2 ^ (bit_idx + 1) = 2 ^ bit_idx + 2 ^ bit_idx := by
          rw [Nat.pow_succ]; omega
        have hlt2 : n.natAbs % 2 < 2 := Nat.mod_lt _ (by decide)
        have hterm : n.natAbs % 2 * 2 ^ bit_idx ≤ 2 ^ bit_idx := by
          have : n.natAbs % 2 * 2 ^ bit_idx ≤ 1 * 2 ^ bit_idx :=
            Nat.mul_le_mul_right _ (by omega)
          omega
        have e : m + n.natAbs * 2 ^ bit_idx =
            m + n.natAbs % 2 * 2 ^ bit_idx + n.natAbs / 2 * 2 ^ (bit_idx + 1) := by
          have hdm := Nat.div_add_mod n.natAbs 2
          rw [Nat.pow_succ]
          nlinarith
        rw [ih (Int.tdiv n 2) _ (bit_idx + 1) (by rw [natAbs_tdiv_two]; omega)
          (by rcases le_total 0 n with h | h
              · have := hdr.1 h
                have hmin0 : T.min ≤ 0 := by
                  unfold integral_type.min
                  split_ifs
                  · have : (0 : Int) < 2 ^ T.digits := by positivity
                    omega
                  · omega
                omega
              · have := hdr.2 h; omega)
          (by rcases le_total 0 n with h | h
              · have := hdr.1 h; omega
              · have := hdr.2 h
                have hmax0 : 0 ≤ T.max := by
                  unfold integral_type.max
                  have : (0 : Int) < 2 ^ T.digits := by positivity
                  omega
                omega)
          (by omega) (by omega)]
        rw [natAbs_tdiv_two, ← e]

/-- The constructor of `static_integer` from a native integer `n`: it returns the consistent
object of value `n` when `|n| < 2^(2B)` and throws `overflow_error` otherwise. -/
theorem static_construct_eq (B : Nat) (hB : 3 ≤ B) (T : integral_type) (hd : 1 ≤ T.digits)
    (n : Int) (h1 : T.min ≤ n) (h2 : n ≤ T.max) :
    static_integer.construct B T n =
      if n.natAbs < 2 ^ B * 2 ^ B then Except.ok (static_integer.of_int B n)
      else Except.error mp_exception.overflow_error := by
  unfold static_integer.construct
  rw [init_eq_of_nat B, static_construct_loop_eq B hB T hd n.natAbs n 0 0 (Nat.le_refl _) h1 h2
    (by norm_num) (by omega)]
  simp only [Nat.pow_zero, Nat.mul_one, Nat.zero_add]
  by_cases hf : n.natAbs < 2 ^ B * 2 ^ B
  · rw [if_pos hf, if_pos hf]
    simp only []
    congr 1
    unfold static_integer.of_int
    by_cases hneg : n < 0
    · have hsg : T.is_signed = true := by
        by_contra hns
        have : T.min = 0 := by
          unfold integral_type.min
          rw [if_neg hns]
        omega
      rw [if_pos ⟨hsg, hneg⟩, if_pos hneg]
    · rw [if_neg (fun h => hneg h.2), if_neg hneg]
  · rw [if_neg hf, if_neg hf]

end static_construct

section shift

/-- Member `lshift1()` on a consistent `static_integer` whose second limb has its highest bit
clear: the value is doubled. -/
theorem lshift1_eq (B : Nat) (hB : 1 ≤ B) (s : static_integer)
    (hs : s.consistency_checks B = true) (hh : s.m_limbs.2 < 2 ^ (B - 1)) :
    s.lshift1 B = static_integer.of_int B (2 * s.value B) ∧
    (2 * s.value B).natAbs < 2 ^ B * 2 ^ B := by
  obtain ⟨h1, h2, h3⟩ := (consistency_checks_iff B s).1 hs
  have hP := two_le_two_pow B hB
  have hpos : 0 < 2 ^ B := by omega
  have hpp : 2 ^ (B - 1) + 2 ^ (B - 1) = 2 ^ B := Nat.two_pow_pred_add_two_pow_pred (by omega)
  have hPP := two_mul_le_sq _ hP
  have hmag : 2 * s.mag B < 2 ^ B * 2 ^ B := by
    unfold static_integer.mag
    have : (s.m_limbs.2 + 1) * 2 ^ B ≤ 2 ^ (B - 1) * 2 ^ B := Nat.mul_le_mul_right _ (by omega)
    have e : 2 ^ (B - 1) * 2 ^ B + 2 ^ (B - 1) * 2 ^ B = 2 ^ B * 2 ^ B := by
      rw [← Nat.add_mul, hpp]
    rw [Nat.add_mul] at this
    omega
  have hv : (2 * s.value B).natAbs = 2 * s.mag B := by
    rw [Int.natAbs_mul, value_natAbs]
    rfl
  refine ⟨?_, by rw [hv]; exact hmag⟩
  -- the two limbs after the shift
  have e0 : dlimb_cast B (dlimb_cast B s.m_limbs.1 <<< 1) = 2 * s.m_limbs.1 := by
    rw [dlimb_cast_of_lt B _ (limb_lt_dlimb B _ hB h1), Nat.shiftLeft_eq, Nat.pow_one,
      Nat.mul_comm]
    exact dlimb_cast_of_lt B _ (by omega)
  have e1 : dlimb_cast B (dlimb_cast B s.m_limbs.2 <<< 1) = 2 * s.m_limbs.2 := by
    rw [dlimb_cast_of_lt B _ (limb_lt_dlimb B _ hB h2), Nat.shiftLeft_eq, Nat.pow_one,
      Nat.mul_comm]
    exact dlimb_cast_of_lt B _ (by omega)
  have hc : 2 * s.m_limbs.1 / 2 ^ B ≤ 1 := by
    have : 2 * s.m_limbs.1 / 2 ^ B < 2 := Nat.div_lt_of_lt_mul (by omega)
    omega
  have l0 : (2 * s.mag B) % 2 ^ B = limb_cast B (2 * s.m_limbs.1) := by
    unfold static_integer.mag limb_cast
    rw [Nat.mul_add, ← Nat.mul_assoc, Nat.add_mul_mod_self_right]
  have l1 : (2 * s.mag B) / 2 ^ B % 2 ^ B =
      limb_cast B (2 * s.m_limbs.2 + (2 * s.m_limbs.1) >>> B) := by
    unfold static_integer.mag limb_cast
    rw [Nat.mul_add, ← Nat.mul_assoc, Nat.add_mul_div_right _ _ hpos, Nat.shiftRight_eq_div_pow,
      Nat.add_comm]
  have l1lt : 2 * s.m_limbs.2 + (2 * s.m_limbs.1) >>> B < 2 ^ B := by
    rw [Nat.shiftRight_eq_div_pow]; omega
  have l1v : limb_cast B (2 * s.m_limbs.2 + (2 * s.m_limbs.1) >>> B) =
      2 * s.m_limbs.2 + (2 * s.m_limbs.1) >>> B := Nat.mod_eq_of_lt l1lt
  -- the number of limbs after the shift
  have hn := n_limbs_cases s
  have key : s.lshift1 B =
      (if s._mp_size < 0 then (static_integer.of_nat B (2 * s.mag B)).negate
       else static_integer.of_nat B (2 * s.mag B)) := by
    unfold static_integer.lshift1
    simp only [e0, e1]
    have hof : static_integer.of_nat B (2 * s.mag B) =
        ⟨static_integer.calculate_n_limbs
          ⟨0, (limb_cast B (2 * s.m_limbs.1),
               limb_cast B (2 * s.m_limbs.2 + (2 * s.m_limbs.1) >>> B))⟩,
         (limb_cast B (2 * s.m_limbs.1),
          limb_cast B (2 * s.m_limbs.2 + (2 * s.m_limbs.1) >>> B))⟩ := by
      unfold static_integer.of_nat
      rw [l0, l1]
    rw [hof]
    unfold static_integer.negate static_integer.calculate_n_limbs static_integer.limb
    simp only [l1v]
    have hl0 : s.m_limbs.1 ≠ 0 → s.m_limbs.2 = 0 →
        (limb_cast B (2 * s.m_limbs.1) ≠ 0 ∨ (2 * s.m_limbs.1) >>> B ≠ 0) := by
      intro hne _
      by_contra hcon
      push_neg at hcon
      obtain ⟨c1, c2⟩ := hcon
      rw [Nat.shiftRight_eq_div_pow] at c2
      unfold limb_cast at c1
      have := Nat.div_add_mod (2 * s.m_limbs.1) (2 ^ B)
      rw [c1, c2] at this
      omega
    obtain ⟨sz, a, b⟩ := s
    simp only [] at h1 h2 h3 hh hn hl0 l1lt ⊢
    unfold static_integer.calculate_n_limbs at h3 hn
    simp only [] at h3 hn
    rcases hn with ⟨n, z1, z2⟩ | ⟨n, z1, z2⟩ | ⟨n, z2⟩
    · subst z1 z2
      have hsz : sz = 0 := by omega
      subst hsz
      simp [limb_cast]
    · subst z2
      have hsz : sz = 1 ∨ sz = -1 := by omega
      have hcar := hl0 z1 rfl
      simp only [Nat.mul_zero, Nat.zero_add] at hcar ⊢
      rcases hsz with hsz | hsz
      · subst hsz
        by_cases hc0 : (2 * a) >>> B = 0
        · have hcc : limb_cast B (2 * a) ≠ 0 := by
            rcases hcar with h | h
            · exact h
            · exact absurd hc0 h
          simp [hc0, hcc]
        · simp [hc0]
      · subst hsz
        by_cases hc0 : (2 * a) >>> B = 0
        · have hcc : limb_cast B (2 * a) ≠ 0 := by
            rcases hcar with h | h
            · exact h
            · exact absurd hc0 h
          simp [hc0, hcc]
        · simp [hc0]
    · have hsz : sz = 2 ∨ sz = -2 := by omega
      have hb : 2 * b + (2 * a) >>> B ≠ 0 := by
        have hb0 : 0 < 2 * b := by omega
        exact Nat.ne_of_gt (Nat.lt_of_lt_of_le hb0 (Nat.le_add_right _ _))
      rcases hsz with hsz | hsz
      · subst hsz
        simp [hb]
      · subst hsz
        simp [hb]
  rw [key]
  unfold static_integer.of_int
  rw [hv]
  obtain ⟨c1, c2, c3, c4⟩ := consistent_value_cases B s hs
  by_cases hneg : s._mp_size < 0
  · have := c1 hneg
    rw [if_pos hneg, if_pos (by omega)]
  · have := c2 hneg
    rw [if_neg hneg, if_neg (by omega)]

end shift

section claims_static

theorem size_zero_iff_value_zero (B : Nat) (s : static_integer)
    (h : s.consistency_checks B = true) : s._mp_size = 0 ↔ s.value B = 0 := by
  rw [consistent_size_zero_iff B s h]
  have hm := value_natAbs B s
  constructor
  · intro h0
    rw [h0] at hm
    exact Int.natAbs_eq_zero.1 hm
  · intro h0
    rw [h0] at hm
    simpa using hm.symm

theorem ok_of_ite {α ε : Type} {c : Prop} [Decidable c] {a r : α} {b : ε}
    (h : (if c then (Except.ok a : Except ε α) else Except.error b) = Except.ok r) : r = a := by
  split_ifs at h
  cases h
  rfl

/-- C25: invariant of the static representation, for a limb width of at least 3 bits.  From
operands that satisfy `consistency_checks`, every operation of `static_integer` that returns
leaves a result that satisfies `consistency_checks`: the constructor from a native integer
(which returns exactly when the value fits two limbs), `set_bit` (for a bit index below
`2 * limb_bits`), `negate`, `add`, `sub`, `mul`, `multiply_accumulate`, `lshift1` (when the
highest bit of the second limb is clear) and `div` (both `q` and `r`, for a divisor that is
not zero).  The size of a consistent `static_integer` is 0 exactly when its value is 0. -/
theorem C25_static_invariant (B : Nat) (hB : 3 ≤ B) (T : integral_type) (hd : 1 ≤ T.digits)
    (n : Int) (hn1 : T.min ≤ n) (hn2 : n ≤ T.max) (idx : Nat) (hidx : idx < 2 * B)
    (res res2 x y z : static_integer) (hx : x.consistency_checks B = true)
    (hy : y.consistency_checks B = true) (hz : z.consistency_checks B = true) :
    (∀ r, static_integer.construct B T n = Except.ok r →
      r.consistency_checks B = true ∧ r.value B = n) ∧
    ((∃ r, static_integer.construct B T n = Except.ok r) ↔ n.natAbs < 2 ^ (2 * B)) ∧
    (x.set_bit B idx).consistency_checks B = true ∧
    x.negate.consistency_checks B = true ∧
    (∀ r, static_integer.add B res x y = Except.ok r → r.consistency_checks B = true) ∧
    (∀ r, static_integer.sub B res x y = Except.ok r → r.consistency_checks B = true) ∧
    (∀ r, static_integer.mul B res x y = Except.ok r → r.consistency_checks B = true) ∧
    (∀ r, x.multiply_accumulate B y z = Except.ok r → r.consistency_checks B = true) ∧
    (x.m_limbs.2 < 2 ^ (B - 1) → (x.lshift1 B).consistency_checks B = true) ∧
    (y.is_zero = false →
      (static_integer.div B res res2 x y).1.consistency_checks B = true ∧
      (static_integer.div B res res2 x y).2.consistency_checks B = true) ∧
    (∀ s : static_integer, s.consistency_checks B = true →
      (s._mp_size = 0 ↔ s.value B = 0)) := by
  have hB1 : 1 ≤ B := by omega
  have hc := static_construct_eq B hB T hd n hn1 hn2
  refine ⟨?_, ?_, (set_bit_consistent B hB1 x hx idx hidx).1, negate_consistent B x hx,
    ?_, ?_, ?_, ?_, ?_, ?_, fun s hs => size_zero_iff_value_zero B s hs⟩
  · intro r hr
    rw [hc] at hr
    by_cases hf : n.natAbs < 2 ^ B * 2 ^ B
    · rw [if_pos hf] at hr
      cases hr
      exact ⟨of_int_consistent B _, of_int_value B _ hf⟩
    · rw [if_neg hf] at hr
      cases hr
  · rw [hc, two_pow_two_mul]
    by_cases hf : n.natAbs < 2 ^ B * 2 ^ B
    · rw [if_pos hf]
      exact ⟨fun _ => hf, fun _ => ⟨_, rfl⟩⟩
    · rw [if_neg hf]
      constructor
      · rintro ⟨r, hr⟩
        cases hr
      · intro h
        exact absurd h hf
  · intro r hr
    have e := add_or_sub_eq B hB1 true res x y hx hy
    have hr' : static_integer.add_or_sub B true res x y = Except.ok r := hr
    rw [e] at hr'
    rw [ok_of_ite hr']
    exact of_int_consistent B _
  · intro r hr
    have e := add_or_sub_eq B hB1 false res x y hx hy
    have hr' : static_integer.add_or_sub B false res x y = Except.ok r := hr
    rw [e] at hr'
    rw [ok_of_ite hr']
    exact of_int_consistent B _
  · intro r hr
    rw [mul_eq B res x y hx hy] at hr
    split_ifs at hr
    · cases hr
      exact of_int_consistent B _
    · cases hr
      exact of_int_consistent B _
  · intro r hr
    rw [multiply_accumulate_eq B hB1 x y z hx hy hz] at hr
    split_ifs at hr
    · cases hr
      exact hx
    · cases hr
      exact of_int_consistent B _
  · intro hh
    rw [(lshift1_eq B hB1 x hx hh).1]
    exact of_int_consistent B _
  · intro h0
    have hy0 : y._mp_size ≠ 0 := by
      unfold static_integer.is_zero at h0
      simpa using h0
    obtain ⟨d1, d2, _⟩ := div_value B res res2 x y hx hy hy0
    rw [d1, d2]
    exact ⟨of_int_consistent B _, of_int_consistent B _⟩

/-- C25 witness: with 8-bit limbs, the constructor from the `int64_t` -1000, `set_bit(9)` on
-1000 and `lshift1` on -128. -/
theorem C25_static_invariant_witness :
    static_integer.construct 8 int64_t (-1000) = Except.ok ⟨-2, (232, 3)⟩ ∧
    static_integer.set_bit 8 ⟨-2, (232, 3)⟩ 12 = ⟨-2, (232, 19)⟩ ∧
    static_integer.lshift1 8 ⟨-1, (128, 0)⟩ = ⟨-2, (0, 1)⟩ ∧
    (static_integer.set_bit 8 ⟨-2, (232, 3)⟩ 12).consistency_checks 8 = true ∧
    (static_integer.lshift1 8 ⟨-1, (128, 0)⟩).consistency_checks 8 = true :=
  ⟨rfl, by decide, by decide,
   (C25_static_invariant 8 (by decide) int64_t (by decide) (-1000) (by decide) (by decide) 12
      (by decide) static_integer.init static_integer.init ⟨-2, (232, 3)⟩ ⟨1, (7, 0)⟩
      ⟨1, (1, 0)⟩ (by decide) (by decide) (by decide)).2.2.1,
   (C25_static_invariant 8 (by decide) int64_t (by decide) (-1000) (by decide) (by decide) 12
      (by decide) static_integer.init static_integer.init ⟨-1, (128, 0)⟩ ⟨1, (7, 0)⟩
      ⟨1, (1, 0)⟩ (by decide) (by decide) (by decide)).2.2.2.2.2.2.2.2.1 (by decide)⟩

end claims_static

section self_addition

theorem to_mpz_eq_value_of_lt (B : Nat) (s : static_integer)
    (h1 : s.m_limbs.1 < 2 ^ B) (h2 : s.m_limbs.2 < 2 ^ B) : s.to_mpz B = s.value B := by
  unfold static_integer.to_mpz
  simp only []
  rw [to_mpz_loop_eq B 0 B 0 s.m_limbs.1 0 h1 (Int.le_refl _) (by positivity)]
  simp only [Nat.zero_add, Nat.add_zero, Nat.pow_zero, Nat.mul_one, Int.zero_add,
    Nat.mod_eq_of_lt h1]
  rw [to_mpz_loop_eq B B B 0 s.m_limbs.2 _ h2 (by omega) (by
    simp only [Nat.zero_add]; exact_mod_cast h1)]
  simp only [Nat.zero_add, Nat.mod_eq_of_lt h2]
  unfold static_integer.value static_integer.mag
  push_cast
  rfl

/-- The value read through the static member of a union that holds the GMP integer `v`: the
sign is that of `v` and the limbs are those found there. -/
theorem view_value (B : Nat) (v : Int) (hv : v ≠ 0) (overlay : Nat × Nat) :
    static_integer.value B ⟨(integer_union.dy v).mp_size, overlay⟩ =
      (if v < 0 then -1 else 1) * ((overlay.1 + overlay.2 * 2 ^ B : Nat) : Int) := by
  unfold static_integer.value static_integer.mag integer_union.mp_size
  simp only []
  by_cases hneg : v < 0
  · rw [Int.sign_eq_neg_one_of_neg hneg, if_pos (by decide), if_pos hneg]
    ring
  · rw [Int.sign_eq_one_of_pos (by omega), if_neg (by decide), if_neg hneg]
    ring

/-- C22, as the code has it: `a += a` on a well-formed `a`.  When `a` is dynamic, or static
with `2 * value(a)` fitting two limbs, the result is exactly `2 * value(a)`.  When `a` is
static and `2 * value(a)` does not fit, `a` is promoted and the second operand is then read
through the static member of the union, which the promotion has overwritten: the result is
`value(a)` plus or minus the number formed by the two limbs `overlay` read there, and it is
`2 * value(a)` only if these limbs happen to hold the magnitude of `a`. -/
theorem C22_self_addition (B : Nat) (hB : 1 ≤ B) (a : mp_integer) (ha : a.valid B = true)
    (overlay : Nat × Nat) (ho1 : overlay.1 < 2 ^ B) (ho2 : overlay.2 < 2 ^ B) :
    ((a.is_static = false ∨ (2 * a.value B).natAbs < 2 ^ (2 * B)) →
      (mp_integer.in_place_add_or_sub_self B true overlay a).value B = 2 * a.value B) ∧
    (a.is_static = true → ¬ (2 * a.value B).natAbs < 2 ^ (2 * B) →
      (mp_integer.in_place_add_or_sub_self B true overlay a).value B =
        a.value B + (if a.value B < 0 then -1 else 1) *
          ((overlay.1 + overlay.2 * 2 ^ B : Nat) : Int) ∧
      ((mp_integer.in_place_add_or_sub_self B true overlay a).value B = 2 * a.value B ↔
        overlay.1 + overlay.2 * 2 ^ B = (a.value B).natAbs)) := by
  rw [two_pow_two_mul]
  obtain ⟨ua⟩ := a
  cases ua with
  | dy d =>
    constructor
    · intro _
      show d + d = 2 * d
      ring
    · intro h
      cases h
  | st s =>
    rw [valid_st] at ha
    rw [value_st]
    have e := add_or_sub_eq B hB true s s s ha ha
    simp only [if_true] at e
    have e2 : s.value B + s.value B = 2 * s.value B := by ring
    rw [e2] at e
    have key : mp_integer.in_place_add_or_sub_self B true overlay ⟨integer_union.st s⟩ =
        (match static_integer.add_or_sub B true s s s with
         | Except.ok r => ⟨integer_union.st r⟩
         | Except.error err =>
           ⟨integer_union.dy (err.2.to_mpz B +
             static_integer.to_mpz B ⟨(integer_union.dy (err.2.to_mpz B)).mp_size, overlay⟩)⟩) :=
      rfl
    rw [key, e]
    constructor
    · rintro (h | h)
      · cases h
      · rw [if_pos h]
        show (static_integer.of_int B (2 * s.value B)).value B = _
        exact of_int_value B _ h
    · intro _ hnf
      rw [if_neg hnf]
      simp only []
      rw [to_mpz_eq_value B s ha, value_dy, to_mpz_eq_value_of_lt B _ ho1 ho2]
      have hv0 : s.value B ≠ 0 := by
        intro h0
        rw [h0] at hnf
        apply hnf
        simp
      have hval := view_value B (s.value B) hv0 overlay
      rw [hval]
      refine ⟨rfl, ?_⟩
      by_cases hneg : s.value B < 0
      · rw [if_pos hneg]
        constructor
        · intro h; omega
        · intro h; rw [h]; omega
      · rw [if_neg hneg]
        constructor
        · intro h; omega
        · intro h; rw [h]; omega

/-- C22 witness: with 32-bit limbs, `a += a` for the static `a = 5`, and for the static
`a = 18446744073709551615` with the limbs `(46445216, 21889)` read after the promotion. -/
theorem C22_self_addition_witness :
    (mp_integer.in_place_add_or_sub_self 32 true (46445216, 21889)
      ⟨integer_union.st ⟨1, (5, 0)⟩⟩).value 32 =
        2 * mp_integer.value 32 ⟨integer_union.st ⟨1, (5, 0)⟩⟩ ∧
    (mp_integer.in_place_add_or_sub_self 32 true (46445216, 21889)
      ⟨integer_union.st ⟨2, (4294967295, 4294967295)⟩⟩).value 32 =
        mp_integer.value 32 ⟨integer_union.st ⟨2, (4294967295, 4294967295)⟩⟩ +
          (if mp_integer.value 32 ⟨integer_union.st ⟨2, (4294967295, 4294967295)⟩⟩ < 0
            then -1 else 1) * ((46445216 + 21889 * 2 ^ 32 : Nat) : Int) :=
  ⟨(C22_self_addition 32 (by decide) ⟨integer_union.st ⟨1, (5, 0)⟩⟩ (by decide)
      (46445216, 21889) (by decide) (by decide)).1 (Or.inr (by decide)),
   ((C22_self_addition 32 (by decide) ⟨integer_union.st ⟨2, (4294967295, 4294967295)⟩⟩
      (by decide) (46445216, 21889) (by decide) (by decide)).2 rfl (by decide)).1⟩

/-- C22 failing input: with 32-bit limbs, `a = 18446744073709551615` is static and well
formed; `a += a` promotes `a` and adds to it what the two limbs read through the static member
of the union hold, here `(46445216, 21889)`, the halves of the address 94012585587360: the
result is `18446838086295138975` and not `36893488147419103230`. -/
theorem C22_counterexample :
    mp_integer.valid 32 ⟨integer_union.st ⟨2, (4294967295, 4294967295)⟩⟩ = true ∧
    mp_integer.value 32 ⟨integer_union.st ⟨2, (4294967295, 4294967295)⟩⟩ =
      18446744073709551615 ∧
    mp_integer.in_place_add_or_sub_self 32 true (46445216, 21889)
      ⟨integer_union.st ⟨2, (4294967295, 4294967295)⟩⟩ =
        ⟨integer_union.dy 18446838086295138975⟩ ∧
    (mp_integer.in_place_add_or_sub_self 32 true (46445216, 21889)
      ⟨integer_union.st ⟨2, (4294967295, 4294967295)⟩⟩).value 32 ≠
        2 * mp_integer.value 32 ⟨integer_union.st ⟨2, (4294967295, 4294967295)⟩⟩ := by
  decide

end self_addition

section storage

/-- The constructor from the numeral of `v`: the object built is well formed, has value `v`,
streams as the numeral, and is static exactly when `|v|` fits two limbs. -/
theorem construct_from_string_storage (B : Nat) (hB : 3 ≤ B) (v : Int) :
    ∃ y, mp_integer.construct_from_string B (mpz_get_str10 v) = Except.ok y ∧
      y.stream B = mpz_get_str10 v ∧
      (y.is_static = true ↔ v.natAbs < 2 ^ B * 2 ^ B) := by
  obtain ⟨h1, h2⟩ := get_str_accepted v
  obtain ⟨y, e, hval, hvalue⟩ := construct_from_string_get_str B hB v
  refine ⟨y, e, by rw [stream_eq B y hval, hvalue], ?_⟩
  unfold mp_integer.construct_from_string at e
  rw [h1] at e
  simp only [] at e
  rw [h2] at e
  simp only [] at e
  have hm : (if decide (mpz_sgn v = -1) = true then -v else v) = ((v.natAbs : Nat) : Int) := by
    unfold mpz_sgn
    rcases Int.lt_trichotomy v 0 with hv | hv | hv
    · rw [Int.sign_eq_neg_one_of_neg hv]; simp only [decide_True, if_true]; omega
    · rw [hv]; rfl
    · rw [Int.sign_eq_one_of_pos hv]
      have : ¬ ((1 : Int) = -1) := by decide
      simp only [this, decide_False, Bool.false_eq_true, if_false]; omega
  rw [hm] at e
  obtain ⟨_, _, c3⟩ := construct_from_mpz_spec B hB v.natAbs (decide (mpz_sgn v = -1))
  cases e
  exact c3

/-- The string `123456789012345678901234567890` is the numeral of that number. -/
theorem thirty_digits_numeral :
    "123456789012345678901234567890".toList = mpz_get_str10 123456789012345678901234567890 := by
  have hv : mp_integer.validate_string "123456789012345678901234567890".toList =
      Option.none := rfl
  obtain ⟨v, e⟩ := accepted_is_numeral _ hv
  have h2 := (get_str_accepted v).2
  rw [← e] at h2
  have h3 : mpz_set_str10 "123456789012345678901234567890".toList =
      some 123456789012345678901234567890 := rfl
  rw [h3] at h2
  cases h2
  exact e

/-- C29, as the code has it: the constructor from the string
`123456789012345678901234567890` returns an object that streams as the same string, for limbs
of 8, 16, 32 and 64 bits; the object is dynamic for limbs of 8, 16 and 32 bits, and static for
limbs of 64 bits, whose two limbs hold the 97 bits of the value. -/
theorem C29_string_construction :
    (∃ y, mp_integer.construct_from_string 8 "123456789012345678901234567890".toList =
        Except.ok y ∧ y.stream 8 = "123456789012345678901234567890".toList ∧
      y.is_static = false) ∧
    (∃ y, mp_integer.construct_from_string 16 "123456789012345678901234567890".toList =
        Except.ok y ∧ y.stream 16 = "123456789012345678901234567890".toList ∧
      y.is_static = false) ∧
    (∃ y, mp_integer.construct_from_string 32 "123456789012345678901234567890".toList =
        Except.ok y ∧ y.stream 32 = "123456789012345678901234567890".toList ∧
      y.is_static = false) ∧
    (∃ y, mp_integer.construct_from_string 64 "123456789012345678901234567890".toList =
        Except.ok y ∧ y.stream 64 = "123456789012345678901234567890".toList ∧
      y.is_static = true) := by
  rw [thirty_digits_numeral]
  have dyn : ∀ (B : Nat), 3 ≤ B →
      ¬ (123456789012345678901234567890 : Int).natAbs < 2 ^ B * 2 ^ B →
      ∃ y, mp_integer.construct_from_string B (mpz_get_str10 123456789012345678901234567890) =
        Except.ok y ∧ y.stream B = mpz_get_str10 123456789012345678901234567890 ∧
        y.is_static = false := by
    intro B hB hn
    obtain ⟨y, h1, h2, h3⟩ := construct_from_string_storage B hB 123456789012345678901234567890
    refine ⟨y, h1, h2, ?_⟩
    cases hst : y.is_static with
    | false => rfl
    | true => exact absurd (h3.1 hst) hn
  refine ⟨dyn 8 (by decide) (by decide), dyn 16 (by decide) (by decide),
    dyn 32 (by decide) (by decide), ?_⟩
  obtain ⟨y, h1, h2, h3⟩ := construct_from_string_storage 64 (by decide)
    123456789012345678901234567890
  exact ⟨y, h1, h2, h3.2 (by decide)⟩

/-- C29 counterexample: with 64-bit limbs the constructor from the string
`123456789012345678901234567890` returns a static object, whose value is below `2^128`. -/
theorem C29_counterexample :
    (123456789012345678901234567890 : Int).natAbs < 2 ^ (2 * 64) ∧
    ∃ y, mp_integer.construct_from_string 64 "123456789012345678901234567890".toList =
      Except.ok y ∧ y.is_static = true := by
  refine ⟨by decide, ?_⟩
  rw [thirty_digits_numeral]
  obtain ⟨y, h1, _, h3⟩ := construct_from_string_storage 64 (by decide)
    123456789012345678901234567890
  exact ⟨y, h1, h3.2 (by decide)⟩

end storage

/-! ## The size ladder, growth, comparisons and displacement -/

section ladder

theorem table_sizes_sorted (mode64 : Bool) : (table_sizes mode64).Pairwise (fun a b => a < b) := by
  cases mode64 <;> decide

/-- Search of the first entry not less than `n` in a strictly increasing list. -/
theorem find_lower_bound (n : Nat) :
    ∀ (l : List Nat), l.Pairwise (fun a b => a < b) →
      (∀ s, l.find? (fun s => decide (n ≤ s)) = some s →
        s ∈ l ∧ n ≤ s ∧ ∀ s1, s1 ∈ l → n ≤ s1 → s ≤ s1) ∧
      (l.find? (fun s => decide (n ≤ s)) = Option.none ↔ ∀ s, s ∈ l → s < n) := by
  intro l
  induction l with
  | nil =>
    intro _
    constructor
    · intro s h
      cases h
    · simp
  | cons a l ih =>
    intro hp
    obtain ⟨hp1, hp2⟩ := List.pairwise_cons.1 hp
    obtain ⟨i1, i2⟩ := ih hp2
    by_cases ha : n ≤ a
    · constructor
      · intro s h
        rw [List.find?_cons_of_pos _ (by simpa using ha)] at h
        cases h
        refine ⟨List.mem_cons_self _ _, ha, ?_⟩
        intro s1 hs1 _
        rcases List.mem_cons.1 hs1 with h | h
        · omega
        · exact Nat.le_of_lt (hp1 s1 h)
      · rw [List.find?_cons_of_pos _ (by simpa using ha)]
        constructor
        · intro h; cases h
        · intro h
          have := h a (List.mem_cons_self _ _)
          omega
    · constructor
      · intro s h
        rw [List.find?_cons_of_neg _ (by simpa using ha)] at h
        obtain ⟨j1, j2, j3⟩ := i1 s h
        refine ⟨List.mem_cons_of_mem _ j1, j2, ?_⟩
        intro s1 hs1 hn
        rcases List.mem_cons.1 hs1 with h1 | h1
        · omega
        · exact j3 s1 h1 hn
      · rw [List.find?_cons_of_neg _ (by simpa using ha), i2]
        constructor
        · intro h s hs
          rcases List.mem_cons.1 hs with h1 | h1
          · omega
          · exact h s h1
        · intro h s hs
          exact h s (List.mem_cons_of_mem _ hs)

theorem largest_size_mem (mode64 : Bool) :
    (if mode64 then 824633720831 else 3221225473) ∈ table_sizes mode64 ∧
    ∀ s, s ∈ table_sizes mode64 → s ≤ (if mode64 then 824633720831 else 3221225473) := by
  cases mode64 <;> decide

/-- C31: `table_sizes` is strictly increasing.  For a requested number of buckets `n` that is
at most the largest entry, `get_size_from_hint(n)` returns the smallest entry of `table_sizes`
that is at least `n`, and the constructor `hop_table(n)` builds a table with that many buckets
and no element; for `n` above the largest entry both throw `bad_alloc`. -/
theorem C31_get_size_from_hint {T : Type} (mode64 : Bool) (n : Nat) :
    (table_sizes mode64).Pairwise (fun a b => a < b) ∧
    (n ≤ (if mode64 then 824633720831 else 3221225473) →
      ∃ s, get_size_from_hint mode64 n = some s ∧ s ∈ table_sizes mode64 ∧ n ≤ s ∧
        (∀ s1, s1 ∈ table_sizes mode64 → n ≤ s1 → s ≤ s1) ∧
        ∃ t : hop_table T, hop_table.with_buckets mode64 n = some t ∧ t.n_buckets = s ∧
          t.size = 0) ∧
    ((if mode64 then 824633720831 else 3221225473) < n →
      get_size_from_hint mode64 n = Option.none ∧
      (hop_table.with_buckets mode64 n : Option (hop_table T)) = Option.none) := by
  have hs := table_sizes_sorted mode64
  obtain ⟨f1, f2⟩ := find_lower_bound n (table_sizes mode64) hs
  obtain ⟨m1, m2⟩ := largest_size_mem mode64
  refine ⟨hs, ?_, ?_⟩
  · intro hn
    cases hf : get_size_from_hint mode64 n with
    | none =>
      have := (f2.1 hf) _ m1
      omega
    | some s =>
      obtain ⟨g1, g2, g3⟩ := f1 s hf
      refine ⟨s, rfl, g1, g2, g3, ⟨List.replicate s hop_bucket.empty, 0⟩, ?_, ?_, rfl⟩
      · unfold hop_table.with_buckets
        rw [hf]
        rfl
      · unfold hop_table.n_buckets
        simp
  · intro hn
    have hnone : get_size_from_hint mode64 n = Option.none := by
      apply f2.2
      intro s hs1
      have := m2 s hs1
      omega
    refine ⟨hnone, ?_⟩
    unfold hop_table.with_buckets
    rw [hnone]
    rfl

/-- Examples for C31. -/
theorem get_size_from_hint_examples :
    get_size_from_hint false 0 = some 0 ∧ get_size_from_hint false 2 = some 3 ∧
    get_size_from_hint false 3 = some 3 ∧ get_size_from_hint false 4 = some 5 ∧
    get_size_from_hint false 3221225473 = some 3221225473 ∧
    get_size_from_hint false 3221225474 = Option.none ∧
    get_size_from_hint true 3221225474 = some 6442450939 := by
  decide

end ladder

section growth_termination

theorem n_available_sizes_eq (mode64 : Bool) :
    n_available_sizes mode64 = (table_sizes mode64).length := by
  cases mode64 <;> rfl

end growth_termination

section claims_growth

end claims_growth

section comparison

/-- What `compare` returns for two integers with the same number of limbs. -/
theorem compare_spec (B : Nat) (x y : static_integer)
    (hx1 : x.m_limbs.1 < 2 ^ B) (hy1 : y.m_limbs.1 < 2 ^ B)
    (hn : x.calculate_n_limbs = y.calculate_n_limbs) :
    (static_integer.compare x y x.calculate_n_limbs < 0 ↔ x.mag B < y.mag B) ∧
    (static_integer.compare x y x.calculate_n_limbs > 0 ↔ y.mag B < x.mag B) := by
  have hhx := mag_lt_of_hi_lt B x y hy1
  have hhy := mag_lt_of_hi_lt B y x hx1
  unfold static_integer.compare
  rcases n_limbs_cases x with ⟨nx, x1, x2⟩ | ⟨nx, x1, x2⟩ | ⟨nx, x2⟩ <;>
  rcases n_limbs_cases y with ⟨ny, y1, y2⟩ | ⟨ny, y1, y2⟩ | ⟨ny, y2⟩ <;>
  rw [nx] at hn ⊢ <;> rw [ny] at hn <;> try omega
  · have : (0 : Int).toNat = 0 := rfl
    rw [this]
    unfold compare_loop static_integer.mag
    rw [x1, x2, y1, y2]
    simp
  · have : (1 : Int).toNat = 1 := rfl
    rw [this]
    unfold compare_loop
    unfold compare_loop static_integer.limb static_integer.mag
    simp only [if_true]
    rw [x2, y2]
    simp only [Nat.zero_mul, Nat.add_zero]
    split_ifs <;> constructor <;> constructor <;> intro h <;> omega
  · have : (2 : Int).toNat = 2 := rfl
    rw [this]
    unfold compare_loop
    unfold compare_loop
    unfold compare_loop static_integer.limb
    simp only [if_true, Nat.one_ne_zero, if_false]
    by_cases h1 : x.m_limbs.2 > y.m_limbs.2
    · rw [if_pos h1]
      have := hhx h1
      constructor <;> constructor <;> intro h <;> omega
    · rw [if_neg h1]
      by_cases h2 : x.m_limbs.2 < y.m_limbs.2
      · rw [if_pos h2]
        have := hhy h2
        constructor <;> constructor <;> intro h <;> omega
      · rw [if_neg h2]
        have he : x.m_limbs.2 = y.m_limbs.2 := by omega
        unfold static_integer.mag
        rw [he]
        split_ifs <;> constructor <;> constructor <;> intro h <;> omega

/-- Number of limbs and magnitude of a `static_integer` with limbs below `2 ^ B`. -/
theorem n_limbs_mag (B : Nat) (s : static_integer) (h1 : s.m_limbs.1 < 2 ^ B) :
    (s.calculate_n_limbs = 0 ∧ s.mag B = 0) ∨
    (s.calculate_n_limbs = 1 ∧ 0 < s.mag B ∧ s.mag B < 2 ^ B) ∨
    (s.calculate_n_limbs = 2 ∧ 2 ^ B ≤ s.mag B) := by
  unfold static_integer.mag
  rcases n_limbs_cases s with ⟨n, l1, l2⟩ | ⟨n, l1, l2⟩ | ⟨n, l2⟩
  · left
    rw [l1, l2]
    exact ⟨n, by simp⟩
  · right; left
    rw [l2]
    simp only [Nat.zero_mul, Nat.add_zero]
    exact ⟨n, by omega, h1⟩
  · right; right
    refine ⟨n, ?_⟩
    have : 1 * 2 ^ B ≤ s.m_limbs.2 * 2 ^ B := Nat.mul_le_mul_right _ (by omega)
    omega

/-- C39: for consistent static integers `a` and `b`, `a < b` holds exactly when
`value(a) < value(b)`, `a > b` exactly when `value(a) > value(b)`, `a == b` exactly when
`value(a) = value(b)`, and exactly one of the three holds. -/
theorem C39_static_comparison (B : Nat) (a b : static_integer)
    (ha : a.consistency_checks B = true) (hb : b.consistency_checks B = true) :
    (a.operator_lt b = true ↔ a.value B < b.value B) ∧
    (a.operator_gt b = true ↔ a.value B > b.value B) ∧
    (a.operator_eq b = true ↔ a.value B = b.value B) ∧
    ((a.operator_lt b = true ∧ a.operator_eq b = false ∧ a.operator_gt b = false) ∨
     (a.operator_lt b = false ∧ a.operator_eq b = true ∧ a.operator_gt b = false) ∨
     (a.operator_lt b = false ∧ a.operator_eq b = false ∧ a.operator_gt b = true)) := by
  obtain ⟨a1, a2, a3⟩ := (consistency_checks_iff B a).1 ha
  obtain ⟨b1, b2, b3⟩ := (consistency_checks_iff B b).1 hb
  have hma := n_limbs_mag B a a1
  have hmb := n_limbs_mag B b b1
  have hva : a.value B = if a._mp_size < 0 then -(a.mag B : Int) else (a.mag B : Int) := rfl
  have hvb : b.value B = if b._mp_size < 0 then -(b.mag B : Int) else (b.mag B : Int) := rfl
  have hP : 0 < 2 ^ B := Nat.pow_pos (by decide)
  have hlt : a.operator_lt b = true ↔ a.value B < b.value B := by
    unfold static_integer.operator_lt
    simp only []
    by_cases h1 : a._mp_size < b._mp_size
    · rw [if_pos h1]
      simp only [true_iff]
      rw [hva, hvb]
      split_ifs <;> omega
    · rw [if_neg h1]
      by_cases h2 : b._mp_size < a._mp_size
      · rw [if_pos h2]
        simp only [Bool.false_eq_true, false_iff]
        rw [hva, hvb]
        split_ifs <;> omega
      · rw [if_neg h2]
        have hs : a._mp_size = b._mp_size := by omega
        have hn : a.calculate_n_limbs = b.calculate_n_limbs := by omega
        obtain ⟨c1, c2⟩ := compare_spec B a b a1 b1 hn
        have habs : (if a._mp_size ≥ 0 then a._mp_size else -a._mp_size) =
            a.calculate_n_limbs := by
          split_ifs <;> omega
        rw [habs, hva, hvb, ← hs]
        by_cases hneg : a._mp_size < 0
        · rw [if_neg (by omega), if_pos hneg, if_pos hneg, decide_eq_true_iff, c2]
          omega
        · rw [if_pos (by omega), if_neg hneg, if_neg hneg, decide_eq_true_iff, c1]
          omega
  have hgt : a.operator_gt b = true ↔ a.value B > b.value B := by
    unfold static_integer.operator_gt
    simp only []
    by_cases h1 : a._mp_size < b._mp_size
    · rw [if_pos h1]
      simp only [Bool.false_eq_true, false_iff]
      rw [hva, hvb]
      split_ifs <;> omega
    · rw [if_neg h1]
      by_cases h2 : b._mp_size < a._mp_size
      · rw [if_pos h2]
        simp only [true_iff]
        rw [hva, hvb]
        split_ifs <;> omega
      · rw [if_neg h2]
        have hs : a._mp_size = b._mp_size := by omega
        have hn : a.calculate_n_limbs = b.calculate_n_limbs := by omega
        obtain ⟨c1, c2⟩ := compare_spec B a b a1 b1 hn
        have habs : (if a._mp_size ≥ 0 then a._mp_size else -a._mp_size) =
            a.calculate_n_limbs := by
          split_ifs <;> omega
        rw [habs, hva, hvb, ← hs]
        by_cases hneg : a._mp_size < 0
        · rw [if_neg (by omega), if_pos hneg, if_pos hneg, decide_eq_true_iff, c1]
          omega
        · rw [if_pos (by omega), if_neg hneg, if_neg hneg, decide_eq_true_iff, c2]
          omega
  have heq : a.operator_eq b = true ↔ a.value B = b.value B := by
    unfold static_integer.operator_eq
    simp only [Bool.and_eq_true, decide_eq_true_eq]
    constructor
    · rintro ⟨h1, h2⟩
      have : a = b := by
        obtain ⟨sa, la⟩ := a
        obtain ⟨sb, lb⟩ := b
        simp only [] at h1 h2
        rw [h1, h2]
      rw [this]
    · intro h
      have e1 := (consistent_eq_of_int B a ha).1
      have e2 := (consistent_eq_of_int B b hb).1
      rw [h] at e1
      have : a = b := e1.trans e2.symm
      rw [this]
      exact ⟨rfl, rfl⟩
  refine ⟨hlt, hgt, heq, ?_⟩
  rcases Int.lt_trichotomy (a.value B) (b.value B) with h | h | h
  · left
    refine ⟨hlt.2 h, ?_, ?_⟩
    · cases hc : a.operator_eq b with
      | false => rfl
      | true => have := heq.1 hc; omega
    · cases hc : a.operator_gt b with
      | false => rfl
      | true => have := hgt.1 hc; omega
  · right; left
    refine ⟨?_, heq.2 h, ?_⟩
    · cases hc : a.operator_lt b with
      | false => rfl
      | true => have := hlt.1 hc; omega
    · cases hc : a.operator_gt b with
      | false => rfl
      | true => have := hgt.1 hc; omega
  · right; right
    refine ⟨?_, ?_, hgt.2 h⟩
    · cases hc : a.operator_lt b with
      | false => rfl
      | true => have := hlt.1 hc; omega
    · cases hc : a.operator_eq b with
      | false => rfl
      | true => have := heq.1 hc; omega

/-- C39 witness: with 8-bit limbs, -256 < -255 and 65535 > 256. -/
theorem C39_static_comparison_witness :
    static_integer.operator_lt ⟨-2, (0, 1)⟩ ⟨-1, (255, 0)⟩ = true ∧
    static_integer.operator_gt ⟨2, (255, 255)⟩ ⟨2, (0, 1)⟩ = true ∧
    (static_integer.operator_lt ⟨-2, (0, 1)⟩ ⟨-1, (255, 0)⟩ = true ↔
      static_integer.value 8 ⟨-2, (0, 1)⟩ < static_integer.value 8 ⟨-1, (255, 0)⟩) :=
  ⟨by decide, by decide,
   (C39_static_comparison 8 ⟨-2, (0, 1)⟩ ⟨-1, (255, 0)⟩ (by decide) (by decide)).1⟩

end comparison

section displacement

theorem small_env_lawful : small_env.lawful := by
  constructor
  · decide
  · intro a; simp [small_env]
  · intro a b h; simp [small_env] at h ⊢; exact h.symm
  · intro a b c h1 h2; simp [small_env] at h1 h2 ⊢; exact h1.trans h2
  · intro a b h; simp [small_env] at h ⊢; exact h

/-- One iteration of the displacement loop, in terms of `displacement_step`. -/
theorem displace_succ {T : Type} (nbits b f : Nat) (c : List (hop_bucket T)) (alt : Nat)
    (hc : alt - b ≥ hop_bucket.n_eff_bits nbits) :
    displace nbits b (f + 1) c alt =
      match displacement_step nbits c alt with
      | Option.none => (c, Option.none)
      | some p => displace nbits b f (move_key nbits c p.1 p.2 alt) p.2 := by
  rw [displace.eq_def]
  simp only []
  rw [if_pos hc]
  simp only [displacement_step]
  split_ifs <;> rfl

/-- The displacement loop when the free slot is already inside the virtual bucket. -/
theorem displace_done {T : Type} (nbits b f : Nat) (c : List (hop_bucket T)) (alt : Nat)
    (hc : ¬ alt - b ≥ hop_bucket.n_eff_bits nbits) :
    displace nbits b f c alt = (c, some alt) := by
  rw [displace.eq_def]
  simp only []
  rw [if_neg hc]

/-- The candidate found by the inner loop of a displacement step, on a container satisfying the
invariants, for a free slot `alt` at least `n_eff_bits` buckets into the array. -/
theorem candidate_spec {T : Type} (e : hop_env T) (hl : e.lawful) (c : List (hop_bucket T))
    (alt : Nat) (hinv : container_inv e c) (hs : stor c alt = none)
    (hH : hop_bucket.n_eff_bits e.nbits ≤ alt) (r : Nat × Int)
    (hr : find_candidate c alt (alt - (alt - hop_bucket.max_shift e.nbits))
      (alt - hop_bucket.max_shift e.nbits) 2
      (mf_int_traits.msb (bucket_at c (alt - hop_bucket.max_shift e.nbits)).m_bitset) = r) :
    mf_int_traits.msb (bucket_at c (alt - hop_bucket.max_shift e.nbits)).m_bitset ≠ 1 ∧
    alt - hop_bucket.max_shift e.nbits ≤ r.1 ∧ r.1 ≤ alt ∧
    (r.1 ≠ alt →
      2 ≤ r.2 ∧ r.2 ≤ hop_bucket.n_eff_bits e.nbits ∧
      r.1 + (hop_bucket.max_shift e.nbits - (r.2 - 1).toNat) < alt ∧
      alt - r.1 < hop_bucket.n_eff_bits e.nbits ∧
      hop e.nbits c r.1 (hop_bucket.max_shift e.nbits - (r.2 - 1).toNat) = true ∧
      hop e.nbits c r.1 (alt - r.1) = false ∧
      (∃ x, stor c (r.1 + (hop_bucket.max_shift e.nbits - (r.2 - 1).toNat)) = some x ∧
        home e c x = r.1) ∧
      (hop_bucket.max_shift e.nbits - (r.2 - 1).toNat = 0 ↔ hop e.nbits c r.1 0 = true)) := by
  have hH1 : 1 ≤ hop_bucket.n_eff_bits e.nbits := by
    have := hl.nbits_ge
    unfold hop_bucket.n_eff_bits; omega
  have hms : hop_bucket.max_shift e.nbits = hop_bucket.n_eff_bits e.nbits - 1 := rfl
  have hnb : hop_bucket.n_eff_bits e.nbits = e.nbits - 1 := rfl
  obtain ⟨h1, h2, h3, h4⟩ := find_candidate_spec c alt
    (alt - (alt - hop_bucket.max_shift e.nbits)) (alt - hop_bucket.max_shift e.nbits) 2
    (by omega)
  rw [hr] at h1 h2 h3 h4
  refine ⟨?_, h1, h2, ?_⟩
  · intro h1m
    have hm0 : 0 ≤ mf_int_traits.msb
        (bucket_at c (alt - hop_bucket.max_shift e.nbits)).m_bitset := by omega
    obtain ⟨m1, _, _⟩ := msb_spec e.nbits _ (hinv.bound _) hm0
    rw [h1m] at m1
    have hhop : hop e.nbits c (alt - hop_bucket.max_shift e.nbits)
        (hop_bucket.n_eff_bits e.nbits - 1) = true := by
      unfold hop
      rw [hb_test_eq e.nbits _ _ (by omega)]
      have : hop_bucket.n_eff_bits e.nbits - (hop_bucket.n_eff_bits e.nbits - 1) = 1 := by
        omega
      rw [this]
      exact m1
    obtain ⟨x, hx, _⟩ := hinv.hop_key _ _ (by omega) hhop
    have : alt - hop_bucket.max_shift e.nbits + (hop_bucket.n_eff_bits e.nbits - 1) = alt := by
      omega
    rw [this, hs] at hx
    cases hx
  · intro hfail
    have h5 := h4 hfail
    have hm0 : 0 ≤ mf_int_traits.msb (bucket_at c r.1).m_bitset := by
      rw [← h3]; omega
    obtain ⟨m1, m2, m3⟩ := msb_spec e.nbits _ (hinv.bound r.1) hm0
    rw [← h3] at m1 m2 m3
    have hoff : hop_bucket.max_shift e.nbits - (r.2 - 1).toNat =
        hop_bucket.n_eff_bits e.nbits - r.2.toNat := by omega
    have hhop : hop e.nbits c r.1
        (hop_bucket.n_eff_bits e.nbits - r.2.toNat) = true := by
      unfold hop
      rw [hb_test_eq e.nbits _ _ (by omega)]
      have : hop_bucket.n_eff_bits e.nbits -
          (hop_bucket.n_eff_bits e.nbits - r.2.toNat) = r.2.toNat := by omega
      rw [this]
      exact m1
    have hhopo : hop e.nbits c r.1 (alt - r.1) = false := by
      cases hh : hop e.nbits c r.1 (alt - r.1)
      · rfl
      · obtain ⟨y, hy, _⟩ := hinv.hop_key r.1 (alt - r.1) (by omega) hh
        have : r.1 + (alt - r.1) = alt := by omega
        rw [this, hs] at hy
        cases hy
    rw [hoff]
    refine ⟨by omega, by omega, by omega, by omega, hhop, hhopo,
      hinv.hop_key r.1 _ (by omega) hhop, ?_⟩
    constructor
    · intro h0
      rw [← h0]
      exact hhop
    · intro hh
      unfold hop at hh
      rw [hb_test_eq e.nbits _ _ (by omega)] at hh
      by_contra hne
      have := m3 (hop_bucket.n_eff_bits e.nbits - 0) (by omega)
      rw [this] at hh
      cases hh

/-- One displacement step on a container satisfying the invariants: the candidate home `a`, the
source `n` and the container after the move. -/
theorem displacement_step_spec {T : Type} (e : hop_env T) (hl : e.lawful)
    (c : List (hop_bucket T)) (alt : Nat) (hinv : container_inv e c) (halt : alt < c.length)
    (hs : stor c alt = none) (hH : hop_bucket.n_eff_bits e.nbits ≤ alt) (a n : Nat)
    (hstep : displacement_step e.nbits c alt = some (a, n)) :
    alt - hop_bucket.max_shift e.nbits ≤ a ∧ a ≤ n ∧ n < alt ∧
    alt - a < hop_bucket.n_eff_bits e.nbits ∧
    hop e.nbits c a (n - a) = true ∧ hop e.nbits c a (alt - a) = false ∧
    (∃ x, stor c n = some x ∧ home e c x = a) ∧
    (n = a ↔ hop e.nbits c a 0 = true) ∧
    container_inv e (move_key e.nbits c a n alt) ∧
    (move_key e.nbits c a n alt).length = c.length ∧
    stor (move_key e.nbits c a n alt) n = none ∧
    (keys_of (move_key e.nbits c a n alt)).Perm (keys_of c) := by
  unfold displacement_step at hstep
  simp only [] at hstep
  generalize hr : find_candidate c alt (alt - (alt - hop_bucket.max_shift e.nbits))
    (alt - hop_bucket.max_shift e.nbits) 2
    (mf_int_traits.msb (bucket_at c (alt - hop_bucket.max_shift e.nbits)).m_bitset) = r
    at hstep
  obtain ⟨_, c1, c2, c3⟩ := candidate_spec e hl c alt hinv hs hH r hr
  by_cases hfail : r.1 = alt
  · rw [if_pos hfail] at hstep
    cases hstep
  · rw [if_neg hfail] at hstep
    obtain ⟨d1, d2, d3, d4, d5, d6, ⟨x, hx, hxh⟩, d8⟩ := c3 hfail
    simp only [Option.some.injEq, Prod.mk.injEq] at hstep
    obtain ⟨ha, hn⟩ := hstep
    subst ha
    have hsub : n - r.1 = hop_bucket.max_shift e.nbits - (r.2 - 1).toNat := by omega
    rw [hn] at d3 hx
    rw [← hsub] at d5 d8
    have hnl := stor_lt c n x hx
    have hne : n ≠ alt := by omega
    have hmv := move_key_inv e hl c r.1 n alt hinv halt hs (by omega) d3 d4 d5
    refine ⟨c1, by omega, d3, d4, d5, d6, ⟨x, hx, hxh⟩, ?_, hmv, move_key_length _ _ _ _ _, ?_,
      move_key_keys e.nbits c _ _ _ x hnl halt hne hs hx⟩
    · rw [← d8]; omega
    · rw [move_key_stor e.nbits c _ _ _ _ hnl halt hne]
      simp [hne]

/-- The bound `fuel` of the displacement loop is never what stops it: on a container satisfying
the invariants any two bounds of at least `alt - b` give the same result. -/
theorem displace_fuel {T : Type} (e : hop_env T) (hl : e.lawful) (b : Nat) :
    ∀ (f1 f2 : Nat) (c : List (hop_bucket T)) (alt : Nat),
      container_inv e c → alt < c.length → stor c alt = none → b < alt →
      alt - b ≤ f1 → alt - b ≤ f2 →
      displace e.nbits b f1 c alt = displace e.nbits b f2 c alt := by
  have hH1 : 1 ≤ hop_bucket.n_eff_bits e.nbits := by
    have := hl.nbits_ge
    unfold hop_bucket.n_eff_bits; omega
  intro f1
  induction f1 with
  | zero =>
    intro f2 c alt _ _ _ hb h1 _
    omega
  | succ f ih =>
    intro f2 c alt hinv halt hs hb h1 h2
    by_cases hc : alt - b ≥ hop_bucket.n_eff_bits e.nbits
    · obtain ⟨g, hg⟩ : ∃ g, f2 = g + 1 := ⟨f2 - 1, by omega⟩
      subst hg
      rw [displace_succ e.nbits b f c alt hc, displace_succ e.nbits b g c alt hc]
      cases hstep : displacement_step e.nbits c alt with
      | none => rfl
      | some p =>
        obtain ⟨a, n⟩ := p
        simp only []
        obtain ⟨s1, s2, s3, _, _, _, _, _, s9, s10, s11, _⟩ :=
          displacement_step_spec e hl c alt hinv halt hs (by omega) a n hstep
        have hms : hop_bucket.max_shift e.nbits = hop_bucket.n_eff_bits e.nbits - 1 := rfl
        exact ih g _ n s9 (by rw [s10]; omega) s11 (by omega) (by omega) (by omega)
    · rw [displace_done e.nbits b _ c alt hc, displace_done e.nbits b _ c alt hc]

/-- C35: in a displacement step of `_unique_insert` on a container satisfying the invariants,
with free slot `j`, candidate home `a` and source `s`, one has `a ≤ s < j`, that is
`0 ≤ s - a < j - a`: the source offset is strictly before the destination offset, but it is
the offset 0 exactly when hop bit 0 of the candidate is set: the key stored in the candidate
home bucket itself is then the one that is moved. -/
theorem C35_displacement_source {T : Type} (e : hop_env T) (hl : e.lawful)
    (c : List (hop_bucket T)) (j a s : Nat) (hinv : container_inv e c) (hj : j < c.length)
    (hfree : stor c j = none) (hH : hop_bucket.n_eff_bits e.nbits ≤ j)
    (hstep : displacement_step e.nbits c j = some (a, s)) :
    a ≤ s ∧ s < j ∧ s - a < j - a ∧ j - a < hop_bucket.n_eff_bits e.nbits ∧
    hop e.nbits c a (s - a) = true ∧
    (∃ x, stor c s = some x ∧ home e c x = a) ∧
    (s = a ↔ hop e.nbits c a 0 = true) ∧
    (∀ b f, j - b ≥ hop_bucket.n_eff_bits e.nbits →
      displace e.nbits b (f + 1) c j = displace e.nbits b f (move_key e.nbits c a s j) s) := by
  obtain ⟨_, s2, s3, s4, s5, _, s7, s8, _⟩ :=
    displacement_step_spec e hl c j hinv hj hfree hH a s hstep
  refine ⟨s2, s3, by omega, s4, s5, s7, s8, ?_⟩
  intro b f hc
  rw [displace_succ e.nbits b f c j hc, hstep]

/-- C35 witness: the table with four-bit words holding 1, ..., 6, in which the free slot 7 is
filled from the candidate 5. -/
theorem C35_displacement_source_witness :
    displacement_step small_env.nbits (table_of small_env [1, 2, 3, 4, 5, 6]).m_container 7 =
      some (5, 5) ∧
    (5 ≤ 5 ∧ 5 < 7 ∧ 5 - 5 < 7 - 5 ∧ 7 - 5 < hop_bucket.n_eff_bits small_env.nbits ∧
      hop small_env.nbits (table_of small_env [1, 2, 3, 4, 5, 6]).m_container 5 (5 - 5) = true ∧
      (∃ x, stor (table_of small_env [1, 2, 3, 4, 5, 6]).m_container 5 = some x ∧
        home small_env (table_of small_env [1, 2, 3, 4, 5, 6]).m_container x = 5) ∧
      (5 = 5 ↔ hop small_env.nbits (table_of small_env [1, 2, 3, 4, 5, 6]).m_container 5 0 =
        true) ∧
      (∀ b f, 7 - b ≥ hop_bucket.n_eff_bits small_env.nbits →
        displace small_env.nbits b (f + 1) (table_of small_env [1, 2, 3, 4, 5, 6]).m_container 7 =
          displace small_env.nbits b f
            (move_key small_env.nbits (table_of small_env [1, 2, 3, 4, 5, 6]).m_container 5 5 7)
            5)) :=
  ⟨by decide, C35_displacement_source small_env small_env_lawful
    (table_of small_env [1, 2, 3, 4, 5, 6]).m_container 7 5 5
    (reachable_inv small_env small_env_lawful _ (reachable_table_of small_env _)).cont
    (by decide) (by decide) (by decide) (by decide)⟩

/-- C35 counterexample: inserting 12 in the table with four-bit words that holds 1, ..., 6.  The
home of 12 is bucket 1, the linear probe stops at the free bucket 7, and the first displacement
step has candidate 5 and source 5: the source offset is 0, and the key 5, stored in its own
home bucket, is the one moved to bucket 7. -/
theorem C35_counterexample :
    (table_of small_env [1, 2, 3, 4, 5, 6]).bucket_impl small_env 12 = 1 ∧
    linear_probe (table_of small_env [1, 2, 3, 4, 5, 6]).m_container
      ((table_of small_env [1, 2, 3, 4, 5, 6]).m_container.length - (1 + 1)) (1 + 1) = 7 ∧
    displacement_step small_env.nbits (table_of small_env [1, 2, 3, 4, 5, 6]).m_container 7 =
      some (5, 5) ∧
    ¬ (0 < 5 - 5) ∧
    stor (table_of small_env [1, 2, 3, 4, 5, 6]).m_container 5 = some 5 ∧
    stor ((table_of small_env [1, 2, 3, 4, 5, 6])._unique_insert small_env 12 1).1.m_container 7 =
      some 5 := by
  decide

end displacement

section displacement_claims

/-- The position returned by a successful `_unique_insert` lies in the virtual bucket of the
home of the key. -/
theorem unique_insert_position {T : Type} (e : hop_env T) (hl : e.lawful) (t : hop_table T)
    (k : T) (hinv : container_inv e t.m_container)
    (hnew : ∀ x, x ∈ keys_of t.m_container → e.m_key_equal x k = false) (j : Nat)
    (hj : (t._unique_insert e k (t.bucket_impl e k)).2 = some j) :
    t.bucket_impl e k ≤ j ∧ j < t.bucket_impl e k + hop_bucket.n_eff_bits e.nbits := by
  obtain ⟨_, u2, u3, _, u5⟩ := unique_insert_spec e hl t k hinv hnew
  obtain ⟨_, s2, _⟩ := u5 j hj
  obtain ⟨k1, k2, _⟩ := u3.key_home j k s2
  have hh : home e (t._unique_insert e k (t.bucket_impl e k)).1.m_container k =
      t.bucket_impl e k := by
    unfold home
    rw [u2]
    rfl
  rw [hh] at k1 k2
  exact ⟨k1, k2⟩

/-- C36: the displacement loop of `_unique_insert` terminates.  On a container satisfying the
invariants, with the free slot `j0` after the home `b`, the loop gives the same result with
every bound of at least `j0 - b` iterations; an iteration either fails or replaces the free
slot by a source `s` with `b < s < j0`, on a container that satisfies the invariants again; on
success the free slot `j` satisfies `b < j < b + n_eff_bits`, and the position returned by
`_unique_insert` lies in `[home, home + n_eff_bits)`. -/
theorem C36_displacement_terminates {T : Type} (e : hop_env T) (hl : e.lawful) (b : Nat)
    (c : List (hop_bucket T)) (j0 : Nat) (hinv : container_inv e c) (hj : j0 < c.length)
    (hfree : stor c j0 = none) (hb : b < j0) :
    (∀ fuel, j0 - b ≤ fuel →
      displace e.nbits b fuel c j0 = displace e.nbits b (j0 - b) c j0) ∧
    (j0 - b ≥ hop_bucket.n_eff_bits e.nbits →
      (displacement_step e.nbits c j0 = Option.none ∧
        ∀ f, displace e.nbits b (f + 1) c j0 = (c, Option.none)) ∨
      (∃ a s, displacement_step e.nbits c j0 = some (a, s) ∧ b < s ∧ s < j0 ∧
        container_inv e (move_key e.nbits c a s j0) ∧
        stor (move_key e.nbits c a s j0) s = none ∧
        ∀ f, displace e.nbits b (f + 1) c j0 =
          displace e.nbits b f (move_key e.nbits c a s j0) s)) ∧
    (∀ j, (displace e.nbits b (j0 - b) c j0).2 = some j →
      b < j ∧ j < b + hop_bucket.n_eff_bits e.nbits ∧
      stor (displace e.nbits b (j0 - b) c j0).1 j = none) ∧
    (∀ (t : hop_table T) (k : T) (j : Nat), t.m_container = c →
      (∀ x, x ∈ keys_of c → e.m_key_equal x k = false) →
      (t._unique_insert e k (t.bucket_impl e k)).2 = some j →
      t.bucket_impl e k ≤ j ∧ j < t.bucket_impl e k + hop_bucket.n_eff_bits e.nbits) := by
  have hms : hop_bucket.max_shift e.nbits = hop_bucket.n_eff_bits e.nbits - 1 := rfl
  refine ⟨?_, ?_, ?_, ?_⟩
  · intro fuel hf
    exact displace_fuel e hl b fuel (j0 - b) c j0 hinv hj hfree hb hf (Nat.le_refl _)
  · intro hc
    cases hstep : displacement_step e.nbits c j0 with
    | none =>
      left
      refine ⟨rfl, ?_⟩
      intro f
      rw [displace_succ e.nbits b f c j0 hc, hstep]
    | some p =>
      right
      obtain ⟨a, s⟩ := p
      obtain ⟨s1, s2, s3, _, _, _, _, _, s9, _, s11, _⟩ :=
        displacement_step_spec e hl c j0 hinv hj hfree (by omega) a s hstep
      refine ⟨a, s, rfl, by omega, s3, s9, s11, ?_⟩
      intro f
      rw [displace_succ e.nbits b f c j0 hc, hstep]
  · intro j hres
    rw [displace_fuel e hl b (j0 - b) j0 c j0 hinv hj hfree hb (Nat.le_refl _) (by omega)]
      at hres ⊢
    obtain ⟨_, _, _, d4⟩ := displace_spec e hl b j0 c j0 hinv hj hfree hb (Nat.le_refl _)
    obtain ⟨_, j2, j3, j4⟩ := d4 j hres
    exact ⟨j3, by omega, j2⟩
  · intro t k j ht hnew hres
    subst ht
    exact unique_insert_position e hl t k hinv hnew j hres

/-- C36 witness: the table with four-bit words holding 1, ..., 6, home 1 and free slot 7. -/
theorem C36_displacement_terminates_witness :
    displace small_env.nbits 1 100 (table_of small_env [1, 2, 3, 4, 5, 6]).m_container 7 =
      displace small_env.nbits 1 (7 - 1)
        (table_of small_env [1, 2, 3, 4, 5, 6]).m_container 7 ∧
    (displace small_env.nbits 1 (7 - 1)
      (table_of small_env [1, 2, 3, 4, 5, 6]).m_container 7).2 = some 3 :=
  ⟨(C36_displacement_terminates small_env small_env_lawful 1
    (table_of small_env [1, 2, 3, 4, 5, 6]).m_container 7
    (reachable_inv small_env small_env_lawful _ (reachable_table_of small_env _)).cont
    (by decide) (by decide) (by decide)).1 100 (by decide), by decide⟩

/-- C37: when `_unique_insert` returns `(end(),false)` on a table satisfying the invariants
and for a key that the table does not hold, also after some displacement steps, the stored
keys are a permutation of those before the call, no stored key is equal to `k`, the number of
buckets and the count are unchanged, and the invariants hold: every stored key lies in the
virtual bucket of its home with its hop bit set, and every set hop bit points to a key of that
home. -/
theorem C37_failed_insert {T : Type} (e : hop_env T) (hl : e.lawful) (t : hop_table T) (k : T)
    (hinv : container_inv e t.m_container)
    (hnew : ∀ x, x ∈ keys_of t.m_container → e.m_key_equal x k = false)
    (hfail : (t._unique_insert e k (t.bucket_impl e k)).2 = Option.none) :
    (keys_of (t._unique_insert e k (t.bucket_impl e k)).1.m_container).Perm
      (keys_of t.m_container) ∧
    (∀ x, x ∈ keys_of (t._unique_insert e k (t.bucket_impl e k)).1.m_container →
      e.m_key_equal x k = false) ∧
    (t._unique_insert e k (t.bucket_impl e k)).1.m_container.length = t.m_container.length ∧
    (t._unique_insert e k (t.bucket_impl e k)).1.m_n_elements = t.m_n_elements ∧
    container_inv e (t._unique_insert e k (t.bucket_impl e k)).1.m_container ∧
    (∀ j x, stor (t._unique_insert e k (t.bucket_impl e k)).1.m_container j = some x →
      occ (t._unique_insert e k (t.bucket_impl e k)).1.m_container j = true ∧
      home e t.m_container x ≤ j ∧
      j < home e t.m_container x + hop_bucket.n_eff_bits e.nbits ∧
      hop e.nbits (t._unique_insert e k (t.bucket_impl e k)).1.m_container
        (home e t.m_container x) (j - home e t.m_container x) = true) ∧
    (∀ h i, i < hop_bucket.n_eff_bits e.nbits →
      hop e.nbits (t._unique_insert e k (t.bucket_impl e k)).1.m_container h i = true →
      occ (t._unique_insert e k (t.bucket_impl e k)).1.m_container (h + i) = true ∧
      ∃ x, stor (t._unique_insert e k (t.bucket_impl e k)).1.m_container (h + i) = some x ∧
        home e t.m_container x = h) := by
  obtain ⟨u1, u2, u3, u4, _⟩ := unique_insert_spec e hl t k hinv hnew
  have hp := u4 hfail
  have hhome : ∀ x, home e (t._unique_insert e k (t.bucket_impl e k)).1.m_container x =
      home e t.m_container x := by
    intro x
    unfold home
    rw [u2]
  refine ⟨hp, fun x hx => hnew x (hp.mem_iff.1 hx), u2, u1, u3, ?_, ?_⟩
  · intro j x hx
    obtain ⟨k1, k2, k3⟩ := u3.key_home j x hx
    rw [hhome] at k1 k2 k3
    refine ⟨?_, k1, k2, k3⟩
    rw [u3.occ_stor, hx]
    rfl
  · intro h i hi hh
    obtain ⟨x, hx, hxh⟩ := u3.hop_key h i hi hh
    rw [hhome] at hxh
    refine ⟨?_, x, hx, hxh⟩
    rw [u3.occ_stor, hx]
    rfl

/-- C37 witness: inserting 15 in the table with four-bit words that holds 0, 5, 10 and 3 in
five buckets fails after one displacement step, which moves the key 3 from bucket 3 to
bucket 4. -/
theorem C37_failed_insert_witness :
    ((table_of small_env [0, 5, 10, 3])._unique_insert small_env 15
      ((table_of small_env [0, 5, 10, 3]).bucket_impl small_env 15)).2 = Option.none ∧
    stor (table_of small_env [0, 5, 10, 3]).m_container 3 = some 3 ∧
    stor ((table_of small_env [0, 5, 10, 3])._unique_insert small_env 15
      ((table_of small_env [0, 5, 10, 3]).bucket_impl small_env 15)).1.m_container 4 = some 3 ∧
    (keys_of ((table_of small_env [0, 5, 10, 3])._unique_insert small_env 15
      ((table_of small_env [0, 5, 10, 3]).bucket_impl small_env 15)).1.m_container).Perm
      (keys_of (table_of small_env [0, 5, 10, 3]).m_container) :=
  ⟨by decide, by decide, by decide,
   (C37_failed_insert small_env small_env_lawful (table_of small_env [0, 5, 10, 3]) 15
    (reachable_inv small_env small_env_lawful _ (reachable_table_of small_env _)).cont
    (by decide) (by decide)).1⟩

/-- The assertions of the displacement loop hold on a container satisfying the invariants. -/
theorem displace_asserts_spec {T : Type} (e : hop_env T) (hl : e.lawful) (b : Nat) :
    ∀ (fuel : Nat) (c : List (hop_bucket T)) (alt : Nat),
      container_inv e c → alt < c.length → stor c alt = none → b < alt →
      displace_asserts e.nbits b fuel c alt = true := by
  have hH1 : 1 ≤ hop_bucket.n_eff_bits e.nbits := by
    have := hl.nbits_ge
    unfold hop_bucket.n_eff_bits; omega
  have hms : hop_bucket.max_shift e.nbits = hop_bucket.n_eff_bits e.nbits - 1 := rfl
  intro fuel
  induction fuel with
  | zero =>
    intro c alt _ _ _ _
    rw [displace_asserts.eq_def]
    simp only [ite_self]
  | succ f ih =>
    intro c alt hinv halt hs hb
    rw [displace_asserts.eq_def]
    simp only []
    by_cases hc : alt - b ≥ hop_bucket.n_eff_bits e.nbits
    · rw [if_pos hc]
      generalize hr : find_candidate c alt (alt - (alt - hop_bucket.max_shift e.nbits))
        (alt - hop_bucket.max_shift e.nbits) 2
        (mf_int_traits.msb (bucket_at c (alt - hop_bucket.max_shift e.nbits)).m_bitset) = r
      obtain ⟨c0, c1, c2, c3⟩ := candidate_spec e hl c alt hinv hs (by omega) r hr
      by_cases hfail : r.1 = alt
      · rw [if_pos hfail]
        exact decide_eq_true c0
      · rw [if_neg hfail]
        obtain ⟨d1, d2, _⟩ := c3 hfail
        have hstep : displacement_step e.nbits c alt =
            some (r.1, r.1 + (hop_bucket.max_shift e.nbits - (r.2 - 1).toNat)) := by
          unfold displacement_step
          simp only []
          rw [hr, if_neg hfail]
        obtain ⟨s1, s2, s3, s4, s5, s6, _, _, s9, s10, s11, _⟩ :=
          displacement_step_spec e hl c alt hinv halt hs (by omega) _ _ hstep
        generalize r.1 + (hop_bucket.max_shift e.nbits - (r.2 - 1).toNat) = n
          at s2 s3 s5 s9 s10 s11
        have ha : r.1 < c.length := hop_lt_length _ _ _ _ s5
        have hmh := move_key_hop e.nbits c r.1 n alt r.1
        have e1 := hmh (n - r.1) ha (by omega) s4 (by omega) (by omega)
        have e2 := hmh (alt - r.1) ha (by omega) s4 (by omega) s4
        simp only [true_and, true_or, or_true, if_true, s5, s6, Bool.not_true,
          Bool.not_false] at e1 e2
        simp only [bucket_at_test, s5, s6, e1, e2, Bool.not_false, Bool.and_true,
          Bool.and_eq_true, decide_eq_true_eq]
        refine ⟨⟨⟨⟨c0, by omega⟩, by omega⟩, by omega, by omega, by omega⟩, ?_⟩
        exact ih _ n s9 (by rw [s10]; omega) s11 (by omega)
    · rw [if_neg hc]

/-- The assertions of `_unique_insert` hold on a table satisfying the invariants. -/
theorem unique_insert_asserts_spec {T : Type} (e : hop_env T) (hl : e.lawful) (t : hop_table T)
    (k : T) (hinv : container_inv e t.m_container) :
    t.unique_insert_asserts e k (t.bucket_impl e k) = true := by
  have hH1 : 1 ≤ hop_bucket.n_eff_bits e.nbits := by
    have := hl.nbits_ge
    unfold hop_bucket.n_eff_bits; omega
  unfold hop_table.unique_insert_asserts
  simp only []
  by_cases h0 : t.m_container.length = 0
  · rw [if_pos h0]
  · rw [if_neg h0]
    have hb : t.bucket_impl e k < t.m_container.length := by
      unfold hop_table.bucket_impl
      exact Nat.mod_lt _ (by omega)
    simp only [decide_True, Bool.true_and]
    by_cases ho : (bucket_at t.m_container (t.bucket_impl e k)).test_occupied = true
    · simp only [ho, Bool.not_true, Bool.false_eq_true, if_false]
      obtain ⟨p1, p2, p3⟩ := linear_probe_spec t.m_container
        (t.m_container.length - (t.bucket_impl e k + 1)) (t.bucket_impl e k + 1) (by omega)
      generalize linear_probe t.m_container
        (t.m_container.length - (t.bucket_impl e k + 1)) (t.bucket_impl e k + 1) = alt
        at p1 p2 p3
      by_cases hend : alt = t.m_container.length
      · rw [if_pos hend]
      · rw [if_neg hend]
        have halt : alt < t.m_container.length := by omega
        have hso : stor t.m_container alt = none := by
          have h1 := hinv.occ_stor alt
          rw [p3 halt] at h1
          cases hs : stor t.m_container alt
          · rfl
          · rw [hs] at h1; cases h1
        rw [displace_asserts_spec e hl (t.bucket_impl e k) alt t.m_container alt hinv halt hso
          (by omega)]
        obtain ⟨d1, d2, d3, d4⟩ := displace_spec e hl (t.bucket_impl e k) alt t.m_container
          alt hinv halt hso (by omega) (Nat.le_refl _)
        generalize displace e.nbits (t.bucket_impl e k) alt t.m_container alt = r
          at d1 d2 d3 d4
        obtain ⟨c0, res⟩ := r
        cases res with
        | none => rfl
        | some j =>
          simp only [Bool.true_and]
          obtain ⟨j1, j2, j3, j4⟩ := d4 j rfl
          simp only [] at d1 j2
          have hocc : occ c0 j = false := by rw [d1.occ_stor, j2]; rfl
          have hhop : hop e.nbits c0 (t.bucket_impl e k) (j - t.bucket_impl e k) = false := by
            cases hh : hop e.nbits c0 (t.bucket_impl e k) (j - t.bucket_impl e k)
            · rfl
            · obtain ⟨y, hy, _⟩ := d1.hop_key _ _ j4 hh
              have : t.bucket_impl e k + (j - t.bucket_impl e k) = j := by omega
              rw [this, j2] at hy
              cases hy
          rw [bucket_at_occ, bucket_at_test, hocc, hhop]
          rfl
    · have ho2 : (bucket_at t.m_container (t.bucket_impl e k)).test_occupied = false := by
        cases hh : (bucket_at t.m_container (t.bucket_impl e k)).test_occupied
        · rfl
        · exact absurd hh ho
      simp only [ho2, Bool.not_false, if_true]
      have hhop : hop e.nbits t.m_container (t.bucket_impl e k) 0 = false := by
        cases hh : hop e.nbits t.m_container (t.bucket_impl e k) 0
        · rfl
        · obtain ⟨y, hy, _⟩ := hinv.hop_key _ _ (by omega) hh
          have h1 := hinv.occ_stor (t.bucket_impl e k)
          rw [Nat.add_zero] at hy
          rw [hy] at h1
          unfold occ at h1
          rw [ho2] at h1
          cases h1
      rw [bucket_at_test, hhop]
      rfl

/-- C40: on a table satisfying the invariants none of the assertions of `_unique_insert`,
called with `bucket_idx = hash(k) mod n_buckets`, fails.  In particular hop bit 0 of an
unoccupied home is clear, and in every displacement step, on the container `c1` reached so far
and with the free slot `j`, the most significant set bit of the first candidate is not at
position 1, and the source `s` of the candidate `a` satisfies `a ≤ s < j`, with the hop bit
of `s` set and the hop bit of `j` clear in the candidate. -/
theorem C40_asserts_hold {T : Type} (e : hop_env T) (hl : e.lawful) (t : hop_table T) (k : T)
    (hinv : container_inv e t.m_container) :
    t.unique_insert_asserts e k (t.bucket_impl e k) = true ∧
    (occ t.m_container (t.bucket_impl e k) = false →
      hop e.nbits t.m_container (t.bucket_impl e k) 0 = false) ∧
    (∀ (c1 : List (hop_bucket T)) (j : Nat), container_inv e c1 → j < c1.length →
      stor c1 j = none → hop_bucket.n_eff_bits e.nbits ≤ j →
      mf_int_traits.msb (bucket_at c1 (j - hop_bucket.max_shift e.nbits)).m_bitset ≠ 1 ∧
      ∀ a s, displacement_step e.nbits c1 j = some (a, s) →
        a ≤ s ∧ s < j ∧ hop e.nbits c1 a (s - a) = true ∧ hop e.nbits c1 a (j - a) = false) := by
  have hH1 : 1 ≤ hop_bucket.n_eff_bits e.nbits := by
    have := hl.nbits_ge
    unfold hop_bucket.n_eff_bits; omega
  refine ⟨unique_insert_asserts_spec e hl t k hinv, ?_, ?_⟩
  · intro ho
    cases hh : hop e.nbits t.m_container (t.bucket_impl e k) 0
    · rfl
    · obtain ⟨y, hy, _⟩ := hinv.hop_key _ _ (by omega) hh
      have h1 := hinv.occ_stor (t.bucket_impl e k)
      rw [Nat.add_zero] at hy
      rw [hy, ho] at h1
      cases h1
  · intro c1 j hc1 hj hs hH
    refine ⟨(candidate_spec e hl c1 j hc1 hs hH _ rfl).1, ?_⟩
    intro a s hstep
    obtain ⟨_, s2, s3, _, s5, s6, _⟩ := displacement_step_spec e hl c1 j hc1 hj hs hH a s hstep
    exact ⟨s2, s3, s5, s6⟩

/-- C40 witness: inserting 12 in the table with four-bit words that holds 1, ..., 6, which
takes two displacement steps. -/
theorem C40_asserts_hold_witness :
    (table_of small_env [1, 2, 3, 4, 5, 6]).unique_insert_asserts small_env 12
      ((table_of small_env [1, 2, 3, 4, 5, 6]).bucket_impl small_env 12) = true ∧
    ((table_of small_env [1, 2, 3, 4, 5, 6])._unique_insert small_env 12
      ((table_of small_env [1, 2, 3, 4, 5, 6]).bucket_impl small_env 12)).2 = some 3 :=
  ⟨(C40_asserts_hold small_env small_env_lawful (table_of small_env [1, 2, 3, 4, 5, 6]) 12
    (reachable_inv small_env small_env_lawful _ (reachable_table_of small_env _)).cont).1,
   by decide⟩

end displacement_claims

section erase_frame

/-- In a table satisfying the invariants `find` returns the position of every stored key. -/
theorem find_stored {T : Type} (e : hop_env T) (hl : e.lawful) (t : hop_table T)
    (hinv : container_inv e t.m_container) (j : Nat) (y : T)
    (hy : stor t.m_container j = some y) : t.find e y = j := by
  have hne := find_ne_end_of_stored e hl t y y hinv (stored_mem_keys _ j y hy) (hl.eq_refl y)
  obtain ⟨_, x1, h1, h2⟩ := find_found e t y hne
  exact equal_keys_same_index e hl t.m_container hinv _ j x1 y h1 hy h2

/-- The flags after `erase(it)`: the occupied flag of `it` and one hop bit of the home bucket
of the erased key are cleared, every other bucket is left as it was. -/
theorem erase_flags {T : Type} (e : hop_env T) (t : hop_table T) (it : Nat)
    (x : T) (hinv : container_inv e t.m_container) (hx : stor t.m_container it = some x) :
    (∀ j, occ (t.erase e it).m_container j = if j = it then false else occ t.m_container j) ∧
    (∀ h i, i < hop_bucket.n_eff_bits e.nbits →
      hop e.nbits (t.erase e it).m_container h i =
        if h = home e t.m_container x ∧ i = it - home e t.m_container x then false
        else hop e.nbits t.m_container h i) ∧
    (∀ j, j ≠ it → j ≠ home e t.m_container x →
      bucket_at (t.erase e it).m_container j = bucket_at t.m_container j) := by
  rw [erase_eq e t it x hx]
  simp only []
  obtain ⟨k1, k2, k3⟩ := hinv.key_home it x hx
  have hhx : t.bucket_impl e x = home e t.m_container x := rfl
  rw [hhx]
  have hit : it < t.m_container.length := stor_lt _ it x hx
  have hh : home e t.m_container x < t.m_container.length := by omega
  have hoff : it - home e t.m_container x < hop_bucket.n_eff_bits e.nbits := by omega
  have hocc : occ t.m_container it = true := by rw [hinv.occ_stor, hx]; rfl
  refine ⟨?_, ?_, ?_⟩
  · intro i
    rw [occ_update_at_pres _ _ i _ (hb_occ_toggle e.nbits _ _ hoff), occ_update_at]
    simp only [length_update_at, hit, and_true, hb_occ_toggle_occupied, bucket_at_occ]
    rw [occ_update_at_pres _ _ _ _ rfl, occ_update_at_pres _ _ _ _ rfl]
    by_cases h1 : i = it
    · simp [h1, hocc]
    · simp [h1]
  · intro h i hi
    rw [hop_update_toggle e.nbits _ _ _ h i (by simp [length_update_at, hh]) hoff hi,
      hop_update_at_pres e.nbits _ it h i _ (hb_test_toggle_occupied e.nbits _ _ hi),
      hop_update_at_pres e.nbits _ it h i _ rfl]
    by_cases h1 : h = home e t.m_container x ∧ i = it - home e t.m_container x
    · rw [if_pos h1, if_pos h1, h1.1, h1.2, k3]
      rfl
    · rw [if_neg h1, if_neg h1]
  · intro j h1 h2
    rw [bucket_at_update_at_gen, if_neg (fun h => h2 h.1), bucket_at_update_at_gen,
      if_neg (fun h => h1 h.1), bucket_at_update_at_gen, if_neg (fun h => h1 h.1)]

/-- C34: `erase(it)`, for an iterator that points to the key `x` of a table satisfying the
invariants, leaves the number of buckets, lowers the count by one, empties the storage of
bucket `it` and clears its occupied flag, clears the hop bit `it - home` of the home bucket of
`x`, and leaves every other flag, every other storage and every other bucket as it was; every
other stored key is found by `find` at the position it had before, in the table before and in
the table after the call. -/
theorem C34_erase_frame {T : Type} (e : hop_env T) (hl : e.lawful) (t : hop_table T)
    (it : Nat) (x : T) (hinv : container_inv e t.m_container)
    (hx : stor t.m_container it = some x) :
    (t.erase e it).n_buckets = t.n_buckets ∧
    (t.erase e it).size = t.size - 1 ∧
    (∀ j, stor (t.erase e it).m_container j =
      if j = it then none else stor t.m_container j) ∧
    (∀ j, occ (t.erase e it).m_container j = if j = it then false else occ t.m_container j) ∧
    (∀ h i, i < hop_bucket.n_eff_bits e.nbits →
      hop e.nbits (t.erase e it).m_container h i =
        if h = home e t.m_container x ∧ i = it - home e t.m_container x then false
        else hop e.nbits t.m_container h i) ∧
    (∀ j, j ≠ it → j ≠ home e t.m_container x →
      bucket_at (t.erase e it).m_container j = bucket_at t.m_container j) ∧
    (∀ j y, j ≠ it → stor t.m_container j = some y →
      t.find e y = j ∧ (t.erase e it).find e y = j) := by
  obtain ⟨s1, s2, s3, _, s5⟩ := erase_spec e hl t it x hinv hx
  obtain ⟨f1, f2, f3⟩ := erase_flags e t it x hinv hx
  refine ⟨s2, s1, s5, f1, f2, f3, ?_⟩
  intro j y hj hy
  refine ⟨find_stored e hl t hinv j y hy, ?_⟩
  apply find_stored e hl (t.erase e it) s3 j y
  rw [s5 j, if_neg hj]
  exact hy

/-- C34 witness: erasing the key 3 of the table with four-bit words that holds 1, ..., 6;
the key 4 is found at bucket 4 afterwards. -/
theorem C34_erase_frame_witness :
    stor (table_of small_env [1, 2, 3, 4, 5, 6]).m_container 3 = some 3 ∧
    ((table_of small_env [1, 2, 3, 4, 5, 6]).erase small_env 3).find small_env 4 = 4 ∧
    ∀ j y, j ≠ 3 → stor (table_of small_env [1, 2, 3, 4, 5, 6]).m_container j = some y →
      (table_of small_env [1, 2, 3, 4, 5, 6]).find small_env y = j ∧
      ((table_of small_env [1, 2, 3, 4, 5, 6]).erase small_env 3).find small_env y = j :=
  ⟨by decide, by decide,
   (C34_erase_frame small_env small_env_lawful (table_of small_env [1, 2, 3, 4, 5, 6]) 3 3
    (reachable_inv small_env small_env_lawful _ (reachable_table_of small_env _)).cont
    (by decide)).2.2.2.2.2.2⟩

end erase_frame

end piranha
